import Mathlib

/-!
# Quantum-Circuits: matrices, gate components and the circuit grid

A shallow embedding of `src/src/Matrix.cpp`, `src/src/QuantumComponent.cpp`,
`src/src/QuantumCircuit.cpp` and `src/src/DerivedGates.cpp`, and of the checks
of `src/src/main.cpp`.

Conventions of the embedding

* `std::complex<double>` is an arbitrary commutative ring `R` with a star
  operation (`std::conj`); arithmetic is exact, rounding is not modelled.
* Where the code reads the real and the imaginary part, or divides, the scalars
  are `Cplx K`, the pairs `(re, im)` over `K`, and `double` is `K`:
  a commutative ring with a division for the gates `H` and `T`, a linearly
  ordered field for `operator==` (there is no NaN). `sqrt(2)` is the constant
  `Sqrt2.sqrt2` of `K`; a theorem that needs `sqrt(2) * sqrt(2) = 2` states it
  as a hypothesis, and is then a statement about exact scalars, not about the
  rounded `double`s of a run.
* `operator==` calls the unqualified `abs`, which in `Matrix.cpp` is
  `int abs(int)`: the difference of two `double`s is converted to `int` before
  its absolute value is taken (`abs_exceeds_tol`).
* A `std::shared_ptr` is an address together with the object it points to;
  `std::make_shared` takes the next address of a `Heap`.
* `size_t` and `int` values are natural numbers and integers. The matrices of
  a register of `n` qubits have `2 ^ n` rows, so the sizes of the circuits and
  of the matrices of a run are far below the word size, and the arithmetic on
  them is exact. Two computations take operands that no matrix bounds; they are
  embedded on machine words: the sum `get_index() + get_gate_size()` of
  `MultiGate::can_gate_fit` is taken modulo `2 ^ 64` (`size_modulus`), and
  `1<<gate_size_in` in the constructor of `MultiGate` is the shift of a 32-bit
  `int` (`shift_one`).
* A C++ exception is an `Except.error`; the constructors of `Error` name the
  kinds of failure of the code.
* `std::vector` is `List`; the unchecked `data[i][j]` is `Matrix.raw`, the
  checked `operator()` is `Matrix.get` and `Matrix.set`. On a matrix that
  satisfies `Matrix.wf` the loops of the code read `data[i][j]` inside the
  grid only; `Matrix.raw` gives `0` elsewhere.
* A `for` loop is `for_range lo hi body init`, a monadic left fold over
  `lo, lo + 1, ..., hi - 1`.
* A member function that changes the circuit is a function from the state
  before the call to the state after it or an error. To say what a call that
  throws leaves behind, `add_component`, `replace_component` and
  `set_input_register` are also given as `Call`s, statement by statement; the
  two forms return the same results.
* `Reachable` holds of the states of a circuit that a client obtains from the
  constructor by calls that return.
-/

set_option linter.unusedSectionVars false

namespace QC

/-- Kinds of failure raised by the code (`std::invalid_argument`,
`std::out_of_range`), named after what the message reports. `undefined` marks
an operation that has no defined result: an access outside a `std::vector`, the
shift of an `int` by its width or more, the conversion to `int` of a value
outside its range. -/
inductive Error where
  | DimensionMismatch
  | IndexOutOfRange
  | InvalidGateConfiguration
  | GateDoesNotFit
  | DuplicateGateInsertion
  | InvalidGateType
  | InputRegisterMismatch
  | NoMultigateAtStep
  | undefined
deriving DecidableEq, Repr

/-- The class `Matrix`: `rows`, `cols` and the grid `data`. -/
structure Matrix (R : Type) where
  rows : Nat
  cols : Nat
  data : List (List R)
deriving DecidableEq, Repr

/-- The loop `for (i = lo; i < hi; i++) state = body(i, state)`. -/
def for_range {σ : Type} (lo hi : Nat) (body : Nat → σ → Except Error σ) (init : σ) :
    Except Error σ :=
  (List.range' lo (hi - lo)).foldlM (fun s i => body i s) init

section MatrixDefs

variable {R : Type} [CommRing R] [StarRing R]

/-- The data-model invariant: `data` has `rows` rows of `cols` entries. -/
def Matrix.wf (M : Matrix R) : Prop :=
  M.data.length = M.rows ∧ ∀ row ∈ M.data, row.length = M.cols

/-- The constructor `Matrix(size_t r, size_t c)`: zero-filled. -/
def Matrix.init (r c : Nat) : Matrix R :=
  { rows := r, cols := c, data := List.replicate r (List.replicate c 0) }

/-- The constructor `Matrix(data_in)`: `rows = data.size()`, `cols = data[0].size()`.
For the empty grid `data[0]` is outside the vector and the constructor has no
defined result; the value given here to the empty grid, the `0 x 0` matrix,
stands for no result of the code. -/
def Matrix.of_grid (data_in : List (List R)) : Matrix R :=
  { rows := data_in.length, cols := (data_in.headD []).length, data := data_in }

/-- The unchecked read `data[r][c]`. -/
def Matrix.raw (M : Matrix R) (r c : Nat) : R :=
  (M.data.getD r []).getD c 0

/-- The checked read `operator()(r, c) const`. -/
def Matrix.get (M : Matrix R) (r c : Nat) : Except Error R :=
  if r ≥ M.rows ∨ c ≥ M.cols then .error .IndexOutOfRange
  else .ok (M.raw r c)

/-- The checked write `M(r, c) = v` through `operator()(r, c)`. -/
def Matrix.set (M : Matrix R) (r c : Nat) (v : R) : Except Error (Matrix R) :=
  if r ≥ M.rows ∨ c ≥ M.cols then .error .IndexOutOfRange
  else .ok { M with data := M.data.set r ((M.data.getD r []).set c v) }

/-- `Matrix::operator+`. -/
def Matrix.add (A m : Matrix R) : Except Error (Matrix R) :=
  if A.rows ≠ m.rows ∨ A.cols ≠ m.cols then .error .DimensionMismatch
  else
    for_range 0 A.rows (fun i result =>
      for_range 0 A.cols (fun j result => do
        let b ← m.get i j
        result.set i j (A.raw i j + b)) result) (Matrix.init A.rows A.cols)

/-- `Matrix::operator*`: the triple loop `result(i, j) += data[i][k] * m(k, j)`. -/
def Matrix.mul (A m : Matrix R) : Except Error (Matrix R) :=
  if A.cols ≠ m.rows then .error .DimensionMismatch
  else
    for_range 0 A.rows (fun i result =>
      for_range 0 m.cols (fun j result =>
        for_range 0 A.cols (fun k result => do
          let b ← m.get k j
          let cur ← result.get i j
          result.set i j (cur + A.raw i k * b)) result) result) (Matrix.init A.rows m.cols)

/-- `Matrix::tensor_product`: `result(u * rows + i, v * cols + j) = data[i][j] * m(u, v)`. -/
def Matrix.tensor_product (A m : Matrix R) : Except Error (Matrix R) :=
  for_range 0 A.rows (fun i result =>
    for_range 0 A.cols (fun j result =>
      for_range 0 m.rows (fun u result =>
        for_range 0 m.cols (fun v result => do
          let b ← m.get u v
          result.set (u * A.rows + i) (v * A.cols + j) (A.raw i j * b)) result) result) result)
    (Matrix.init (A.rows * m.rows) (A.cols * m.cols))

/-- `Matrix::transpose`. -/
def Matrix.transpose (A : Matrix R) : Except Error (Matrix R) :=
  for_range 0 A.rows (fun i result =>
    for_range 0 A.cols (fun j result => result.set j i (A.raw i j)) result)
    (Matrix.init A.cols A.rows)

/-- `Matrix::conjugate`. -/
def Matrix.conjugate (A : Matrix R) : Except Error (Matrix R) :=
  for_range 0 A.rows (fun i result =>
    for_range 0 A.cols (fun j result => result.set i j (star (A.raw i j))) result)
    (Matrix.init A.rows A.cols)

/-- `Matrix::adjoint`: `transpose().conjugate()`. -/
def Matrix.adjoint (A : Matrix R) : Except Error (Matrix R) := do
  let t ← A.transpose
  t.conjugate

/-- `identity_matrix(n)`. -/
def identity_matrix (n : Nat) : Except Error (Matrix R) :=
  for_range 0 n (fun i result => result.set i i 1) (Matrix.init n n)

/-- `perform_tensor_product(matrices)`: seeded by `matrices[0]`, then
`result = result.tensor_product(matrices[i])` for `i = 1 .. size - 1`. -/
def perform_tensor_product (matrices : List (Matrix R)) : Except Error (Matrix R) :=
  match matrices[0]? with
  | none => .error .undefined
  | some first =>
    for_range 1 matrices.length (fun i result =>
      match matrices[i]? with
      | none => .error .undefined
      | some m => result.tensor_product m) first

/-! ### Closed forms used to state what the loops compute -/

/-- The grid after the in-range write of `v` at `(r, c)`. -/
def Matrix.put (M : Matrix R) (r c : Nat) (v : R) : Matrix R :=
  { M with data := M.data.set r ((M.data.getD r []).set c v) }

/-- The `r x c` matrix whose entry `(i, j)` is `f i j`. -/
def Matrix.tabulate (r c : Nat) (f : Nat → Nat → R) : Matrix R :=
  { rows := r, cols := c,
    data := (List.range r).map fun i => (List.range c).map fun j => f i j }

/-- Closed form of `tensor_product`: entry `(r, c)` is
`A(r mod rows_A, c mod cols_A) * B(r div rows_A, c div cols_A)`. -/
def kron (A B : Matrix R) : Matrix R :=
  Matrix.tabulate (A.rows * B.rows) (A.cols * B.cols)
    (fun r c => A.raw (r % A.rows) (c % A.cols) * B.raw (r / A.rows) (c / A.cols))

/-- Closed form of `operator+`. -/
def madd (A B : Matrix R) : Matrix R :=
  Matrix.tabulate A.rows A.cols (fun i j => A.raw i j + B.raw i j)

/-- Closed form of `operator*`: entry `(i, j)` is the sum of `A(i,k) * B(k,j)`. -/
def mmul (A B : Matrix R) : Matrix R :=
  Matrix.tabulate A.rows B.cols
    (fun i j => ∑ k in Finset.range A.cols, A.raw i k * B.raw k j)

/-- Closed form of `adjoint`: entry `(j, i)` is the conjugate of `A(i, j)`. -/
def adj (A : Matrix R) : Matrix R :=
  Matrix.tabulate A.cols A.rows (fun r c => star (A.raw c r))

/-- Closed form of `identity_matrix(n)`. -/
def idm (n : Nat) : Matrix R :=
  Matrix.tabulate n n (fun i j => if i = j then 1 else 0)

/-- Closed form of `perform_tensor_product`: the left fold of `kron` seeded by
the first matrix (the empty list has no value in the code). -/
def tfold : List (Matrix R) → Matrix R
  | [] => Matrix.init 0 0
  | first :: rest => rest.foldl kron first

/-- The matrix `X` preceded by the fold of the slots `pre`, when there are any. -/
def ktimes (pre : List (Matrix R)) (X : Matrix R) : Matrix R :=
  match pre with
  | [] => X
  | _ :: _ => kron (tfold pre) X

/-- Two matrices have the same shape. -/
def same_shape (A B : Matrix R) : Prop := A.rows = B.rows ∧ A.cols = B.cols

/-- Every entry of the matrix is zero. -/
def is_zero (A : Matrix R) : Prop := ∀ i j, i < A.rows → j < A.cols → A.raw i j = 0

/-- The `2 x 2` matrix with the rows `(a, b)` and `(c, d)`. -/
def mat2 (a b c d : R) : Matrix R := Matrix.of_grid [[a, b], [c, d]]

/-- The `2 x 1` column `(a, b)`. -/
def vec2 (a b : R) : Matrix R := Matrix.of_grid [[a], [b]]

/-- The matrix of a circuit of `n` qubits whose steps hold, first gate first,
gates with the full-register matrices `gs`: each gate multiplies on the left. -/
def steps_product (n : Nat) (gs : List (Matrix R)) : Matrix R :=
  gs.foldl (fun M G => mmul G M) (idm (2 ^ n))

/-- `Matrix::operator-`. -/
def Matrix.sub (A m : Matrix R) : Except Error (Matrix R) :=
  if A.rows ≠ m.rows ∨ A.cols ≠ m.cols then .error .DimensionMismatch
  else
    for_range 0 A.rows (fun i result =>
      for_range 0 A.cols (fun j result => do
        let b ← m.get i j
        result.set i j (A.raw i j - b)) result) (Matrix.init A.rows A.cols)

/-- Closed form of `operator-`. -/
def msub (A B : Matrix R) : Matrix R :=
  Matrix.tabulate A.rows A.cols (fun i j => A.raw i j - B.raw i j)

/-- The slots `us` of a register of `n` qubits in which every slot outside
`done` is replaced by the `2 x 2` identity. -/
def masked (n : Nat) (done : List Nat) (us : List (Matrix R)) : List (Matrix R) :=
  (List.range n).map (fun j => if j ∈ done then us.getD j (idm 2) else idm 2)

end MatrixDefs

/-! ## Complex scalars (`std::complex<double>`) -/

/-- The type `std::complex<double>`: a real and an imaginary part. The type
`K` of the parts stands for `double`, with exact arithmetic. -/
structure Cplx (K : Type) where
  re : K
  im : K
deriving DecidableEq, Repr

section CplxDefs
variable {K : Type} [CommRing K]

instance : Zero (Cplx K) := ⟨⟨0, 0⟩⟩
instance : One (Cplx K) := ⟨⟨1, 0⟩⟩
instance : Add (Cplx K) := ⟨fun z w => ⟨z.re + w.re, z.im + w.im⟩⟩
instance : Neg (Cplx K) := ⟨fun z => ⟨-z.re, -z.im⟩⟩
instance : Sub (Cplx K) := ⟨fun z w => ⟨z.re - w.re, z.im - w.im⟩⟩
instance : Mul (Cplx K) := ⟨fun z w => ⟨z.re * w.re - z.im * w.im, z.re * w.im + z.im * w.re⟩⟩
instance : NatCast (Cplx K) := ⟨fun n => ⟨n, 0⟩⟩
instance : IntCast (Cplx K) := ⟨fun n => ⟨n, 0⟩⟩
/-- The conjugate `std::conj`. -/
instance : Star (Cplx K) := ⟨fun z => ⟨z.re, -z.im⟩⟩

theorem Cplx.parts (z w : Cplx K) : z = w ↔ z.re = w.re ∧ z.im = w.im := by
  cases z; cases w; simp

theorem Cplx.add_parts (z w : Cplx K) : z + w = ⟨z.re + w.re, z.im + w.im⟩ := rfl
theorem Cplx.mul_parts (z w : Cplx K) :
    z * w = ⟨z.re * w.re - z.im * w.im, z.re * w.im + z.im * w.re⟩ := rfl
theorem Cplx.neg_parts (z : Cplx K) : -z = ⟨-z.re, -z.im⟩ := rfl
theorem Cplx.sub_parts (z w : Cplx K) : z - w = ⟨z.re - w.re, z.im - w.im⟩ := rfl
theorem Cplx.zero_parts : (0 : Cplx K) = ⟨0, 0⟩ := rfl
theorem Cplx.one_parts : (1 : Cplx K) = ⟨1, 0⟩ := rfl
theorem Cplx.star_parts (z : Cplx K) : star z = ⟨z.re, -z.im⟩ := rfl
theorem Cplx.natCast_parts (n : Nat) : (n : Cplx K) = ⟨n, 0⟩ := rfl
theorem Cplx.intCast_parts (n : Int) : (n : Cplx K) = ⟨n, 0⟩ := rfl

theorem Cplx.mul_assoc_parts (a b c : Cplx K) : a * b * c = a * (b * c) := by
  simp only [Cplx.mul_parts, Cplx.mk.injEq]; constructor <;> ring
theorem Cplx.left_distrib_parts (a b c : Cplx K) : a * (b + c) = a * b + a * c := by
  simp only [Cplx.mul_parts, Cplx.add_parts, Cplx.mk.injEq]; constructor <;> ring
theorem Cplx.mul_comm_parts (a b : Cplx K) : a * b = b * a := by
  simp only [Cplx.mul_parts, Cplx.mk.injEq]; constructor <;> ring

instance : CommRing (Cplx K) where
  add_assoc a b c := by simp only [Cplx.add_parts, add_assoc]
  zero_add a := by simp only [Cplx.add_parts, Cplx.zero_parts, zero_add]
  add_zero a := by simp only [Cplx.add_parts, Cplx.zero_parts, add_zero]
  add_comm a b := by simp only [Cplx.add_parts, add_comm]
  nsmul := nsmulRec
  zsmul := zsmulRec
  neg_add_cancel a := by simp only [Cplx.add_parts, Cplx.neg_parts, Cplx.zero_parts, neg_add_cancel]
  sub_eq_add_neg a b := by simp only [Cplx.add_parts, Cplx.neg_parts, Cplx.sub_parts, sub_eq_add_neg]
  mul_assoc := Cplx.mul_assoc_parts
  one_mul a := by simp only [Cplx.mul_parts, Cplx.one_parts, one_mul, zero_mul, sub_zero, add_zero]
  mul_one a := by simp only [Cplx.mul_parts, Cplx.one_parts, mul_one, mul_zero, sub_zero, zero_add]
  left_distrib := Cplx.left_distrib_parts
  right_distrib a b c := by
    rw [Cplx.mul_comm_parts, Cplx.left_distrib_parts, Cplx.mul_comm_parts c a, Cplx.mul_comm_parts c b]
  zero_mul a := by simp only [Cplx.mul_parts, Cplx.zero_parts, zero_mul, sub_zero, add_zero]
  mul_zero a := by simp only [Cplx.mul_parts, Cplx.zero_parts, mul_zero, sub_zero, add_zero]
  mul_comm := Cplx.mul_comm_parts
  natCast_zero := by simp only [Cplx.natCast_parts, Cplx.zero_parts, Nat.cast_zero]
  natCast_succ n := by
    simp only [Cplx.natCast_parts, Cplx.add_parts, Cplx.one_parts, Nat.cast_succ, add_zero]
  intCast_ofNat n := by simp only [Cplx.natCast_parts, Cplx.intCast_parts, Int.cast_natCast]
  intCast_negSucc n := by
    simp only [Cplx.natCast_parts, Cplx.intCast_parts, Cplx.neg_parts, Int.cast_negSucc, neg_zero]

instance : StarRing (Cplx K) where
  star_involutive a := by simp only [Cplx.star_parts, neg_neg]
  star_mul a b := by
    simp only [Cplx.star_parts, Cplx.mul_parts, Cplx.mk.injEq]; constructor <;> ring
  star_add a b := by simp only [Cplx.star_parts, Cplx.add_parts, neg_add]

end CplxDefs


/-- The value of the expression `sqrt(2)` in the arithmetic of `double`. -/
class Sqrt2 (K : Type) where
  sqrt2 : K

/-! ## Gate components (`QuantumComponent.cpp`) -/

/-- The unchecked read `v[i]` of a `std::vector`; outside the vector the
behaviour is undefined, reported as `Error.undefined`. -/
def read_at {α : Type} (v : List α) (i : Nat) : Except Error α :=
  match v[i]? with
  | some x => .ok x
  | none => .error .undefined

/-- The unchecked write `v[i] = x` of a `std::vector`. -/
def assign_at {α : Type} (v : List α) (i : Nat) (x : α) : Except Error (List α) :=
  if i < v.length then .ok (v.set i x) else .error .undefined

/-- The class `SingleGate` (and its derived gates `IGate`, `HGate`, ...): the
fields of `QuantumComponent`, in the order of the constructor arguments. -/
structure SingleGate (R : Type) where
  qubit_index : Nat
  symbol : String
  matrix : Matrix R
deriving DecidableEq, Repr

/-- The class `MultiGate`: a `QuantumComponent` with a `gate_size`. -/
structure MultiGate (R : Type) where
  qubit_index : Nat
  symbol : String
  matrix : Matrix R
  gate_size : Nat
deriving DecidableEq, Repr

/-- The class `ControlledGate`, derived from `MultiGate`. -/
structure ControlledGate (R : Type) extends MultiGate R where
  control_index : Nat
  target_index : Nat
deriving DecidableEq, Repr

/-- An object of the abstract class `QuantumComponent` with its dynamic class. -/
inductive QuantumComponent (R : Type) where
  | single (g : SingleGate R)
  | multi (g : MultiGate R)
  | controlled (g : ControlledGate R)
deriving DecidableEq, Repr

section GateDefs

variable {R : Type} [CommRing R] [StarRing R]

/-- `IGate::IGate(n)`: `SingleGate(n, "I", identity_matrix(2))`. -/
def IGate (n : Nat) : Except Error (SingleGate R) := do
  let m ← identity_matrix 2
  pure { qubit_index := n, symbol := "I", matrix := m }

/-- `XGate::XGate(n)`: after the default `SingleGate()` of the base, a zero
`2 x 2` matrix with ones at `(0,1)` and `(1,0)`. -/
def XGate (n : Nat) : Except Error (SingleGate R) := do
  let _base ← (identity_matrix 2 : Except Error (Matrix R))
  let matrix : Matrix R := Matrix.init 2 2
  let matrix ← matrix.set 0 1 1
  let matrix ← matrix.set 1 0 1
  pure { qubit_index := n, symbol := "X", matrix := matrix }

/-- `SingleGate::can_gate_fit`. -/
def SingleGate.can_gate_fit (g : SingleGate R) (register_size : Nat) : Bool :=
  decide (g.qubit_index < register_size)

/-- `SingleGate::get_matrix(register_size)`. -/
def SingleGate.get_matrix_reg (g : SingleGate R) (register_size : Nat) :
    Except Error (Matrix R) := do
  if !g.can_gate_fit register_size then throw Error.GateDoesNotFit
  let id2 ← identity_matrix 2
  let matrices := List.replicate register_size id2
  let matrices ← assign_at matrices g.qubit_index g.matrix
  perform_tensor_product matrices

/-- The number of values of a `size_t`, which has 64 bits. -/
def size_modulus : Nat := 2 ^ 64

/-- The value of `1<<k` in the constructor of `MultiGate`, as it is compared
with the `size_t` `get_rows()`. The literal `1` is an `int` of 32 bits, and so
is the result of the shift: `2^k` for `k <= 30`; `INT_MIN` for `k = 31`, which
the conversion to `size_t` for the comparison turns into `2^64 - 2^31`; for
`k >= 32` the shift has no defined value. -/
def shift_one (k : Nat) : Except Error Nat :=
  if k ≤ 30 then .ok (2 ^ k)
  else if k = 31 then .ok (size_modulus - 2 ^ 31)
  else .error .undefined

/-- The constructor `MultiGate::MultiGate(n, symbol, matrix, gate_size)`: it
throws when `1<<gate_size_in != rows || 1<<gate_size_in != cols`, with the
shift of `shift_one`. A matrix that is `2^k` square for a gate size `k >= 31`
is in no memory; the constructor is taken to accept it, as the test on exact
integers does: the sizes of matrices are exact everywhere in this embedding. -/
def MultiGate.new (n : Nat) (symbol_in : String) (matrix_in : Matrix R) (gate_size_in : Nat) :
    Except Error (MultiGate R) :=
  if 31 ≤ gate_size_in ∧ matrix_in.rows = 2 ^ gate_size_in
      ∧ matrix_in.cols = 2 ^ gate_size_in then
    .ok { qubit_index := n, symbol := symbol_in, matrix := matrix_in, gate_size := gate_size_in }
  else do
    let shifted ← shift_one gate_size_in
    if shifted ≠ matrix_in.rows ∨ shifted ≠ matrix_in.cols then
      throw Error.InvalidGateConfiguration
    pure { qubit_index := n, symbol := symbol_in, matrix := matrix_in, gate_size := gate_size_in }

/-- `MultiGate::can_gate_fit`: `get_index() + get_gate_size() <= register_size`.
The sum is a sum of two `size_t` and wraps around at `2^64`; the second test of
the code, `get_index() >= 0`, holds of every `size_t`. -/
def MultiGate.can_gate_fit (g : MultiGate R) (register_size : Nat) : Bool :=
  decide ((g.qubit_index + g.gate_size) % size_modulus ≤ register_size)

/-- `MultiGate::get_matrix(register_size)`. When the sum of `can_gate_fit` has
not wrapped around, `gate_size <= register_size` and the number of slots
`register_size - gate_size + 1` is the exact difference. When it has wrapped
around, the assignment `matrices[get_index()]` is outside the vector, or, for
`gate_size > register_size + 1`, the code asks for a vector of more than
`2^63` slots, which no allocator provides; the embedding, which has no failure
of allocation, gives `undefined` for all of these
(`MultiGate.get_matrix_reg_wrapped`). -/
def MultiGate.get_matrix_reg (g : MultiGate R) (register_size : Nat) :
    Except Error (Matrix R) := do
  if !g.can_gate_fit register_size then throw Error.GateDoesNotFit
  let id2 ← identity_matrix 2
  let matrices := List.replicate (register_size - g.gate_size + 1) id2
  let matrices ← assign_at matrices g.qubit_index g.matrix
  perform_tensor_product matrices

/-- `ControlledGate::get_controlled_matrix(gate_matrix)`, with the members it
reads (`qubit_index`, `gate_size`, `control_index`, `target_index`) as arguments. -/
def get_controlled_matrix (qubit_index gate_size control_index target_index : Nat)
    (gate_matrix : Matrix R) : Except Error (Matrix R) := do
  let zero ← (Matrix.init 2 2 : Matrix R).set 0 0 1
  let one ← (Matrix.init 2 2 : Matrix R).set 1 1 1
  let _I ← (identity_matrix 2 : Except Error (Matrix R))
  let id0 ← identity_matrix 2
  let matrices_0 := List.replicate gate_size id0
  let id1 ← identity_matrix 2
  let matrices_1 := List.replicate gate_size id1
  let relative_control := control_index - qubit_index
  let relative_target := target_index - qubit_index
  let matrices_0 ← assign_at matrices_0 relative_control zero
  let matrices_1 ← assign_at matrices_1 relative_control one
  let matrices_1 ← assign_at matrices_1 relative_target gate_matrix
  let t0 ← perform_tensor_product matrices_0
  let t1 ← perform_tensor_product matrices_1
  t0.add t1

/-- The constructor `ControlledGate::ControlledGate(gate, control_index_in)`.
The base object is first built by the default `MultiGate()`. The code takes
`abs` of the unsigned difference `control_index - target_index`, which wraps
when the control is the smaller index and is read back as a signed value; its
result is the distance of the two indices, written here on integers. -/
def ControlledGate.new (gate : SingleGate R) (control_index_in : Nat) :
    Except Error (ControlledGate R) := do
  let id2 ← (identity_matrix 2 : Except Error (Matrix R))
  let _base ← MultiGate.new 0 "I" id2 1
  if control_index_in = gate.qubit_index then throw Error.InvalidGateConfiguration
  let control_index := control_index_in
  let target_index := gate.qubit_index
  let qubit_index := min control_index target_index
  let symbol := gate.symbol
  let gate_size := Int.natAbs ((control_index : Int) - (target_index : Int)) + 1
  let matrix ← get_controlled_matrix qubit_index gate_size control_index target_index gate.matrix
  pure { qubit_index := qubit_index, symbol := symbol, matrix := matrix, gate_size := gate_size,
         control_index := control_index, target_index := target_index }

/-- `QuantumComponent::get_symbol`. -/
def QuantumComponent.get_symbol : QuantumComponent R → String
  | .single g => g.symbol
  | .multi g => g.symbol
  | .controlled g => g.symbol

/-- `QuantumComponent::get_index`. -/
def QuantumComponent.get_index : QuantumComponent R → Nat
  | .single g => g.qubit_index
  | .multi g => g.qubit_index
  | .controlled g => g.qubit_index

/-- The virtual `get_matrix()`: the local matrix. -/
def QuantumComponent.get_matrix : QuantumComponent R → Matrix R
  | .single g => g.matrix
  | .multi g => g.matrix
  | .controlled g => g.matrix

/-- The virtual `get_gate_type()`; `ControlledGate` inherits `MultiGate`'s. -/
def QuantumComponent.get_gate_type : QuantumComponent R → String
  | .single _ => "SingleGate"
  | .multi _ => "MultiGate"
  | .controlled _ => "MultiGate"

/-- The virtual `can_gate_fit(register_size)`. -/
def QuantumComponent.can_gate_fit : QuantumComponent R → Nat → Bool
  | .single g, n => g.can_gate_fit n
  | .multi g, n => g.can_gate_fit n
  | .controlled g, n => g.toMultiGate.can_gate_fit n

/-- The virtual `get_matrix(register_size)`; `ControlledGate` inherits `MultiGate`'s. -/
def QuantumComponent.get_matrix_reg : QuantumComponent R → Nat → Except Error (Matrix R)
  | .single g, n => g.get_matrix_reg n
  | .multi g, n => g.get_matrix_reg n
  | .controlled g, n => g.toMultiGate.get_matrix_reg n

/-- The projector `|0><0|` built by `get_controlled_matrix`. -/
def proj0 : Matrix R := (Matrix.init 2 2).put 0 0 1

/-- The projector `|1><1|` built by `get_controlled_matrix`. -/
def proj1 : Matrix R := (Matrix.init 2 2).put 1 1 1

/-- The slot list `matrices_0` of `get_controlled_matrix`: `|0><0|` at the
control, the identity elsewhere. -/
def slots0 (k rc : Nat) : List (Matrix R) := (List.replicate k (idm 2)).set rc proj0

/-- The slot list `matrices_1` of `get_controlled_matrix`: `|1><1|` at the
control, `U` at the target, the identity elsewhere. -/
def slots1 (k rc rt : Nat) (U : Matrix R) : List (Matrix R) :=
  ((List.replicate k (idm 2)).set rc proj1).set rt U

/-- The full-register expansion of a controlled gate, the computation of the
earlier `ControlledGate::get_matrix(register_size)`:
`perform_tensor_product(P0) + perform_tensor_product(P1)`, where `P0` is
`register_size` slots with `|0><0|` at the control and the `2 x 2` identity
elsewhere, and `P1` is `register_size` slots with `|1><1|` at the control, `U` at
the target and the `2 x 2` identity elsewhere. -/
def full_register_expansion (register_size control_index target_index : Nat) (U : Matrix R) :
    Except Error (Matrix R) := do
  let zero ← (Matrix.init 2 2 : Matrix R).set 0 0 1
  let one ← (Matrix.init 2 2 : Matrix R).set 1 1 1
  let I ← identity_matrix 2
  let P0 ← assign_at (List.replicate register_size I) control_index zero
  let P1 ← assign_at (List.replicate register_size I) control_index one
  let P1 ← assign_at P1 target_index U
  let first ← perform_tensor_product P0
  let second ← perform_tensor_product P1
  first.add second

/-- The basis ket `(1, 0)` built by `calculate_matrix_for_register`. -/
def ket0 : Matrix R := (Matrix.init 2 1).put 0 0 1

/-- The basis ket `(0, 1)` built by `calculate_matrix_for_register`. -/
def ket1 : Matrix R := (Matrix.init 2 1).put 1 0 1

/-- The ket selected by a register value: `qubit_one` for `1`, `qubit_zero` otherwise. -/
def ketf (b : Int) : Matrix R := if b = 1 then ket1 else ket0

/-- The view of a component as a `MultiGate` (`ControlledGate` is derived from it). -/
def QuantumComponent.as_multi : QuantumComponent R → Option (MultiGate R)
  | .single _ => none
  | .multi g => some g
  | .controlled g => some g.toMultiGate

/-- The number of lanes that a component covers: `1` for a `SingleGate`,
`gate_size` for a `MultiGate` or a `ControlledGate`. -/
def QuantumComponent.footprint : QuantumComponent R → Nat
  | .single _ => 1
  | .multi g => g.gate_size
  | .controlled g => g.gate_size

/-- Closed form of `get_matrix(register_size)` of a component that fits. -/
def QuantumComponent.embedded (o : QuantumComponent R) (n : Nat) : Matrix R :=
  tfold ((List.replicate (n - o.footprint + 1) (idm 2)).set o.get_index o.get_matrix)

end GateDefs

/-! ### Gates with irrational entries -/

section ScalarGateDefs

variable {K : Type} [CommRing K] [Div K] [Sqrt2 K]

/-- `HGate::HGate(n)`: after the default `SingleGate()` of the base, the matrix
with `1/sqrt(2)` at `(0,0)`, `(0,1)`, `(1,0)` and `-1/sqrt(2)` at `(1,1)`. -/
def HGate (n : Nat) : Except Error (SingleGate (Cplx K)) := do
  let _base ← (identity_matrix 2 : Except Error (Matrix (Cplx K)))
  let matrix : Matrix (Cplx K) := Matrix.init 2 2
  let matrix ← matrix.set 0 0 ⟨1 / Sqrt2.sqrt2, 0⟩
  let matrix ← matrix.set 0 1 ⟨1 / Sqrt2.sqrt2, 0⟩
  let matrix ← matrix.set 1 0 ⟨1 / Sqrt2.sqrt2, 0⟩
  let matrix ← matrix.set 1 1 ⟨-1 / Sqrt2.sqrt2, 0⟩
  pure { qubit_index := n, symbol := "H", matrix := matrix }

/-- `TGate::TGate(n)`: `1` at `(0,0)` and `(1/sqrt(2), 1/sqrt(2))` at `(1,1)`. -/
def TGate (n : Nat) : Except Error (SingleGate (Cplx K)) := do
  let _base ← (identity_matrix 2 : Except Error (Matrix (Cplx K)))
  let matrix : Matrix (Cplx K) := Matrix.init 2 2
  let matrix ← matrix.set 0 0 ⟨1, 0⟩
  let matrix ← matrix.set 1 1 ⟨1 / Sqrt2.sqrt2, 1 / Sqrt2.sqrt2⟩
  pure { qubit_index := n, symbol := "T", matrix := matrix }

end ScalarGateDefs

/-! ## The circuit grid (`QuantumCircuit.cpp`) -/

/-- A `std::shared_ptr<QuantumComponent>`: the address of the object and the
object itself (components are never mutated after construction). Two
pointers are compared by address. -/
structure shared_ptr (R : Type) where
  addr : Nat
  obj : QuantumComponent R
deriving DecidableEq, Repr

/-- The allocator: addresses below `next` are taken. -/
structure Heap where
  next : Nat
deriving DecidableEq, Repr

/-- The class `QuantumCircuit`. `total_steps` is the `size_t` counter that is
initialised to `-1`. -/
structure QuantumCircuit (R : Type) where
  components : List (List (shared_ptr R))
  register_size : Nat
  total_steps : Int
  input_register : List Int
deriving DecidableEq, Repr

/-- A `size_t` value used as a vector index; a negative counter is outside
every vector. -/
def to_index (z : Int) : Except Error Nat :=
  if z < 0 then .error .undefined else .ok z.toNat

/-- A loop `for (i = 0; i < n; i++) if (p(i)) return true;` followed by
`return false`, over the listed indices. -/
def any_of (p : Nat → Except Error Bool) : List Nat → Except Error Bool
  | [] => .ok false
  | i :: rest => do
    if (← p i) then pure true else any_of p rest

section CircuitDefs

variable {R : Type} [CommRing R] [StarRing R]

/-- `std::make_shared<T>(...)`: the object is placed at a fresh address. -/
def make_shared (h : Heap) (obj : QuantumComponent R) : Heap × shared_ptr R :=
  ({ next := h.next + 1 }, { addr := h.next, obj := obj })

/-- The read `components[i][j]`. -/
def QuantumCircuit.cell (qc : QuantumCircuit R) (i j : Nat) : Except Error (shared_ptr R) := do
  let lane ← read_at qc.components i
  read_at lane j

/-- `calculate_matrix_for_register(input_register)`. -/
def calculate_matrix_for_register (input_register : List Int) : Except Error (Matrix R) := do
  let qubit_zero ← (Matrix.init 2 1 : Matrix R).set 0 0 1
  let qubit_one ← (Matrix.init 2 1 : Matrix R).set 1 0 1
  let tensor_product_list := List.replicate input_register.length qubit_zero
  let tensor_product_list ← for_range 0 input_register.length (fun i l => do
    let b ← read_at input_register i
    if b = 1 then assign_at l i qubit_one else pure l) tensor_product_list
  perform_tensor_product tensor_product_list

/-- `QuantumCircuit::evolve()`. -/
def QuantumCircuit.evolve (h : Heap) (qc : QuantumCircuit R) :
    Except Error (Heap × QuantumCircuit R) := do
  let (h, components) ← for_range 0 qc.register_size (fun i (st : Heap × List (List (shared_ptr R))) => do
    let g : SingleGate R ← IGate i
    let (h, p) := make_shared st.1 (QuantumComponent.single g)
    let lane ← read_at st.2 i
    let components ← assign_at st.2 i (lane ++ [p])
    pure (h, components)) (h, qc.components)
  pure (h, { qc with components := components, total_steps := qc.total_steps + 1 })

/-- The constructor `QuantumCircuit::QuantumCircuit(register_size)`. -/
def QuantumCircuit.new (h : Heap) (register_size_in : Nat) :
    Except Error (Heap × QuantumCircuit R) :=
  QuantumCircuit.evolve h
    { components := List.replicate register_size_in [],
      register_size := register_size_in,
      total_steps := -1,
      input_register := List.replicate register_size_in 0 }

/-- `QuantumCircuit::get_matrix_at_step(step_index)`. -/
def QuantumCircuit.get_matrix_at_step (qc : QuantumCircuit R) (step_index : Nat) :
    Except Error (Matrix R) := do
  let start ← identity_matrix (2 ^ qc.register_size)
  for_range 0 qc.register_size (fun i resultant_matrix => do
    let c ← qc.cell i step_index
    let m ← c.obj.get_matrix_reg qc.register_size
    m.mul resultant_matrix) start

/-- `QuantumCircuit::get_matrix()`. -/
def QuantumCircuit.get_matrix (qc : QuantumCircuit R) : Except Error (Matrix R) := do
  let first ← qc.get_matrix_at_step 0
  for_range 1 (qc.total_steps + 1).toNat (fun i circuit_matrix => do
    let m ← qc.get_matrix_at_step i
    m.mul circuit_matrix) first

/-- `QuantumCircuit::is_step_empty(step_index)`. -/
def QuantumCircuit.is_step_empty (qc : QuantumCircuit R) (step_index : Nat) :
    Except Error Bool := do
  let found ← any_of (fun i => do
    let c ← qc.cell i step_index
    pure (c.obj.get_symbol != "I")) (List.range qc.register_size)
  pure (!found)

/-- `QuantumCircuit::is_gate_in_circuit(gate)`: comparison of the pointers. -/
def QuantumCircuit.is_gate_in_circuit (qc : QuantumCircuit R) (gate : shared_ptr R) :
    Except Error Bool :=
  any_of (fun i => do
    let lane ← read_at qc.components i
    any_of (fun j => do
      let c ← read_at lane j
      pure (c.addr == gate.addr)) (List.range lane.length)) (List.range qc.register_size)

/-- `QuantumCircuit::replace_component(gate, register_index, step_index)`. -/
def QuantumCircuit.replace_component (qc : QuantumCircuit R) (gate : shared_ptr R)
    (register_index step_index : Nat) : Except Error (QuantumCircuit R) := do
  if (← qc.is_gate_in_circuit gate) then throw Error.DuplicateGateInsertion
  if !gate.obj.can_gate_fit qc.register_size then throw Error.GateDoesNotFit
  let lane ← read_at qc.components register_index
  let lane ← assign_at lane step_index gate
  let components ← assign_at qc.components register_index lane
  pure { qc with components := components }

/-- `QuantumCircuit::add_component(gate)`. -/
def QuantumCircuit.add_component (h : Heap) (qc : QuantumCircuit R) (gate : shared_ptr R) :
    Except Error (Heap × QuantumCircuit R) := do
  if (← qc.is_gate_in_circuit gate) then throw Error.DuplicateGateInsertion
  if !gate.obj.can_gate_fit qc.register_size then throw Error.GateDoesNotFit
  let target_index := gate.obj.get_index
  let gate_type := gate.obj.get_gate_type
  if gate_type = "SingleGate" then
    let c ← qc.cell target_index (← to_index qc.total_steps)
    let (h, qc) ← if c.obj.get_symbol ≠ "I" then qc.evolve h else pure (h, qc)
    let qc ← qc.replace_component gate target_index (← to_index qc.total_steps)
    pure (h, qc)
  else if gate_type = "MultiGate" then
    let empty ← qc.is_step_empty (← to_index qc.total_steps)
    let (h, qc) ← if !empty then qc.evolve h else pure (h, qc)
    let qc ← qc.replace_component gate target_index (← to_index qc.total_steps)
    qc.evolve h
  else
    throw Error.InvalidGateType

/-- The ordered product of the step matrices `M_t * (M_(t-1) * ( ... * M_0))`,
every factor computed by `get_matrix_at_step` and every product by
`operator*`: the matrix of an earlier step stands to the right. -/
def ordered_product (qc : QuantumCircuit R) : Nat → Except Error (Matrix R)
  | 0 => qc.get_matrix_at_step 0
  | t + 1 => do
    let earlier ← ordered_product qc t
    let m ← qc.get_matrix_at_step (t + 1)
    m.mul earlier

/-- The class invariant of `QuantumCircuit` after construction: one lane per
register, every lane with `total_steps + 1` cells, and every cell an object
that has been allocated. -/
def QuantumCircuit.wf (h : Heap) (qc : QuantumCircuit R) : Prop :=
  qc.components.length = qc.register_size ∧
  0 ≤ qc.total_steps ∧
  (∀ lane ∈ qc.components, (lane.length : Int) = qc.total_steps + 1) ∧
  (∀ lane ∈ qc.components, ∀ p ∈ lane, p.addr < h.next)

/-- The gate reference `g` occupies a cell of the grid. -/
def QuantumCircuit.occupies (qc : QuantumCircuit R) (g : shared_ptr R) : Prop :=
  ∃ lane ∈ qc.components, ∃ p ∈ lane, p.addr = g.addr

/-- The identity placeholder `IGate(i)` as a component. -/
def placeholder (i : Nat) : QuantumComponent R :=
  .single { qubit_index := i, symbol := "I", matrix := idm 2 }

/-- Closed form of the grid after `evolve()`: lane `i` gains a placeholder
`IGate(i)` at the address `h.next + i`. -/
def evolved (h : Heap) (comps : List (List (shared_ptr R))) : List (List (shared_ptr R)) :=
  List.zipWith (fun lane i => lane ++ [{ addr := h.next + i, obj := placeholder i }]) comps
    (List.range comps.length)

/-- The cell `(i, j)` of a grid, when it exists. -/
def grid_at (comps : List (List (shared_ptr R))) (i j : Nat) : Option (shared_ptr R) :=
  (comps[i]?).bind (fun lane => lane[j]?)

/-- The grid with the existing cell `(r, s)` overwritten by `g`. -/
def grid_put (comps : List (List (shared_ptr R))) (r s : Nat) (g : shared_ptr R) :
    List (List (shared_ptr R)) :=
  comps.set r ((comps.getD r []).set s g)

/-- Closed form of `is_step_empty`: every lane shows the symbol `"I"` at the step. -/
def step_empty (comps : List (List (shared_ptr R))) (s : Nat) : Bool :=
  comps.all (fun lane => match lane[s]? with
    | some p => p.obj.get_symbol == "I"
    | none => true)

/-- Every lane `i` of step `T` holds a `SingleGate` at its own index whose
`2 x 2` matrix is `us[i]`; a cell with the symbol `"I"` holds the identity. -/
def QuantumCircuit.single_step (qc : QuantumCircuit R) (T : Nat) (us : List (Matrix R)) : Prop :=
  us.length = qc.register_size ∧
  ∀ i, i < qc.register_size → ∃ p sg, grid_at qc.components i T = some p ∧
    p.obj = .single sg ∧ sg.qubit_index = i ∧ us[i]? = some sg.matrix ∧
    sg.matrix.wf ∧ sg.matrix.rows = 2 ∧ sg.matrix.cols = 2 ∧
    (sg.symbol = "I" → sg.matrix = idm 2)

/-- The circuit `qc` is well formed, its last step holds single-qubit gates at
their own lanes only, and the product of its step matrices is `M`. -/
def QuantumCircuit.has_matrix (h : Heap) (qc : QuantumCircuit R) (M : Matrix R) : Prop :=
  qc.wf h ∧ 1 ≤ qc.register_size ∧
  ∃ (T : Nat) (us : List (Matrix R)), qc.total_steps = (T : Int) ∧ qc.single_step T us ∧
    ((T = 0 ∧ M = tfold us) ∨
     ∃ (t : Nat) (P : Matrix R), T = t + 1 ∧ ordered_product qc t = .ok P ∧ P.wf ∧
       P.rows = 2 ^ qc.register_size ∧ P.cols = 2 ^ qc.register_size ∧ M = mmul (tfold us) P)

/-- Closed form of the matrix built by `XGate::XGate`. -/
def pauli_x : Matrix R := ((Matrix.init 2 2).put 0 1 1).put 1 0 1

/-- The action of a controlled `X` on a register of bits: the bit at `t` is
flipped when the bit at `c` is `1`. -/
def cnot_bits (c t : Nat) (b : List Int) : List Int :=
  if b.getD c 0 = 1 then b.set t (1 - b.getD t 0) else b

/-- The register `b` with the entries at the positions `i` and `j` exchanged. -/
def swap_bits (i j : Nat) (b : List Int) : List Int :=
  (b.set i (b.getD j 0)).set j (b.getD i 0)

/-- Closed form of the object built by `ControlledGate::ControlledGate(gate, c)`
when `c` is not the index of `gate`. -/
def controlled_gate (gate : SingleGate R) (c : Nat) : ControlledGate R :=
  { qubit_index := min c gate.qubit_index, symbol := gate.symbol,
    matrix := madd
      (tfold (slots0 (Int.natAbs ((c : Int) - (gate.qubit_index : Int)) + 1)
        (c - min c gate.qubit_index)))
      (tfold (slots1 (Int.natAbs ((c : Int) - (gate.qubit_index : Int)) + 1)
        (c - min c gate.qubit_index) (gate.qubit_index - min c gate.qubit_index) gate.matrix)),
    gate_size := Int.natAbs ((c : Int) - (gate.qubit_index : Int)) + 1,
    control_index := c, target_index := gate.qubit_index }

/-- The full-register matrix of a controlled gate: the sum of the fold with
`|0><0|` at the control and of the fold with `|1><1|` at the control and `U` at
the target. -/
def controlled_full (n c t : Nat) (U : Matrix R) : Matrix R :=
  madd (tfold (slots0 n c)) (tfold (slots1 n c t U))

/-- `QuantumCircuit::evolve(num_steps)`: `evolve()` called `num_steps` times. -/
def QuantumCircuit.evolve_n (h : Heap) (qc : QuantumCircuit R) (num_steps : Nat) :
    Except Error (Heap × QuantumCircuit R) :=
  for_range 0 num_steps (fun _ (st : Heap × QuantumCircuit R) => st.2.evolve st.1) (h, qc)

/-- The body of the loop of `get_matrix_at_step` run over the lanes in the
order of the list `order`, from the identity matrix; `get_matrix_at_step` is
the case `order = [0, ..., register_size - 1]`. -/
def QuantumCircuit.step_matrix_in_order (qc : QuantumCircuit R) (step_index : Nat)
    (order : List Nat) : Except Error (Matrix R) := do
  let start ← identity_matrix (2 ^ qc.register_size)
  order.foldlM (fun resultant_matrix i => do
    let c ← qc.cell i step_index
    let m ← c.obj.get_matrix_reg qc.register_size
    m.mul resultant_matrix) start

/-- Every lane `i` of the step holds a `SingleGate` with the index `i` whose
local matrix is the `2 x 2` matrix `us[i]`. -/
def QuantumCircuit.single_gates_at (qc : QuantumCircuit R) (step_index : Nat)
    (us : List (Matrix R)) : Prop :=
  us.length = qc.register_size ∧
  ∀ i, i < qc.register_size → ∃ p sg, grid_at qc.components i step_index = some p ∧
    p.obj = .single sg ∧ sg.qubit_index = i ∧ us[i]? = some sg.matrix ∧
    sg.matrix.wf ∧ sg.matrix.rows = 2 ∧ sg.matrix.cols = 2

/-- The calls `qc.add_component(g)` for the gates of a list, in the order of
the list. -/
def QuantumCircuit.add_components (h : Heap) (qc : QuantumCircuit R)
    (gates : List (shared_ptr R)) : Except Error (Heap × QuantumCircuit R) :=
  gates.foldlM (fun st g => st.2.add_component st.1 g) (h, qc)

/-- Modelled from the spec: the product
`g_m.get_matrix(n) * ... * g_2.get_matrix(n) * g_1.get_matrix(n)` of the gates
of a list `g_1, ..., g_m`, computed with `get_matrix(register_size)` and
`operator*`; for the empty list, the identity matrix. -/
def gates_product (n : Nat) : List (shared_ptr R) → Except Error (Matrix R)
  | [] => identity_matrix (2 ^ n)
  | g :: rest => do
    let first ← g.obj.get_matrix_reg n
    rest.foldlM (fun acc g' => do
      let m ← g'.obj.get_matrix_reg n
      m.mul acc) first

end CircuitDefs

/-! ## Derived gates (`DerivedGates.cpp`) and the state of a circuit -/

/-- A `std::shared_ptr<SingleGate>`: the address and the gate it points to. -/
structure single_ptr (R : Type) where
  addr : Nat
  obj : SingleGate R
deriving DecidableEq, Repr

section DerivedDefs

variable {R : Type} [CommRing R] [StarRing R]

/-- The conversion of a `std::shared_ptr<SingleGate>` to a
`std::shared_ptr<QuantumComponent>`. -/
def single_ptr.up (p : single_ptr R) : shared_ptr R :=
  { addr := p.addr, obj := .single p.obj }

/-- `std::make_shared` of a `SingleGate` (or of a class derived from it). -/
def make_shared_single (h : Heap) (obj : SingleGate R) : Heap × single_ptr R :=
  ({ next := h.next + 1 }, { addr := h.next, obj := obj })

/-- `QuantumCircuit::get_initial_state()`. -/
def QuantumCircuit.get_initial_state (qc : QuantumCircuit R) : Except Error (Matrix R) :=
  calculate_matrix_for_register qc.input_register

/-- `QuantumCircuit::get_final_state()`: `get_matrix() * get_initial_state()`. -/
def QuantumCircuit.get_final_state (qc : QuantumCircuit R) : Except Error (Matrix R) := do
  let m ← qc.get_matrix
  let s ← qc.get_initial_state
  m.mul s

/-- `QuantumCircuit::get_state_after_step(step_index)`:
`get_matrix_at_step(step_index) * get_initial_state()`. -/
def QuantumCircuit.get_state_after_step (qc : QuantumCircuit R) (step_index : Nat) :
    Except Error (Matrix R) := do
  let m ← qc.get_matrix_at_step step_index
  let s ← qc.get_initial_state
  m.mul s

/-- `QuantumCircuit::set_input_register(register_in)`. The loop reads the
member `input_register[i]`, not `register_in[i]`. -/
def QuantumCircuit.set_input_register (qc : QuantumCircuit R) (register_in : List Int) :
    Except Error (QuantumCircuit R) := do
  if register_in.length ≠ qc.register_size then throw Error.InputRegisterMismatch
  for_range 0 register_in.length (fun i (_ : Unit) => do
    let v ← read_at qc.input_register i
    if v ≠ 0 ∧ v ≠ 1 then throw Error.InputRegisterMismatch) ()
  pure { qc with input_register := register_in }

namespace DerivedGates

/-- `x(n)`: `std::make_shared<XGate>(n)`. -/
def x (hp : Heap) (n : Nat) : Except Error (Heap × single_ptr R) := do
  let g ← XGate n
  pure (make_shared_single hp g)

/-- `adjoint(gate)`: a `SingleGate` with the same index, the symbol followed by
`"*"`, and the adjoint matrix. -/
def adjoint (hp : Heap) (gate : single_ptr R) : Except Error (Heap × single_ptr R) := do
  let m ← gate.obj.matrix.adjoint
  pure (make_shared_single hp
    { qubit_index := gate.obj.qubit_index, symbol := gate.obj.symbol ++ "*", matrix := m })

/-- `controlled(gate, n)`: `std::make_shared<ControlledGate>(gate, n)`. -/
def controlled (hp : Heap) (gate : single_ptr R) (n : Nat) :
    Except Error (Heap × shared_ptr R) := do
  let g ← ControlledGate.new gate.obj n
  pure (make_shared hp (.controlled g))

/-- `gate_from_circuit(qc, n, symbol)`: a `MultiGate` at index `n` whose matrix
is `qc.get_matrix()` and whose gate size is `qc.get_register_size()`. -/
def gate_from_circuit (hp : Heap) (qc : QuantumCircuit R) (n : Nat) (symbol : String) :
    Except Error (Heap × shared_ptr R) := do
  let m ← qc.get_matrix
  let g ← MultiGate.new n symbol m qc.register_size
  pure (make_shared hp (.multi g))

/-- `swap(index_1, index_2)`. -/
def swap (hp : Heap) (index_1 index_2 : Nat) : Except Error (Heap × shared_ptr R) := do
  let first_index := min index_1 index_2
  let last_index := max index_1 index_2
  let gate_size := last_index - first_index + 1
  let (hp, swap_circuit) ← QuantumCircuit.new hp gate_size
  let (hp, g) ← x hp 0
  let (hp, c) ← controlled hp g (gate_size - 1)
  let (hp, swap_circuit) ← swap_circuit.add_component hp c
  let (hp, g) ← x hp (gate_size - 1)
  let (hp, c) ← controlled hp g 0
  let (hp, swap_circuit) ← swap_circuit.add_component hp c
  let (hp, g) ← x hp 0
  let (hp, c) ← controlled hp g (gate_size - 1)
  let (hp, swap_circuit) ← swap_circuit.add_component hp c
  gate_from_circuit hp swap_circuit first_index
    (toString first_index ++ " <-> " ++ toString last_index)

end DerivedGates

end DerivedDefs

section ScalarDerivedDefs

variable {K : Type} [CommRing K] [Div K] [Sqrt2 K]

namespace DerivedGates

/-- `h(n)`: `std::make_shared<HGate>(n)`. -/
def h (hp : Heap) (n : Nat) : Except Error (Heap × single_ptr (Cplx K)) := do
  let g ← HGate n
  pure (make_shared_single hp g)

/-- `t(n)`: `std::make_shared<TGate>(n)`. -/
def t (hp : Heap) (n : Nat) : Except Error (Heap × single_ptr (Cplx K)) := do
  let g ← TGate n
  pure (make_shared_single hp g)

/-- `toffoli(target, control_1, control_2)`. -/
def toffoli (hp : Heap) (target control_1 control_2 : Nat) :
    Except Error (Heap × shared_ptr (Cplx K)) := do
  let first_qubit := min (min control_1 control_2) target
  let last_qubit := max (max control_1 control_2) target
  let (hp, qc) ← QuantumCircuit.new hp (last_qubit - first_qubit + 1)
  let r_t := target - first_qubit
  let r_c1 := control_1 - first_qubit
  let r_c2 := control_2 - first_qubit
  let (hp, g) ← h hp r_t
  let (hp, qc) ← qc.add_component hp g.up
  let (hp, g) ← x hp r_t
  let (hp, c) ← controlled hp g r_c2
  let (hp, qc) ← qc.add_component hp c
  let (hp, g) ← t hp r_t
  let (hp, g) ← adjoint hp g
  let (hp, qc) ← qc.add_component hp g.up
  let (hp, g) ← x hp r_t
  let (hp, c) ← controlled hp g r_c1
  let (hp, qc) ← qc.add_component hp c
  let (hp, g) ← t hp r_t
  let (hp, qc) ← qc.add_component hp g.up
  let (hp, g) ← x hp r_t
  let (hp, c) ← controlled hp g r_c2
  let (hp, qc) ← qc.add_component hp c
  let (hp, g) ← t hp r_t
  let (hp, g) ← adjoint hp g
  let (hp, qc) ← qc.add_component hp g.up
  let (hp, g) ← x hp r_t
  let (hp, c) ← controlled hp g r_c1
  let (hp, qc) ← qc.add_component hp c
  let (hp, g) ← t hp r_c2
  let (hp, qc) ← qc.add_component hp g.up
  let (hp, g) ← t hp r_t
  let (hp, qc) ← qc.add_component hp g.up
  let (hp, g) ← h hp r_t
  let (hp, qc) ← qc.add_component hp g.up
  let (hp, g) ← x hp r_c2
  let (hp, c) ← controlled hp g r_c1
  let (hp, qc) ← qc.add_component hp c
  let (hp, g) ← t hp r_c1
  let (hp, qc) ← qc.add_component hp g.up
  let (hp, g) ← t hp r_c2
  let (hp, g) ← adjoint hp g
  let (hp, qc) ← qc.add_component hp g.up
  let (hp, g) ← x hp r_c2
  let (hp, c) ← controlled hp g r_c1
  let (hp, qc) ← qc.add_component hp c
  let gate_symbol := "q" ++ toString control_1 ++ "q" ++ toString control_2 ++ "(+)q"
    ++ toString target
  gate_from_circuit hp qc first_qubit gate_symbol

end DerivedGates

/-- The matrix of `HGate`. -/
def hadamard_matrix : Matrix (Cplx K) :=
  mat2 ⟨1 / Sqrt2.sqrt2, 0⟩ ⟨1 / Sqrt2.sqrt2, 0⟩ ⟨1 / Sqrt2.sqrt2, 0⟩ ⟨-1 / Sqrt2.sqrt2, 0⟩

/-- The matrix of `TGate`. -/
def t_matrix : Matrix (Cplx K) := mat2 ⟨1, 0⟩ 0 0 ⟨1 / Sqrt2.sqrt2, 1 / Sqrt2.sqrt2⟩

/-- The full-register matrix of a single-qubit gate `U` on the qubit `a` of three. -/
def embed3 (a : Nat) (U : Matrix (Cplx K)) : Matrix (Cplx K) :=
  tfold ((List.replicate 3 (idm 2)).set a U)

/-- The full-register matrices of the fifteen gates that `toffoli(2, 0, 1)`
adds to its circuit of three qubits, first gate first. -/
def toffoli_steps : List (Matrix (Cplx K)) :=
  [embed3 2 hadamard_matrix, controlled_full 3 1 2 pauli_x, embed3 2 (adj t_matrix),
   controlled_full 3 0 2 pauli_x, embed3 2 t_matrix, controlled_full 3 1 2 pauli_x,
   embed3 2 (adj t_matrix), controlled_full 3 0 2 pauli_x, embed3 1 t_matrix,
   embed3 2 t_matrix, embed3 2 hadamard_matrix, controlled_full 3 0 1 pauli_x,
   embed3 0 t_matrix, embed3 1 (adj t_matrix), controlled_full 3 0 1 pauli_x]

end ScalarDerivedDefs

section ProbabilityDefs

variable {K : Type} [CommRing K]

/-- The value `probability` of `draw_probability_distribution` for the basis
state `i`: `(final_state(i, 0) * std::conj(final_state(i, 0))).real()`. -/
def QuantumCircuit.probability (qc : QuantumCircuit (Cplx K)) (i : Nat) : Except Error K := do
  let final_state ← qc.get_final_state
  let v ← final_state.get i 0
  pure (v * star v).re

end ProbabilityDefs

section EqualsDefs

variable {K : Type} [LinearOrderedField K]

/-- The conversion of a `double` to `int`: the fractional part is discarded,
the value is truncated toward zero. -/
def truncate [FloorRing K] (x : K) : Int :=
  if 0 ≤ x then Int.floor x else Int.ceil x

/-- The test `abs(x) > tol` of `operator==`, for the `double` `x` and
`tol = 1e-10`. The unqualified `abs` is `int abs(int)` of `<cstdlib>`: `x` is
converted to `int`, which truncates it toward zero, and the absolute value of
that integer is compared with `tol`. A non-negative integer exceeds `1e-10`
exactly when it is at least `1`, and the truncated `x` has an absolute value of
at least `1` exactly when `|x| >= 1`. The conversion has no defined result when
the truncated value is not an `int`, and `abs(INT_MIN)` has none either: the
test is defined for `|x| < 2^31`. The theorem `abs_exceeds_tol_truncate` relates
this closed form to `truncate`. -/
def abs_exceeds_tol (x : K) : Except Error Bool :=
  if 2 ^ 31 ≤ |x| then .error .undefined else .ok (decide (1 ≤ |x|))

/-- `Matrix::operator==`: `false` on a shape mismatch, and `false` as soon as
the test `abs(...) > tol` holds of the difference of the real parts of two
entries or, when it does not, of the difference of their imaginary parts
(`||` evaluates its second operand only when the first is false). -/
def Matrix.equals (A m : Matrix (Cplx K)) : Except Error Bool :=
  if A.rows ≠ m.rows ∨ A.cols ≠ m.cols then pure false
  else do
    let differ ← any_of (fun i => any_of (fun j => do
        let b ← m.get i j
        if (← abs_exceeds_tol ((A.raw i j).re - b.re)) then pure true
        else abs_exceeds_tol ((A.raw i j).im - b.im))
      (List.range A.cols)) (List.range A.rows)
    pure (!differ)

end EqualsDefs

/-! ## Member calls as transformers of the object

The functions above return the new state of the circuit or an error. To say
what a call that throws leaves behind, the member functions that change the
circuit are given a second time as calls on the object, statement by
statement. -/

/-- A call of a member function on an object in the state `σ`: the state of the
object after the call, together with the value returned or the exception
thrown. After an exception the object is as the statements executed before the
`throw` left it. -/
def Call (σ α : Type) : Type := σ → σ × Except Error α

/-- A `return` without any effect on the object. -/
def Call.pure {σ α : Type} (a : α) : Call σ α := fun s => (s, .ok a)

/-- Sequencing: the second statement runs on the object as the first left it,
unless the first threw. -/
def Call.bind {σ α β : Type} (m : Call σ α) (f : α → Call σ β) : Call σ β := fun s =>
  match m s with
  | (s', .ok a) => f a s'
  | (s', .error e) => (s', .error e)

instance {σ : Type} : Monad (Call σ) where
  pure := Call.pure
  bind := Call.bind

/-- The evaluation of an expression that does not change the object. -/
def Call.read {σ α : Type} (f : σ → Except Error α) : Call σ α := fun s => (s, f s)

/-- A statement that changes the object: the new state is computed, then
stored; nothing is stored when the computation throws. -/
def Call.update {σ : Type} (f : σ → Except Error σ) : Call σ Unit := fun s =>
  match f s with
  | .ok s' => (s', .ok ())
  | .error e => (s, .error e)

/-- The statement `throw`. -/
def Call.throw {σ α : Type} (e : Error) : Call σ α := fun s => (s, .error e)

/-- The outcome of a call when the state after an exception is forgotten. -/
def Call.result {σ α : Type} (m : Call σ α) (s : σ) : Except Error (σ × α) :=
  match m s with
  | (s', .ok a) => .ok (s', a)
  | (_, .error e) => .error e

section CallDefs

variable {R : Type} [CommRing R] [StarRing R]

/-- `QuantumCircuit::evolve()` as a call on the circuit and the allocator: a
loop of `push_back` and an increment, without any `throw`. -/
def QuantumCircuit.evolve_call : Call (Heap × QuantumCircuit R) Unit :=
  Call.update (fun st => st.2.evolve st.1)

/-- `QuantumCircuit::replace_component(gate, register_index, step_index)` as a
call on the circuit: the two checks, then the assignment of the cell. -/
def QuantumCircuit.replace_component_call (gate : shared_ptr R)
    (register_index step_index : Nat) : Call (Heap × QuantumCircuit R) Unit := do
  if (← Call.read (fun st => st.2.is_gate_in_circuit gate)) then
    Call.throw Error.DuplicateGateInsertion
  if !(← Call.read (fun st => pure (gate.obj.can_gate_fit st.2.register_size))) then
    Call.throw Error.GateDoesNotFit
  Call.update (fun st => do
    let lane ← read_at st.2.components register_index
    let lane ← assign_at lane step_index gate
    let components ← assign_at st.2.components register_index lane
    pure (st.1, { st.2 with components := components }))

/-- `QuantumCircuit::add_component(gate)` as a call on the circuit. -/
def QuantumCircuit.add_component_call (gate : shared_ptr R) :
    Call (Heap × QuantumCircuit R) Unit := do
  if (← Call.read (fun st => st.2.is_gate_in_circuit gate)) then
    Call.throw Error.DuplicateGateInsertion
  if !(← Call.read (fun st => pure (gate.obj.can_gate_fit st.2.register_size))) then
    Call.throw Error.GateDoesNotFit
  let target_index := gate.obj.get_index
  let gate_type := gate.obj.get_gate_type
  if gate_type = "SingleGate" then
    let c ← Call.read (fun st => do st.2.cell target_index (← to_index st.2.total_steps))
    if c.obj.get_symbol ≠ "I" then QuantumCircuit.evolve_call
    let s ← Call.read (fun st => to_index st.2.total_steps)
    QuantumCircuit.replace_component_call gate target_index s
  else if gate_type = "MultiGate" then
    let empty ← Call.read (fun st => do st.2.is_step_empty (← to_index st.2.total_steps))
    if !empty then QuantumCircuit.evolve_call
    let s ← Call.read (fun st => to_index st.2.total_steps)
    QuantumCircuit.replace_component_call gate target_index s
    QuantumCircuit.evolve_call
  else
    Call.throw Error.InvalidGateType

/-- `QuantumCircuit::set_input_register(register_in)` as a call on the circuit:
the check of the size, the loop that reads the member `input_register`, then
the assignment. -/
def QuantumCircuit.set_input_register_call (register_in : List Int) :
    Call (Heap × QuantumCircuit R) Unit := do
  if register_in.length ≠ (← Call.read (fun st => pure st.2.register_size)) then
    Call.throw Error.InputRegisterMismatch
  Call.read (fun st => for_range 0 register_in.length (fun i (_ : Unit) => do
    let v ← read_at st.2.input_register i
    if v ≠ 0 ∧ v ≠ 1 then throw Error.InputRegisterMismatch) ())
  Call.update (fun st => pure (st.1, { st.2 with input_register := register_in }))

end CallDefs

/-! ## Reachable states -/

section ReachDefs

variable {R : Type} [CommRing R] [StarRing R]

/-- No pointer occupies two cells of the grid. -/
def distinct_cells (comps : List (List (shared_ptr R))) : Prop :=
  ∀ i j i' j' p q, grid_at comps i j = some p → grid_at comps i' j' = some q →
    p.addr = q.addr → i = i' ∧ j = j'

/-- The invariant of the grid: `n` lanes of `k` cells each, every cell an
object allocated below the address `b`, and no pointer in two cells. -/
def grid_inv (b : Nat) (comps : List (List (shared_ptr R))) (n k : Nat) : Prop :=
  comps.length = n ∧ (∀ lane ∈ comps, lane.length = k) ∧
  (∀ lane ∈ comps, ∀ p ∈ lane, p.addr < b) ∧ distinct_cells comps

/-- The states of a circuit object, with the allocator, that a client reaches
from the constructor by calls of `evolve`, `add_component`, `replace_component`
and `set_input_register` that return. Between two calls the client may allocate
objects, and a gate that it hands to the circuit has been allocated. -/
inductive Reachable : Heap → QuantumCircuit R → Prop
  | new (h : Heap) (n : Nat) (h' : Heap) (qc : QuantumCircuit R) :
      QuantumCircuit.new h n = .ok (h', qc) → Reachable h' qc
  | alloc (h h' : Heap) (qc : QuantumCircuit R) :
      Reachable h qc → h.next ≤ h'.next → Reachable h' qc
  | evolve (h h' : Heap) (qc qc' : QuantumCircuit R) :
      Reachable h qc → qc.evolve h = .ok (h', qc') → Reachable h' qc'
  | add_component (h h' : Heap) (qc qc' : QuantumCircuit R) (g : shared_ptr R) :
      Reachable h qc → g.addr < h.next → qc.add_component h g = .ok (h', qc') →
      Reachable h' qc'
  | replace_component (h : Heap) (qc qc' : QuantumCircuit R) (g : shared_ptr R) (r s : Nat) :
      Reachable h qc → g.addr < h.next → qc.replace_component g r s = .ok qc' →
      Reachable h qc'
  | set_input_register (h : Heap) (qc qc' : QuantumCircuit R) (b : List Int) :
      Reachable h qc → qc.set_input_register b = .ok qc' → Reachable h qc'

/-- The states that follow a state `(h, qc)` by calls of `add_component` and
`evolve` that return, with allocations by the client in between. -/
inductive Later (h : Heap) (qc : QuantumCircuit R) : Heap → QuantumCircuit R → Prop
  | refl : Later h qc h qc
  | alloc (h1 h2 : Heap) (qc1 : QuantumCircuit R) :
      Later h qc h1 qc1 → h1.next ≤ h2.next → Later h qc h2 qc1
  | evolve (h1 h2 : Heap) (qc1 qc2 : QuantumCircuit R) :
      Later h qc h1 qc1 → qc1.evolve h1 = .ok (h2, qc2) → Later h qc h2 qc2
  | add_component (h1 h2 : Heap) (qc1 qc2 : QuantumCircuit R) (g : shared_ptr R) :
      Later h qc h1 qc1 → g.addr < h1.next → qc1.add_component h1 g = .ok (h2, qc2) →
      Later h qc h2 qc2

/-- The invariant of a circuit state: the grid has `register_size` lanes of
`total_steps + 1` cells, every cell is an allocated object, and no pointer is in
two cells. -/
def QuantumCircuit.inv (h : Heap) (qc : QuantumCircuit R) : Prop :=
  ∃ T : Nat, qc.total_steps = (T : Int) ∧
    grid_inv h.next qc.components qc.register_size (T + 1)

/-- The gate `g` sits in the cell `(r, s)` of a circuit state that satisfies
the invariant, and the cell is not taken for an empty one by `add_component`:
it lies before the last step, or its symbol is not `"I"`. -/
def QuantumCircuit.keeps (h : Heap) (qc : QuantumCircuit R) (g : shared_ptr R) (r s : Nat) :
    Prop :=
  qc.inv h ∧ grid_at qc.components r s = some g ∧
    ((s : Int) < qc.total_steps ∨ g.obj.get_symbol ≠ "I")

/-- Every component of the step `s` is a `SingleGate`. -/
def step_single (comps : List (List (shared_ptr R))) (s : Nat) : Prop :=
  ∀ i p, grid_at comps i s = some p → p.obj.get_gate_type = "SingleGate"

/-- A step that holds a `MultiGate` shows the symbol `"I"` in every other lane. -/
def multi_alone (comps : List (List (shared_ptr R))) : Prop :=
  ∀ s i p, grid_at comps i s = some p → p.obj.get_gate_type = "MultiGate" →
    ∀ j q, j ≠ i → grid_at comps j s = some q → q.obj.get_symbol = "I"

/-- The invariant of the scheduler: the invariant of the circuit state, no
`MultiGate` in the last step, and every `MultiGate` alone in its step. -/
def QuantumCircuit.scheduled (h : Heap) (qc : QuantumCircuit R) : Prop :=
  ∃ T : Nat, qc.total_steps = (T : Int) ∧
    grid_inv h.next qc.components qc.register_size (T + 1) ∧
    multi_alone qc.components ∧ step_single qc.components T

/-- The states that follow a state `(h, qc)` by calls of `add_component` and
`evolve` that return, with allocations by the client in between, when no
`SingleGate` that the client hands to `add_component` has the symbol `"I"`. -/
inductive LaterLabelled (h : Heap) (qc : QuantumCircuit R) :
    Heap → QuantumCircuit R → Prop
  | refl : LaterLabelled h qc h qc
  | alloc (h1 h2 : Heap) (qc1 : QuantumCircuit R) :
      LaterLabelled h qc h1 qc1 → h1.next ≤ h2.next → LaterLabelled h qc h2 qc1
  | evolve (h1 h2 : Heap) (qc1 qc2 : QuantumCircuit R) :
      LaterLabelled h qc h1 qc1 → qc1.evolve h1 = .ok (h2, qc2) → LaterLabelled h qc h2 qc2
  | add_component (h1 h2 : Heap) (qc1 qc2 : QuantumCircuit R) (g : shared_ptr R) :
      LaterLabelled h qc h1 qc1 → g.addr < h1.next →
      (g.obj.get_gate_type = "SingleGate" → g.obj.get_symbol ≠ "I") →
      qc1.add_component h1 g = .ok (h2, qc2) → LaterLabelled h qc h2 qc2

/-- Every `SingleGate` of the grid that shows the symbol `"I"` is the identity
placeholder `IGate(i)` of its lane `i`. -/
def identity_cells (comps : List (List (shared_ptr R))) : Prop :=
  ∀ i s p, grid_at comps i s = some p → p.obj.get_gate_type = "SingleGate" →
    p.obj.get_symbol = "I" → p.obj = placeholder i

/-- A step that holds a `MultiGate` holds the identity placeholder `IGate(j)`
in every other lane `j`. -/
def multi_isolated (comps : List (List (shared_ptr R))) : Prop :=
  ∀ s i p, grid_at comps i s = some p → p.obj.get_gate_type = "MultiGate" →
    ∀ j q, j ≠ i → grid_at comps j s = some q → q.obj = placeholder j

/-- The invariant of the scheduler when the client adds no `SingleGate` with
the symbol `"I"`: the invariant `scheduled`, and the cells with the symbol
`"I"` beside a `MultiGate` are the placeholders of `evolve`. -/
def QuantumCircuit.isolating (h : Heap) (qc : QuantumCircuit R) : Prop :=
  qc.scheduled h ∧ identity_cells qc.components ∧ multi_isolated qc.components

end ReachDefs

/-! ## Concrete inputs for the witnesses -/

/-- A heap in which the addresses `0` and `1` are taken. -/
def demo_heap : Heap := { next := 2 }

/-- The Pauli-X matrix over the integers. -/
def demo_x_matrix : Matrix Int := Matrix.of_grid [[0, 1], [1, 0]]

/-- An `X` gate on register `0`. -/
def demo_x : SingleGate Int := { qubit_index := 0, symbol := "X", matrix := demo_x_matrix }

/-- A pointer to `demo_x`, allocated at address `0`. -/
def demo_gate : shared_ptr Int := { addr := 0, obj := .single demo_x }

/-- The state of `QuantumCircuit(1)` after construction, its placeholder at address `1`. -/
def demo_circuit : QuantumCircuit Int :=
  { components := [[{ addr := 1, obj := placeholder 0 }]],
    register_size := 1, total_steps := 0, input_register := [0] }

/-- A `MultiGate` of size 1 on register `0`. -/
def demo_multi : MultiGate Int :=
  { qubit_index := 0, symbol := "M", matrix := demo_x_matrix, gate_size := 1 }

/-- A pointer to `demo_multi`, allocated at address `0`. -/
def demo_multi_gate : shared_ptr Int := { addr := 0, obj := .multi demo_multi }

/-- The object built by `MultiGate(1, "G", M, 0)` for the `1 x 1` matrix `M = (1)`:
a gate of size `0` anchored at index `1`. -/
def empty_multi : MultiGate Int :=
  { qubit_index := 1, symbol := "G", matrix := Matrix.of_grid [[1]], gate_size := 0 }

/-- A pointer to `empty_multi`, allocated at address `0`. -/
def empty_multi_gate : shared_ptr Int := { addr := 0, obj := .multi empty_multi }

/-- A one-qubit circuit of two steps, an `X` gate in each. -/
def demo_circuit_xx : QuantumCircuit Int :=
  { components := [[{ addr := 0, obj := .single demo_x }, { addr := 3, obj := .single demo_x }]],
    register_size := 1, total_steps := 1, input_register := [0] }

/-- A step of a two-qubit circuit: `demo_multi` on lane `0`, a placeholder on lane `1`. -/
def demo_circuit_m : QuantumCircuit Int :=
  { components := [[demo_multi_gate], [{ addr := 1, obj := placeholder 1 }]],
    register_size := 2, total_steps := 0, input_register := [0, 0] }

/-- The allocator after `QuantumCircuit(1)` has been constructed on `demo_heap`. -/
def fresh_heap : Heap := { next := 3 }

/-- The state of `QuantumCircuit(1)` constructed on `demo_heap`: its placeholder
at address `2`. -/
def fresh_circuit : QuantumCircuit Int :=
  { components := [[{ addr := 2, obj := placeholder 0 }]],
    register_size := 1, total_steps := 0, input_register := [0] }

/-- A pointer to an `IGate(0)` that the client has made, allocated at address `1`. -/
def client_identity : shared_ptr Int := { addr := 1, obj := placeholder 0 }

/-- The allocator after four objects. -/
def demo_heap_xx : Heap := { next := 4 }

/-- The object built by `MultiGate(SIZE_MAX, "G", identity_matrix(2), 1)`: a
gate of size `1` anchored at the largest `size_t`. -/
def far_multi : MultiGate Int :=
  { qubit_index := size_modulus - 1, symbol := "G", matrix := idm 2, gate_size := 1 }

/-- A pointer to `far_multi`, allocated at address `0`. -/
def far_multi_gate : shared_ptr Int := { addr := 0, obj := .multi far_multi }

/-- The object built by `x(1)`: an `X` gate on qubit `1`. -/
def x_on_one : SingleGate Int := { qubit_index := 1, symbol := "X", matrix := demo_x_matrix }

/-- A pointer to `x_on_one`, allocated at address `0`. -/
def x_on_one_gate : shared_ptr Int := { addr := 0, obj := .single x_on_one }

/-- A pointer to the object built by `SingleGate(1, "I", X)`, a gate on qubit
`1` with the Pauli-X matrix and the symbol `"I"`, allocated at address `0`. -/
def masked_x : shared_ptr Int :=
  { addr := 0, obj := .single { qubit_index := 1, symbol := "I", matrix := demo_x_matrix } }

/-- The allocator after `QuantumCircuit(2)` has been constructed on `demo_heap`. -/
def pair_heap : Heap := { next := 4 }

/-- The state of `QuantumCircuit(2)` constructed on `demo_heap`: its
placeholders at the addresses `2` and `3`. -/
def pair_circuit : QuantumCircuit Int :=
  { components := [[{ addr := 2, obj := placeholder 0 }], [{ addr := 3, obj := placeholder 1 }]],
    register_size := 2, total_steps := 0, input_register := [0, 0] }

/-- The object built by `controlled(x(1), 0)`: control `0`, target `1`. -/
def cnot : ControlledGate Int :=
  { qubit_index := 0, symbol := "X",
    matrix := Matrix.of_grid [[1, 0, 0, 0], [0, 0, 0, 1], [0, 0, 1, 0], [0, 1, 0, 0]],
    gate_size := 2, control_index := 0, target_index := 1 }

/-- A pointer to `cnot`, allocated at address `1`. -/
def cnot_gate : shared_ptr Int := { addr := 1, obj := .controlled cnot }

/-- The Pauli-Z matrix. -/
def demo_z_matrix : Matrix Int := Matrix.of_grid [[1, 0], [0, -1]]

/-- A step of a two-qubit circuit: an `X` gate on lane `0`, a `Z` gate on lane `1`. -/
def demo_circuit_xz : QuantumCircuit Int :=
  { components :=
      [[{ addr := 0, obj := .single { qubit_index := 0, symbol := "X", matrix := demo_x_matrix } }],
       [{ addr := 1, obj := .single { qubit_index := 1, symbol := "Z", matrix := demo_z_matrix } }]],
    register_size := 2, total_steps := 0, input_register := [0, 0] }

/-- The `1 x 1` matrix with the entry `0.5`, over the rational numbers. -/
def half_matrix : Matrix (Cplx ℚ) := Matrix.of_grid [[⟨1 / 2, 0⟩]]

/-- The `1 x 1` matrix with the entry `0`, over the rational numbers. -/
def null_matrix : Matrix (Cplx ℚ) := Matrix.of_grid [[⟨0, 0⟩]]

/-! ## Loops and element access -/

theorem for_range_inv {σ : Type} (lo hi : Nat) (body : Nat → σ → Except Error σ) (init : σ)
    (P : Nat → σ → Prop) (hle : lo ≤ hi) (h0 : P lo init)
    (hstep : ∀ i s, lo ≤ i → i < hi → P i s → ∃ s', body i s = .ok s' ∧ P (i + 1) s') :
    ∃ s', for_range lo hi body init = .ok s' ∧ P hi s' := by
  have key : ∀ n, lo + n ≤ hi →
      ∃ s', (List.range' lo n).foldlM (fun s i => body i s) init = .ok s' ∧ P (lo + n) s' := by
    intro n
    induction n with
    | zero => intro _; exact ⟨init, rfl, by simpa using h0⟩
    | succ n ih =>
      intro hn
      obtain ⟨s1, h1, hp1⟩ := ih (by omega)
      obtain ⟨s2, h2, hp2⟩ := hstep (lo + n) s1 (by omega) (by omega) hp1
      refine ⟨s2, ?_, by simpa [Nat.add_assoc] using hp2⟩
      rw [List.range'_concat, List.foldlM_append, h1]
      simp only [List.foldlM_cons, List.foldlM_nil, bind, Except.bind, pure, Except.pure,
        Nat.one_mul]
      rw [h2]
  have := key (hi - lo) (by omega)
  rw [Nat.add_sub_cancel' hle] at this
  exact this

theorem foldlM_product {σ α β : Type} (f : α → β → σ → Except Error σ) (l1 : List α)
    (l2 : List β) (init : σ) :
    (l1 ×ˢ l2).foldlM (fun s x => f x.1 x.2 s) init
      = l1.foldlM (fun s a => l2.foldlM (fun s b => f a b s) s) init := by
  induction l1 generalizing init with
  | nil => rfl
  | cons a l1 ih =>
    rw [List.product_cons, List.foldlM_append, List.foldlM_cons, List.foldlM_map]
    cases h : l2.foldlM (fun s b => f a b s) init with
    | error e => simp [h, bind, Except.bind]
    | ok s1 => simp [h, bind, Except.bind, ih]

section MatrixLemmas

variable {R : Type} [CommRing R] [StarRing R]

theorem Matrix.wf_init (r c : Nat) : (Matrix.init r c : Matrix R).wf := by
  constructor
  · simp [Matrix.init]
  · intro row hrow
    simp only [Matrix.init] at hrow
    rw [List.eq_of_mem_replicate hrow]
    simp [Matrix.init]

theorem Matrix.raw_init (r c i j : Nat) : (Matrix.init r c : Matrix R).raw i j = 0 := by
  simp only [Matrix.raw, Matrix.init, List.getD_eq_getElem?_getD, List.getElem?_replicate]
  split <;> simp [List.getElem?_replicate]
  split <;> rfl

theorem Matrix.wf_put (M : Matrix R) (h : M.wf) (r c : Nat) (v : R) : (M.put r c v).wf := by
  obtain ⟨h1, h2⟩ := h
  constructor
  · simp [Matrix.put, h1]
  · intro row hrow
    simp only [Matrix.put] at hrow
    rcases List.mem_or_eq_of_mem_set hrow with hm | he
    · exact h2 row hm
    · subst he
      by_cases hr : r < M.data.length
      · rw [List.length_set, List.getD_eq_getElem?_getD, List.getElem?_eq_getElem hr]
        exact h2 _ (List.getElem_mem _)
      · simp only [not_lt] at hr
        rw [List.set_eq_of_length_le hr] at hrow
        exact h2 _ hrow

theorem Matrix.raw_put (M : Matrix R) (h : M.wf) (r c : Nat) (v : R) (hr : r < M.rows)
    (hc : c < M.cols) (i j : Nat) :
    (M.put r c v).raw i j = if i = r ∧ j = c then v else M.raw i j := by
  obtain ⟨h1, h2⟩ := h
  have hr' : r < M.data.length := by omega
  have hrow : (M.data[r]).length = M.cols := h2 _ (List.getElem_mem _)
  simp only [Matrix.raw, Matrix.put, List.getD_eq_getElem?_getD, List.getElem?_set]
  by_cases hi : i = r
  · subst hi
    simp only [if_true, hr', List.getElem?_eq_getElem, Option.getD_some, List.getElem?_set,
      true_and]
    by_cases hj : j = c
    · subst hj
      simp [hrow, hc]
    · have : ¬ c = j := fun e => hj e.symm
      simp [hj, this]
  · have : ¬ r = i := fun e => hi e.symm
    simp [hi, this]

theorem Matrix.set_eq_put (M : Matrix R) (r c : Nat) (v : R) (hr : r < M.rows)
    (hc : c < M.cols) : M.set r c v = .ok (M.put r c v) := by
  simp [Matrix.set, Matrix.put, hr, hc]

theorem Matrix.get_eq_raw (M : Matrix R) (r c : Nat) (hr : r < M.rows) (hc : c < M.cols) :
    M.get r c = .ok (M.raw r c) := by
  simp [Matrix.get, hr, hc]

@[simp] theorem Matrix.tabulate_rows (r c : Nat) (f : Nat → Nat → R) :
    (Matrix.tabulate r c f).rows = r := rfl

@[simp] theorem Matrix.tabulate_cols (r c : Nat) (f : Nat → Nat → R) :
    (Matrix.tabulate r c f).cols = c := rfl

theorem Matrix.wf_tabulate (r c : Nat) (f : Nat → Nat → R) : (Matrix.tabulate r c f).wf := by
  constructor
  · simp [Matrix.tabulate]
  · intro row hrow
    simp only [Matrix.tabulate, List.mem_map] at hrow
    obtain ⟨i, _, rfl⟩ := hrow
    simp [Matrix.tabulate]

theorem Matrix.raw_tabulate (r c : Nat) (f : Nat → Nat → R) (i j : Nat) (hi : i < r)
    (hj : j < c) : (Matrix.tabulate r c f).raw i j = f i j := by
  simp [Matrix.raw, Matrix.tabulate, List.getD_eq_getElem?_getD, List.getElem?_map,
    List.getElem?_range hi, List.getElem?_range hj]

theorem Matrix.ext_raw (A B : Matrix R) (hA : A.wf) (hB : B.wf) (hr : A.rows = B.rows)
    (hc : A.cols = B.cols) (h : ∀ i j, i < A.rows → j < A.cols → A.raw i j = B.raw i j) :
    A = B := by
  obtain ⟨a1, a2⟩ := hA
  obtain ⟨b1, b2⟩ := hB
  cases A with
  | mk ar ac ad =>
    cases B with
    | mk br bc bd =>
      simp only at hr hc a1 a2 b1 b2 h
      subst hr hc
      congr 1
      apply List.ext_getElem (by omega)
      intro i hi1 hi2
      have la : (ad[i]).length = ac := a2 _ (List.getElem_mem _)
      have lb : (bd[i]).length = ac := b2 _ (List.getElem_mem _)
      apply List.ext_getElem (by omega)
      intro j hj1 hj2
      have := h i j (by omega) (by omega)
      simpa [Matrix.raw, List.getD_eq_getElem?_getD, List.getElem?_eq_getElem, hi1, hi2, hj1,
        hj2] using this

theorem foldlM_product4 {σ α β γ δ : Type} (f : α → β → γ → δ → σ → Except Error σ)
    (l1 : List α) (l2 : List β) (l3 : List γ) (l4 : List δ) (init : σ) :
    l1.foldlM (fun s a => l2.foldlM (fun s b => l3.foldlM (fun s c =>
        l4.foldlM (fun s d => f a b c d s) s) s) s) init
      = (l1 ×ˢ (l2 ×ˢ (l3 ×ˢ l4))).foldlM (fun s x => f x.1 x.2.1 x.2.2.1 x.2.2.2 s) init := by
  have e1 := foldlM_product (fun (a : α) (y : β × γ × δ) (s : σ) => f a y.1 y.2.1 y.2.2 s)
    l1 (l2 ×ˢ (l3 ×ˢ l4)) init
  simp only at e1
  rw [e1]
  congr 1
  funext s a
  have e2 := foldlM_product (fun (b : β) (y : γ × δ) (s : σ) => f a b y.1 y.2 s)
    l2 (l3 ×ˢ l4) s
  simp only at e2
  rw [e2]
  congr 1
  funext s b
  exact (foldlM_product (fun (c : γ) (d : δ) (s : σ) => f a b c d s) l3 l4 s).symm

theorem foldlM_product2 {σ α β : Type} (f : α → β → σ → Except Error σ)
    (l1 : List α) (l2 : List β) (init : σ) :
    l1.foldlM (fun s a => l2.foldlM (fun s b => f a b s) s) init
      = (l1 ×ˢ l2).foldlM (fun s x => f x.1 x.2 s) init :=
  (foldlM_product f l1 l2 init).symm

/-- A fold of in-range writes whose values are those of `g` at the written
position yields `g` on the written positions and keeps the other entries. -/
theorem foldlM_writes {ι : Type} (L : List ι) (body : ι → Matrix R → Except Error (Matrix R))
    (pr pc : ι → Nat) (val : ι → R) (g : Nat → Nat → R) (nr nc : Nat)
    (hbody : ∀ x ∈ L, ∀ s : Matrix R, s.rows = nr → s.cols = nc →
      body x s = s.set (pr x) (pc x) (val x))
    (hin : ∀ x ∈ L, pr x < nr ∧ pc x < nc)
    (hval : ∀ x ∈ L, val x = g (pr x) (pc x))
    (s : Matrix R) (hwf : s.wf) (hr : s.rows = nr) (hc : s.cols = nc) :
    ∃ s', L.foldlM (fun s x => body x s) s = .ok s' ∧ s'.wf ∧ s'.rows = nr ∧ s'.cols = nc ∧
      ∀ i j, s'.raw i j = if ∃ x ∈ L, pr x = i ∧ pc x = j then g i j else s.raw i j := by
  induction L generalizing s with
  | nil => exact ⟨s, rfl, hwf, hr, hc, by simp⟩
  | cons x L ih =>
    have hx := hin x (List.mem_cons_self _ _)
    have hset : body x s = .ok (s.put (pr x) (pc x) (val x)) := by
      rw [hbody x (List.mem_cons_self _ _) s hr hc]
      exact Matrix.set_eq_put s _ _ _ (by omega) (by omega)
    obtain ⟨s', h1, h2, h3, h4, h5⟩ := ih
      (fun y hy => hbody y (List.mem_cons_of_mem _ hy))
      (fun y hy => hin y (List.mem_cons_of_mem _ hy))
      (fun y hy => hval y (List.mem_cons_of_mem _ hy))
      (s.put (pr x) (pc x) (val x)) (Matrix.wf_put s hwf _ _ _) hr hc
    refine ⟨s', ?_, h2, h3, h4, ?_⟩
    · rw [List.foldlM_cons, hset]
      exact h1
    · intro i j
      rw [h5 i j, Matrix.raw_put s hwf _ _ _ (by omega) (by omega)]
      by_cases hL : ∃ y ∈ L, pr y = i ∧ pc y = j
      · obtain ⟨y, hy, hy'⟩ := hL
        have e1 : ∃ y ∈ L, pr y = i ∧ pc y = j := ⟨y, hy, hy'⟩
        have e2 : ∃ y ∈ x :: L, pr y = i ∧ pc y = j := ⟨y, List.mem_cons_of_mem _ hy, hy'⟩
        rw [if_pos e1, if_pos e2]
      · rw [if_neg hL]
        by_cases hxe : i = pr x ∧ j = pc x
        · have e2 : ∃ y ∈ x :: L, pr y = i ∧ pc y = j :=
            ⟨x, List.mem_cons_self _ _, hxe.1.symm, hxe.2.symm⟩
          rw [if_pos hxe, if_pos e2, hval x (List.mem_cons_self _ _), hxe.1, hxe.2]
        · have e2 : ¬ ∃ y ∈ x :: L, pr y = i ∧ pc y = j := by
            rintro ⟨y, hy, hy1, hy2⟩
            rcases List.mem_cons.mp hy with rfl | hy
            · exact hxe ⟨hy1.symm, hy2.symm⟩
            · exact hL ⟨y, hy, hy1, hy2⟩
          rw [if_neg hxe, if_neg e2]

theorem idx_lt (i u a b : Nat) (hi : i < a) (hu : u < b) : u * a + i < a * b := by
  have h1 : (u + 1) * a ≤ b * a := Nat.mul_le_mul_right a hu
  rw [Nat.add_mul, Nat.one_mul] at h1
  rw [Nat.mul_comm a b]
  omega

theorem idx_mod (i u a : Nat) (hi : i < a) : (u * a + i) % a = i := by
  rw [Nat.mul_comm, Nat.mul_add_mod, Nat.mod_eq_of_lt hi]

theorem idx_div (i u a : Nat) (hi : i < a) : (u * a + i) / a = u := by
  rw [Nat.mul_comm, Nat.mul_add_div (by omega), Nat.div_eq_of_lt hi, Nat.add_zero]

theorem for_range_zero {σ : Type} (n : Nat) (body : Nat → σ → Except Error σ) (init : σ) :
    for_range 0 n body init = (List.range n).foldlM (fun s i => body i s) init := by
  simp [for_range, List.range_eq_range']

/-- The loops of `tensor_product` never fail and compute the closed form `kron`. -/
theorem Matrix.tensor_product_eq (A B : Matrix R) : A.tensor_product B = .ok (kron A B) := by
  unfold Matrix.tensor_product
  simp only [for_range_zero]
  rw [foldlM_product4 (fun i j u v (result : Matrix R) =>
    (do let b ← B.get u v
        result.set (u * A.rows + i) (v * A.cols + j) (A.raw i j * b)))]
  obtain ⟨s', h1, h2, h3, h4, h5⟩ := foldlM_writes
    (List.range A.rows ×ˢ (List.range A.cols ×ˢ (List.range B.rows ×ˢ List.range B.cols)))
    (fun x (result : Matrix R) =>
      (do let b ← B.get x.2.2.1 x.2.2.2
          result.set (x.2.2.1 * A.rows + x.1) (x.2.2.2 * A.cols + x.2.1)
            (A.raw x.1 x.2.1 * b)))
    (fun x => x.2.2.1 * A.rows + x.1) (fun x => x.2.2.2 * A.cols + x.2.1)
    (fun x => A.raw x.1 x.2.1 * B.raw x.2.2.1 x.2.2.2)
    (fun r c => A.raw (r % A.rows) (c % A.cols) * B.raw (r / A.rows) (c / A.cols))
    (A.rows * B.rows) (A.cols * B.cols)
    (by
      rintro ⟨i, j, u, v⟩ hx s _ _
      simp only [List.mem_product, List.mem_range] at hx
      simp [Matrix.get_eq_raw B u v hx.2.2.1 hx.2.2.2, bind, Except.bind])
    (by
      rintro ⟨i, j, u, v⟩ hx
      simp only [List.mem_product, List.mem_range] at hx
      exact ⟨idx_lt i u _ _ hx.1 hx.2.2.1, idx_lt j v _ _ hx.2.1 hx.2.2.2⟩)
    (by
      rintro ⟨i, j, u, v⟩ hx
      simp only [List.mem_product, List.mem_range] at hx
      simp only [idx_mod i u _ hx.1, idx_mod j v _ hx.2.1, idx_div i u _ hx.1,
        idx_div j v _ hx.2.1])
    (Matrix.init (A.rows * B.rows) (A.cols * B.cols)) (Matrix.wf_init _ _) rfl rfl
  rw [h1]
  congr 1
  apply Matrix.ext_raw _ _ h2 (Matrix.wf_tabulate _ _ _) h3 h4
  intro i j hi hj
  rw [h3] at hi
  rw [h4] at hj
  have hA : 0 < A.rows := Nat.pos_of_ne_zero (fun h => by simp [h] at hi)
  have hC : 0 < A.cols := Nat.pos_of_ne_zero (fun h => by simp [h] at hj)
  rw [h5 i j, if_pos, Matrix.raw_tabulate _ _ _ i j hi hj]
  refine ⟨(i % A.rows, j % A.cols, i / A.rows, j / A.cols), ?_, ?_, ?_⟩
  · simp only [List.mem_product, List.mem_range]
    exact ⟨Nat.mod_lt _ hA, Nat.mod_lt _ hC, Nat.div_lt_of_lt_mul hi, Nat.div_lt_of_lt_mul hj⟩
  · exact Nat.div_add_mod' i A.rows
  · exact Nat.div_add_mod' j A.cols

/-- A fold of in-range accumulating writes at pairwise distinct positions. -/
theorem foldlM_updates (L : List (Nat × Nat)) (body : Nat × Nat → Matrix R → Except Error (Matrix R))
    (d : Nat → Nat → R) (nr nc : Nat) (hnd : L.Nodup)
    (hbody : ∀ x ∈ L, ∀ s : Matrix R, s.wf → s.rows = nr → s.cols = nc →
      body x s = .ok (s.put x.1 x.2 (s.raw x.1 x.2 + d x.1 x.2)))
    (hin : ∀ x ∈ L, x.1 < nr ∧ x.2 < nc)
    (s : Matrix R) (hwf : s.wf) (hr : s.rows = nr) (hc : s.cols = nc) :
    ∃ s', L.foldlM (fun s x => body x s) s = .ok s' ∧ s'.wf ∧ s'.rows = nr ∧ s'.cols = nc ∧
      ∀ i j, s'.raw i j = if (i, j) ∈ L then s.raw i j + d i j else s.raw i j := by
  induction L generalizing s with
  | nil => exact ⟨s, rfl, hwf, hr, hc, by simp⟩
  | cons x L ih =>
    have hx := hin x (List.mem_cons_self _ _)
    have hxL : x ∉ L := (List.nodup_cons.mp hnd).1
    obtain ⟨s', h1, h2, h3, h4, h5⟩ := ih (List.nodup_cons.mp hnd).2
      (fun y hy => hbody y (List.mem_cons_of_mem _ hy))
      (fun y hy => hin y (List.mem_cons_of_mem _ hy))
      (s.put x.1 x.2 (s.raw x.1 x.2 + d x.1 x.2)) (Matrix.wf_put s hwf _ _ _) hr hc
    refine ⟨s', ?_, h2, h3, h4, ?_⟩
    · rw [List.foldlM_cons, hbody x (List.mem_cons_self _ _) s hwf hr hc]
      exact h1
    · intro i j
      rw [h5 i j, Matrix.raw_put s hwf _ _ _ (by omega) (by omega)]
      by_cases hL : (i, j) ∈ L
      · have hne : ¬ (i = x.1 ∧ j = x.2) := by
          rintro ⟨e1, e2⟩
          apply hxL
          have : x = (i, j) := by rw [e1, e2]
          rw [this]; exact hL
        rw [if_pos hL, if_neg hne, if_pos (List.mem_cons_of_mem _ hL)]
      · rw [if_neg hL]
        by_cases hxe : i = x.1 ∧ j = x.2
        · have : (i, j) = x := by rw [hxe.1, hxe.2]
          rw [if_pos hxe, if_pos (by rw [this]; exact List.mem_cons_self _ _), hxe.1, hxe.2]
        · have e2 : (i, j) ∉ x :: L := by
            intro hm
            rcases List.mem_cons.mp hm with e | hm
            · exact hxe ⟨by rw [← e], by rw [← e]⟩
            · exact hL hm
          rw [if_neg hxe, if_neg e2]

/-- The innermost loop of `operator*` adds the dot product to the entry `(i, j)`. -/
theorem Matrix.mul_inner (A B s : Matrix R) (i j : Nat) (hwf : s.wf) (hi : i < s.rows)
    (hj : j < s.cols) (hAB : A.cols = B.rows) (hjB : j < B.cols) :
    for_range 0 A.cols (fun k result => do
        let b ← B.get k j
        let cur ← Matrix.get result i j
        result.set i j (cur + A.raw i k * b)) s
      = .ok (s.put i j (s.raw i j + ∑ k in Finset.range A.cols, A.raw i k * B.raw k j)) := by
  obtain ⟨s', h1, h2, h3, h4, h5⟩ := for_range_inv 0 A.cols
    (fun k result => do
        let b ← B.get k j
        let cur ← Matrix.get result i j
        result.set i j (cur + A.raw i k * b)) s
    (fun n s' => s'.wf ∧ s'.rows = s.rows ∧ s'.cols = s.cols ∧ ∀ r c, s'.raw r c =
      if r = i ∧ c = j then s.raw i j + ∑ k in Finset.range n, A.raw i k * B.raw k j
      else s.raw r c)
    (Nat.zero_le _)
    ⟨hwf, rfl, rfl, by
      intro r c
      by_cases h : r = i ∧ c = j
      · rw [if_pos h, h.1, h.2]; simp
      · rw [if_neg h]⟩
    (by
      intro k s1 _ hk ⟨w1, w2, w3, w4⟩
      refine ⟨s1.put i j (s1.raw i j + A.raw i k * B.raw k j), ?_, Matrix.wf_put s1 w1 _ _ _,
        w2, w3, ?_⟩
      · simp only [Matrix.get_eq_raw B k j (by omega) hjB,
          Matrix.get_eq_raw s1 i j (by omega) (by omega), bind, Except.bind]
        exact Matrix.set_eq_put s1 _ _ _ (by omega) (by omega)
      · intro r c
        have e : s1.raw i j = s.raw i j + ∑ k in Finset.range k, A.raw i k * B.raw k j := by
          rw [w4 i j, if_pos ⟨rfl, rfl⟩]
        rw [Matrix.raw_put s1 w1 _ _ _ (by omega) (by omega)]
        by_cases h : r = i ∧ c = j
        · rw [if_pos h, if_pos h, e, Finset.sum_range_succ, add_assoc]
        · rw [if_neg h, if_neg h, w4 r c, if_neg h])
  rw [h1]
  congr 1
  apply Matrix.ext_raw _ _ h2 (Matrix.wf_put s hwf _ _ _) h3 h4
  intro r c _ _
  rw [h5 r c, Matrix.raw_put s hwf _ _ _ hi hj]

/-- The loops of `operator*` compute the closed form `mmul` when the shapes fit. -/
theorem Matrix.mul_eq (A B : Matrix R) (h : A.cols = B.rows) : A.mul B = .ok (mmul A B) := by
  unfold Matrix.mul
  rw [if_neg (by simpa using h)]
  simp only [for_range_zero A.rows, for_range_zero B.cols]
  rw [foldlM_product2 (fun i j (result : Matrix R) =>
    for_range 0 A.cols (fun k result => do
        let b ← B.get k j
        let cur ← Matrix.get result i j
        result.set i j (cur + A.raw i k * b)) result)]
  obtain ⟨s', h1, h2, h3, h4, h5⟩ := foldlM_updates
    (List.range A.rows ×ˢ List.range B.cols)
    (fun x (result : Matrix R) =>
      for_range 0 A.cols (fun k result => do
        let b ← B.get k x.2
        let cur ← Matrix.get result x.1 x.2
        result.set x.1 x.2 (cur + A.raw x.1 k * b)) result)
    (fun i j => ∑ k in Finset.range A.cols, A.raw i k * B.raw k j)
    A.rows B.cols (List.Nodup.product (List.nodup_range _) (List.nodup_range _))
    (by
      rintro ⟨i, j⟩ hx s hs hr hc
      simp only [List.mem_product, List.mem_range] at hx
      exact Matrix.mul_inner A B s i j hs (by omega) (by omega) h hx.2)
    (by
      rintro ⟨i, j⟩ hx
      simpa only [List.mem_product, List.mem_range] using hx)
    (Matrix.init A.rows B.cols) (Matrix.wf_init _ _) rfl rfl
  rw [h1]
  congr 1
  apply Matrix.ext_raw _ _ h2 (Matrix.wf_tabulate _ _ _) h3 h4
  intro i j hi hj
  rw [h3] at hi
  rw [h4] at hj
  rw [h5 i j, if_pos (by simp [List.mem_product, hi, hj]), Matrix.raw_init, zero_add,
    Matrix.raw_tabulate _ _ _ i j hi hj]

theorem Matrix.mul_shape_error (A B : Matrix R) (h : A.cols ≠ B.rows) :
    A.mul B = .error .DimensionMismatch := by
  unfold Matrix.mul
  rw [if_pos h]

/-- The loops of `operator+` compute the closed form `madd` when the shapes agree. -/
theorem Matrix.add_eq (A B : Matrix R) (hr : A.rows = B.rows) (hc : A.cols = B.cols) :
    A.add B = .ok (madd A B) := by
  unfold Matrix.add
  rw [if_neg (by simp [hr, hc])]
  simp only [for_range_zero]
  rw [foldlM_product2 (fun i j (result : Matrix R) =>
    (do let b ← B.get i j
        result.set i j (A.raw i j + b)))]
  obtain ⟨s', h1, h2, h3, h4, h5⟩ := foldlM_writes
    (List.range A.rows ×ˢ List.range A.cols)
    (fun x (result : Matrix R) =>
      (do let b ← B.get x.1 x.2
          result.set x.1 x.2 (A.raw x.1 x.2 + b)))
    (fun x => x.1) (fun x => x.2) (fun x => A.raw x.1 x.2 + B.raw x.1 x.2)
    (fun i j => A.raw i j + B.raw i j) A.rows A.cols
    (by
      rintro ⟨i, j⟩ hx s _ _
      simp only [List.mem_product, List.mem_range] at hx
      simp [Matrix.get_eq_raw B i j (by omega) (by omega), bind, Except.bind])
    (by
      rintro ⟨i, j⟩ hx
      simpa only [List.mem_product, List.mem_range] using hx)
    (by intro x _; rfl)
    (Matrix.init A.rows A.cols) (Matrix.wf_init _ _) rfl rfl
  rw [h1]
  congr 1
  apply Matrix.ext_raw _ _ h2 (Matrix.wf_tabulate _ _ _) h3 h4
  intro i j hi hj
  rw [h3] at hi
  rw [h4] at hj
  rw [h5 i j, if_pos ⟨(i, j), by simp [List.mem_product, hi, hj], rfl, rfl⟩,
    Matrix.raw_tabulate _ _ _ i j hi hj]

theorem Matrix.transpose_eq (A : Matrix R) :
    A.transpose = .ok (Matrix.tabulate A.cols A.rows (fun r c => A.raw c r)) := by
  unfold Matrix.transpose
  simp only [for_range_zero]
  rw [foldlM_product2 (fun i j (result : Matrix R) => result.set j i (A.raw i j))]
  obtain ⟨s', h1, h2, h3, h4, h5⟩ := foldlM_writes
    (List.range A.rows ×ˢ List.range A.cols)
    (fun x (result : Matrix R) => result.set x.2 x.1 (A.raw x.1 x.2))
    (fun x => x.2) (fun x => x.1) (fun x => A.raw x.1 x.2)
    (fun r c => A.raw c r) A.cols A.rows
    (by intro x _ s _ _; rfl)
    (by
      rintro ⟨i, j⟩ hx
      simp only [List.mem_product, List.mem_range] at hx
      exact ⟨hx.2, hx.1⟩)
    (by intro x _; rfl)
    (Matrix.init A.cols A.rows) (Matrix.wf_init _ _) rfl rfl
  rw [h1]
  congr 1
  apply Matrix.ext_raw _ _ h2 (Matrix.wf_tabulate _ _ _) h3 h4
  intro i j hi hj
  rw [h3] at hi
  rw [h4] at hj
  rw [h5 i j, if_pos ⟨(j, i), by simp [List.mem_product, hi, hj], rfl, rfl⟩,
    Matrix.raw_tabulate _ _ _ i j hi hj]

theorem Matrix.conjugate_eq (A : Matrix R) :
    A.conjugate = .ok (Matrix.tabulate A.rows A.cols (fun i j => star (A.raw i j))) := by
  unfold Matrix.conjugate
  simp only [for_range_zero]
  rw [foldlM_product2 (fun i j (result : Matrix R) => result.set i j (star (A.raw i j)))]
  obtain ⟨s', h1, h2, h3, h4, h5⟩ := foldlM_writes
    (List.range A.rows ×ˢ List.range A.cols)
    (fun x (result : Matrix R) => result.set x.1 x.2 (star (A.raw x.1 x.2)))
    (fun x => x.1) (fun x => x.2) (fun x => star (A.raw x.1 x.2))
    (fun i j => star (A.raw i j)) A.rows A.cols
    (by intro x _ s _ _; rfl)
    (by
      rintro ⟨i, j⟩ hx
      simpa only [List.mem_product, List.mem_range] using hx)
    (by intro x _; rfl)
    (Matrix.init A.rows A.cols) (Matrix.wf_init _ _) rfl rfl
  rw [h1]
  congr 1
  apply Matrix.ext_raw _ _ h2 (Matrix.wf_tabulate _ _ _) h3 h4
  intro i j hi hj
  rw [h3] at hi
  rw [h4] at hj
  rw [h5 i j, if_pos ⟨(i, j), by simp [List.mem_product, hi, hj], rfl, rfl⟩,
    Matrix.raw_tabulate _ _ _ i j hi hj]

/-- The code of `adjoint` computes the closed form `adj`. -/
theorem Matrix.adjoint_eq (A : Matrix R) : A.adjoint = .ok (adj A) := by
  unfold Matrix.adjoint
  rw [Matrix.transpose_eq]
  simp only [bind, Except.bind]
  rw [Matrix.conjugate_eq]
  unfold adj
  congr 1
  refine Matrix.ext_raw _ _ (Matrix.wf_tabulate _ _ _) (Matrix.wf_tabulate _ _ _) ?_ ?_ ?_
  · rfl
  · rfl
  intro i j hi hj
  simp only [Matrix.tabulate_rows, Matrix.tabulate_cols] at hi hj ⊢
  rw [Matrix.raw_tabulate _ _ _ i j hi hj, Matrix.raw_tabulate _ _ _ i j hi hj,
    Matrix.raw_tabulate _ _ _ i j hi hj]

/-- The loop of `identity_matrix` computes the closed form `idm`. -/
theorem identity_matrix_eq (n : Nat) : (identity_matrix n : Except Error (Matrix R)) = .ok (idm n) := by
  unfold identity_matrix
  simp only [for_range_zero]
  obtain ⟨s', h1, h2, h3, h4, h5⟩ := foldlM_writes
    (List.range n)
    (fun i (result : Matrix R) => result.set i i 1)
    (fun x => x) (fun x => x) (fun _ => (1 : R))
    (fun i j => if i = j then 1 else 0) n n
    (by intro x _ s _ _; rfl)
    (by
      intro i hx
      simpa only [List.mem_range, and_self] using hx)
    (by intro x _; simp)
    (Matrix.init n n) (Matrix.wf_init _ _) rfl rfl
  rw [h1]
  congr 1
  apply Matrix.ext_raw _ _ h2 (Matrix.wf_tabulate _ _ _) h3 h4
  intro i j hi hj
  rw [h3] at hi
  rw [h4] at hj
  rw [h5 i j, Matrix.raw_tabulate _ _ _ i j hi hj, Matrix.raw_init]
  by_cases e : i = j
  · subst e
    rw [if_pos ⟨i, List.mem_range.mpr hi, rfl, rfl⟩]
  · rw [if_neg e, if_neg]
    rintro ⟨x, _, rfl, h⟩
    exact e h

theorem perform_tensor_product_loop (pre rest : List (Matrix R)) (init : Matrix R) :
    (List.range' pre.length rest.length).foldlM (fun s i =>
      match (pre ++ rest)[i]? with
      | none => Except.error Error.undefined
      | some m => Matrix.tensor_product s m) init = .ok (rest.foldl kron init) := by
  induction rest generalizing pre init with
  | nil => rfl
  | cons m rest ih =>
    rw [List.length_cons, List.range'_succ, List.foldlM_cons]
    have e : (pre ++ m :: rest)[pre.length]? = some m := by
      rw [List.getElem?_append_right (le_refl _), Nat.sub_self, List.getElem?_cons_zero]
    simp only [e, bind, Except.bind]
    rw [Matrix.tensor_product_eq init m]
    have := ih (pre ++ [m]) (kron init m)
    simpa using this

/-- The code of `perform_tensor_product` computes the left fold `tfold` on a
non-empty list. -/
theorem perform_tensor_product_eq (ms : List (Matrix R)) (h : ms ≠ []) :
    perform_tensor_product ms = .ok (tfold ms) := by
  cases ms with
  | nil => exact absurd rfl h
  | cons first rest =>
    unfold perform_tensor_product for_range
    simp only [List.getElem?_cons_zero, List.length_cons, Nat.add_sub_cancel]
    exact perform_tensor_product_loop [first] rest first

end MatrixLemmas

/-! ## Algebra of the closed forms -/

section Algebra

variable {R : Type} [CommRing R] [StarRing R]

@[simp] theorem kron_rows (A B : Matrix R) : (kron A B).rows = A.rows * B.rows := rfl

@[simp] theorem kron_cols (A B : Matrix R) : (kron A B).cols = A.cols * B.cols := rfl

@[simp] theorem mmul_rows (A B : Matrix R) : (mmul A B).rows = A.rows := rfl

@[simp] theorem mmul_cols (A B : Matrix R) : (mmul A B).cols = B.cols := rfl

@[simp] theorem madd_rows (A B : Matrix R) : (madd A B).rows = A.rows := rfl

@[simp] theorem madd_cols (A B : Matrix R) : (madd A B).cols = A.cols := rfl

@[simp] theorem adj_rows (A : Matrix R) : (adj A).rows = A.cols := rfl

@[simp] theorem adj_cols (A : Matrix R) : (adj A).cols = A.rows := rfl

@[simp] theorem idm_rows (n : Nat) : (idm n : Matrix R).rows = n := rfl

@[simp] theorem idm_cols (n : Nat) : (idm n : Matrix R).cols = n := rfl

theorem kron_wf (A B : Matrix R) : (kron A B).wf := Matrix.wf_tabulate _ _ _

theorem mmul_wf (A B : Matrix R) : (mmul A B).wf := Matrix.wf_tabulate _ _ _

theorem madd_wf (A B : Matrix R) : (madd A B).wf := Matrix.wf_tabulate _ _ _

theorem adj_wf (A : Matrix R) : (adj A).wf := Matrix.wf_tabulate _ _ _

theorem idm_wf (n : Nat) : (idm n : Matrix R).wf := Matrix.wf_tabulate _ _ _

theorem kron_raw (A B : Matrix R) (r c : Nat) (hr : r < A.rows * B.rows)
    (hc : c < A.cols * B.cols) :
    (kron A B).raw r c = A.raw (r % A.rows) (c % A.cols) * B.raw (r / A.rows) (c / A.cols) :=
  Matrix.raw_tabulate _ _ _ r c hr hc

theorem mmul_raw (A B : Matrix R) (i j : Nat) (hi : i < A.rows) (hj : j < B.cols) :
    (mmul A B).raw i j = ∑ k in Finset.range A.cols, A.raw i k * B.raw k j :=
  Matrix.raw_tabulate _ _ _ i j hi hj

theorem madd_raw (A B : Matrix R) (i j : Nat) (hi : i < A.rows) (hj : j < A.cols) :
    (madd A B).raw i j = A.raw i j + B.raw i j :=
  Matrix.raw_tabulate _ _ _ i j hi hj

theorem adj_raw (A : Matrix R) (i j : Nat) (hi : i < A.cols) (hj : j < A.rows) :
    (adj A).raw i j = star (A.raw j i) :=
  Matrix.raw_tabulate _ _ _ i j hi hj

theorem idm_raw (n i j : Nat) (hi : i < n) (hj : j < n) :
    (idm n : Matrix R).raw i j = if i = j then 1 else 0 :=
  Matrix.raw_tabulate _ _ _ i j hi hj

theorem pos_left_of_lt_mul {r a b : Nat} (h : r < a * b) : 0 < a :=
  Nat.pos_of_ne_zero (fun e => by simp [e] at h)

/-- The tensor product of the code is associative. -/
theorem kron_assoc (A B C : Matrix R) : kron (kron A B) C = kron A (kron B C) := by
  refine Matrix.ext_raw _ _ (kron_wf _ _) (kron_wf _ _) ?_ ?_ ?_
  · simp [Nat.mul_assoc]
  · simp [Nat.mul_assoc]
  intro r c hr hc
  simp only [kron_rows, kron_cols] at hr hc
  have hr' : r < A.rows * (B.rows * C.rows) := by rw [← Nat.mul_assoc]; exact hr
  have hc' : c < A.cols * (B.cols * C.cols) := by rw [← Nat.mul_assoc]; exact hc
  have h1 : 0 < A.rows * B.rows := pos_left_of_lt_mul hr
  have h2 : 0 < A.cols * B.cols := pos_left_of_lt_mul hc
  rw [kron_raw _ _ r c (by simpa using hr) (by simpa using hc),
    kron_raw A (kron B C) r c (by simpa using hr') (by simpa using hc')]
  simp only [kron_rows, kron_cols]
  rw [kron_raw A B _ _ (Nat.mod_lt _ h1) (Nat.mod_lt _ h2),
    kron_raw B C _ _ (Nat.div_lt_of_lt_mul hr') (Nat.div_lt_of_lt_mul hc')]
  simp only [Nat.mod_mul_right_mod, Nat.mod_mul_right_div_self,
    Nat.div_div_eq_div_mul, mul_assoc]

/-- The adjoint of a tensor product is the tensor product of the adjoints. -/
theorem adj_kron (A B : Matrix R) : adj (kron A B) = kron (adj A) (adj B) := by
  refine Matrix.ext_raw _ _ (adj_wf _) (kron_wf _ _) ?_ ?_ ?_
  · simp
  · simp
  intro r c hr hc
  simp only [adj_rows, adj_cols, kron_rows, kron_cols] at hr hc
  rw [adj_raw _ r c (by simpa using hr) (by simpa using hc), kron_raw A B c r hc hr,
    kron_raw (adj A) (adj B) r c (by simpa using hr) (by simpa using hc)]
  simp only [adj_rows, adj_cols]
  rw [adj_raw A _ _ (Nat.mod_lt _ (pos_left_of_lt_mul hr)) (Nat.mod_lt _ (pos_left_of_lt_mul hc)),
    adj_raw B _ _ (Nat.div_lt_of_lt_mul hr) (Nat.div_lt_of_lt_mul hc), star_mul']

/-- The tensor product of two identity matrices is an identity matrix. -/
theorem kron_idm (a b : Nat) : kron (idm a : Matrix R) (idm b) = idm (a * b) := by
  refine Matrix.ext_raw _ _ (kron_wf _ _) (idm_wf _) ?_ ?_ ?_
  · simp
  · simp
  intro r c hr hc
  simp only [kron_rows, kron_cols, idm_rows, idm_cols] at hr hc
  have ha : 0 < a := pos_left_of_lt_mul hr
  rw [kron_raw _ _ r c (by simpa using hr) (by simpa using hc), idm_raw _ r c hr hc]
  simp only [idm_rows, idm_cols]
  rw [idm_raw _ _ _ (Nat.mod_lt _ ha) (Nat.mod_lt _ ha),
    idm_raw _ _ _ (Nat.div_lt_of_lt_mul hr) (Nat.div_lt_of_lt_mul hc)]
  by_cases e : r = c
  · subst e; simp
  · have : ¬ (r % a = c % a ∧ r / a = c / a) := by
      rintro ⟨e1, e2⟩
      apply e
      rw [← Nat.div_add_mod' r a, ← Nat.div_add_mod' c a, e1, e2]
    by_cases e1 : r % a = c % a
    · have e2 : ¬ r / a = c / a := fun h => this ⟨e1, h⟩
      simp [e, e1, e2]
    · simp [e, e1]

/-- Left multiplication by the identity. -/
theorem idm_mmul (M : Matrix R) (hM : M.wf) (n : Nat) (hn : M.rows = n) :
    mmul (idm n) M = M := by
  refine Matrix.ext_raw _ _ (mmul_wf _ _) hM ?_ ?_ ?_
  · simp [hn]
  · simp
  intro i j hi hj
  simp only [mmul_rows, mmul_cols, idm_rows] at hi hj
  rw [mmul_raw _ _ i j (by simpa using hi) hj]
  simp only [idm_cols]
  rw [Finset.sum_congr rfl (fun k hk => by
    rw [idm_raw n i k hi (Finset.mem_range.mp hk)])]
  simp [Finset.sum_ite_eq, hi]

/-- Right multiplication by the identity. -/
theorem mmul_idm (M : Matrix R) (hM : M.wf) (n : Nat) (hn : M.cols = n) :
    mmul M (idm n) = M := by
  refine Matrix.ext_raw _ _ (mmul_wf _ _) hM ?_ ?_ ?_
  · simp
  · simp [hn]
  intro i j hi hj
  simp only [mmul_rows, mmul_cols, idm_cols] at hi hj
  rw [mmul_raw _ _ i j hi (by simpa using hj)]
  rw [hn, Finset.sum_congr rfl (fun k hk => by
    rw [idm_raw n k j (Finset.mem_range.mp hk) hj])]
  simp [Finset.sum_ite_eq', hj]

theorem sum_range_mul {M : Type} [AddCommMonoid M] (F : Nat → M) (a b : Nat) :
    ∑ k in Finset.range (a * b), F k
      = ∑ q in Finset.range b, ∑ p in Finset.range a, F (q * a + p) := by
  induction b with
  | zero => simp
  | succ b ih =>
    rw [Nat.mul_succ, Finset.sum_range_add, ih, Finset.sum_range_succ, Nat.mul_comm a b]

/-- The mixed-product property: multiplication acts slot by slot. -/
theorem mmul_kron (A B C D : Matrix R) (h1 : A.cols = C.rows) (h2 : B.cols = D.rows) :
    mmul (kron A B) (kron C D) = kron (mmul A C) (mmul B D) := by
  refine Matrix.ext_raw _ _ (mmul_wf _ _) (kron_wf _ _) ?_ ?_ ?_
  · simp
  · simp
  intro r c hr hc
  simp only [mmul_rows, mmul_cols, kron_rows, kron_cols] at hr hc
  have hA : 0 < A.rows := pos_left_of_lt_mul hr
  have hC : 0 < C.cols := pos_left_of_lt_mul hc
  rw [mmul_raw _ _ r c (by simpa using hr) (by simpa using hc),
    kron_raw (mmul A C) (mmul B D) r c (by simpa using hr) (by simpa using hc)]
  simp only [kron_cols, mmul_rows, mmul_cols]
  rw [mmul_raw A C _ _ (Nat.mod_lt _ hA) (Nat.mod_lt _ hC),
    mmul_raw B D _ _ (Nat.div_lt_of_lt_mul hr) (Nat.div_lt_of_lt_mul hc)]
  rw [sum_range_mul, Finset.sum_mul_sum, Finset.sum_comm]
  apply Finset.sum_congr rfl
  intro p hp
  apply Finset.sum_congr rfl
  intro q hq
  have hq' := Finset.mem_range.mp hq
  have hp' := Finset.mem_range.mp hp
  have hk : q * A.cols + p < A.cols * B.cols := idx_lt p q _ _ hp' hq'
  rw [kron_raw A B r _ hr hk, kron_raw C D _ c (by rw [← h1, ← h2]; exact hk) hc, ← h1,
    idx_mod p q _ hp', idx_div p q _ hp']
  ring

/-! ### Folds of tensor products -/

theorem foldl_kron_assoc (ys : List (Matrix R)) (X y : Matrix R) :
    ys.foldl kron (kron X y) = kron X (ys.foldl kron y) := by
  induction ys generalizing y with
  | nil => rfl
  | cons z ys ih =>
    simp only [List.foldl_cons]
    rw [kron_assoc, ih]

/-- Folding a concatenation is the tensor product of the two folds. -/
theorem tfold_append (xs ys : List (Matrix R)) (hx : xs ≠ []) (hy : ys ≠ []) :
    tfold (xs ++ ys) = kron (tfold xs) (tfold ys) := by
  cases xs with
  | nil => exact absurd rfl hx
  | cons x xs =>
    cases ys with
    | nil => exact absurd rfl hy
    | cons y ys =>
      simp only [tfold, List.cons_append, List.foldl_append, List.foldl_cons]
      exact foldl_kron_assoc ys _ y

theorem tfold_ne_nil_wf (ms : List (Matrix R)) (h : ∀ m ∈ ms, m.wf) (hne : ms ≠ []) :
    (tfold ms).wf := by
  cases ms with
  | nil => exact absurd rfl hne
  | cons x xs =>
    cases xs using List.reverseRecOn with
    | nil => exact h x (List.mem_cons_self _ _)
    | append_singleton xs y _ =>
      simp only [tfold, List.foldl_append, List.foldl_cons, List.foldl_nil]
      exact kron_wf _ _

theorem foldl_kron_rows (xs : List (Matrix R)) (X : Matrix R) :
    (xs.foldl kron X).rows = X.rows * (xs.map Matrix.rows).prod := by
  induction xs generalizing X with
  | nil => simp
  | cons x xs ih => simp [ih, Nat.mul_assoc]

theorem foldl_kron_cols (xs : List (Matrix R)) (X : Matrix R) :
    (xs.foldl kron X).cols = X.cols * (xs.map Matrix.cols).prod := by
  induction xs generalizing X with
  | nil => simp
  | cons x xs ih => simp [ih, Nat.mul_assoc]

theorem tfold_rows (ms : List (Matrix R)) (hne : ms ≠ []) :
    (tfold ms).rows = (ms.map Matrix.rows).prod := by
  cases ms with
  | nil => exact absurd rfl hne
  | cons x xs => simp [tfold, foldl_kron_rows]

theorem tfold_cols (ms : List (Matrix R)) (hne : ms ≠ []) :
    (tfold ms).cols = (ms.map Matrix.cols).prod := by
  cases ms with
  | nil => exact absurd rfl hne
  | cons x xs => simp [tfold, foldl_kron_cols]

theorem foldl_kron_mmul (d : Nat) (xs ys : List (Matrix R)) (X Y : Matrix R)
    (hlen : xs.length = ys.length) (hX : X.cols = Y.rows)
    (hxs : ∀ x ∈ xs, x.cols = d) (hys : ∀ y ∈ ys, y.rows = d) :
    mmul (xs.foldl kron X) (ys.foldl kron Y)
      = (List.zipWith mmul xs ys).foldl kron (mmul X Y) := by
  induction xs generalizing ys X Y with
  | nil =>
    cases ys with
    | nil => rfl
    | cons y ys => simp at hlen
  | cons x xs ih =>
    cases ys with
    | nil => simp at hlen
    | cons y ys =>
      simp only [List.foldl_cons, List.zipWith_cons_cons]
      have hx : x.cols = d := hxs x (List.mem_cons_self _ _)
      have hy : y.rows = d := hys y (List.mem_cons_self _ _)
      rw [ih ys (kron X x) (kron Y y) (by simpa using hlen) (by simp [hX, hx, hy])
        (fun z hz => hxs z (List.mem_cons_of_mem _ hz))
        (fun z hz => hys z (List.mem_cons_of_mem _ hz)),
        mmul_kron X x Y y hX (by rw [hx, hy])]

/-- The product of two folds with matching slots is the fold of the slotwise
products. -/
theorem tfold_mmul (d : Nat) (xs ys : List (Matrix R)) (hlen : xs.length = ys.length)
    (hxs : ∀ x ∈ xs, x.cols = d) (hys : ∀ y ∈ ys, y.rows = d) :
    mmul (tfold xs) (tfold ys) = tfold (List.zipWith mmul xs ys) ∨ xs = [] := by
  cases xs with
  | nil => exact Or.inr rfl
  | cons x xs =>
    cases ys with
    | nil => simp at hlen
    | cons y ys =>
      left
      simp only [tfold, List.zipWith_cons_cons]
      exact foldl_kron_mmul d xs ys x y (by simpa using hlen)
        (by rw [hxs x (List.mem_cons_self _ _), hys y (List.mem_cons_self _ _)])
        (fun z hz => hxs z (List.mem_cons_of_mem _ hz))
        (fun z hz => hys z (List.mem_cons_of_mem _ hz))

theorem foldl_kron_adj (xs : List (Matrix R)) (X : Matrix R) :
    adj (xs.foldl kron X) = (xs.map adj).foldl kron (adj X) := by
  induction xs generalizing X with
  | nil => rfl
  | cons x xs ih =>
    simp only [List.foldl_cons, List.map_cons]
    rw [ih, adj_kron]

/-- The adjoint of a fold is the fold of the adjoints. -/
theorem tfold_adj (xs : List (Matrix R)) (hne : xs ≠ []) :
    adj (tfold xs) = tfold (xs.map adj) := by
  cases xs with
  | nil => exact absurd rfl hne
  | cons x xs => exact foldl_kron_adj xs x

theorem foldl_kron_idm (n m : Nat) :
    (List.replicate n (idm 2 : Matrix R)).foldl kron (idm m) = idm (m * 2 ^ n) := by
  induction n generalizing m with
  | zero => simp
  | succ n ih =>
    simp only [List.replicate_succ, List.foldl_cons]
    rw [kron_idm, ih, Nat.pow_succ, Nat.mul_assoc, Nat.mul_comm 2 (2 ^ n)]

/-- A fold of `n >= 1` identity slots is the identity of size `2 ^ n`. -/
theorem tfold_replicate_idm (n : Nat) (hn : 0 < n) :
    tfold (List.replicate n (idm 2 : Matrix R)) = idm (2 ^ n) := by
  cases n with
  | zero => exact absurd hn (by decide)
  | succ n =>
    simp only [List.replicate_succ, tfold]
    rw [foldl_kron_idm, Nat.pow_succ, Nat.mul_comm]

/-! ### Sums and zero factors -/

theorem kron_madd_left (A B C : Matrix R) (h : same_shape A B) :
    kron (madd A B) C = madd (kron A C) (kron B C) := by
  obtain ⟨hr, hc⟩ := h
  refine Matrix.ext_raw _ _ (kron_wf _ _) (madd_wf _ _) rfl rfl ?_
  intro r c hr' hc'
  simp only [kron_rows, kron_cols, madd_rows, madd_cols] at hr' hc'
  rw [kron_raw _ _ r c (by simpa using hr') (by simpa using hc'),
    madd_raw _ _ r c (by simpa using hr') (by simpa using hc'), kron_raw A C r c hr' hc',
    kron_raw B C r c (by rw [← hr]; exact hr') (by rw [← hc]; exact hc')]
  simp only [madd_rows, madd_cols]
  rw [madd_raw A B _ _ (Nat.mod_lt _ (pos_left_of_lt_mul hr'))
    (Nat.mod_lt _ (pos_left_of_lt_mul hc')), ← hr, ← hc, add_mul]

theorem kron_madd_right (A B C : Matrix R) (h : same_shape B C) :
    kron A (madd B C) = madd (kron A B) (kron A C) := by
  obtain ⟨hr, hc⟩ := h
  refine Matrix.ext_raw _ _ (kron_wf _ _) (madd_wf _ _) rfl rfl ?_
  intro r c hr' hc'
  simp only [kron_rows, kron_cols, madd_rows, madd_cols] at hr' hc'
  rw [kron_raw _ _ r c (by simpa using hr') (by simpa using hc'),
    madd_raw _ _ r c (by simpa using hr') (by simpa using hc'), kron_raw A B r c hr' hc',
    kron_raw A C r c (by rw [← hr]; exact hr') (by rw [← hc]; exact hc'),
    madd_raw B C _ _ (Nat.div_lt_of_lt_mul hr') (Nat.div_lt_of_lt_mul hc'), mul_add]

theorem same_shape_kron_left (A B C : Matrix R) (h : same_shape A B) :
    same_shape (kron A C) (kron B C) := by
  obtain ⟨hr, hc⟩ := h
  exact ⟨by simp [hr], by simp [hc]⟩

theorem same_shape_kron_right (A B C : Matrix R) (h : same_shape B C) :
    same_shape (kron A B) (kron A C) := by
  obtain ⟨hr, hc⟩ := h
  exact ⟨by simp [hr], by simp [hc]⟩

theorem foldl_kron_madd (post : List (Matrix R)) (A B : Matrix R) (h : same_shape A B) :
    post.foldl kron (madd A B) = madd (post.foldl kron A) (post.foldl kron B) := by
  induction post generalizing A B with
  | nil => rfl
  | cons x post ih =>
    simp only [List.foldl_cons]
    rw [kron_madd_left A B x h, ih _ _ (same_shape_kron_left A B x h)]

theorem ktimes_madd (pre : List (Matrix R)) (A B : Matrix R) (h : same_shape A B) :
    ktimes pre (madd A B) = madd (ktimes pre A) (ktimes pre B) := by
  cases pre with
  | nil => rfl
  | cons p ps => exact kron_madd_right _ A B h

theorem same_shape_ktimes (pre : List (Matrix R)) (A B : Matrix R) (h : same_shape A B) :
    same_shape (ktimes pre A) (ktimes pre B) := by
  cases pre with
  | nil => exact h
  | cons p ps => exact same_shape_kron_right _ A B h

/-- A fold with the slot `X` between the slots `pre` and `post`. -/
theorem tfold_insert (pre post : List (Matrix R)) (X : Matrix R) :
    tfold (pre ++ X :: post) = post.foldl kron (ktimes pre X) := by
  cases pre with
  | nil => rfl
  | cons p ps =>
    simp only [List.cons_append, tfold, List.foldl_append, List.foldl_cons, ktimes]

/-- A fold with the slots `mid` between `pre` and `post` folds `mid` first:
the fold does not depend on the grouping. -/
theorem tfold_insert_list (pre mid post : List (Matrix R)) (hmid : mid ≠ []) :
    tfold (pre ++ mid ++ post) = post.foldl kron (ktimes pre (tfold mid)) := by
  cases pre with
  | nil =>
    cases mid with
    | nil => exact absurd rfl hmid
    | cons m ms => simp only [List.nil_append, List.cons_append, tfold, List.foldl_append, ktimes]
  | cons p ps =>
    have e : tfold ((p :: ps) ++ mid ++ post) = post.foldl kron (tfold ((p :: ps) ++ mid)) := by
      simp only [List.cons_append, tfold, List.foldl_append]
    rw [e, tfold_append _ _ (List.cons_ne_nil _ _) hmid]
    rfl

theorem mmul_madd_left (A B C : Matrix R) (h : same_shape A B) :
    mmul (madd A B) C = madd (mmul A C) (mmul B C) := by
  obtain ⟨hr, hc⟩ := h
  refine Matrix.ext_raw _ _ (mmul_wf _ _) (madd_wf _ _) rfl rfl ?_
  intro i j hi hj
  simp only [mmul_rows, mmul_cols, madd_rows, madd_cols] at hi hj
  rw [mmul_raw _ _ i j (by simpa using hi) hj, madd_raw _ _ i j (by simpa using hi)
    (by simpa using hj), mmul_raw A C i j hi hj, mmul_raw B C i j (by rw [← hr]; exact hi) hj,
    ← hc, ← Finset.sum_add_distrib]
  apply Finset.sum_congr rfl
  intro k hk
  rw [madd_raw A B i k hi (Finset.mem_range.mp hk), add_mul]

theorem is_zero_init (r c : Nat) : is_zero (Matrix.init r c : Matrix R) :=
  fun i j _ _ => Matrix.raw_init r c i j

theorem kron_zero_left (A B : Matrix R) (h : is_zero A) : is_zero (kron A B) := by
  intro r c hr hc
  simp only [kron_rows, kron_cols] at hr hc
  rw [kron_raw A B r c hr hc, h _ _ (Nat.mod_lt _ (pos_left_of_lt_mul hr))
    (Nat.mod_lt _ (pos_left_of_lt_mul hc)), zero_mul]

theorem kron_zero_right (A B : Matrix R) (h : is_zero B) : is_zero (kron A B) := by
  intro r c hr hc
  simp only [kron_rows, kron_cols] at hr hc
  rw [kron_raw A B r c hr hc, h _ _ (Nat.div_lt_of_lt_mul hr) (Nat.div_lt_of_lt_mul hc),
    mul_zero]

theorem foldl_kron_zero_init (xs : List (Matrix R)) (X : Matrix R) (h : is_zero X) :
    is_zero (xs.foldl kron X) := by
  induction xs generalizing X with
  | nil => exact h
  | cons x xs ih => exact ih _ (kron_zero_left X x h)

theorem foldl_kron_zero_mem (xs : List (Matrix R)) (X : Matrix R)
    (h : ∃ x ∈ xs, is_zero x) : is_zero (xs.foldl kron X) := by
  induction xs generalizing X with
  | nil =>
    obtain ⟨x, hx, _⟩ := h
    exact absurd hx (List.not_mem_nil x)
  | cons y xs ih =>
    obtain ⟨x, hx, hz⟩ := h
    rcases List.mem_cons.mp hx with e | hx
    · subst e
      exact foldl_kron_zero_init xs _ (kron_zero_right X x hz)
    · exact ih _ ⟨x, hx, hz⟩

/-- A fold with a zero slot is a zero matrix. -/
theorem tfold_zero (ms : List (Matrix R)) (h : ∃ m ∈ ms, is_zero m) : is_zero (tfold ms) := by
  cases ms with
  | nil =>
    obtain ⟨x, hx, _⟩ := h
    exact absurd hx (List.not_mem_nil x)
  | cons y ys =>
    obtain ⟨x, hx, hz⟩ := h
    rcases List.mem_cons.mp hx with e | hx
    · subst e
      exact foldl_kron_zero_init ys _ hz
    · exact foldl_kron_zero_mem ys y ⟨x, hx, hz⟩

theorem madd_zero_right (A B : Matrix R) (hA : A.wf) (h : same_shape A B) (hz : is_zero B) :
    madd A B = A := by
  refine Matrix.ext_raw _ _ (madd_wf _ _) hA rfl rfl ?_
  intro i j hi hj
  simp only [madd_rows, madd_cols] at hi hj
  rw [madd_raw A B i j hi hj, hz i j (by rw [← h.1]; exact hi) (by rw [← h.2]; exact hj),
    add_zero]

theorem madd_zero_left (A B : Matrix R) (hB : B.wf) (h : same_shape A B) (hz : is_zero A) :
    madd A B = B := by
  refine Matrix.ext_raw _ _ (madd_wf _ _) hB h.1 h.2 ?_
  intro i j hi hj
  simp only [madd_rows, madd_cols] at hi hj
  rw [madd_raw A B i j hi hj, hz i j hi hj, zero_add]

theorem tfold_cols_one (ms : List (Matrix R)) (hne : ms ≠ []) (h : ∀ m ∈ ms, m.cols = 1) :
    (tfold ms).cols = 1 := by
  rw [tfold_cols ms hne, List.prod_eq_pow_card _ 1 (by
    intro x hx
    obtain ⟨m, hm, rfl⟩ := List.mem_map.mp hx
    exact h m hm), one_pow]

theorem mem_zipWith {α β γ : Type} (f : α → β → γ) (l : List α) (l' : List β) (z : γ)
    (h : z ∈ List.zipWith f l l') : ∃ x ∈ l, ∃ y ∈ l', z = f x y := by
  induction l generalizing l' with
  | nil => simp at h
  | cons a l ih =>
    cases l' with
    | nil => simp at h
    | cons b l' =>
      rw [List.zipWith_cons_cons, List.mem_cons] at h
      rcases h with e | h
      · exact ⟨a, List.mem_cons_self _ _, b, List.mem_cons_self _ _, e⟩
      · obtain ⟨x, hx, y, hy, e⟩ := ih l' h
        exact ⟨x, List.mem_cons_of_mem _ hx, y, List.mem_cons_of_mem _ hy, e⟩

end Algebra

/-! ## The circuit grid -/

section Grid

variable {R : Type} [CommRing R] [StarRing R]

theorem read_at_eq {α : Type} (v : List α) (i : Nat) (hi : i < v.length) :
    read_at v i = .ok (v.get ⟨i, hi⟩) := by
  simp [read_at, List.getElem?_eq_getElem hi]

theorem assign_at_eq {α : Type} (v : List α) (i : Nat) (x : α) (hi : i < v.length) :
    assign_at v i x = .ok (v.set i x) := by
  simp [assign_at, hi]

theorem any_of_eq (p : Nat → Except Error Bool) (q : Nat → Bool) (l : List Nat)
    (h : ∀ i ∈ l, p i = .ok (q i)) : any_of p l = .ok (l.any q) := by
  induction l with
  | nil => rfl
  | cons i l ih =>
    have hi := h i (List.mem_cons_self _ _)
    have ih' := ih (fun j hj => h j (List.mem_cons_of_mem _ hj))
    simp only [any_of, hi, bind, Except.bind, List.any_cons]
    cases q i <;> simp [ih', pure, Except.pure]

theorem any_range_getElem {α : Type} (l : List α) (q : α → Bool) (d : α) :
    (List.range l.length).any (fun j => q (l.getD j d)) = l.any q := by
  rw [Bool.eq_iff_iff]
  simp only [List.any_eq_true, List.mem_range]
  constructor
  · rintro ⟨j, hj, hq⟩
    rw [List.getD_eq_getElem l d hj] at hq
    exact ⟨_, List.getElem_mem hj, hq⟩
  · rintro ⟨x, hx, hq⟩
    obtain ⟨j, hj, rfl⟩ := List.getElem_of_mem hx
    exact ⟨j, hj, by rw [List.getD_eq_getElem l d hj]; exact hq⟩

theorem any_of_read {α : Type} (l : List α) (q : α → Bool) :
    any_of (fun j => do
      let c ← read_at l j
      pure (q c)) (List.range l.length) = .ok (l.any q) := by
  cases l with
  | nil => rfl
  | cons d l =>
    rw [any_of_eq _ (fun j => q ((d :: l).getD j d)) _ (by
      intro j hj
      have hj' := List.mem_range.mp hj
      rw [read_at_eq _ j hj']
      simp only [List.getD_eq_getElem _ d hj']
      rfl)]
    rw [any_range_getElem]

/-- The scan of `is_gate_in_circuit` returns whether some cell holds the pointer. -/
theorem QuantumCircuit.is_gate_in_circuit_eq (qc : QuantumCircuit R) (gate : shared_ptr R)
    (hlen : qc.components.length = qc.register_size) :
    qc.is_gate_in_circuit gate
      = .ok (qc.components.any (fun lane => lane.any (fun c => c.addr == gate.addr))) := by
  unfold QuantumCircuit.is_gate_in_circuit
  simp only [any_of_read]
  rw [← hlen]
  exact any_of_read qc.components (fun lane => lane.any (fun c => c.addr == gate.addr))

theorem QuantumCircuit.any_iff_occupies (qc : QuantumCircuit R) (gate : shared_ptr R) :
    qc.components.any (fun lane => lane.any (fun c => c.addr == gate.addr)) = true
      ↔ qc.occupies gate := by
  simp [QuantumCircuit.occupies, List.any_eq_true]

theorem IGate_eq (i : Nat) :
    (IGate i : Except Error (SingleGate R))
      = .ok { qubit_index := i, symbol := "I", matrix := idm 2 } := by
  simp [IGate, identity_matrix_eq, bind, Except.bind, pure, Except.pure]

theorem evolved_length (h : Heap) (comps : List (List (shared_ptr R))) :
    (evolved h comps).length = comps.length := by
  simp [evolved]

theorem evolved_getElem (h : Heap) (comps : List (List (shared_ptr R))) (i : Nat)
    (hi : i < comps.length) :
    (evolved h comps)[i]? = some (comps.get ⟨i, hi⟩ ++ [{ addr := h.next + i, obj := placeholder i }]) := by
  simp [evolved, List.getElem?_zipWith, List.getElem?_eq_getElem hi, List.getElem?_range hi]

/-- The loop of `evolve()` never fails on a grid with one lane per register and
computes the closed form `evolved`. -/
theorem QuantumCircuit.evolve_eq (h : Heap) (qc : QuantumCircuit R)
    (hlen : qc.components.length = qc.register_size) :
    qc.evolve h = .ok ({ next := h.next + qc.register_size },
      { qc with components := evolved h qc.components, total_steps := qc.total_steps + 1 }) := by
  obtain ⟨st, h1, h2, h3, h4⟩ := for_range_inv 0 qc.register_size
    (fun i (st : Heap × List (List (shared_ptr R))) => do
      let g : SingleGate R ← IGate i
      let (h, p) := make_shared st.1 (QuantumComponent.single g)
      let lane ← read_at st.2 i
      let components ← assign_at st.2 i (lane ++ [p])
      pure (h, components)) (h, qc.components)
    (fun i st => st.1 = { next := h.next + i } ∧ st.2.length = qc.register_size ∧
      ∀ j, st.2[j]? = if j < i then (evolved h qc.components)[j]? else qc.components[j]?)
    (Nat.zero_le _) ⟨rfl, hlen, by intro j; simp⟩
    (by
      rintro i ⟨hp, cs⟩ _ hi ⟨e1, e2, e3⟩
      simp only at e1 e2 e3
      subst e1
      have hi' : i < cs.length := by omega
      have hi2 : i < qc.components.length := by omega
      have hlane : cs.get ⟨i, hi'⟩ = qc.components.get ⟨i, hi2⟩ := by
        have := e3 i
        rw [if_neg (Nat.lt_irrefl i), List.getElem?_eq_getElem hi',
          List.getElem?_eq_getElem hi2] at this
        exact Option.some.inj this
      refine ⟨({ next := h.next + (i + 1) }, cs.set i (cs.get ⟨i, hi'⟩ ++
        [{ addr := h.next + i, obj := placeholder i }])), ?_, rfl, by simpa using e2, ?_⟩
      · simp only [IGate_eq, make_shared, read_at_eq cs i hi', bind, Except.bind,
          assign_at_eq cs i _ hi', pure, Except.pure]
        rfl
      · intro j
        simp only [List.getElem?_set]
        by_cases hj : i = j
        · subst hj
          rw [if_pos rfl, if_pos hi', if_pos (Nat.lt_succ_self i), evolved_getElem h _ i hi2,
            hlane]
        · rw [if_neg hj, e3 j]
          by_cases hlt : j < i
          · rw [if_pos hlt, if_pos (by omega)]
          · rw [if_neg hlt, if_neg (by omega)])
  unfold QuantumCircuit.evolve
  rw [h1]
  obtain ⟨hp, cs⟩ := st
  simp only at h2 h3 h4
  subst h2
  have : cs = evolved h qc.components := by
    apply List.ext_getElem? 
    intro j
    rw [h4 j]
    by_cases hj : j < qc.register_size
    · rw [if_pos hj]
    · rw [if_neg hj, List.getElem?_eq_none (by omega),
        List.getElem?_eq_none (by rw [evolved_length]; omega)]
  subst this
  rfl

theorem QuantumCircuit.cell_def (qc : QuantumCircuit R) (i j : Nat) :
    qc.cell i j = match grid_at qc.components i j with
      | some p => .ok p
      | none => .error .undefined := by
  unfold QuantumCircuit.cell grid_at read_at
  cases h1 : qc.components[i]? with
  | none => rfl
  | some lane =>
    simp only [bind, Except.bind, Option.bind]
    cases h2 : lane[j]? <;> rfl

theorem QuantumCircuit.cell_ok_iff (qc : QuantumCircuit R) (i j : Nat) (p : shared_ptr R) :
    qc.cell i j = .ok p ↔ grid_at qc.components i j = some p := by
  rw [QuantumCircuit.cell_def]
  cases grid_at qc.components i j with
  | none => simp
  | some q => simp

theorem grid_at_put (comps : List (List (shared_ptr R))) (r s : Nat) (g : shared_ptr R)
    (i j : Nat) :
    grid_at (grid_put comps r s g) i j
      = if i = r ∧ j = s ∧ (grid_at comps r s).isSome then some g else grid_at comps i j := by
  unfold grid_at grid_put
  rw [List.getElem?_set]
  by_cases hi : r = i
  · subst hi
    by_cases hr : r < comps.length
    · simp only [if_true, hr, Option.bind, List.getD_eq_getElem?_getD,
        List.getElem?_eq_getElem hr, Option.getD_some, List.getElem?_set, true_and]
      by_cases hj : s = j
      · subst hj
        by_cases hs : s < comps[r].length
        · simp [hs, List.getElem?_eq_getElem hs]
        · simp [hs, List.getElem?_eq_none (not_lt.mp hs)]
      · have hj' : ¬ j = s := fun e => hj e.symm
        simp [hj, hj']
    · simp [hr, List.getElem?_eq_none (not_lt.mp hr)]
  · have hi' : ¬ i = r := fun e => hi e.symm
    simp [hi, hi']

theorem grid_put_length (comps : List (List (shared_ptr R))) (r s : Nat) (g : shared_ptr R) :
    (grid_put comps r s g).length = comps.length := by
  simp [grid_put]

theorem grid_at_evolved (h : Heap) (comps : List (List (shared_ptr R))) (i j : Nat) :
    grid_at (evolved h comps) i j
      = match comps[i]? with
        | none => none
        | some lane =>
          if j < lane.length then lane[j]?
          else if j = lane.length then some { addr := h.next + i, obj := placeholder i }
          else none := by
  unfold grid_at
  by_cases hi : i < comps.length
  · rw [evolved_getElem h comps i hi, List.getElem?_eq_getElem hi]
    simp only [Option.bind, List.get_eq_getElem]
    by_cases hj : j < comps[i].length
    · rw [if_pos hj, List.getElem?_append_left hj]
    · rw [if_neg hj, List.getElem?_append_right (not_lt.mp hj)]
      by_cases hj2 : j = comps[i].length
      · subst hj2; simp
      · rw [if_neg hj2]
        have : j - comps[i].length ≠ 0 := by omega
        cases hk : j - comps[i].length with
        | zero => exact absurd hk this
        | succ k => simp
  · rw [List.getElem?_eq_none (by rw [evolved_length]; omega),
      List.getElem?_eq_none (not_lt.mp hi)]
    rfl

/-- Closed form of `replace_component` on an existing cell, for a pointer that
is not in the grid and a gate that fits. -/
theorem QuantumCircuit.replace_component_eq (qc : QuantumCircuit R) (g : shared_ptr R)
    (r s : Nat) (hlen : qc.components.length = qc.register_size)
    (hnot : ¬ qc.occupies g) (hfit : g.obj.can_gate_fit qc.register_size = true)
    (hcell : (grid_at qc.components r s).isSome) :
    qc.replace_component g r s
      = .ok { qc with components := grid_put qc.components r s g } := by
  unfold QuantumCircuit.replace_component
  rw [QuantumCircuit.is_gate_in_circuit_eq qc g hlen]
  have hb : qc.components.any (fun lane => lane.any (fun c => c.addr == g.addr)) = false := by
    rw [Bool.eq_false_iff]
    intro hh
    exact hnot ((QuantumCircuit.any_iff_occupies qc g).mp hh)
  unfold grid_at at hcell
  have hr : r < qc.components.length := by
    by_contra hr
    rw [List.getElem?_eq_none (not_lt.mp hr)] at hcell
    simp at hcell
  rw [List.getElem?_eq_getElem hr] at hcell
  simp only [Option.bind] at hcell
  have hs : s < (qc.components[r]).length := by
    by_contra hs
    rw [List.getElem?_eq_none (not_lt.mp hs)] at hcell
    simp at hcell
  simp only [hb, hfit, bind, Except.bind, read_at_eq _ r hr, pure, Except.pure]
  have e1 : assign_at (qc.components[r]) s g = .ok ((qc.components[r]).set s g) :=
    assign_at_eq _ s g hs
  simp only [Bool.false_eq_true, if_false, Bool.not_true, assign_at_eq _ r _ hr, grid_put,
    List.getD_eq_getElem?_getD, List.getElem?_eq_getElem hr, Option.getD_some,
    List.get_eq_getElem]
  rw [e1]

theorem QuantumCircuit.scan_false (qc : QuantumCircuit R) (g : shared_ptr R)
    (hnot : ¬ qc.occupies g) :
    qc.components.any (fun lane => lane.any (fun c => c.addr == g.addr)) = false := by
  rw [Bool.eq_false_iff]
  intro hh
  exact hnot ((QuantumCircuit.any_iff_occupies qc g).mp hh)

theorem QuantumCircuit.add_component_dup (h : Heap) (qc : QuantumCircuit R) (g : shared_ptr R)
    (hlen : qc.components.length = qc.register_size) (hocc : qc.occupies g) :
    qc.add_component h g = .error .DuplicateGateInsertion := by
  unfold QuantumCircuit.add_component
  rw [QuantumCircuit.is_gate_in_circuit_eq qc g hlen,
    (QuantumCircuit.any_iff_occupies qc g).mpr hocc]
  rfl

theorem QuantumCircuit.add_component_nofit (h : Heap) (qc : QuantumCircuit R) (g : shared_ptr R)
    (hlen : qc.components.length = qc.register_size) (hnot : ¬ qc.occupies g)
    (hfit : g.obj.can_gate_fit qc.register_size = false) :
    qc.add_component h g = .error .GateDoesNotFit := by
  unfold QuantumCircuit.add_component
  rw [QuantumCircuit.is_gate_in_circuit_eq qc g hlen, QuantumCircuit.scan_false qc g hnot]
  simp only [hfit, bind, Except.bind, pure, Except.pure]
  rfl

theorem to_index_eq (s : Nat) : to_index (s : Int) = .ok s := by
  simp [to_index]

theorem occupies_evolved (h : Heap) (qc : QuantumCircuit R) (g : shared_ptr R)
    (hg : g.addr < h.next) (hnot : ¬ qc.occupies g) (ts : Int) :
    ¬ ({ qc with components := evolved h qc.components, total_steps := ts } :
        QuantumCircuit R).occupies g := by
  rintro ⟨lane, hl, p, hp, hpa⟩
  simp only at hl
  obtain ⟨i, hi, rfl⟩ := List.getElem_of_mem hl
  rw [evolved_length] at hi
  have := evolved_getElem h qc.components i hi
  rw [List.getElem?_eq_getElem (by rw [evolved_length]; exact hi)] at this
  rw [Option.some.inj this] at hp
  rcases List.mem_append.mp hp with hp | hp
  · exact hnot ⟨_, List.getElem_mem hi, p, hp, hpa⟩
  · rw [List.mem_singleton] at hp
    rw [hp] at hpa
    simp only at hpa
    omega

/-- Closed form of `add_component` for a `SingleGate` that is not in the grid
and fits: the gate replaces the placeholder of its lane in the last step, or
the grid is first evolved when that cell is taken. -/
theorem QuantumCircuit.add_component_single_eq (h : Heap) (qc : QuantumCircuit R)
    (g c0 : shared_ptr R) (sg : SingleGate R) (s : Nat)
    (hlen : qc.components.length = qc.register_size) (hs : qc.total_steps = (s : Int))
    (hobj : g.obj = .single sg) (hnot : ¬ qc.occupies g) (hg : g.addr < h.next)
    (hfit : sg.qubit_index < qc.register_size)
    (hc0 : grid_at qc.components sg.qubit_index s = some c0)
    (hnew : (grid_at (evolved h qc.components) sg.qubit_index (s + 1)).isSome) :
    qc.add_component h g =
      if c0.obj.get_symbol = "I" then
        .ok (h, { qc with components := grid_put qc.components sg.qubit_index s g })
      else
        .ok ({ next := h.next + qc.register_size },
          { qc with components := grid_put (evolved h qc.components) sg.qubit_index (s + 1) g,
                    total_steps := (s : Int) + 1 }) := by
  have hfit' : g.obj.can_gate_fit qc.register_size = true := by
    simp [hobj, QuantumComponent.can_gate_fit, SingleGate.can_gate_fit, hfit]
  have ht : g.obj.get_gate_type = "SingleGate" := by rw [hobj]; rfl
  have hidx : g.obj.get_index = sg.qubit_index := by rw [hobj]; rfl
  unfold QuantumCircuit.add_component
  rw [QuantumCircuit.is_gate_in_circuit_eq qc g hlen, QuantumCircuit.scan_false qc g hnot]
  simp only [hfit', ht, hidx, hs,
    to_index_eq, (QuantumCircuit.cell_ok_iff qc _ _ c0).mpr hc0, bind, Except.bind, pure,
    Except.pure, Bool.false_eq_true, if_false, Bool.not_true, if_true]
  by_cases hI : c0.obj.get_symbol = "I"
  · simp only [hI, ne_eq, not_true_eq_false, if_false, if_true, hs, to_index_eq]
    rw [QuantumCircuit.replace_component_eq qc g sg.qubit_index s hlen hnot hfit'
      (by rw [hc0]; rfl)]
    simp only [hs]
  · simp only [hI, ne_eq, not_false_eq_true, if_true, if_false,
      QuantumCircuit.evolve_eq h qc hlen, hs]
    have e : ((s : Int) + 1) = ((s + 1 : Nat) : Int) := by push_cast; rfl
    rw [e, to_index_eq]
    have := QuantumCircuit.replace_component_eq
      ({ qc with components := evolved h qc.components, total_steps := ((s + 1 : Nat) : Int) })
      g sg.qubit_index (s + 1) (by simpa [evolved_length] using hlen)
      (occupies_evolved h qc g hg hnot _) hfit' hnew
    simp only at this
    simp only [this]

/-- The scan of `is_step_empty` on an existing step returns `step_empty`. -/
theorem QuantumCircuit.is_step_empty_eq (qc : QuantumCircuit R) (s : Nat)
    (hlen : qc.components.length = qc.register_size)
    (hs : ∀ lane ∈ qc.components, s < lane.length) :
    qc.is_step_empty s = .ok (step_empty qc.components s) := by
  unfold QuantumCircuit.is_step_empty
  rw [any_of_eq _ (fun i => (fun lane : List (shared_ptr R) => match lane[s]? with
      | some p => p.obj.get_symbol != "I"
      | none => false) (qc.components.getD i [])) _ (by
    intro i hi
    have hi' : i < qc.components.length := by rw [hlen]; exact List.mem_range.mp hi
    have hsi := hs _ (List.getElem_mem hi')
    simp only [QuantumCircuit.cell, read_at_eq _ i hi', bind, Except.bind,
      List.get_eq_getElem, read_at_eq _ s hsi, pure, Except.pure,
      List.getD_eq_getElem _ _ hi', List.getElem?_eq_getElem hsi])]
  have key := any_range_getElem qc.components (fun lane : List (shared_ptr R) =>
    match lane[s]? with
      | some p => p.obj.get_symbol != "I"
      | none => false) []
  rw [← hlen]
  simp only [key, bind, Except.bind, pure, Except.pure, step_empty]
  congr 1
  rw [Bool.eq_iff_iff]
  simp only [Bool.not_eq_true', List.any_eq_false, List.all_eq_true]
  constructor
  · intro hh lane hl
    have := hh lane hl
    cases hls : lane[s]? with
    | none => rfl
    | some p =>
      rw [hls] at this
      simpa using this
  · intro hh lane hl
    have := hh lane hl
    cases hls : lane[s]? with
    | none => simp
    | some p =>
      rw [hls] at this
      simpa using this

theorem grid_put_occupies_length (comps : List (List (shared_ptr R))) (r s : Nat)
    (g : shared_ptr R) (k : Nat) (hk : ∀ lane ∈ comps, lane.length = k) :
    ∀ lane ∈ grid_put comps r s g, lane.length = k := by
  intro lane hl
  unfold grid_put at hl
  rcases List.mem_or_eq_of_mem_set hl with hm | he
  · exact hk lane hm
  · subst he
    rw [List.length_set, List.getD_eq_getElem?_getD]
    by_cases hr : r < comps.length
    · rw [List.getElem?_eq_getElem hr]
      exact hk _ (List.getElem_mem hr)
    · rw [List.set_eq_of_length_le (not_lt.mp hr)] at hl
      have := hk _ hl
      rw [List.length_set, List.getD_eq_getElem?_getD] at this
      exact this

/-- Closed form of `add_component` for a `MultiGate` or `ControlledGate` that
is not in the grid and fits. -/
theorem QuantumCircuit.add_component_multi_eq (h : Heap) (qc : QuantumCircuit R)
    (g : shared_ptr R) (s : Nat)
    (hlen : qc.components.length = qc.register_size) (hs : qc.total_steps = (s : Int))
    (hlanes : ∀ lane ∈ qc.components, lane.length = s + 1)
    (ht : g.obj.get_gate_type = "MultiGate") (hnot : ¬ qc.occupies g) (hg : g.addr < h.next)
    (hfit : g.obj.can_gate_fit qc.register_size = true)
    (ha : g.obj.get_index < qc.register_size) :
    qc.add_component h g =
      if step_empty qc.components s then
        .ok ({ next := h.next + qc.register_size },
          { qc with components := evolved h (grid_put qc.components g.obj.get_index s g),
                    total_steps := (s : Int) + 1 })
      else
        .ok ({ next := h.next + qc.register_size + qc.register_size },
          { qc with components := evolved { next := h.next + qc.register_size }
                      (grid_put (evolved h qc.components) g.obj.get_index (s + 1) g),
                    total_steps := (s : Int) + 1 + 1 }) := by
  have ha' : g.obj.get_index < qc.components.length := by omega
  have hla := hlanes _ (List.getElem_mem ha')
  have hcell : (grid_at qc.components g.obj.get_index s).isSome := by
    unfold grid_at
    rw [List.getElem?_eq_getElem ha']
    simp only [Option.bind]
    rw [List.getElem?_eq_getElem (by omega)]
    rfl
  have hnew : (grid_at (evolved h qc.components) g.obj.get_index (s + 1)).isSome := by
    rw [grid_at_evolved, List.getElem?_eq_getElem ha']
    simp only
    rw [if_neg (by omega), if_pos (by omega)]
    rfl
  have hne : ¬ ("MultiGate" = "SingleGate") := by decide
  unfold QuantumCircuit.add_component
  rw [QuantumCircuit.is_gate_in_circuit_eq qc g hlen, QuantumCircuit.scan_false qc g hnot]
  simp only [hfit, ht, hs, hne, to_index_eq, bind, Except.bind, pure,
    Except.pure, Bool.false_eq_true, if_false, Bool.not_true, if_true,
    QuantumCircuit.is_step_empty_eq qc s hlen (fun lane hl => by rw [hlanes lane hl]; omega)]
  by_cases hE : step_empty qc.components s = true
  · simp only [hE, Bool.not_true, Bool.false_eq_true, if_false, if_true, hs, to_index_eq]
    rw [QuantumCircuit.replace_component_eq qc g _ s hlen hnot hfit hcell]
    simp only
    rw [QuantumCircuit.evolve_eq h _ (by simpa [grid_put_length] using hlen)]
    simp only [hs]
  · simp only [hE, Bool.not_false, if_true, if_false, Bool.false_eq_true,
      QuantumCircuit.evolve_eq h qc hlen, hs]
    have e : ((s : Int) + 1) = ((s + 1 : Nat) : Int) := by push_cast; rfl
    rw [e, to_index_eq]
    have := QuantumCircuit.replace_component_eq
      ({ qc with components := evolved h qc.components, total_steps := ((s + 1 : Nat) : Int) })
      g g.obj.get_index (s + 1) (by simpa [evolved_length] using hlen)
      (occupies_evolved h qc g hg hnot _) hfit hnew
    simp only at this
    simp only [this]
    rw [QuantumCircuit.evolve_eq _ _ (by simpa [grid_put_length, evolved_length] using hlen)]

theorem QuantumCircuit.wf_steps (h : Heap) (qc : QuantumCircuit R) (s : Nat)
    (hwf : qc.wf h) (hs : qc.total_steps = (s : Int)) :
    ∀ lane ∈ qc.components, lane.length = s + 1 := by
  intro lane hl
  have := hwf.2.2.1 lane hl
  rw [hs] at this
  omega

theorem grid_at_isSome (comps : List (List (shared_ptr R))) (i j k : Nat)
    (hi : i < comps.length) (hk : ∀ lane ∈ comps, lane.length = k) (hj : j < k) :
    ∃ p, grid_at comps i j = some p := by
  unfold grid_at
  rw [List.getElem?_eq_getElem hi]
  simp only [Option.bind]
  have := hk _ (List.getElem_mem hi)
  rw [List.getElem?_eq_getElem (by omega)]
  exact ⟨_, rfl⟩

theorem grid_at_evolved_old (h : Heap) (comps : List (List (shared_ptr R))) (i j k : Nat)
    (hk : ∀ lane ∈ comps, lane.length = k) (hj : j < k) :
    grid_at (evolved h comps) i j = grid_at comps i j := by
  rw [grid_at_evolved]
  unfold grid_at
  by_cases hi : i < comps.length
  · rw [List.getElem?_eq_getElem hi]
    simp only [Option.bind]
    rw [if_pos (by rw [hk _ (List.getElem_mem hi)]; exact hj)]
  · rw [List.getElem?_eq_none (not_lt.mp hi)]
    rfl

theorem grid_at_evolved_new (h : Heap) (comps : List (List (shared_ptr R))) (i k : Nat)
    (hi : i < comps.length) (hk : ∀ lane ∈ comps, lane.length = k) :
    grid_at (evolved h comps) i k = some { addr := h.next + i, obj := placeholder i } := by
  rw [grid_at_evolved, List.getElem?_eq_getElem hi]
  have := hk _ (List.getElem_mem hi)
  simp only
  rw [if_neg (by omega), if_pos (by omega)]

theorem evolved_lanes (h : Heap) (comps : List (List (shared_ptr R))) (k : Nat)
    (hk : ∀ lane ∈ comps, lane.length = k) : ∀ lane ∈ evolved h comps, lane.length = k + 1 := by
  intro lane hl
  obtain ⟨i, hi, rfl⟩ := List.getElem_of_mem hl
  rw [evolved_length] at hi
  have := evolved_getElem h comps i hi
  rw [List.getElem?_eq_getElem (by rw [evolved_length]; exact hi)] at this
  rw [Option.some.inj this, List.length_append, List.get_eq_getElem,
    hk _ (List.getElem_mem hi)]
  rfl

theorem step_empty_evolved (h : Heap) (comps : List (List (shared_ptr R))) (k : Nat)
    (hk : ∀ lane ∈ comps, lane.length = k) : step_empty (evolved h comps) k = true := by
  unfold step_empty
  rw [List.all_eq_true]
  intro lane hl
  obtain ⟨i, hi, rfl⟩ := List.getElem_of_mem hl
  rw [evolved_length] at hi
  have e := evolved_getElem h comps i hi
  rw [List.getElem?_eq_getElem (by rw [evolved_length]; exact hi)] at e
  rw [Option.some.inj e, List.get_eq_getElem,
    List.getElem?_append_right (by rw [hk _ (List.getElem_mem hi)]),
    hk _ (List.getElem_mem hi), Nat.sub_self]
  rfl

theorem QuantumCircuit.cell_congr (qc qc' : QuantumCircuit R) (i j : Nat)
    (h : grid_at qc'.components i j = grid_at qc.components i j) :
    qc'.cell i j = qc.cell i j := by
  rw [QuantumCircuit.cell_def, QuantumCircuit.cell_def, h]

end Grid

/-! ## Gate components -/

section Gates

variable {R : Type} [CommRing R] [StarRing R]

theorem proj0_set : (Matrix.init 2 2 : Matrix R).set 0 0 1 = .ok proj0 :=
  Matrix.set_eq_put _ 0 0 1 (by show 0 < 2; decide) (by show 0 < 2; decide)

theorem proj1_set : (Matrix.init 2 2 : Matrix R).set 1 1 1 = .ok proj1 :=
  Matrix.set_eq_put _ 1 1 1 (by show 1 < 2; decide) (by show 1 < 2; decide)

theorem tfold_rows_two (ms : List (Matrix R)) (hne : ms ≠ []) (h : ∀ m ∈ ms, m.rows = 2) :
    (tfold ms).rows = 2 ^ ms.length := by
  rw [tfold_rows ms hne, List.prod_eq_pow_card _ 2 (by
    intro x hx
    obtain ⟨m, hm, rfl⟩ := List.mem_map.mp hx
    exact h m hm), List.length_map]

theorem tfold_cols_two (ms : List (Matrix R)) (hne : ms ≠ []) (h : ∀ m ∈ ms, m.cols = 2) :
    (tfold ms).cols = 2 ^ ms.length := by
  rw [tfold_cols ms hne, List.prod_eq_pow_card _ 2 (by
    intro x hx
    obtain ⟨m, hm, rfl⟩ := List.mem_map.mp hx
    exact h m hm), List.length_map]

theorem ne_nil_of_length_pos {α : Type} (l : List α) (h : 0 < l.length) : l ≠ [] := by
  intro e
  rw [e] at h
  exact Nat.lt_irrefl 0 h

theorem slots0_length (k rc : Nat) : (slots0 k rc : List (Matrix R)).length = k := by
  simp [slots0]

theorem slots1_length (k rc rt : Nat) (U : Matrix R) : (slots1 k rc rt U).length = k := by
  simp [slots1]

theorem slots0_shape (k rc : Nat) :
    ∀ m ∈ (slots0 k rc : List (Matrix R)), m.rows = 2 ∧ m.cols = 2 := by
  intro m hm
  rcases List.mem_or_eq_of_mem_set hm with h | h
  · rw [List.eq_of_mem_replicate h]; exact ⟨rfl, rfl⟩
  · rw [h]; exact ⟨rfl, rfl⟩

theorem slots1_shape (k rc rt : Nat) (U : Matrix R) (hr : U.rows = 2) (hc : U.cols = 2) :
    ∀ m ∈ slots1 k rc rt U, m.rows = 2 ∧ m.cols = 2 := by
  intro m hm
  rcases List.mem_or_eq_of_mem_set hm with h | h
  · rcases List.mem_or_eq_of_mem_set h with h | h
    · rw [List.eq_of_mem_replicate h]; exact ⟨rfl, rfl⟩
    · rw [h]; exact ⟨rfl, rfl⟩
  · rw [h]; exact ⟨hr, hc⟩

/-- The code of `get_controlled_matrix` folds the two slot lists and adds the
results, whenever both relative positions are inside the footprint. -/
theorem get_controlled_matrix_eq (a k c t : Nat) (U : Matrix R) (hrc : c - a < k)
    (hrt : t - a < k) :
    get_controlled_matrix a k c t U
      = Matrix.add (tfold (slots0 k (c - a))) (tfold (slots1 k (c - a) (t - a) U)) := by
  have h1 : assign_at (List.replicate k (idm 2 : Matrix R)) (c - a) proj0
      = .ok (slots0 k (c - a)) := assign_at_eq _ _ _ (by simpa using hrc)
  have h2 : assign_at (List.replicate k (idm 2 : Matrix R)) (c - a) proj1
      = .ok ((List.replicate k (idm 2)).set (c - a) proj1) :=
    assign_at_eq _ _ _ (by simpa using hrc)
  have h3 : assign_at ((List.replicate k (idm 2 : Matrix R)).set (c - a) proj1) (t - a) U
      = .ok (slots1 k (c - a) (t - a) U) := assign_at_eq _ _ _ (by simpa using hrt)
  have n0 : (slots0 k (c - a) : List (Matrix R)) ≠ [] :=
    ne_nil_of_length_pos _ (by rw [slots0_length]; omega)
  have n1 : slots1 k (c - a) (t - a) U ≠ [] :=
    ne_nil_of_length_pos _ (by rw [slots1_length]; omega)
  unfold get_controlled_matrix
  simp only [proj0_set, proj1_set, identity_matrix_eq, bind, Except.bind, h1, h2, h3,
    perform_tensor_product_eq _ n0, perform_tensor_product_eq _ n1]

/-- A gate whose footprint ends inside the register passes `can_gate_fit`. -/
theorem MultiGate.can_gate_fit_of_le (g : MultiGate R) (n : Nat)
    (h : g.qubit_index + g.gate_size ≤ n) : g.can_gate_fit n = true := by
  unfold MultiGate.can_gate_fit
  exact decide_eq_true (le_trans (Nat.mod_le _ _) h)

/-- When the sum `index + gate_size` is a `size_t`, `can_gate_fit` compares it
with the register size. -/
theorem MultiGate.can_gate_fit_iff (g : MultiGate R) (n : Nat)
    (h : g.qubit_index + g.gate_size < size_modulus) :
    g.can_gate_fit n = true ↔ g.qubit_index + g.gate_size ≤ n := by
  unfold MultiGate.can_gate_fit
  rw [Nat.mod_eq_of_lt h]
  exact decide_eq_true_iff

theorem MultiGate.new_default :
    MultiGate.new 0 "I" (idm 2 : Matrix R) 1
      = .ok { qubit_index := 0, symbol := "I", matrix := idm 2, gate_size := 1 } := rfl

/-- The constructor of `ControlledGate` after its guard: the fields it sets and
the matrix computed by `get_controlled_matrix`. -/
theorem ControlledGate.new_eq (gate : SingleGate R) (c : Nat) (hne : c ≠ gate.qubit_index) :
    ControlledGate.new gate c
      = (do
          let matrix ← get_controlled_matrix (min c gate.qubit_index)
            (Int.natAbs ((c : Int) - (gate.qubit_index : Int)) + 1) c gate.qubit_index gate.matrix
          pure { qubit_index := min c gate.qubit_index, symbol := gate.symbol, matrix := matrix,
                 gate_size := Int.natAbs ((c : Int) - (gate.qubit_index : Int)) + 1,
                 control_index := c, target_index := gate.qubit_index }) := by
  unfold ControlledGate.new
  simp only [identity_matrix_eq, MultiGate.new_default, bind, Except.bind, hne, if_false]
  rfl

/-- Closed form of `SingleGate::get_matrix(register_size)` for a gate that fits. -/
theorem SingleGate.get_matrix_reg_single_eq (g : SingleGate R) (n : Nat) (h : g.qubit_index < n) :
    g.get_matrix_reg n = .ok (tfold ((List.replicate n (idm 2)).set g.qubit_index g.matrix)) := by
  unfold SingleGate.get_matrix_reg
  have hfit : g.can_gate_fit n = true := by simp [SingleGate.can_gate_fit, h]
  have h1 : assign_at (List.replicate n (idm 2 : Matrix R)) g.qubit_index g.matrix
      = .ok ((List.replicate n (idm 2)).set g.qubit_index g.matrix) :=
    assign_at_eq _ _ _ (by simpa using h)
  simp only [hfit, identity_matrix_eq, bind, Except.bind, h1, Bool.not_true,
    Bool.false_eq_true, if_false, pure, Except.pure]
  exact perform_tensor_product_eq _ (ne_nil_of_length_pos _ (by simp; omega))

/-- Closed form of `MultiGate::get_matrix(register_size)` for a gate that fits. -/
theorem MultiGate.get_matrix_reg_multi_eq (g : MultiGate R) (n : Nat)
    (h : g.qubit_index + g.gate_size ≤ n) :
    g.get_matrix_reg n
      = .ok (tfold ((List.replicate (n - g.gate_size + 1) (idm 2)).set g.qubit_index g.matrix)) := by
  unfold MultiGate.get_matrix_reg
  have hfit : g.can_gate_fit n = true := g.can_gate_fit_of_le n h
  have h1 : assign_at (List.replicate (n - g.gate_size + 1) (idm 2 : Matrix R)) g.qubit_index
      g.matrix = .ok ((List.replicate (n - g.gate_size + 1) (idm 2)).set g.qubit_index g.matrix) :=
    assign_at_eq _ _ _ (by simp; omega)
  simp only [hfit, identity_matrix_eq, bind, Except.bind, h1, Bool.not_true,
    Bool.false_eq_true, if_false, pure, Except.pure]
  exact perform_tensor_product_eq _ (ne_nil_of_length_pos _ (by simp))

/-- The matrix computed by the `ControlledGate` constructor for a `2 x 2` target
matrix: the sum of the two folded slot lists. -/
theorem get_controlled_matrix_ok (c t : Nat) (U : Matrix R) (hr : U.rows = 2)
    (hc : U.cols = 2) :
    get_controlled_matrix (min c t) (Int.natAbs ((c : Int) - (t : Int)) + 1) c t U
      = .ok (madd (tfold (slots0 (Int.natAbs ((c : Int) - (t : Int)) + 1) (c - min c t)))
          (tfold (slots1 (Int.natAbs ((c : Int) - (t : Int)) + 1) (c - min c t) (t - min c t) U))) := by
  rw [get_controlled_matrix_eq _ _ _ _ _ (by omega) (by omega)]
  apply Matrix.add_eq
  · rw [tfold_rows_two _ (ne_nil_of_length_pos _ (by rw [slots0_length]; omega))
        (fun m hm => (slots0_shape _ _ m hm).1),
      tfold_rows_two _ (ne_nil_of_length_pos _ (by rw [slots1_length]; omega))
        (fun m hm => (slots1_shape _ _ _ U hr hc m hm).1), slots0_length, slots1_length]
  · rw [tfold_cols_two _ (ne_nil_of_length_pos _ (by rw [slots0_length]; omega))
        (fun m hm => (slots0_shape _ _ m hm).2),
      tfold_cols_two _ (ne_nil_of_length_pos _ (by rw [slots1_length]; omega))
        (fun m hm => (slots1_shape _ _ _ U hr hc m hm).2), slots0_length, slots1_length]

theorem adj_idm (n : Nat) : adj (idm n : Matrix R) = idm n := by
  refine Matrix.ext_raw _ _ (adj_wf _) (idm_wf _) rfl rfl ?_
  intro i j hi hj
  simp only [adj_rows, adj_cols, idm_rows, idm_cols] at hi hj
  rw [adj_raw _ i j (by simpa using hi) (by simpa using hj), idm_raw n j i hj hi,
    idm_raw n i j hi hj]
  by_cases e : i = j
  · subst e; simp
  · have : ¬ j = i := fun h => e h.symm
    simp [e, this]

theorem zipWith_set {α β γ : Type} (f : α → β → γ) (l : List α) (l' : List β) (i : Nat)
    (x : α) (y : β) :
    List.zipWith f (l.set i x) (l'.set i y) = (List.zipWith f l l').set i (f x y) := by
  induction l generalizing l' i with
  | nil => simp
  | cons a l ih =>
    cases l' with
    | nil => simp
    | cons b l' =>
      cases i with
      | zero => simp
      | succ i => simp [ih]

/-- The embedding of a single-qubit gate times the embedding of another one at
the same anchor is the embedding of the product. -/
theorem embed_mmul (n a : Nat) (U V : Matrix R) (hU : U.cols = 2) (hV : V.rows = 2)
    (hn : 0 < n) :
    mmul (tfold ((List.replicate n (idm 2)).set a U)) (tfold ((List.replicate n (idm 2)).set a V))
      = tfold ((List.replicate n (idm 2)).set a (mmul U V)) := by
  rcases tfold_mmul 2 ((List.replicate n (idm 2)).set a U) ((List.replicate n (idm 2)).set a V)
    (by simp)
    (by
      intro m hm
      rcases List.mem_or_eq_of_mem_set hm with h | h
      · rw [List.eq_of_mem_replicate h]; rfl
      · rw [h]; exact hU)
    (by
      intro m hm
      rcases List.mem_or_eq_of_mem_set hm with h | h
      · rw [List.eq_of_mem_replicate h]; rfl
      · rw [h]; exact hV) with h | h
  · rw [h, zipWith_set, List.zipWith_replicate, Nat.min_self,
      idm_mmul (idm 2) (idm_wf 2) 2 rfl]
  · exact absurd h (ne_nil_of_length_pos _ (by simp; exact hn))

/-- The adjoint of the embedding of a single-qubit gate is the embedding of its adjoint. -/
theorem embed_adj (n a : Nat) (U : Matrix R) (hn : 0 < n) :
    adj (tfold ((List.replicate n (idm 2)).set a U))
      = tfold ((List.replicate n (idm 2)).set a (adj U)) := by
  rw [tfold_adj _ (ne_nil_of_length_pos _ (by simp; exact hn)), List.map_set,
    List.map_replicate, adj_idm]

theorem mmul_idm_raw (M : Matrix R) (n : Nat) (hn : M.cols = n) (i j : Nat) (hi : i < M.rows)
    (hj : j < n) : (mmul M (idm n)).raw i j = M.raw i j := by
  rw [mmul_raw _ _ i j hi (by simpa using hj)]
  rw [hn, Finset.sum_congr rfl (fun k hk => by
    rw [idm_raw n k j (Finset.mem_range.mp hk) hj])]
  simp [Finset.sum_ite_eq', hj]

theorem set_replicate_eq {α : Type} (m a : Nat) (x y : α) (ha : a < m) :
    (List.replicate m x).set a y = List.replicate a x ++ y :: List.replicate (m - a - 1) x := by
  rw [List.set_eq_take_append_cons_drop, if_pos (by simpa using ha), List.take_replicate,
    List.drop_replicate, Nat.min_eq_left (Nat.le_of_lt ha), Nat.sub_sub]

/-- The embedding of a `MultiGate` whose matrix is `2 ^ gate_size` square has
`2 ^ register_size` rows and columns. -/
theorem embed_multi_shape (n a k : Nat) (M : Matrix R) (h : a + k ≤ n) (hr : M.rows = 2 ^ k)
    (hc : M.cols = 2 ^ k) :
    (tfold ((List.replicate (n - k + 1) (idm 2)).set a M)).rows = 2 ^ n ∧
    (tfold ((List.replicate (n - k + 1) (idm 2)).set a M)).cols = 2 ^ n := by
  have hne : (List.replicate (n - k + 1) (idm 2 : Matrix R)).set a M ≠ [] :=
    ne_nil_of_length_pos _ (by simp)
  have e : a + (k + (n - k + 1 - a - 1)) = n := by omega
  rw [tfold_rows _ hne, tfold_cols _ hne, set_replicate_eq _ a _ _ (by omega)]
  simp only [List.map_append, List.map_cons, List.map_replicate, List.prod_append,
    List.prod_cons, List.prod_replicate, idm_rows, idm_cols, hr, hc, ← pow_add, e, and_self]

/-- The embedding of an identity placeholder is the identity of the register. -/
theorem IGate_embed (i n : Nat) (hi : i < n) :
    ({ qubit_index := i, symbol := "I", matrix := idm 2 } : SingleGate R).get_matrix_reg n
      = .ok (idm (2 ^ n)) := by
  rw [SingleGate.get_matrix_reg_single_eq _ n hi]
  simp only [List.set_replicate_self]
  rw [tfold_replicate_idm n (by omega)]

/-- The loop of `get_matrix_at_step` when the lane `a` contributes the matrix `G`
and every other lane the identity. -/
theorem QuantumCircuit.get_matrix_at_step_eq (qc : QuantumCircuit R) (step a : Nat)
    (G : Matrix R) (hr : G.rows = 2 ^ qc.register_size) (hc : G.cols = 2 ^ qc.register_size)
    (hlane : ∀ i, i < qc.register_size →
      (do let c ← qc.cell i step; c.obj.get_matrix_reg qc.register_size)
        = .ok (if i = a then G else idm (2 ^ qc.register_size))) :
    qc.get_matrix_at_step step
      = .ok (if a < qc.register_size then mmul G (idm (2 ^ qc.register_size))
             else idm (2 ^ qc.register_size)) := by
  obtain ⟨S, h1, h2⟩ := for_range_inv 0 qc.register_size
    (fun i resultant_matrix => do
      let c ← qc.cell i step
      let m ← c.obj.get_matrix_reg qc.register_size
      m.mul resultant_matrix)
    (idm (2 ^ qc.register_size))
    (fun i acc => acc = if a < i then mmul G (idm (2 ^ qc.register_size))
      else idm (2 ^ qc.register_size))
    (Nat.zero_le _) (by simp)
    (by
      intro i acc _ hi hacc
      have hl := hlane i hi
      simp only [bind, Except.bind] at hl
      cases hcell : qc.cell i step with
      | error e => rw [hcell] at hl; exact Except.noConfusion hl
      | ok p =>
        rw [hcell] at hl
        simp only at hl
        simp only [hcell, hl, bind, Except.bind]
        by_cases hia : i = a
        · subst hia
          rw [if_pos rfl, hacc, if_neg (Nat.lt_irrefl i), if_pos (Nat.lt_succ_self i)]
          exact ⟨_, Matrix.mul_eq _ _ (by rw [hc]; rfl), rfl⟩
        · rw [if_neg hia]
          have hwf : acc.wf ∧ acc.rows = 2 ^ qc.register_size := by
            rw [hacc]
            by_cases hlt : a < i
            · rw [if_pos hlt]; exact ⟨mmul_wf _ _, hr⟩
            · rw [if_neg hlt]; exact ⟨idm_wf _, rfl⟩
          refine ⟨_, Matrix.mul_eq _ _ (by rw [hwf.2]; rfl), ?_⟩
          rw [idm_mmul acc hwf.1 _ hwf.2, hacc]
          by_cases hlt : a < i
          · rw [if_pos hlt, if_pos (by omega)]
          · rw [if_neg hlt, if_neg (by omega)])
  unfold QuantumCircuit.get_matrix_at_step
  rw [identity_matrix_eq]
  rw [h2] at h1
  exact h1

theorem set_replicate_split {α : Type} (n a k r : Nat) (x y : α) (h : a + k ≤ n)
    (hr : r < k) :
    (List.replicate n x).set (a + r) y
      = List.replicate a x ++ (List.replicate k x).set r y ++ List.replicate (n - a - k) x := by
  have e : n = a + (k + (n - a - k)) := by omega
  conv_lhs => rw [e, List.replicate_add, List.replicate_add]
  rw [List.set_append, if_neg (by simp), List.length_replicate, Nat.add_sub_cancel_left,
    List.append_assoc]
  congr 1
  rw [List.set_append, if_pos (by simpa using hr)]

theorem set_set_split {α : Type} (pre mid post : List α) (r : Nat) (y : α) (hr : r < mid.length) :
    (pre ++ mid ++ post).set (pre.length + r) y = pre ++ mid.set r y ++ post := by
  rw [List.append_assoc, List.set_append, if_neg (by omega), Nat.add_sub_cancel_left,
    List.set_append, if_pos hr, List.append_assoc]

/-- The slot lists of the full-register expansion are the footprint slot lists
between identity slots. -/
theorem full_slots0 (n a k rc : Nat) (h : a + k ≤ n) (hrc : rc < k) :
    (List.replicate n (idm 2 : Matrix R)).set (a + rc) proj0
      = List.replicate a (idm 2) ++ slots0 k rc ++ List.replicate (n - a - k) (idm 2) :=
  set_replicate_split n a k rc _ _ h hrc

theorem full_slots1 (n a k rc rt : Nat) (U : Matrix R) (h : a + k ≤ n) (hrc : rc < k)
    (hrt : rt < k) :
    ((List.replicate n (idm 2 : Matrix R)).set (a + rc) proj1).set (a + rt) U
      = List.replicate a (idm 2) ++ slots1 k rc rt U ++ List.replicate (n - a - k) (idm 2) := by
  rw [set_replicate_split n a k rc _ _ h hrc]
  have := set_set_split (List.replicate a (idm 2 : Matrix R))
    ((List.replicate k (idm 2)).set rc proj1) (List.replicate (n - a - k) (idm 2)) rt U
    (by simpa using hrt)
  rw [List.length_replicate] at this
  rw [this]
  rfl

theorem controlled_shapes (k rc rt : Nat) (U : Matrix R) (hk : 0 < k) (hr : U.rows = 2)
    (hc : U.cols = 2) :
    same_shape (tfold (slots0 k rc)) (tfold (slots1 k rc rt U)) := by
  constructor
  · rw [tfold_rows_two _ (ne_nil_of_length_pos _ (by rw [slots0_length]; exact hk))
        (fun m hm => (slots0_shape _ _ m hm).1),
      tfold_rows_two _ (ne_nil_of_length_pos _ (by rw [slots1_length]; exact hk))
        (fun m hm => (slots1_shape _ _ _ U hr hc m hm).1), slots0_length, slots1_length]
  · rw [tfold_cols_two _ (ne_nil_of_length_pos _ (by rw [slots0_length]; exact hk))
        (fun m hm => (slots0_shape _ _ m hm).2),
      tfold_cols_two _ (ne_nil_of_length_pos _ (by rw [slots1_length]; exact hk))
        (fun m hm => (slots1_shape _ _ _ U hr hc m hm).2), slots0_length, slots1_length]

/-- The footprint matrix of a controlled gate between identity slots is the sum
of the two full-register folds. -/
theorem controlled_embed (pre post : List (Matrix R)) (k rc rt : Nat) (U : Matrix R)
    (hk : 0 < k) (hr : U.rows = 2) (hc : U.cols = 2) :
    tfold (pre ++ madd (tfold (slots0 k rc)) (tfold (slots1 k rc rt U)) :: post)
      = madd (tfold (pre ++ slots0 k rc ++ post)) (tfold (pre ++ slots1 k rc rt U ++ post)) := by
  have hs := controlled_shapes k rc rt U hk hr hc
  rw [tfold_insert, ktimes_madd _ _ _ hs, foldl_kron_madd _ _ _ (same_shape_ktimes _ _ _ hs),
    tfold_insert_list _ _ _ (ne_nil_of_length_pos _ (by rw [slots0_length]; exact hk)),
    tfold_insert_list _ _ _ (ne_nil_of_length_pos _ (by rw [slots1_length]; exact hk))]

/-- Closed form of the full-register expansion of a controlled gate whose
control and target are inside the register. -/
theorem full_register_expansion_eq (n c t : Nat) (U : Matrix R) (hr : U.rows = 2)
    (hc : U.cols = 2) (hcn : c < n) (htn : t < n) :
    full_register_expansion n c t U
      = .ok (madd (tfold ((List.replicate n (idm 2)).set c proj0))
          (tfold (((List.replicate n (idm 2)).set c proj1).set t U))) := by
  have h1 : assign_at (List.replicate n (idm 2 : Matrix R)) c proj0
      = .ok ((List.replicate n (idm 2)).set c proj0) := assign_at_eq _ _ _ (by simpa using hcn)
  have h2 : assign_at (List.replicate n (idm 2 : Matrix R)) c proj1
      = .ok ((List.replicate n (idm 2)).set c proj1) := assign_at_eq _ _ _ (by simpa using hcn)
  have h3 : assign_at ((List.replicate n (idm 2 : Matrix R)).set c proj1) t U
      = .ok (((List.replicate n (idm 2)).set c proj1).set t U) :=
    assign_at_eq _ _ _ (by simpa using htn)
  have n0 : (List.replicate n (idm 2 : Matrix R)).set c proj0 ≠ [] :=
    ne_nil_of_length_pos _ (by simp; omega)
  have n1 : ((List.replicate n (idm 2 : Matrix R)).set c proj1).set t U ≠ [] :=
    ne_nil_of_length_pos _ (by simp; omega)
  have s0 := slots0_shape (R := R) n c
  have s1 := slots1_shape n c t U hr hc
  unfold slots0 at s0
  unfold slots1 at s1
  unfold full_register_expansion
  simp only [proj0_set, proj1_set, identity_matrix_eq, bind, Except.bind, h1, h2, h3,
    perform_tensor_product_eq _ n0, perform_tensor_product_eq _ n1]
  apply Matrix.add_eq
  · rw [tfold_rows_two _ n0 (fun m hm => (s0 m hm).1),
      tfold_rows_two _ n1 (fun m hm => (s1 m hm).1)]
    simp
  · rw [tfold_cols_two _ n0 (fun m hm => (s0 m hm).2),
      tfold_cols_two _ n1 (fun m hm => (s1 m hm).2)]
    simp

/-! ### Projectors and kets -/

theorem proj0_raw (i j : Nat) : (proj0 : Matrix R).raw i j = if i = 0 ∧ j = 0 then 1 else 0 := by
  unfold proj0
  rw [Matrix.raw_put _ (Matrix.wf_init 2 2) 0 0 1 (by show 0 < 2; decide) (by show 0 < 2; decide),
    Matrix.raw_init]

theorem proj1_raw (i j : Nat) : (proj1 : Matrix R).raw i j = if i = 1 ∧ j = 1 then 1 else 0 := by
  unfold proj1
  rw [Matrix.raw_put _ (Matrix.wf_init 2 2) 1 1 1 (by show 1 < 2; decide) (by show 1 < 2; decide),
    Matrix.raw_init]

theorem ket0_raw (i j : Nat) : (ket0 : Matrix R).raw i j = if i = 0 ∧ j = 0 then 1 else 0 := by
  unfold ket0
  rw [Matrix.raw_put _ (Matrix.wf_init 2 1) 0 0 1 (by show 0 < 2; decide) (by show 0 < 1; decide),
    Matrix.raw_init]

theorem ket1_raw (i j : Nat) : (ket1 : Matrix R).raw i j = if i = 1 ∧ j = 0 then 1 else 0 := by
  unfold ket1
  rw [Matrix.raw_put _ (Matrix.wf_init 2 1) 1 0 1 (by show 1 < 2; decide) (by show 0 < 1; decide),
    Matrix.raw_init]

theorem ket0_wf : (ket0 : Matrix R).wf := Matrix.wf_put _ (Matrix.wf_init 2 1) _ _ _

theorem ket1_wf : (ket1 : Matrix R).wf := Matrix.wf_put _ (Matrix.wf_init 2 1) _ _ _

theorem ketf_wf (b : Int) : (ketf b : Matrix R).wf := by
  unfold ketf
  split
  · exact ket1_wf
  · exact ket0_wf

theorem ketf_rows (b : Int) : (ketf b : Matrix R).rows = 2 := by
  unfold ketf
  split <;> rfl

theorem ketf_cols (b : Int) : (ketf b : Matrix R).cols = 1 := by
  unfold ketf
  split <;> rfl

theorem ket0_set : (Matrix.init 2 1 : Matrix R).set 0 0 1 = .ok ket0 :=
  Matrix.set_eq_put _ 0 0 1 (by show 0 < 2; decide) (by show 0 < 1; decide)

theorem ket1_set : (Matrix.init 2 1 : Matrix R).set 1 0 1 = .ok ket1 :=
  Matrix.set_eq_put _ 1 0 1 (by show 1 < 2; decide) (by show 0 < 1; decide)

theorem small_mmul_ext (A K X : Matrix R) (hA : A.rows = 2 ∧ A.cols = 2)
    (hK : K.rows = 2 ∧ K.cols = 1) (hX : X.wf ∧ X.rows = 2 ∧ X.cols = 1)
    (h : ∀ i, i < 2 → A.raw i 0 * K.raw 0 0 + A.raw i 1 * K.raw 1 0 = X.raw i 0) :
    mmul A K = X := by
  refine Matrix.ext_raw _ _ (mmul_wf _ _) hX.1 (by rw [mmul_rows, hA.1, hX.2.1])
    (by rw [mmul_cols, hK.2, hX.2.2]) ?_
  intro i j hi hj
  rw [mmul_rows, hA.1] at hi
  rw [mmul_cols, hK.2] at hj
  have hj0 : j = 0 := by omega
  subst hj0
  rw [mmul_raw _ _ i 0 (by rw [hA.1]; exact hi) (by rw [hK.2]; exact hj), hA.2,
    Finset.sum_range_succ, Finset.sum_range_succ, Finset.sum_range_zero, zero_add]
  exact h i hi

theorem proj0_ket0 : mmul (proj0 : Matrix R) ket0 = ket0 := by
  apply small_mmul_ext _ _ _ ⟨rfl, rfl⟩ ⟨rfl, rfl⟩ ⟨ket0_wf, rfl, rfl⟩
  intro i hi
  simp only [proj0_raw, ket0_raw]
  interval_cases i <;> simp

theorem proj1_ket1 : mmul (proj1 : Matrix R) ket1 = ket1 := by
  apply small_mmul_ext _ _ _ ⟨rfl, rfl⟩ ⟨rfl, rfl⟩ ⟨ket1_wf, rfl, rfl⟩
  intro i hi
  simp only [proj1_raw, ket1_raw]
  interval_cases i <;> simp

theorem proj0_ket1 : mmul (proj0 : Matrix R) ket1 = Matrix.init 2 1 := by
  apply small_mmul_ext _ _ _ ⟨rfl, rfl⟩ ⟨rfl, rfl⟩ ⟨Matrix.wf_init 2 1, rfl, rfl⟩
  intro i hi
  simp only [proj0_raw, ket1_raw, Matrix.raw_init]
  interval_cases i <;> simp

theorem proj1_ket0 : mmul (proj1 : Matrix R) ket0 = Matrix.init 2 1 := by
  apply small_mmul_ext _ _ _ ⟨rfl, rfl⟩ ⟨rfl, rfl⟩ ⟨Matrix.wf_init 2 1, rfl, rfl⟩
  intro i hi
  simp only [proj1_raw, ket0_raw, Matrix.raw_init]
  interval_cases i <;> simp

theorem idm_ketf (b : Int) : mmul (idm 2) (ketf b : Matrix R) = ketf b :=
  idm_mmul _ (ketf_wf b) 2 (ketf_rows b)

/-- The loop of `calculate_matrix_for_register` selects the ket of every
register value, and the result is the fold of these kets. -/
theorem calculate_matrix_for_register_eq (b : List Int) (hb : b ≠ []) :
    (calculate_matrix_for_register b : Except Error (Matrix R)) = .ok (tfold (b.map ketf)) := by
  obtain ⟨l, h1, h2, h3⟩ := for_range_inv 0 b.length
    (fun i (l : List (Matrix R)) => do
      let x ← read_at b i
      if x = 1 then assign_at l i ket1 else pure l)
    (List.replicate b.length ket0)
    (fun i l => l.length = b.length ∧
      ∀ j, l[j]? = if j < i then (b[j]?).map ketf
        else if j < b.length then some ket0 else none)
    (Nat.zero_le _)
    ⟨by simp, by
      intro j
      rw [if_neg (Nat.not_lt_zero j), List.getElem?_replicate]⟩
    (by
      intro i l _ hi ⟨hl, hj⟩
      simp only [read_at_eq b i hi, bind, Except.bind, List.get_eq_getElem]
      by_cases hx : b[i] = 1
      · rw [if_pos hx, assign_at_eq l i _ (by omega)]
        refine ⟨_, rfl, by simpa using hl, ?_⟩
        intro j
        rw [List.getElem?_set]
        by_cases hij : i = j
        · subst hij
          rw [if_pos rfl, if_pos (by omega), if_pos (Nat.lt_succ_self i),
            List.getElem?_eq_getElem hi]
          simp [ketf, hx]
        · rw [if_neg hij, hj j]
          by_cases hlt : j < i
          · rw [if_pos hlt, if_pos (show j < i + 1 by omega)]
          · rw [if_neg hlt, if_neg (show ¬ j < i + 1 by omega)]
      · rw [if_neg hx]
        refine ⟨l, rfl, hl, ?_⟩
        intro j
        rw [hj j]
        by_cases hij : i = j
        · subst hij
          rw [if_neg (Nat.lt_irrefl i), if_pos hi, if_pos (Nat.lt_succ_self i),
            List.getElem?_eq_getElem hi]
          simp [ketf, hx]
        · by_cases hlt : j < i
          · rw [if_pos hlt, if_pos (show j < i + 1 by omega)]
          · rw [if_neg hlt, if_neg (show ¬ j < i + 1 by omega)])
  have hl : l = b.map ketf := by
    apply List.ext_getElem?
    intro j
    rw [h3 j, List.getElem?_map]
    by_cases hj : j < b.length
    · rw [if_pos hj]
    · rw [if_neg hj, if_neg hj, List.getElem?_eq_none (not_lt.mp hj)]
      rfl
  unfold calculate_matrix_for_register
  simp only [ket0_set, ket1_set, bind, Except.bind]
  simp only [bind, Except.bind] at h1
  rw [h1]
  simp only [hl]
  exact perform_tensor_product_eq _ (by simpa using hb)

/-! ### A controlled gate applied to a basis state -/

theorem zip_shape (xs : List (Matrix R)) (b : List Int)
    (hxs : ∀ x ∈ xs, x.rows = 2 ∧ x.cols = 2) :
    ∀ z ∈ List.zipWith mmul xs (b.map ketf), z.wf ∧ z.rows = 2 ∧ z.cols = 1 := by
  intro z hz
  obtain ⟨x, hx, y, hy, rfl⟩ := mem_zipWith mmul _ _ z hz
  obtain ⟨v, _, rfl⟩ := List.mem_map.mp hy
  exact ⟨mmul_wf _ _, (hxs x hx).1, ketf_cols v⟩

theorem zip_fold_shape (xs : List (Matrix R)) (b : List Int) (hlen : xs.length = b.length)
    (hb : 0 < b.length) (hxs : ∀ x ∈ xs, x.rows = 2 ∧ x.cols = 2) :
    (tfold (List.zipWith mmul xs (b.map ketf))).wf ∧
    (tfold (List.zipWith mmul xs (b.map ketf))).rows = 2 ^ b.length ∧
    (tfold (List.zipWith mmul xs (b.map ketf))).cols = 1 := by
  have hne : List.zipWith mmul xs (b.map ketf) ≠ [] :=
    ne_nil_of_length_pos _ (by simp [hlen]; exact hb)
  have hs := zip_shape xs b hxs
  refine ⟨tfold_ne_nil_wf _ (fun z hz => (hs z hz).1) hne, ?_,
    tfold_cols_one _ hne (fun z hz => (hs z hz).2.2)⟩
  rw [tfold_rows_two _ hne (fun z hz => (hs z hz).2.1)]
  simp [hlen]

theorem kets_fold_shape (b : List Int) (hb : 0 < b.length) :
    (tfold (b.map ketf : List (Matrix R))).wf ∧
    (tfold (b.map ketf : List (Matrix R))).rows = 2 ^ b.length ∧
    (tfold (b.map ketf : List (Matrix R))).cols = 1 := by
  have hne : (b.map ketf : List (Matrix R)) ≠ [] := ne_nil_of_length_pos _ (by simpa using hb)
  have hm : ∀ m ∈ (b.map ketf : List (Matrix R)), m.wf ∧ m.rows = 2 ∧ m.cols = 1 := by
    intro m hm
    obtain ⟨v, _, rfl⟩ := List.mem_map.mp hm
    exact ⟨ketf_wf v, ketf_rows v, ketf_cols v⟩
  refine ⟨tfold_ne_nil_wf _ (fun z hz => (hm z hz).1) hne, ?_,
    tfold_cols_one _ hne (fun z hz => (hm z hz).2.2)⟩
  rw [tfold_rows_two _ hne (fun z hz => (hm z hz).2.1)]
  simp

/-- A fold of `2 x 2` slots applied to a basis state acts slot by slot. -/
theorem fold_apply (xs : List (Matrix R)) (b : List Int) (hlen : xs.length = b.length)
    (hb : 0 < b.length) (hxs : ∀ x ∈ xs, x.rows = 2 ∧ x.cols = 2) :
    mmul (tfold xs) (tfold (b.map ketf)) = tfold (List.zipWith mmul xs (b.map ketf)) := by
  rcases tfold_mmul 2 xs (b.map ketf) (by simpa using hlen) (fun x hx => (hxs x hx).2)
    (by
      intro y hy
      obtain ⟨v, _, rfl⟩ := List.mem_map.mp hy
      exact ketf_rows v) with h | h
  · exact h
  · rw [h] at hlen
    simp at hlen
    omega

theorem zip_slots_getElem (xs : List (Matrix R)) (b : List Int) (j : Nat) :
    (List.zipWith mmul xs (b.map ketf))[j]?
      = match xs[j]?, b[j]? with
        | some x, some v => some (mmul x (ketf v))
        | _, _ => none := by
  rw [List.getElem?_zipWith, List.getElem?_map]
  cases xs[j]? <;> cases b[j]? <;> rfl

theorem slots0_getElem (k rc j : Nat) (hj : j < k) :
    (slots0 k rc : List (Matrix R))[j]? = some (if rc = j then proj0 else idm 2) := by
  unfold slots0
  rw [List.getElem?_set, List.getElem?_replicate, if_pos hj]
  by_cases h : rc = j
  · rw [if_pos h, if_pos h, if_pos (by simp; omega)]
  · rw [if_neg h, if_neg h]

theorem slots1_getElem (k rc rt j : Nat) (U : Matrix R) (hj : j < k) :
    (slots1 k rc rt U)[j]? = some (if rt = j then U else if rc = j then proj1 else idm 2) := by
  unfold slots1
  rw [List.getElem?_set, List.getElem?_set, List.getElem?_replicate, if_pos hj]
  by_cases h : rt = j
  · rw [if_pos h, if_pos h, if_pos (by simp; omega)]
  · rw [if_neg h, if_neg h]
    by_cases h' : rc = j
    · rw [if_pos h', if_pos h', if_pos (by simp; omega)]
    · rw [if_neg h', if_neg h']

theorem target_slots_getElem (k rt j : Nat) (U : Matrix R) (hj : j < k) :
    ((List.replicate k (idm 2)).set rt U)[j]? = some (if rt = j then U else idm 2) := by
  rw [List.getElem?_set, List.getElem?_replicate, if_pos hj]
  by_cases h : rt = j
  · rw [if_pos h, if_pos h, if_pos (by simp; omega)]
  · rw [if_neg h, if_neg h]

theorem ketf_zero : (ketf 0 : Matrix R) = ket0 := by
  unfold ketf
  rw [if_neg (by decide)]

theorem ketf_one : (ketf 1 : Matrix R) = ket1 := by
  unfold ketf
  rw [if_pos rfl]

/-- With the control bit `0`, the `|0><0|` term leaves the basis state unchanged. -/
theorem zip_slots0_bit0 (b : List Int) (rc : Nat) (h0 : b[rc]? = some 0) :
    List.zipWith mmul (slots0 b.length rc) (b.map ketf) = (b.map ketf : List (Matrix R)) := by
  apply List.ext_getElem?
  intro j
  rw [zip_slots_getElem, List.getElem?_map]
  by_cases hj : j < b.length
  · rw [slots0_getElem _ _ _ hj, List.getElem?_eq_getElem hj]
    simp only [Option.map_some']
    by_cases hrc : rc = j
    · subst hrc
      rw [List.getElem?_eq_getElem hj] at h0
      rw [if_pos rfl, Option.some.inj h0, ketf_zero, proj0_ket0]
    · rw [if_neg hrc, idm_ketf]
  · rw [List.getElem?_eq_none (not_lt.mp hj)]
    cases (slots0 b.length rc : List (Matrix R))[j]? <;> rfl

/-- A slot list with a projector at `rc` that annihilates the ket of the bit at
`rc` yields a zero slot. -/
theorem zip_zero_slot (xs : List (Matrix R)) (b : List Int) (rc : Nat) (P : Matrix R) (v : Int)
    (hx : xs[rc]? = some P) (hv : b[rc]? = some v) (hP : mmul P (ketf v) = Matrix.init 2 1) :
    ∃ z ∈ List.zipWith mmul xs (b.map ketf), is_zero z := by
  refine ⟨Matrix.init 2 1, ?_, is_zero_init 2 1⟩
  apply List.getElem?_mem (n := rc)
  rw [zip_slots_getElem, hx, hv]
  simp only [hP]

/-- With the control bit `1`, the `|1><1|` term acts like the target gate alone. -/
theorem zip_slots1_bit1 (b : List Int) (rc rt : Nat) (U : Matrix R) (h1 : b[rc]? = some 1) :
    List.zipWith mmul (slots1 b.length rc rt U) (b.map ketf)
      = List.zipWith mmul ((List.replicate b.length (idm 2)).set rt U) (b.map ketf) := by
  apply List.ext_getElem?
  intro j
  rw [zip_slots_getElem, zip_slots_getElem]
  by_cases hj : j < b.length
  · rw [slots1_getElem _ _ _ _ _ hj, target_slots_getElem _ _ _ _ hj,
      List.getElem?_eq_getElem hj]
    simp only
    by_cases hrt : rt = j
    · rw [if_pos hrt, if_pos hrt]
    · rw [if_neg hrt, if_neg hrt]
      by_cases hrc : rc = j
      · subst hrc
        rw [List.getElem?_eq_getElem hj] at h1
        rw [if_pos rfl, Option.some.inj h1, ketf_one, proj1_ket1]
        have := idm_ketf (R := R) 1
        rw [ketf_one] at this
        rw [this]
      · rw [if_neg hrc]
  · rw [List.getElem?_eq_none (not_lt.mp hj)]
    cases (slots1 b.length rc rt U)[j]? <;>
      cases ((List.replicate b.length (idm 2)).set rt U)[j]? <;> rfl

theorem target_slots_shape (k rt : Nat) (U : Matrix R) (hr : U.rows = 2) (hc : U.cols = 2) :
    ∀ m ∈ (List.replicate k (idm 2)).set rt U, m.rows = 2 ∧ m.cols = 2 := by
  intro m hm
  rcases List.mem_or_eq_of_mem_set hm with h | h
  · rw [List.eq_of_mem_replicate h]; exact ⟨rfl, rfl⟩
  · rw [h]; exact ⟨hr, hc⟩

/-- The local matrix of a controlled gate applied to a basis state of its
footprint: the state itself when the control bit is `0`, the target gate
applied to it when the control bit is `1`. -/
theorem controlled_apply (b : List Int) (rc rt : Nat) (U : Matrix R) (hb : 0 < b.length)
    (hrc : rc < b.length) (hne : rc ≠ rt) (hr : U.rows = 2) (hc : U.cols = 2) :
    (b[rc]? = some 0 →
      mmul (madd (tfold (slots0 b.length rc)) (tfold (slots1 b.length rc rt U)))
        (tfold (b.map ketf)) = tfold (b.map ketf)) ∧
    (b[rc]? = some 1 →
      mmul (madd (tfold (slots0 b.length rc)) (tfold (slots1 b.length rc rt U)))
        (tfold (b.map ketf))
        = mmul (tfold ((List.replicate b.length (idm 2)).set rt U)) (tfold (b.map ketf))) := by
  have hs := controlled_shapes b.length rc rt U hb hr hc
  have h0 := fold_apply (slots0 b.length rc : List (Matrix R)) b (slots0_length _ _) hb
    (slots0_shape _ _)
  have h1 := fold_apply (slots1 b.length rc rt U) b (slots1_length _ _ _ _) hb
    (slots1_shape _ _ _ U hr hc)
  have z0 := zip_fold_shape (slots0 b.length rc : List (Matrix R)) b (slots0_length _ _) hb
    (slots0_shape _ _)
  have z1 := zip_fold_shape (slots1 b.length rc rt U) b (slots1_length _ _ _ _) hb
    (slots1_shape _ _ _ U hr hc)
  have hne' : ¬ rt = rc := fun e => hne e.symm
  constructor
  · intro hbit
    rw [mmul_madd_left _ _ _ hs, h0, h1, zip_slots0_bit0 b rc hbit]
    have ks := kets_fold_shape (R := R) b hb
    apply madd_zero_right _ _ ks.1 ⟨by rw [ks.2.1, z1.2.1], by rw [ks.2.2, z1.2.2]⟩
    apply tfold_zero
    apply zip_zero_slot _ b rc proj1 0 _ hbit (by rw [ketf_zero]; exact proj1_ket0)
    rw [slots1_getElem _ _ _ _ _ hrc, if_neg hne', if_pos rfl]
  · intro hbit
    rw [mmul_madd_left _ _ _ hs, h0, h1,
      fold_apply _ b (by simp) hb (target_slots_shape _ _ U hr hc),
      ← zip_slots1_bit1 b rc rt U hbit]
    apply madd_zero_left _ _ z1.1 ⟨by rw [z0.2.1, z1.2.1], by rw [z0.2.2, z1.2.2]⟩
    apply tfold_zero
    apply zip_zero_slot _ b rc proj0 1 _ hbit (by rw [ketf_one]; exact proj0_ket1)
    rw [slots0_getElem _ _ _ hrc, if_pos rfl]

end Gates

/-! ## The circuit matrix under `add_component` -/

section Scheduling

variable {R : Type} [CommRing R] [StarRing R]

/-- The product of matrices is associative. -/
theorem mmul_assoc (A B C : Matrix R) (h : A.cols = B.rows) :
    mmul (mmul A B) C = mmul A (mmul B C) := by
  refine Matrix.ext_raw _ _ (mmul_wf _ _) (mmul_wf _ _) ?_ ?_ ?_
  · simp
  · simp
  intro i j hi hj
  simp only [mmul_rows, mmul_cols] at hi hj
  rw [mmul_raw _ _ i j (by simpa using hi) hj, mmul_raw _ _ i j hi (by simpa using hj)]
  simp only [mmul_cols]
  rw [Finset.sum_congr rfl (fun l hl => by
    rw [mmul_raw A B i l hi (Finset.mem_range.1 hl), Finset.sum_mul])]
  rw [Finset.sum_comm]
  apply Finset.sum_congr rfl
  intro k hk
  rw [mmul_raw B C k j (h ▸ Finset.mem_range.1 hk) hj, Finset.mul_sum]
  apply Finset.sum_congr rfl
  intro l _
  ring

/-- Multiplying slot by slot with the slots of an embedded single-qubit gate
changes one slot only. -/
theorem zip_embed (U : Matrix R) (ys : List (Matrix R)) (a : Nat)
    (hy : ∀ y ∈ ys, y.wf ∧ y.rows = 2) :
    List.zipWith mmul ((List.replicate ys.length (idm 2)).set a U) ys
      = ys.set a (mmul U (ys.getD a (idm 2))) := by
  induction ys generalizing a with
  | nil => rfl
  | cons y ys ih =>
    have hy' : ∀ z ∈ ys, z.wf ∧ z.rows = 2 := fun z hz => hy z (List.mem_cons_of_mem _ hz)
    cases a with
    | zero =>
      simp only [List.length_cons, List.replicate_succ, List.set_cons_zero, List.zipWith_cons_cons,
        List.getD_cons_zero]
      congr 1
      have := ih ys.length hy'
      rw [List.set_eq_of_length_le (by simp), List.set_eq_of_length_le (by simp)] at this
      exact this
    | succ a =>
      simp only [List.length_cons, List.replicate_succ, List.set_cons_succ, List.zipWith_cons_cons,
        List.getD_cons_succ]
      rw [ih a hy', idm_mmul y (hy y (List.mem_cons_self _ _)).1 2 (hy y (List.mem_cons_self _ _)).2]

/-- An embedded single-qubit gate applied to a tensor product of slots acts on
its own slot. -/
theorem embed_apply (U : Matrix R) (ys : List (Matrix R)) (a : Nat) (hU : U.cols = 2)
    (hne : ys ≠ []) (hy : ∀ y ∈ ys, y.wf ∧ y.rows = 2) :
    mmul (tfold ((List.replicate ys.length (idm 2)).set a U)) (tfold ys)
      = tfold (ys.set a (mmul U (ys.getD a (idm 2)))) := by
  rcases tfold_mmul 2 ((List.replicate ys.length (idm 2)).set a U) ys (by simp)
    (by
      intro m hm
      rcases List.mem_or_eq_of_mem_set hm with h | h
      · rw [List.eq_of_mem_replicate h]; rfl
      · rw [h]; exact hU)
    (fun y hy' => (hy y hy').2) with h | h
  · rw [h, zip_embed U ys a hy]
  · exfalso
    apply hne
    have := congrArg List.length h
    simpa using this


theorem QuantumCircuit.single_step_shape (qc : QuantumCircuit R) (T : Nat) (us : List (Matrix R))
    (hs : qc.single_step T us) : ∀ u ∈ us, u.wf ∧ u.rows = 2 ∧ u.cols = 2 := by
  intro u hu
  obtain ⟨i, hi, rfl⟩ := List.getElem_of_mem hu
  obtain ⟨p, sg, _, _, _, h4, h5, h6, h7, _⟩ := hs.2 i (hs.1 ▸ hi)
  rw [List.getElem?_eq_getElem hi] at h4
  rw [Option.some.inj h4]
  exact ⟨h5, h6, h7⟩

theorem take_succ_replicate {α : Type} (us : List α) (x : α) (i : Nat) (hi : i < us.length) :
    (us.take i ++ List.replicate (us.length - i) x).set i (us.get ⟨i, hi⟩)
      = us.take (i + 1) ++ List.replicate (us.length - (i + 1)) x := by
  have e : us.length - i = (us.length - (i + 1)) + 1 := by omega
  rw [e, List.replicate_succ, List.set_append_right _ _ (by simp [Nat.min_eq_left (Nat.le_of_lt hi)])]
  simp only [List.length_take, Nat.min_eq_left (Nat.le_of_lt hi), Nat.sub_self, List.set_cons_zero]
  rw [List.take_succ, List.getElem?_eq_getElem hi]
  simp only [Option.toList, List.append_assoc, List.singleton_append, List.get_eq_getElem]

/-- The matrix of a step whose lanes all hold single-qubit gates at their own
index is the tensor product of the gate matrices, lane by lane. -/
theorem QuantumCircuit.get_matrix_at_step_single (qc : QuantumCircuit R) (T : Nat)
    (us : List (Matrix R)) (hn : 1 ≤ qc.register_size) (hs : qc.single_step T us) :
    qc.get_matrix_at_step T = .ok (tfold us) := by
  unfold QuantumCircuit.get_matrix_at_step
  rw [identity_matrix_eq]
  change for_range 0 qc.register_size
    (fun i resultant_matrix => do
      let c ← qc.cell i T
      let m ← c.obj.get_matrix_reg qc.register_size
      m.mul resultant_matrix) (idm (2 ^ qc.register_size)) = _
  have hshape := qc.single_step_shape T us hs
  obtain ⟨res, hres, hP⟩ := for_range_inv 0 qc.register_size
    (fun i resultant_matrix => do
      let c ← qc.cell i T
      let m ← c.obj.get_matrix_reg qc.register_size
      m.mul resultant_matrix) (idm (2 ^ qc.register_size))
    (fun i res => res = tfold (us.take i ++ List.replicate (us.length - i) (idm 2)))
    (Nat.zero_le _)
    (by
      simp only [List.take_zero, List.nil_append, Nat.sub_zero]
      rw [hs.1, tfold_replicate_idm _ hn])
    (by
      intro i s _ hi hsi
      obtain ⟨p, sg, h1, h2, h3, h4, h5, h6, h7, _⟩ := hs.2 i hi
      have hiu : i < us.length := hs.1 ▸ hi
      rw [List.getElem?_eq_getElem hiu] at h4
      have h4' : us.get ⟨i, hiu⟩ = sg.matrix := Option.some.inj h4
      have hcell : qc.cell i T = .ok p := (qc.cell_ok_iff i T p).2 h1
      set ys := us.take i ++ List.replicate (us.length - i) (idm 2 : Matrix R) with hys
      have hlen : ys.length = qc.register_size := by
        rw [hys, List.length_append, List.length_take, List.length_replicate, ← hs.1]; omega
      have hyne : ys ≠ [] := ne_nil_of_length_pos _ (by omega)
      have hysh : ∀ y ∈ ys, y.wf ∧ y.rows = 2 := by
        intro y hy
        rcases List.mem_append.1 hy with h | h
        · exact ⟨(hshape y (List.mem_of_mem_take h)).1, (hshape y (List.mem_of_mem_take h)).2.1⟩
        · rw [List.eq_of_mem_replicate h]; exact ⟨idm_wf 2, rfl⟩
      refine ⟨tfold (us.take (i + 1) ++ List.replicate (us.length - (i + 1)) (idm 2)), ?_, rfl⟩
      dsimp only
      rw [hcell]
      simp only [bind, Except.bind, h2, QuantumComponent.get_matrix_reg]
      rw [SingleGate.get_matrix_reg_single_eq sg _ (by rw [h3]; exact hi)]
      simp only []
      have hE : (tfold ((List.replicate qc.register_size (idm 2)).set sg.qubit_index sg.matrix)).cols
          = s.rows := by
        rw [tfold_cols_two _ (ne_nil_of_length_pos _ (by simp; omega))
          (fun m hm => by
            rcases List.mem_or_eq_of_mem_set hm with h | h
            · rw [List.eq_of_mem_replicate h]; rfl
            · rw [h]; exact h7)]
        rw [hsi, tfold_rows_two _ hyne (fun y hy => (hysh y hy).2)]
        simp [hlen]
      rw [Matrix.mul_eq _ _ hE, hsi, ← hlen, h3, embed_apply sg.matrix ys i h7 hyne hysh]
      have hget : ys.getD i (idm 2) = idm 2 := by
        rw [hys, List.getD_eq_getElem?_getD, List.getElem?_append_right (by simp)]
        simp only [List.length_take, Nat.min_eq_left (Nat.le_of_lt hiu), Nat.sub_self,
          List.getElem?_replicate]
        rw [if_pos (by omega)]
        rfl
      rw [hget, mmul_idm sg.matrix h5 2 h7, ← h4', take_succ_replicate us (idm 2) i hiu])
  rw [hres, hP, ← hs.1]
  simp


/-- The circuit matrix as the ordered product of its step matrices. -/
theorem QuantumCircuit.get_matrix_eq_product (qc : QuantumCircuit R) (T : Nat)
    (hT : qc.total_steps = (T : Int)) : qc.get_matrix = ordered_product qc T := by
  unfold QuantumCircuit.get_matrix for_range
  have e : (qc.total_steps + 1).toNat - 1 = T := by rw [hT]; omega
  rw [e]
  clear e hT
  induction T with
  | zero =>
    simp only [List.range'_zero, List.foldlM_nil, ordered_product]
    cases qc.get_matrix_at_step 0 <;> rfl
  | succ T ih =>
    rw [List.range'_concat, ordered_product, ← ih]
    simp only [List.foldlM_append, List.foldlM_cons, List.foldlM_nil, bind_pure, bind_assoc,
      Nat.one_mul, Nat.add_comm 1 T]

/-- The matrix of a step depends on the cells of that step only. -/
theorem QuantumCircuit.get_matrix_at_step_congr (qc qc' : QuantumCircuit R) (s : Nat)
    (hn : qc'.register_size = qc.register_size)
    (hc : ∀ i, i < qc.register_size → qc'.cell i s = qc.cell i s) :
    qc'.get_matrix_at_step s = qc.get_matrix_at_step s := by
  unfold QuantumCircuit.get_matrix_at_step
  rw [hn]
  congr 1
  funext start
  rw [for_range_zero, for_range_zero]
  have : ∀ (l : List Nat) (init : Matrix R), (∀ i ∈ l, i < qc.register_size) →
      l.foldlM (fun resultant_matrix i => do
        let c ← qc'.cell i s
        let m ← c.obj.get_matrix_reg qc.register_size
        m.mul resultant_matrix) init
      = l.foldlM (fun resultant_matrix i => do
        let c ← qc.cell i s
        let m ← c.obj.get_matrix_reg qc.register_size
        m.mul resultant_matrix) init := by
    intro l
    induction l with
    | nil => intro _ _; rfl
    | cons a l ih =>
      intro init hl
      rw [List.foldlM_cons, List.foldlM_cons, hc a (hl a (List.mem_cons_self _ _))]
      congr 1
      funext x
      exact ih x (fun i hi => hl i (List.mem_cons_of_mem _ hi))
  exact this _ _ (fun i hi => List.mem_range.1 hi)

/-- The product of the steps up to `t` depends on the cells of these steps only. -/
theorem ordered_product_congr (qc qc' : QuantumCircuit R) (t : Nat)
    (hn : qc'.register_size = qc.register_size)
    (hc : ∀ i j, i < qc.register_size → j ≤ t → qc'.cell i j = qc.cell i j) :
    ordered_product qc' t = ordered_product qc t := by
  induction t with
  | zero =>
    simp only [ordered_product]
    exact QuantumCircuit.get_matrix_at_step_congr qc qc' 0 hn (fun i hi => hc i 0 hi (Nat.le_refl 0))
  | succ t ih =>
    simp only [ordered_product]
    rw [ih (fun i j hi hj => hc i j hi (Nat.le_succ_of_le hj)),
      QuantumCircuit.get_matrix_at_step_congr qc qc' (t + 1) hn
        (fun i hi => hc i (t + 1) hi (Nat.le_refl _))]

/-- The class invariant survives further allocations. -/
theorem QuantumCircuit.wf_mono (h h' : Heap) (qc : QuantumCircuit R) (hwf : qc.wf h)
    (hle : h.next ≤ h'.next) : qc.wf h' :=
  ⟨hwf.1, hwf.2.1, hwf.2.2.1, fun lane hl p hp => Nat.lt_of_lt_of_le (hwf.2.2.2 lane hl p hp) hle⟩

/-- A pointer allocated after the circuit was built occupies none of its cells. -/
theorem QuantumCircuit.fresh_not_occupies (h : Heap) (qc : QuantumCircuit R) (g : shared_ptr R)
    (hwf : qc.wf h) (hg : h.next ≤ g.addr) : ¬ qc.occupies g := by
  rintro ⟨lane, hl, p, hp, e⟩
  have := hwf.2.2.2 lane hl p hp
  omega

theorem QuantumCircuit.single_step_fold (qc : QuantumCircuit R) (T : Nat) (us : List (Matrix R))
    (hn : 1 ≤ qc.register_size) (hs : qc.single_step T us) :
    (tfold us).wf ∧ (tfold us).rows = 2 ^ qc.register_size ∧
      (tfold us).cols = 2 ^ qc.register_size := by
  have hne : us ≠ [] := ne_nil_of_length_pos _ (by rw [hs.1]; omega)
  have hsh := qc.single_step_shape T us hs
  refine ⟨tfold_ne_nil_wf us (fun m hm => (hsh m hm).1) hne, ?_, ?_⟩
  · rw [tfold_rows_two us hne (fun m hm => (hsh m hm).2.1), hs.1]
  · rw [tfold_cols_two us hne (fun m hm => (hsh m hm).2.2), hs.1]

/-- The matrix of a circuit in the state `has_matrix h qc M` is `M`. -/
theorem QuantumCircuit.has_matrix_get (h : Heap) (qc : QuantumCircuit R) (M : Matrix R)
    (hm : qc.has_matrix h M) :
    qc.get_matrix = .ok M ∧ M.wf ∧ M.rows = 2 ^ qc.register_size ∧
      M.cols = 2 ^ qc.register_size := by
  obtain ⟨_, hn, T, us, hT, hs, hM⟩ := hm
  have hf := qc.single_step_fold T us hn hs
  rw [qc.get_matrix_eq_product T hT]
  rcases hM with ⟨rfl, rfl⟩ | ⟨t, P, rfl, hP, hPwf, hPr, hPc, rfl⟩
  · exact ⟨qc.get_matrix_at_step_single 0 us hn hs, hf⟩
  · refine ⟨?_, mmul_wf _ _, ?_, ?_⟩
    · simp only [ordered_product]
      rw [hP, qc.get_matrix_at_step_single (t + 1) us hn hs]
      exact Matrix.mul_eq _ _ (by rw [hf.2.2, hPr])
    · simp [hf.2.1]
    · simp [hPc]


theorem evolved_addr (h : Heap) (comps : List (List (shared_ptr R))) (b : Nat)
    (hb : ∀ lane ∈ comps, ∀ p ∈ lane, p.addr < b) (hle : h.next + comps.length ≤ b) :
    ∀ lane ∈ evolved h comps, ∀ p ∈ lane, p.addr < b := by
  intro lane hl p hp
  obtain ⟨i, hi, rfl⟩ := List.getElem_of_mem hl
  rw [evolved_length] at hi
  have := evolved_getElem h comps i hi
  rw [List.getElem?_eq_getElem (by rw [evolved_length]; exact hi)] at this
  rw [Option.some.inj this] at hp
  rcases List.mem_append.1 hp with hp | hp
  · exact hb _ (List.get_mem _ _ _) p hp
  · rw [List.mem_singleton.1 hp]
    show h.next + i < b
    omega

theorem grid_put_addr (comps : List (List (shared_ptr R))) (r s : Nat) (g : shared_ptr R)
    (b : Nat) (hb : ∀ lane ∈ comps, ∀ p ∈ lane, p.addr < b) (hg : g.addr < b) :
    ∀ lane ∈ grid_put comps r s g, ∀ p ∈ lane, p.addr < b := by
  intro lane hl p hp
  unfold grid_put at hl
  rcases List.mem_or_eq_of_mem_set hl with h | h
  · exact hb lane h p hp
  · rw [h] at hp
    rcases List.mem_or_eq_of_mem_set hp with h' | h'
    · by_cases hr : r < comps.length
      · have : comps.getD r [] ∈ comps := by
          rw [List.getD_eq_getElem?_getD, List.getElem?_eq_getElem hr]
          exact List.getElem_mem hr
        exact hb _ this p h'
      · rw [List.getD_eq_getElem?_getD, List.getElem?_eq_none (by omega)] at h'
        cases h'
    · rw [h']; exact hg

/-- A freshly constructed circuit: one step of identity placeholders, whose
matrix is the identity. -/
theorem QuantumCircuit.new_has_matrix (h : Heap) (n : Nat) (hn : 1 ≤ n) :
    ∃ qc : QuantumCircuit R, QuantumCircuit.new h n = .ok ({ next := h.next + n }, qc) ∧
      qc.has_matrix { next := h.next + n } (idm (2 ^ n)) ∧ qc.register_size = n ∧
      qc.input_register = List.replicate n 0 := by
  unfold QuantumCircuit.new
  rw [QuantumCircuit.evolve_eq _ _ (by simp)]
  refine ⟨_, rfl, ?_, rfl, rfl⟩
  have hk : ∀ lane ∈ (List.replicate n [] : List (List (shared_ptr R))), lane.length = 0 :=
    fun lane hl => by rw [List.eq_of_mem_replicate hl]; rfl
  refine ⟨⟨?_, ?_, ?_, ?_⟩, hn, 0, List.replicate n (idm 2), ?_, ⟨?_, ?_⟩, ?_⟩
  · simp [evolved_length]
  · show (0 : Int) ≤ -1 + 1
    omega
  · intro lane hl
    have := evolved_lanes h _ 0 hk lane hl
    show (lane.length : Int) = -1 + 1 + 1
    omega
  · apply evolved_addr
    · intro lane hl p hp
      rw [List.eq_of_mem_replicate hl] at hp
      cases hp
    · simp
  · show (-1 : Int) + 1 = ((0 : Nat) : Int)
    omega
  · simp
  · intro i hi
    refine ⟨_, { qubit_index := i, symbol := "I", matrix := idm 2 },
      grid_at_evolved_new h _ i 0 (by simpa using hi) hk, rfl, rfl, ?_, idm_wf 2, rfl, rfl,
      fun _ => rfl⟩
    rw [List.getElem?_replicate, if_pos hi]
  · left
    exact ⟨rfl, (tfold_replicate_idm n hn).symm⟩


/-- Adding a single-qubit gate multiplies the circuit matrix on the left by the
embedding of the gate. -/
theorem QuantumCircuit.add_single_product (h0 h : Heap) (qc : QuantumCircuit R) (g : shared_ptr R)
    (sg : SingleGate R) (M : Matrix R)
    (hm : qc.has_matrix h0 M) (hobj : g.obj = .single sg)
    (hle : h0.next ≤ h.next) (hnot : ¬ qc.occupies g) (hg : g.addr < h.next)
    (hfit : sg.qubit_index < qc.register_size) (hsym : sg.symbol ≠ "I")
    (hwf : sg.matrix.wf) (hr : sg.matrix.rows = 2) (hc : sg.matrix.cols = 2) :
    ∃ h' qc', qc.add_component h g = .ok (h', qc') ∧
      qc'.has_matrix h'
        (mmul (tfold ((List.replicate qc.register_size (idm 2)).set sg.qubit_index sg.matrix)) M) ∧
      h.next ≤ h'.next ∧ qc'.register_size = qc.register_size ∧
      qc'.input_register = qc.input_register := by
  have hget := qc.has_matrix_get h0 M hm
  obtain ⟨hwfq, hn, T, us, hT, hs, hM⟩ := hm
  have hlanes := qc.wf_steps h0 T hwfq hT
  have hlen := hwfq.1
  obtain ⟨c0, sg0, hc0, hobj0, _, hu0, _, _, _, hI0⟩ := hs.2 sg.qubit_index hfit
  have hnew : grid_at (evolved h qc.components) sg.qubit_index (T + 1)
      = some { addr := h.next + sg.qubit_index, obj := placeholder sg.qubit_index } :=
    grid_at_evolved_new h _ _ (T + 1) (hlen ▸ hfit) hlanes
  have key := QuantumCircuit.add_component_single_eq h qc g c0 sg T hlen hT hobj hnot hg hfit hc0
    (by rw [hnew]; rfl)
  have hsh := qc.single_step_shape T us hs
  have hune : us ≠ [] := ne_nil_of_length_pos _ (by rw [hs.1]; omega)
  have hEc : (tfold ((List.replicate qc.register_size (idm 2 : Matrix R)).set sg.qubit_index
      sg.matrix)).cols = 2 ^ qc.register_size := by
    rw [tfold_cols_two _ (ne_nil_of_length_pos _ (by simp; omega))
      (fun m hm => by
        rcases List.mem_or_eq_of_mem_set hm with h | h
        · rw [List.eq_of_mem_replicate h]; rfl
        · rw [h]; exact hc)]
    simp
  by_cases hI : c0.obj.get_symbol = "I"
  · rw [if_pos hI] at key
    have hid : us.getD sg.qubit_index (idm 2) = idm 2 := by
      rw [List.getD_eq_getElem?_getD, hu0]
      rw [hobj0] at hI
      exact hI0 hI
    have happ : mmul (tfold ((List.replicate qc.register_size (idm 2)).set sg.qubit_index
        sg.matrix)) (tfold us) = tfold (us.set sg.qubit_index sg.matrix) := by
      rw [← hs.1, embed_apply sg.matrix us _ hc hune (fun y hy => ⟨(hsh y hy).1, (hsh y hy).2.1⟩),
        hid, mmul_idm sg.matrix hwf 2 hc]
    refine ⟨h, _, key, ⟨⟨?_, hwfq.2.1, ?_, ?_⟩, hn, T, us.set sg.qubit_index sg.matrix, hT,
      ⟨?_, ?_⟩, ?_⟩, Nat.le_refl _, rfl, rfl⟩
    · show (grid_put qc.components sg.qubit_index T g).length = qc.register_size
      rw [grid_put_length, hlen]
    · intro lane hl
      have := grid_put_occupies_length qc.components sg.qubit_index T g (T + 1) hlanes lane hl
      rw [this, hT]
      push_cast
      rfl
    · exact grid_put_addr _ _ _ _ _
        (fun lane hl p hp => Nat.lt_of_lt_of_le (hwfq.2.2.2 lane hl p hp) hle) hg
    · rw [List.length_set]; exact hs.1
    · intro i hi
      by_cases hii : i = sg.qubit_index
      · refine ⟨g, sg, ?_, hobj, hii.symm, ?_, hwf, hr, hc, fun e => absurd e hsym⟩
        · show grid_at (grid_put qc.components sg.qubit_index T g) i T = some g
          rw [grid_at_put, if_pos ⟨hii, rfl, by rw [hc0]; rfl⟩]
        · rw [hii, List.getElem?_set_self (by rw [hs.1]; exact hfit)]
      · obtain ⟨p, sgi, h1, h2, h3, h4, h5⟩ := hs.2 i hi
        refine ⟨p, sgi, ?_, h2, h3, ?_, h5⟩
        · show grid_at (grid_put qc.components sg.qubit_index T g) i T = some p
          rw [grid_at_put, if_neg (fun hh => hii hh.1), h1]
        · rw [List.getElem?_set_ne (fun hh => hii hh.symm), h4]
    · rcases hM with ⟨hT0, rfl⟩ | ⟨t, P, hTt, hP, hPwf, hPr, hPc, rfl⟩
      · left
        exact ⟨hT0, happ⟩
      · right
        refine ⟨t, P, hTt, ?_, hPwf, hPr, hPc, ?_⟩
        · rw [← hP]
          refine ordered_product_congr qc _ t ?_ ?_
          · rfl
          intro i j _ hj
          apply QuantumCircuit.cell_congr
          show grid_at (grid_put qc.components sg.qubit_index T g) i j = _
          rw [grid_at_put, if_neg (fun hh => by omega)]
        · rw [← mmul_assoc _ _ _ (by rw [hEc, (qc.single_step_fold T us hn hs).2.1]), happ]
  · rw [if_neg hI] at key
    have hlanes' := evolved_lanes h qc.components (T + 1) hlanes
    refine ⟨_, _, key, ⟨⟨?_, ?_, ?_, ?_⟩, hn, T + 1,
      (List.replicate qc.register_size (idm 2)).set sg.qubit_index sg.matrix, ?_,
      ⟨?_, ?_⟩, ?_⟩, Nat.le_add_right _ _, rfl, rfl⟩
    · show (grid_put (evolved h qc.components) sg.qubit_index (T + 1) g).length = qc.register_size
      rw [grid_put_length, evolved_length, hlen]
    · show (0 : Int) ≤ (T : Int) + 1
      omega
    · intro lane hl
      have := grid_put_occupies_length (evolved h qc.components) sg.qubit_index (T + 1) g
        (T + 1 + 1) hlanes' lane hl
      rw [this]
      show ((T + 1 + 1 : Nat) : Int) = (T : Int) + 1 + 1
      push_cast
      rfl
    · apply grid_put_addr
      · apply evolved_addr
        · intro lane hl p hp
          have := hwfq.2.2.2 lane hl p hp
          show p.addr < h.next + qc.register_size
          omega
        · rw [hlen]
      · show g.addr < h.next + qc.register_size
        omega
    · show (T : Int) + 1 = ((T + 1 : Nat) : Int)
      push_cast
      rfl
    · simp
    · intro i hi
      by_cases hii : i = sg.qubit_index
      · refine ⟨g, sg, ?_, hobj, hii.symm, ?_, hwf, hr, hc, fun e => absurd e hsym⟩
        · show grid_at (grid_put (evolved h qc.components) sg.qubit_index (T + 1) g) i (T + 1)
            = some g
          rw [grid_at_put, if_pos ⟨hii, rfl, by rw [hnew]; rfl⟩]
        · rw [hii, List.getElem?_set_self (by simpa using hfit)]
      · refine ⟨{ addr := h.next + i, obj := placeholder i },
          { qubit_index := i, symbol := "I", matrix := idm 2 }, ?_, rfl, rfl, ?_,
          idm_wf 2, rfl, rfl, fun _ => rfl⟩
        · show grid_at (grid_put (evolved h qc.components) sg.qubit_index (T + 1) g) i (T + 1) = _
          rw [grid_at_put, if_neg (fun hh => hii hh.1),
            grid_at_evolved_new h _ i (T + 1) (hlen ▸ hi) hlanes]
        · rw [List.getElem?_set_ne (fun hh => hii hh.symm), List.getElem?_replicate, if_pos hi]
    · right
      refine ⟨T, M, rfl, ?_, hget.2.1, hget.2.2.1, hget.2.2.2, rfl⟩
      rw [← hget.1, qc.get_matrix_eq_product T hT]
      refine ordered_product_congr qc _ T ?_ ?_
      · rfl
      intro i j _ hj
      apply QuantumCircuit.cell_congr
      show grid_at (grid_put (evolved h qc.components) sg.qubit_index (T + 1) g) i j = _
      rw [grid_at_put, if_neg (fun hh => by omega),
        grid_at_evolved_old h _ i j (T + 1) hlanes (by omega)]

/-- Adding a freshly allocated single-qubit gate multiplies the circuit matrix on
the left by the embedding of the gate. -/
theorem QuantumCircuit.add_single_matrix (h0 h : Heap) (qc : QuantumCircuit R) (g : shared_ptr R)
    (sg : SingleGate R) (M : Matrix R)
    (hm : qc.has_matrix h0 M) (hobj : g.obj = .single sg)
    (hfresh : h0.next ≤ g.addr) (hg : g.addr < h.next)
    (hfit : sg.qubit_index < qc.register_size) (hsym : sg.symbol ≠ "I")
    (hwf : sg.matrix.wf) (hr : sg.matrix.rows = 2) (hc : sg.matrix.cols = 2) :
    ∃ h' qc', qc.add_component h g = .ok (h', qc') ∧
      qc'.has_matrix h'
        (mmul (tfold ((List.replicate qc.register_size (idm 2)).set sg.qubit_index sg.matrix)) M) ∧
      h.next ≤ h'.next ∧ qc'.register_size = qc.register_size ∧
      qc'.input_register = qc.input_register := by
  exact qc.add_single_product h0 h g sg M hm hobj (by omega)
    (qc.fresh_not_occupies h0 g hm.1 hfresh) hg hfit hsym hwf hr hc


theorem QuantumComponent.as_multi_facts (o : QuantumComponent R) (mg : MultiGate R)
    (h : o.as_multi = some mg) :
    o.get_gate_type = "MultiGate" ∧ o.get_index = mg.qubit_index ∧
      (∀ n, o.can_gate_fit n = mg.can_gate_fit n) ∧
      (∀ n, o.get_matrix_reg n = mg.get_matrix_reg n) := by
  cases o with
  | single g => cases h
  | multi g =>
    cases h
    exact ⟨rfl, rfl, fun _ => rfl, fun _ => rfl⟩
  | controlled g =>
    cases h
    exact ⟨rfl, rfl, fun _ => rfl, fun _ => rfl⟩

theorem step_empty_symbol (comps : List (List (shared_ptr R))) (s i : Nat) (p : shared_ptr R)
    (he : step_empty comps s = true) (hp : grid_at comps i s = some p) :
    p.obj.get_symbol = "I" := by
  unfold grid_at at hp
  cases hl : comps[i]? with
  | none => rw [hl] at hp; cases hp
  | some lane =>
    rw [hl] at hp
    simp only [Option.bind] at hp
    unfold step_empty at he
    rw [List.all_eq_true] at he
    have := he lane (List.getElem?_mem hl)
    rw [hp] at this
    simpa using this

/-- The matrix of a step that holds a multi-qubit gate at its anchor lane and
identity placeholders elsewhere. -/
theorem QuantumCircuit.get_matrix_at_step_anchor (qc : QuantumCircuit R) (s : Nat)
    (g : shared_ptr R) (mg : MultiGate R) (hobj : g.obj.as_multi = some mg)
    (hfit : mg.qubit_index + mg.gate_size ≤ qc.register_size) (ha : mg.qubit_index < qc.register_size)
    (hr : mg.matrix.rows = 2 ^ mg.gate_size) (hc : mg.matrix.cols = 2 ^ mg.gate_size)
    (hg : grid_at qc.components mg.qubit_index s = some g)
    (hothers : ∀ i, i < qc.register_size → i ≠ mg.qubit_index →
      ∃ p, grid_at qc.components i s = some p ∧ p.obj = placeholder i) :
    qc.get_matrix_at_step s
      = .ok (mmul (tfold ((List.replicate (qc.register_size - mg.gate_size + 1) (idm 2)).set
          mg.qubit_index mg.matrix)) (idm (2 ^ qc.register_size))) := by
  have hsh := embed_multi_shape qc.register_size mg.qubit_index mg.gate_size mg.matrix hfit hr hc
  rw [qc.get_matrix_at_step_eq s mg.qubit_index _ hsh.1 hsh.2, if_pos ha]
  intro i hi
  by_cases hia : i = mg.qubit_index
  · rw [if_pos hia, hia, (qc.cell_ok_iff _ _ g).2 hg]
    show g.obj.get_matrix_reg qc.register_size = _
    rw [(g.obj.as_multi_facts mg hobj).2.2.2, MultiGate.get_matrix_reg_multi_eq mg _ hfit]
  · obtain ⟨p, hp, hpo⟩ := hothers i hi hia
    rw [if_neg hia, (qc.cell_ok_iff _ _ p).2 hp]
    show p.obj.get_matrix_reg qc.register_size = _
    rw [hpo]
    exact IGate_embed i _ hi

/-- The matrix of a step that holds a multi-qubit gate of size at least 1 at its
anchor lane and identity placeholders elsewhere. -/
theorem QuantumCircuit.get_matrix_at_step_multi (qc : QuantumCircuit R) (s : Nat)
    (g : shared_ptr R) (mg : MultiGate R) (hobj : g.obj.as_multi = some mg)
    (hfit : mg.qubit_index + mg.gate_size ≤ qc.register_size) (hk : 1 ≤ mg.gate_size)
    (hr : mg.matrix.rows = 2 ^ mg.gate_size) (hc : mg.matrix.cols = 2 ^ mg.gate_size)
    (hg : grid_at qc.components mg.qubit_index s = some g)
    (hothers : ∀ i, i < qc.register_size → i ≠ mg.qubit_index →
      ∃ p, grid_at qc.components i s = some p ∧ p.obj = placeholder i) :
    qc.get_matrix_at_step s
      = .ok (mmul (tfold ((List.replicate (qc.register_size - mg.gate_size + 1) (idm 2)).set
          mg.qubit_index mg.matrix)) (idm (2 ^ qc.register_size))) := by
  exact qc.get_matrix_at_step_anchor s g mg hobj hfit (by omega) hr hc hg hothers

theorem mmul_embed_norm (E X : Matrix R) (N : Nat) (hEc : E.cols = N) (hX : X.wf)
    (hXr : X.rows = N) : mmul (mmul E (idm N)) X = mmul E X := by
  rw [mmul_assoc _ _ _ (by simp [hEc]), idm_mmul X hX N hXr]


/-- Adding a multi-qubit gate multiplies the circuit matrix on the left by the
embedding of the gate. -/
theorem QuantumCircuit.add_multi_product (h0 h : Heap) (qc : QuantumCircuit R) (g : shared_ptr R)
    (mg : MultiGate R) (M : Matrix R)
    (hm : qc.has_matrix h0 M) (hobj : g.obj.as_multi = some mg)
    (hle : h0.next ≤ h.next) (hnot : ¬ qc.occupies g) (hg : g.addr < h.next)
    (hfit : mg.qubit_index + mg.gate_size ≤ qc.register_size) (ha : mg.qubit_index < qc.register_size)
    (hr : mg.matrix.rows = 2 ^ mg.gate_size) (hc : mg.matrix.cols = 2 ^ mg.gate_size) :
    ∃ h' qc', qc.add_component h g = .ok (h', qc') ∧
      qc'.has_matrix h'
        (mmul (tfold ((List.replicate (qc.register_size - mg.gate_size + 1) (idm 2)).set
          mg.qubit_index mg.matrix)) M) ∧
      h.next ≤ h'.next ∧ qc'.register_size = qc.register_size ∧
      qc'.input_register = qc.input_register := by
  have hget := qc.has_matrix_get h0 M hm
  obtain ⟨hwfq, hn, T, us, hT, hs, hM⟩ := hm
  have hlanes := qc.wf_steps h0 T hwfq hT
  have hlen := hwfq.1
  obtain ⟨ht, hidx, hcf, _⟩ := g.obj.as_multi_facts mg hobj
  have key := QuantumCircuit.add_component_multi_eq h qc g T hlen hT hlanes ht hnot hg
    (by rw [hcf]; exact mg.can_gate_fit_of_le _ hfit) (by rw [hidx]; exact ha)
  rw [hidx] at key
  have hsh := embed_multi_shape qc.register_size mg.qubit_index mg.gate_size mg.matrix hfit hr hc
  have hold : ∀ i, i < qc.register_size → ∃ p, grid_at qc.components i T = some p :=
    fun i hi => grid_at_isSome _ i T (T + 1) (hlen ▸ hi) hlanes (by omega)
  have hrep : (tfold (List.replicate qc.register_size (idm 2 : Matrix R)))
      = idm (2 ^ qc.register_size) := tfold_replicate_idm _ hn
  have hph : ∀ (hh : Heap) (comps : List (List (shared_ptr R))) (k : Nat),
      comps.length = qc.register_size → (∀ lane ∈ comps, lane.length = k) →
      ∀ i, i < qc.register_size → ∃ p sg, grid_at (evolved hh comps) i k = some p ∧
        p.obj = .single sg ∧ sg.qubit_index = i ∧
        (List.replicate qc.register_size (idm 2 : Matrix R))[i]? = some sg.matrix ∧
        sg.matrix.wf ∧ sg.matrix.rows = 2 ∧ sg.matrix.cols = 2 ∧
        (sg.symbol = "I" → sg.matrix = idm 2) := by
    intro hh comps k hl hlk i hi
    refine ⟨{ addr := hh.next + i, obj := placeholder i },
      { qubit_index := i, symbol := "I", matrix := idm 2 },
      grid_at_evolved_new hh _ i k (hl ▸ hi) hlk, rfl, rfl, ?_, idm_wf 2, rfl, rfl, fun _ => rfl⟩
    rw [List.getElem?_replicate, if_pos hi]
  by_cases he : step_empty qc.components T = true
  · rw [if_pos he] at key
    have hall : ∀ i, i < qc.register_size → ∃ p, grid_at qc.components i T = some p ∧
        p.obj = placeholder i := by
      intro i hi
      obtain ⟨p, sg, h1, h2, h3, _, _, _, _, h8⟩ := hs.2 i hi
      refine ⟨p, h1, ?_⟩
      have hsym := step_empty_symbol _ T i p he h1
      rw [h2] at hsym
      have hsym' : sg.symbol = "I" := hsym
      rw [h2]
      cases sg
      simp only [placeholder] at *
      rw [h3, hsym', h8 hsym']
    have hus : us = List.replicate qc.register_size (idm 2) := by
      apply List.ext_getElem?
      intro i
      by_cases hi : i < qc.register_size
      · obtain ⟨p, sg, h1, h2, _, h4, _, _, _, h8⟩ := hs.2 i hi
        have hsym := step_empty_symbol _ T i p he h1
        rw [h2] at hsym
        rw [h4, h8 hsym, List.getElem?_replicate, if_pos hi]
      · rw [List.getElem?_eq_none (by rw [hs.1]; omega),
          List.getElem?_eq_none (by simp; omega)]
    have hlanes1 : ∀ lane ∈ grid_put qc.components mg.qubit_index T g, lane.length = T + 1 :=
      grid_put_occupies_length _ _ _ _ _ hlanes
    have hput : grid_at (grid_put qc.components mg.qubit_index T g) mg.qubit_index T = some g := by
      obtain ⟨p, hp⟩ := hold _ ha
      rw [grid_at_put, if_pos ⟨rfl, rfl, by rw [hp]; rfl⟩]
    have hstep : QuantumCircuit.get_matrix_at_step
        { qc with components := evolved h (grid_put qc.components mg.qubit_index T g),
                  total_steps := (T : Int) + 1 } T
        = .ok (mmul (tfold ((List.replicate (qc.register_size - mg.gate_size + 1) (idm 2)).set
          mg.qubit_index mg.matrix)) (idm (2 ^ qc.register_size))) := by
      refine QuantumCircuit.get_matrix_at_step_anchor _ T g mg hobj ?_ ha hr hc ?_ ?_
      · exact hfit
      · show grid_at (evolved h (grid_put qc.components mg.qubit_index T g)) mg.qubit_index T = _
        rw [grid_at_evolved_old h _ _ T (T + 1) hlanes1 (by omega), hput]
      · intro i hi hia
        obtain ⟨p, hp, hpo⟩ := hall i hi
        refine ⟨p, ?_, hpo⟩
        show grid_at (evolved h (grid_put qc.components mg.qubit_index T g)) i T = _
        rw [grid_at_evolved_old h _ _ T (T + 1) hlanes1 (by omega), grid_at_put,
          if_neg (fun hh => hia hh.1), hp]
    refine ⟨_, _, key, ⟨⟨?_, ?_, ?_, ?_⟩, hn, T + 1, List.replicate qc.register_size (idm 2), ?_,
      ⟨?_, ?_⟩, ?_⟩, Nat.le_add_right _ _, rfl, rfl⟩
    · show (evolved h (grid_put qc.components mg.qubit_index T g)).length = qc.register_size
      rw [evolved_length, grid_put_length, hlen]
    · show (0 : Int) ≤ (T : Int) + 1
      omega
    · intro lane hl
      have := evolved_lanes h _ (T + 1) hlanes1 lane hl
      rw [this]
      show ((T + 1 + 1 : Nat) : Int) = (T : Int) + 1 + 1
      push_cast
      rfl
    · apply evolved_addr
      · apply grid_put_addr
        · intro lane hl p hp
          have := hwfq.2.2.2 lane hl p hp
          show p.addr < h.next + qc.register_size
          omega
        · show g.addr < h.next + qc.register_size
          omega
      · rw [grid_put_length, hlen]
    · show (T : Int) + 1 = ((T + 1 : Nat) : Int)
      push_cast
      rfl
    · simp
    · exact hph h _ (T + 1) (by rw [grid_put_length, hlen]) hlanes1
    · right
      rcases hM with ⟨hT0, rfl⟩ | ⟨t, P, hTt, hP, hPwf, hPr, hPc, rfl⟩
      · subst hT0
        refine ⟨0, _, rfl, hstep, mmul_wf _ _, by simp [hsh.1], by simp, ?_⟩
        rw [hus, hrep, idm_mmul _ (mmul_wf _ _) _ (by simp [hsh.1])]
      · subst hTt
        refine ⟨t + 1, mmul (mmul (tfold ((List.replicate (qc.register_size - mg.gate_size + 1)
          (idm 2)).set mg.qubit_index mg.matrix)) (idm (2 ^ qc.register_size))) P, rfl, ?_,
          mmul_wf _ _, by simp [hsh.1], by simp [hPc], ?_⟩
        · simp only [ordered_product]
          rw [hstep]
          have : ordered_product
              { qc with components := evolved h (grid_put qc.components mg.qubit_index (t + 1) g),
                        total_steps := ((t + 1 : Nat) : Int) + 1 } t = .ok P := by
            rw [← hP]
            refine ordered_product_congr qc _ t ?_ ?_
            · rfl
            intro i j _ hj
            apply QuantumCircuit.cell_congr
            show grid_at (evolved h (grid_put qc.components mg.qubit_index (t + 1) g)) i j = _
            rw [grid_at_evolved_old h _ _ j (t + 1 + 1) hlanes1 (by omega), grid_at_put,
              if_neg (fun hh => by omega)]
          rw [this]
          exact Matrix.mul_eq _ _ (by simp [hPr])
        · rw [hus, hrep, idm_mmul P hPwf _ hPr, idm_mmul _ (mmul_wf _ _) _ (by simp [hsh.1]),
            mmul_embed_norm _ P _ hsh.2 hPwf hPr]
  · rw [if_neg he] at key
    have hlanes1 := evolved_lanes h qc.components (T + 1) hlanes
    have hlanes2 : ∀ lane ∈ grid_put (evolved h qc.components) mg.qubit_index (T + 1) g,
        lane.length = T + 1 + 1 := grid_put_occupies_length _ _ _ _ _ hlanes1
    have hnew : ∀ i, i < qc.register_size → grid_at (evolved h qc.components) i (T + 1)
        = some { addr := h.next + i, obj := placeholder i } :=
      fun i hi => grid_at_evolved_new h _ i (T + 1) (hlen ▸ hi) hlanes
    have hstep : QuantumCircuit.get_matrix_at_step
        { qc with components := evolved { next := h.next + qc.register_size }
                    (grid_put (evolved h qc.components) mg.qubit_index (T + 1) g),
                  total_steps := (T : Int) + 1 + 1 } (T + 1)
        = .ok (mmul (tfold ((List.replicate (qc.register_size - mg.gate_size + 1) (idm 2)).set
          mg.qubit_index mg.matrix)) (idm (2 ^ qc.register_size))) := by
      refine QuantumCircuit.get_matrix_at_step_anchor _ (T + 1) g mg hobj ?_ ha hr hc ?_ ?_
      · exact hfit
      · show grid_at (evolved _ (grid_put (evolved h qc.components) mg.qubit_index (T + 1) g))
          mg.qubit_index (T + 1) = _
        rw [grid_at_evolved_old _ _ _ (T + 1) (T + 1 + 1) hlanes2 (by omega), grid_at_put,
          if_pos ⟨rfl, rfl, by rw [hnew _ ha]; rfl⟩]
      · intro i hi hia
        refine ⟨{ addr := h.next + i, obj := placeholder i }, ?_, rfl⟩
        show grid_at (evolved _ (grid_put (evolved h qc.components) mg.qubit_index (T + 1) g))
          i (T + 1) = _
        rw [grid_at_evolved_old _ _ _ (T + 1) (T + 1 + 1) hlanes2 (by omega), grid_at_put,
          if_neg (fun hh => hia hh.1), hnew i hi]
    refine ⟨_, _, key, ⟨⟨?_, ?_, ?_, ?_⟩, hn, T + 1 + 1, List.replicate qc.register_size (idm 2),
      ?_, ⟨?_, ?_⟩, ?_⟩, ?_, rfl, rfl⟩
    · show (evolved _ (grid_put (evolved h qc.components) mg.qubit_index (T + 1) g)).length
        = qc.register_size
      rw [evolved_length, grid_put_length, evolved_length, hlen]
    · show (0 : Int) ≤ (T : Int) + 1 + 1
      omega
    · intro lane hl
      have := evolved_lanes _ _ (T + 1 + 1) hlanes2 lane hl
      rw [this]
      show ((T + 1 + 1 + 1 : Nat) : Int) = (T : Int) + 1 + 1 + 1
      push_cast
      rfl
    · apply evolved_addr
      · apply grid_put_addr
        · apply evolved_addr
          · intro lane hl p hp
            have := hwfq.2.2.2 lane hl p hp
            show p.addr < h.next + qc.register_size + qc.register_size
            omega
          · show h.next + qc.components.length ≤ h.next + qc.register_size + qc.register_size
            omega
        · show g.addr < h.next + qc.register_size + qc.register_size
          omega
      · rw [grid_put_length, evolved_length, hlen]
    · show (T : Int) + 1 + 1 = ((T + 1 + 1 : Nat) : Int)
      push_cast
      rfl
    · simp
    · exact hph _ _ (T + 1 + 1) (by rw [grid_put_length, evolved_length, hlen]) hlanes2
    · right
      refine ⟨T + 1, mmul (mmul (tfold ((List.replicate (qc.register_size - mg.gate_size + 1)
        (idm 2)).set mg.qubit_index mg.matrix)) (idm (2 ^ qc.register_size))) M, rfl, ?_,
        mmul_wf _ _, by simp [hsh.1], by simp [hget.2.2.2], ?_⟩
      · simp only [ordered_product]
        rw [hstep]
        have : ordered_product
            { qc with components := evolved { next := h.next + qc.register_size }
                        (grid_put (evolved h qc.components) mg.qubit_index (T + 1) g),
                      total_steps := (T : Int) + 1 + 1 } T = .ok M := by
          rw [← hget.1, qc.get_matrix_eq_product T hT]
          refine ordered_product_congr qc _ T ?_ ?_
          · rfl
          intro i j _ hj
          apply QuantumCircuit.cell_congr
          show grid_at (evolved _ (grid_put (evolved h qc.components) mg.qubit_index (T + 1) g))
            i j = _
          rw [grid_at_evolved_old _ _ _ j (T + 1 + 1) hlanes2 (by omega), grid_at_put,
            if_neg (fun hh => by omega), grid_at_evolved_old h _ _ j (T + 1) hlanes (by omega)]
        rw [this]
        exact Matrix.mul_eq _ _ (by simp [hget.2.2.1])
      · rw [hrep, idm_mmul _ (mmul_wf _ _) _ (by simp [hsh.1]),
          mmul_embed_norm _ M _ hsh.2 hget.2.1 hget.2.2.1]
    · show h.next ≤ h.next + qc.register_size + qc.register_size
      omega

/-- Adding a freshly allocated multi-qubit gate of size at least 1 multiplies the
circuit matrix on the left by the embedding of the gate. -/
theorem QuantumCircuit.add_multi_matrix (h0 h : Heap) (qc : QuantumCircuit R) (g : shared_ptr R)
    (mg : MultiGate R) (M : Matrix R)
    (hm : qc.has_matrix h0 M) (hobj : g.obj.as_multi = some mg)
    (hfresh : h0.next ≤ g.addr) (hg : g.addr < h.next)
    (hfit : mg.qubit_index + mg.gate_size ≤ qc.register_size) (hk : 1 ≤ mg.gate_size)
    (hr : mg.matrix.rows = 2 ^ mg.gate_size) (hc : mg.matrix.cols = 2 ^ mg.gate_size) :
    ∃ h' qc', qc.add_component h g = .ok (h', qc') ∧
      qc'.has_matrix h'
        (mmul (tfold ((List.replicate (qc.register_size - mg.gate_size + 1) (idm 2)).set
          mg.qubit_index mg.matrix)) M) ∧
      h.next ≤ h'.next ∧ qc'.register_size = qc.register_size ∧
      qc'.input_register = qc.input_register := by
  exact qc.add_multi_product h0 h g mg M hm hobj (by omega)
    (qc.fresh_not_occupies h0 g hm.1 hfresh) hg hfit (by omega) hr hc

end Scheduling

/-! ## Basis states under embedded gates -/

section States

variable {R : Type} [CommRing R] [StarRing R]

theorem foldl_kron_mmul_pairs (xs ys : List (Matrix R)) (X Y : Matrix R)
    (hlen : xs.length = ys.length) (hX : X.cols = Y.rows)
    (hxy : ∀ p ∈ xs.zip ys, p.1.cols = p.2.rows) :
    mmul (xs.foldl kron X) (ys.foldl kron Y)
      = (List.zipWith mmul xs ys).foldl kron (mmul X Y) := by
  induction xs generalizing ys X Y with
  | nil =>
    cases ys with
    | nil => rfl
    | cons y ys => simp at hlen
  | cons x xs ih =>
    cases ys with
    | nil => simp at hlen
    | cons y ys =>
      simp only [List.foldl_cons, List.zipWith_cons_cons]
      have hx : x.cols = y.rows := hxy (x, y) (by simp)
      rw [ih ys (kron X x) (kron Y y) (by simpa using hlen) (by simp [hX, hx])
        (fun p hp => hxy p (by simp [hp])),
        mmul_kron X x Y y hX hx]

/-- The product of two folds whose slots match pairwise is the fold of the
slotwise products. -/
theorem tfold_mmul_pairs (xs ys : List (Matrix R)) (hlen : xs.length = ys.length)
    (hne : xs ≠ []) (hxy : ∀ p ∈ xs.zip ys, p.1.cols = p.2.rows) :
    mmul (tfold xs) (tfold ys) = tfold (List.zipWith mmul xs ys) := by
  cases xs with
  | nil => exact absurd rfl hne
  | cons x xs =>
    cases ys with
    | nil => simp at hlen
    | cons y ys =>
      simp only [tfold, List.zipWith_cons_cons]
      exact foldl_kron_mmul_pairs xs ys x y (by simpa using hlen) (hxy (x, y) (by simp))
        (fun p hp => hxy p (by simp [hp]))

/-- The embedding of a product is the product of the embeddings. -/
theorem embed_block_mmul (m a : Nat) (A B : Matrix R) (hAB : A.cols = B.rows) (hm : 0 < m) :
    tfold ((List.replicate m (idm 2)).set a (mmul A B))
      = mmul (tfold ((List.replicate m (idm 2)).set a A))
          (tfold ((List.replicate m (idm 2)).set a B)) := by
  rw [tfold_mmul_pairs _ _ (by simp) (ne_nil_of_length_pos _ (by simpa using hm)),
    zipWith_set, List.zipWith_replicate, Nat.min_self, idm_mmul (idm 2) (idm_wf 2) 2 rfl]
  intro p hp
  obtain ⟨i, hi, rfl⟩ := List.getElem_of_mem hp
  simp only [List.getElem_zip, List.getElem_set]
  split <;> first | exact hAB | simp

/-- The embedding of the footprint matrix of a controlled gate at the anchor
`a` is the full-register expansion with control `a + rc` and target `a + rt`. -/
theorem controlled_block_embed (n a k rc rt : Nat) (U : Matrix R) (h : a + k ≤ n)
    (hrc : rc < k) (hrt : rt < k) (hr : U.rows = 2) (hc : U.cols = 2) :
    tfold ((List.replicate (n - k + 1) (idm 2)).set a
        (madd (tfold (slots0 k rc)) (tfold (slots1 k rc rt U))))
      = madd (tfold (slots0 n (a + rc))) (tfold (slots1 n (a + rc) (a + rt) U)) := by
  rw [set_replicate_eq _ a _ _ (by omega), controlled_embed _ _ _ _ _ U (by omega) hr hc]
  have e0 := full_slots0 (R := R) n a k rc h hrc
  have e1 := full_slots1 n a k rc rt U h hrc hrt
  have el : n - k + 1 - a - 1 = n - a - k := by omega
  unfold slots0 slots1
  unfold slots0 at e0
  unfold slots1 at e1
  rw [e0, e1, el]

theorem pauli_x_raw (i j : Nat) :
    (pauli_x : Matrix R).raw i j = if (i = 0 ∧ j = 1) ∨ (i = 1 ∧ j = 0) then 1 else 0 := by
  unfold pauli_x
  have w1 : ((Matrix.init 2 2 : Matrix R).put 0 1 1).wf := Matrix.wf_put _ (Matrix.wf_init 2 2) _ _ _
  rw [Matrix.raw_put _ w1 1 0 1 (by show 1 < 2; decide) (by show 0 < 2; decide),
    Matrix.raw_put _ (Matrix.wf_init 2 2) 0 1 1 (by show 0 < 2; decide) (by show 1 < 2; decide),
    Matrix.raw_init]
  by_cases h1 : i = 1 ∧ j = 0
  · rw [if_pos h1, if_pos (Or.inr h1)]
  · rw [if_neg h1]
    by_cases h0 : i = 0 ∧ j = 1
    · rw [if_pos h0, if_pos (Or.inl h0)]
    · rw [if_neg h0, if_neg (fun h => h.elim h0 h1)]

theorem pauli_x_wf : (pauli_x : Matrix R).wf :=
  Matrix.wf_put _ (Matrix.wf_put _ (Matrix.wf_init 2 2) _ _ _) _ _ _

theorem XGate_eq (n : Nat) :
    (XGate n : Except Error (SingleGate R))
      = .ok { qubit_index := n, symbol := "X", matrix := pauli_x } := by
  unfold XGate
  rw [identity_matrix_eq]
  rfl

theorem pauli_x_ket0 : mmul (pauli_x : Matrix R) ket0 = ket1 := by
  apply small_mmul_ext _ _ _ ⟨rfl, rfl⟩ ⟨rfl, rfl⟩ ⟨ket1_wf, rfl, rfl⟩
  intro i hi
  rw [pauli_x_raw, pauli_x_raw, ket0_raw, ket0_raw, ket1_raw]
  interval_cases i <;> simp

theorem pauli_x_ket1 : mmul (pauli_x : Matrix R) ket1 = ket0 := by
  apply small_mmul_ext _ _ _ ⟨rfl, rfl⟩ ⟨rfl, rfl⟩ ⟨ket0_wf, rfl, rfl⟩
  intro i hi
  rw [pauli_x_raw, pauli_x_raw, ket1_raw, ket1_raw, ket0_raw]
  interval_cases i <;> simp

theorem pauli_x_ketf (v : Int) (hv : v = 0 ∨ v = 1) :
    mmul (pauli_x : Matrix R) (ketf v) = ketf (1 - v) := by
  rcases hv with rfl | rfl
  · rw [ketf_zero, pauli_x_ket0]
    show ket1 = ketf 1
    rw [ketf_one]
  · rw [ketf_one, pauli_x_ket1]
    show ket0 = ketf 0
    rw [ketf_zero]


/-- A controlled `X` in the full register maps the basis state of the bits `b`
to the basis state of `cnot_bits c t b`. -/
theorem cnot_ket (b : List Int) (c t : Nat) (hc : c < b.length) (ht : t < b.length)
    (hne : c ≠ t) (hbits : ∀ v ∈ b, v = 0 ∨ v = 1) :
    mmul (madd (tfold (slots0 b.length c)) (tfold (slots1 b.length c t pauli_x)))
        (tfold (b.map ketf))
      = tfold ((cnot_bits c t b).map ketf : List (Matrix R)) := by
  obtain ⟨h0, h1⟩ := controlled_apply (R := R) b c t pauli_x (by omega) hc hne rfl rfl
  have hcv : b[c]? = some (b.get ⟨c, hc⟩) := List.getElem?_eq_getElem hc
  have hgc : b.getD c 0 = b.get ⟨c, hc⟩ := by
    rw [List.getD_eq_getElem?_getD, hcv]; rfl
  have hgt : b.getD t 0 = b.get ⟨t, ht⟩ := by
    rw [List.getD_eq_getElem?_getD, List.getElem?_eq_getElem ht]; rfl
  unfold cnot_bits
  rcases hbits _ (List.get_mem b c hc) with hv | hv
  · rw [hv] at hcv
    rw [h0 hcv, hgc, hv, if_neg (by decide)]
  · rw [hv] at hcv
    rw [h1 hcv, hgc, hv, if_pos rfl]
    have hlen : (b.map ketf : List (Matrix R)).length = b.length := by simp
    have hne' : (b.map ketf : List (Matrix R)) ≠ [] := ne_nil_of_length_pos _ (by rw [hlen]; omega)
    rw [← hlen, embed_apply pauli_x _ t rfl hne'
      (fun y hy => by
        obtain ⟨v, _, rfl⟩ := List.mem_map.mp hy
        exact ⟨ketf_wf v, ketf_rows v⟩)]
    have hget : (b.map ketf : List (Matrix R)).getD t (idm 2) = ketf (b.get ⟨t, ht⟩) := by
      rw [List.getD_eq_getElem?_getD, List.getElem?_map, List.getElem?_eq_getElem ht]
      rfl
    rw [hget, pauli_x_ketf _ (hbits _ (List.get_mem b t ht)), hgt, List.map_set]

end States

/-! ## Derived gates -/

section Derived

variable {R : Type} [CommRing R] [StarRing R]

theorem ControlledGate.new_controlled_ok (gate : SingleGate R) (c : Nat) (hne : c ≠ gate.qubit_index)
    (hr : gate.matrix.rows = 2) (hc : gate.matrix.cols = 2) :
    ControlledGate.new gate c = .ok (controlled_gate gate c) := by
  rw [ControlledGate.new_eq gate c hne, get_controlled_matrix_ok c gate.qubit_index gate.matrix hr hc]
  rfl

theorem controlled_gate_shape (gate : SingleGate R) (c : Nat) :
    (controlled_gate gate c).matrix.rows = 2 ^ (controlled_gate gate c).gate_size ∧
    (controlled_gate gate c).matrix.cols = 2 ^ (controlled_gate gate c).gate_size := by
  unfold controlled_gate
  simp only [madd_rows, madd_cols]
  have hne : (slots0 (Int.natAbs ((c : Int) - (gate.qubit_index : Int)) + 1)
      (c - min c gate.qubit_index) : List (Matrix R)) ≠ [] :=
    ne_nil_of_length_pos _ (by rw [slots0_length]; omega)
  rw [tfold_rows_two _ hne (fun m hm => (slots0_shape _ _ m hm).1),
    tfold_cols_two _ hne (fun m hm => (slots0_shape _ _ m hm).2), slots0_length]
  exact ⟨rfl, rfl⟩

/-- Adding a controlled gate multiplies the circuit matrix on the left by the
full-register matrix of the gate. -/
theorem QuantumCircuit.add_controlled_matrix (h0 h : Heap) (qc : QuantumCircuit R)
    (g : shared_ptr R) (gate : SingleGate R) (c : Nat) (M : Matrix R)
    (hm : qc.has_matrix h0 M) (hobj : g.obj = .controlled (controlled_gate gate c))
    (hfresh : h0.next ≤ g.addr) (hg : g.addr < h.next) (hcn : c < qc.register_size)
    (htn : gate.qubit_index < qc.register_size)
    (hr : gate.matrix.rows = 2) (hc : gate.matrix.cols = 2) :
    ∃ h' qc', qc.add_component h g = .ok (h', qc') ∧
      qc'.has_matrix h' (mmul (controlled_full qc.register_size c gate.qubit_index gate.matrix) M) ∧
      h.next ≤ h'.next ∧ qc'.register_size = qc.register_size ∧
      qc'.input_register = qc.input_register := by
  have hsh := controlled_gate_shape gate c
  obtain ⟨h', qc', e, hm', rest⟩ := qc.add_multi_matrix h0 h g (controlled_gate gate c).toMultiGate M
    hm (by rw [hobj]; rfl) hfresh hg
    (by show min c gate.qubit_index + (Int.natAbs ((c : Int) - (gate.qubit_index : Int)) + 1) ≤ _
        omega)
    (by show 1 ≤ Int.natAbs ((c : Int) - (gate.qubit_index : Int)) + 1
        omega)
    hsh.1 hsh.2
  refine ⟨h', qc', e, ?_, rest⟩
  have hb := controlled_block_embed qc.register_size (min c gate.qubit_index)
    (Int.natAbs ((c : Int) - (gate.qubit_index : Int)) + 1) (c - min c gate.qubit_index)
    (gate.qubit_index - min c gate.qubit_index) gate.matrix (by omega) (by omega) (by omega) hr hc
  have e1 : min c gate.qubit_index + (c - min c gate.qubit_index) = c := by omega
  have e2 : min c gate.qubit_index + (gate.qubit_index - min c gate.qubit_index)
      = gate.qubit_index := by omega
  rw [e1, e2] at hb
  unfold controlled_full
  rw [← hb]
  exact hm'

/-- The circuit matrix does not depend on the input register. -/
theorem QuantumCircuit.has_matrix_input (h : Heap) (qc : QuantumCircuit R) (M : Matrix R)
    (b : List Int) (hm : qc.has_matrix h M) :
    QuantumCircuit.has_matrix h { qc with input_register := b } M := by
  obtain ⟨hwf, hn, T, us, hT, hs, hM⟩ := hm
  refine ⟨hwf, hn, T, us, hT, hs, ?_⟩
  rcases hM with h0 | ⟨t, P, h1, h2, h3⟩
  · exact Or.inl h0
  · refine Or.inr ⟨t, P, h1, ?_, h3⟩
    rw [← h2]
    refine ordered_product_congr qc _ t ?_ ?_
    · rfl
    · intro i j _ _
      rfl

/-- The final state of a circuit with matrix `M` and input register `b`. -/
theorem QuantumCircuit.final_state_eq (h : Heap) (qc : QuantumCircuit R) (M : Matrix R)
    (hm : qc.has_matrix h M) (hb : qc.input_register.length = qc.register_size) :
    qc.get_final_state = .ok (mmul M (tfold (qc.input_register.map ketf))) := by
  obtain ⟨hg, _, _, hc⟩ := qc.has_matrix_get h M hm
  have hn := hm.2.1
  have hpos : 0 < qc.input_register.length := by omega
  unfold QuantumCircuit.get_final_state QuantumCircuit.get_initial_state
  rw [hg, calculate_matrix_for_register_eq _ (ne_nil_of_length_pos _ hpos)]
  exact Matrix.mul_eq _ _ (by rw [hc, (kets_fold_shape qc.input_register hpos).2.1, hb])


theorem MultiGate.new_multi_ok (n : Nat) (symbol : String) (M : Matrix R) (k : Nat)
    (hr : M.rows = 2 ^ k) (hc : M.cols = 2 ^ k) :
    MultiGate.new n symbol M k
      = .ok { qubit_index := n, symbol := symbol, matrix := M, gate_size := k } := by
  unfold MultiGate.new
  by_cases hk : 31 ≤ k
  · rw [if_pos ⟨hk, hr, hc⟩]
  · rw [if_neg (fun hh => hk hh.1)]
    have hs : shift_one k = .ok (2 ^ k) := by
      unfold shift_one
      rw [if_pos (by omega)]
    simp only [hs, bind, Except.bind, hr, hc, ne_eq, not_true_eq_false, or_self, if_false]
    rfl

/-- The gate built by `swap(i, j)`: a `MultiGate` at the smaller index whose
matrix is the product of three controlled `X` gates between the two ends of
its footprint. -/
theorem swap_eq (hp : Heap) (i j : Nat) (hij : i ≠ j) :
    ∃ (hp' : Heap) (g : shared_ptr R) (mg : MultiGate R),
      DerivedGates.swap hp i j = .ok (hp', g) ∧ g.obj = .multi mg ∧
      mg.qubit_index = min i j ∧ mg.gate_size = max i j - min i j + 1 ∧
      mg.matrix = mmul (controlled_full (max i j - min i j + 1) (max i j - min i j) 0 pauli_x)
        (mmul (controlled_full (max i j - min i j + 1) 0 (max i j - min i j) pauli_x)
          (mmul (controlled_full (max i j - min i j + 1) (max i j - min i j) 0 pauli_x)
            (idm (2 ^ (max i j - min i j + 1))))) ∧
      hp.next ≤ g.addr ∧ g.addr < hp'.next := by
  have hk : 1 ≤ max i j - min i j := by omega
  obtain ⟨qc0, e0, hm0, hn0, _⟩ := QuantumCircuit.new_has_matrix (R := R) hp
    (max i j - min i j + 1) (by omega)
  unfold DerivedGates.swap DerivedGates.x DerivedGates.controlled DerivedGates.gate_from_circuit
  simp only [XGate_eq, bind, Except.bind, pure, Except.pure, make_shared_single, make_shared,
    Nat.add_sub_cancel]
  rw [e0]
  simp only []
  have c1 : ControlledGate.new (⟨0, "X", pauli_x⟩ : SingleGate R) (max i j - min i j)
      = .ok (controlled_gate _ _) :=
    ControlledGate.new_controlled_ok _ _ (by show max i j - min i j ≠ 0; omega) rfl rfl
  have c2 : ControlledGate.new (⟨max i j - min i j, "X", pauli_x⟩ : SingleGate R) 0
      = .ok (controlled_gate _ _) :=
    ControlledGate.new_controlled_ok _ _ (by show 0 ≠ max i j - min i j; omega) rfl rfl
  simp only [c1, c2]
  obtain ⟨h1, qc1, e1, hm1, le1, hn1, _⟩ := qc0.add_controlled_matrix _
    ⟨hp.next + (max i j - min i j + 1) + 1 + 1⟩
    ⟨hp.next + (max i j - min i j + 1) + 1,
      .controlled (controlled_gate ⟨0, "X", pauli_x⟩ (max i j - min i j))⟩
    _ _ _ hm0 rfl (Nat.le_succ _) (Nat.lt_succ_self _) (by rw [hn0]; omega)
    (by rw [hn0]; exact Nat.succ_pos _) rfl rfl
  rw [e1]
  simp only []
  obtain ⟨h2, qc2, e2, hm2, le2, hn2, _⟩ := qc1.add_controlled_matrix h1 ⟨h1.next + 1 + 1⟩
    ⟨h1.next + 1, .controlled (controlled_gate ⟨max i j - min i j, "X", pauli_x⟩ 0)⟩
    _ _ _ hm1 rfl (Nat.le_succ _) (Nat.lt_succ_self _) (by rw [hn1, hn0]; exact Nat.succ_pos _)
    (by show max i j - min i j < qc1.register_size; rw [hn1, hn0]; omega) rfl rfl
  rw [e2]
  simp only []
  obtain ⟨h3, qc3, e3, hm3, le3, hn3, _⟩ := qc2.add_controlled_matrix h2 ⟨h2.next + 1 + 1⟩
    ⟨h2.next + 1, .controlled (controlled_gate ⟨0, "X", pauli_x⟩ (max i j - min i j))⟩
    _ _ _ hm2 rfl (Nat.le_succ _) (Nat.lt_succ_self _) (by rw [hn2, hn1, hn0]; omega)
    (by rw [hn2, hn1, hn0]; exact Nat.succ_pos _) rfl rfl
  rw [e3]
  simp only []
  obtain ⟨hg3, _, hr3, hc3⟩ := qc3.has_matrix_get h3 _ hm3
  rw [hg3]
  simp only []
  rw [MultiGate.new_multi_ok _ _ _ _ hr3 hc3]
  simp only []
  refine ⟨_, _, _, rfl, rfl, rfl, ?_, ?_, ?_, ?_⟩
  · show qc3.register_size = _
    rw [hn3, hn2, hn1, hn0]
  · show mmul _ _ = _
    rw [hn2, hn1, hn0]
  · show hp.next ≤ h3.next
    simp only at le1 le2 le3
    omega
  · show h3.next < h3.next + 1
    omega

end Derived

/-! ## Registers of bits -/

section Bits

theorem getD_set_int (l : List Int) (i k : Nat) (a : Int) :
    (l.set i a).getD k 0 = if i = k ∧ i < l.length then a else l.getD k 0 := by
  rw [List.getD_eq_getElem?_getD, List.getD_eq_getElem?_getD, List.getElem?_set]
  by_cases h : i = k
  · subst h
    by_cases h2 : i < l.length
    · simp [h2]
    · simp [h2, List.getElem?_eq_none (Nat.le_of_not_lt h2)]
  · simp [h]

theorem list_ext_getD (l1 l2 : List Int) (hl : l1.length = l2.length)
    (h : ∀ k, k < l1.length → l1.getD k 0 = l2.getD k 0) : l1 = l2 := by
  apply List.ext_getElem hl
  intro k h1 h2
  have := h k h1
  rw [List.getD_eq_getElem?_getD, List.getD_eq_getElem?_getD, List.getElem?_eq_getElem h1,
    List.getElem?_eq_getElem h2] at this
  exact this

theorem cnot_bits_length (c t : Nat) (b : List Int) : (cnot_bits c t b).length = b.length := by
  unfold cnot_bits
  split <;> simp

theorem cnot_bits_getD (c t k : Nat) (b : List Int) :
    (cnot_bits c t b).getD k 0
      = if b.getD c 0 = 1 ∧ t = k ∧ t < b.length then 1 - b.getD t 0 else b.getD k 0 := by
  unfold cnot_bits
  by_cases h : b.getD c 0 = 1
  · rw [if_pos h, getD_set_int]
    by_cases h2 : t = k ∧ t < b.length
    · rw [if_pos h2, if_pos ⟨h, h2⟩]
    · rw [if_neg h2, if_neg (fun hh => h2 hh.2)]
  · rw [if_neg h, if_neg (fun hh => h hh.1)]

theorem cnot_bits_bits (c t : Nat) (b : List Int) (hb : ∀ v ∈ b, v = 0 ∨ v = 1) :
    ∀ v ∈ cnot_bits c t b, v = 0 ∨ v = 1 := by
  unfold cnot_bits
  split
  · intro v hv
    rcases List.mem_or_eq_of_mem_set hv with h | h
    · exact hb v h
    · by_cases ht : t < b.length
      · have : b.getD t 0 ∈ b := by
          rw [List.getD_eq_getElem?_getD, List.getElem?_eq_getElem ht]
          exact List.getElem_mem ht
        rcases hb _ this with h0 | h1
        · right; rw [h, h0]; rfl
        · left; rw [h, h1]; rfl
      · rw [List.getD_eq_getElem?_getD, List.getElem?_eq_none (Nat.le_of_not_lt ht)] at h
        right; rw [h]; rfl
  · exact hb

theorem getD_bit (b : List Int) (k : Nat) (hb : ∀ v ∈ b, v = 0 ∨ v = 1) :
    b.getD k 0 = 0 ∨ b.getD k 0 = 1 := by
  by_cases hk : k < b.length
  · have : b.getD k 0 ∈ b := by
      rw [List.getD_eq_getElem?_getD, List.getElem?_eq_getElem hk]
      exact List.getElem_mem hk
    exact hb _ this
  · left
    rw [List.getD_eq_getElem?_getD, List.getElem?_eq_none (Nat.le_of_not_lt hk)]
    rfl

/-- Three controlled `X` gates between two positions exchange the two bits. -/
theorem cnot_three (p q : Nat) (b : List Int) (hpq : p ≠ q) (hp : p < b.length)
    (hq : q < b.length) (hb : ∀ v ∈ b, v = 0 ∨ v = 1) :
    cnot_bits p q (cnot_bits q p (cnot_bits p q b)) = swap_bits p q b := by
  apply list_ext_getD
  · simp [cnot_bits_length, swap_bits]
  intro k _
  have hx := getD_bit b p hb
  have hy := getD_bit b q hb
  have hqp : q ≠ p := fun e => hpq e.symm
  simp only [cnot_bits_getD, cnot_bits_length, swap_bits, getD_set_int, List.length_set]
  by_cases hkp : p = k
  · subst hkp
    generalize b.getD p 0 = x at *
    generalize b.getD q 0 = y at *
    rcases hx with rfl | rfl <;> rcases hy with rfl | rfl <;> simp [hpq, hqp, hp, hq]
  · by_cases hkq : q = k
    · subst hkq
      generalize b.getD p 0 = x at *
      generalize b.getD q 0 = y at *
      rcases hx with rfl | rfl <;> rcases hy with rfl | rfl <;> simp [hpq, hqp, hp, hq]
    · generalize b.getD p 0 = x at *
      generalize b.getD q 0 = y at *
      generalize b.getD k 0 = z at *
      rcases hx with rfl | rfl <;> rcases hy with rfl | rfl <;> simp [hpq, hqp, hp, hq, hkp, hkq]

theorem swap_bits_comm (i j : Nat) (b : List Int) (hij : i ≠ j) :
    swap_bits i j b = swap_bits j i b := by
  unfold swap_bits
  rw [List.set_comm _ _ _ hij]

end Bits

/-! ## Failures of the embedding, the input register and the comparison -/

section Checks

variable {R : Type} [CommRing R] [StarRing R]

theorem SingleGate.get_matrix_reg_single_nofit (g : SingleGate R) (n : Nat) (h : ¬ g.qubit_index < n) :
    g.get_matrix_reg n = .error .GateDoesNotFit := by
  simp [SingleGate.get_matrix_reg, SingleGate.can_gate_fit, h]
  rfl

theorem MultiGate.get_matrix_reg_multi_nofit (g : MultiGate R) (n : Nat)
    (hw : g.qubit_index + g.gate_size < size_modulus)
    (h : ¬ g.qubit_index + g.gate_size ≤ n) :
    g.get_matrix_reg n = .error .GateDoesNotFit := by
  have hfit : g.can_gate_fit n = false := by
    rw [← Bool.not_eq_true, g.can_gate_fit_iff n hw]
    exact h
  simp [MultiGate.get_matrix_reg, hfit]
  rfl

/-- A gate whose sum `index + gate_size` wraps around and then passes
`can_gate_fit(n)`: for `size_t` values of the gate size and of the register
size, `get_matrix(n)` does not throw the does-not-fit error, and it has no
result. -/
theorem MultiGate.get_matrix_reg_wrapped (g : MultiGate R) (n : Nat)
    (hs : g.gate_size < size_modulus) (hn : n < size_modulus)
    (hw : size_modulus ≤ g.qubit_index + g.gate_size) (hfit : g.can_gate_fit n = true) :
    g.get_matrix_reg n = .error .undefined := by
  have hidx : ¬ g.qubit_index < n - g.gate_size + 1 := by omega
  have h1 : assign_at (List.replicate (n - g.gate_size + 1) (idm 2 : Matrix R)) g.qubit_index
      g.matrix = .error .undefined := by
    unfold assign_at
    rw [if_neg (by simpa using hidx)]
  unfold MultiGate.get_matrix_reg
  simp only [hfit, identity_matrix_eq, bind, Except.bind, h1, Bool.not_true,
    Bool.false_eq_true, if_false, pure, Except.pure]

theorem for_range_unit_check (n : Nat) (p : Nat → Except Error Unit) :
    for_range 0 n (fun i (_ : Unit) => p i) ()
      = (List.range n).foldlM (fun (_ : Unit) i => p i) () := by
  rw [for_range_zero]

theorem foldlM_unit_ok (l : List Nat) (p : Nat → Except Error Unit)
    (h : ∀ i ∈ l, p i = .ok ()) : l.foldlM (fun (_ : Unit) i => p i) () = .ok () := by
  induction l with
  | nil => rfl
  | cons a l ih =>
    rw [List.foldlM_cons, h a (List.mem_cons_self _ _)]
    exact ih (fun i hi => h i (List.mem_cons_of_mem _ hi))

theorem foldlM_unit_error (l : List Nat) (p : Nat → Except Error Unit) (e : Error)
    (h : ∀ i ∈ l, p i = .ok () ∨ p i = .error e) (hex : ∃ i ∈ l, p i = .error e) :
    l.foldlM (fun (_ : Unit) i => p i) () = .error e := by
  induction l with
  | nil => obtain ⟨i, hi, _⟩ := hex; cases hi
  | cons a l ih =>
    rw [List.foldlM_cons]
    rcases h a (List.mem_cons_self _ _) with ha | ha
    · rw [ha]
      apply ih (fun i hi => h i (List.mem_cons_of_mem _ hi))
      obtain ⟨i, hi, hp⟩ := hex
      rcases List.mem_cons.1 hi with rfl | hi'
      · rw [ha] at hp; cases hp
      · exact ⟨i, hi', hp⟩
    · rw [ha]; rfl

/-- What `set_input_register` does: after the length check it validates the
entries of the register stored so far and then stores the argument. -/
theorem QuantumCircuit.set_input_register_eq (qc : QuantumCircuit R) (bits : List Int)
    (hlen : qc.input_register.length = qc.register_size) :
    qc.set_input_register bits
      = if bits.length ≠ qc.register_size then .error .InputRegisterMismatch
        else if ∃ v ∈ qc.input_register, v ≠ 0 ∧ v ≠ 1 then .error .InputRegisterMismatch
        else .ok { qc with input_register := bits } := by
  unfold QuantumCircuit.set_input_register
  by_cases h1 : bits.length ≠ qc.register_size
  · simp only [h1, ↓reduceIte, ne_eq, not_false_eq_true]
    rfl
  · have h1' : bits.length = qc.register_size := by simpa using h1
    rw [if_neg h1, if_neg h1]
    have hstep : ∀ i ∈ List.range bits.length,
        (do let v ← read_at qc.input_register i
            if v ≠ 0 ∧ v ≠ 1 then throw Error.InputRegisterMismatch : Except Error Unit)
          = if (qc.input_register.getD i 0) ≠ 0 ∧ (qc.input_register.getD i 0) ≠ 1
            then .error .InputRegisterMismatch else .ok () := by
      intro i hi
      have hi' : i < qc.input_register.length := by
        rw [hlen, ← h1']; exact List.mem_range.1 hi
      rw [read_at_eq _ _ hi']
      have e : qc.input_register.getD i 0 = qc.input_register.get ⟨i, hi'⟩ := by
        simp [List.getD_eq_getElem?_getD, List.getElem?_eq_getElem hi']
      rw [e]
      rfl
    by_cases h2 : ∃ v ∈ qc.input_register, v ≠ 0 ∧ v ≠ 1
    · rw [if_pos h2]
      have hloop : for_range 0 bits.length (fun i (_ : Unit) => do
          let v ← read_at qc.input_register i
          if v ≠ 0 ∧ v ≠ 1 then throw Error.InputRegisterMismatch) ()
            = .error .InputRegisterMismatch := by
        rw [for_range_zero]
        apply foldlM_unit_error
        · intro i hi
          rw [hstep i hi]
          by_cases hv : (qc.input_register.getD i 0) ≠ 0 ∧ (qc.input_register.getD i 0) ≠ 1
          · right; rw [if_pos hv]
          · left; rw [if_neg hv]
        · obtain ⟨v, hv, hb⟩ := h2
          obtain ⟨i, hi, rfl⟩ := List.getElem_of_mem hv
          have hir : i ∈ List.range bits.length :=
            List.mem_range.2 (by rw [h1', ← hlen]; exact hi)
          refine ⟨i, hir, ?_⟩
          rw [hstep i hir, if_pos]
          simpa [List.getD_eq_getElem?_getD, List.getElem?_eq_getElem hi] using hb
      rw [hloop]
      rfl
    · rw [if_neg h2]
      have hloop : for_range 0 bits.length (fun i (_ : Unit) => do
          let v ← read_at qc.input_register i
          if v ≠ 0 ∧ v ≠ 1 then throw Error.InputRegisterMismatch) () = .ok () := by
        rw [for_range_zero]
        apply foldlM_unit_ok
        intro i hi
        have hi' : i < qc.input_register.length := by
          rw [hlen, ← h1']; exact List.mem_range.1 hi
        rw [hstep i hi, if_neg]
        intro hb
        apply h2
        refine ⟨_, List.get_mem _ i hi', ?_⟩
        simpa [List.getD_eq_getElem?_getD, List.getElem?_eq_getElem hi'] using hb
      rw [hloop]
      rfl

/-- The test `abs(x) > tol` where it is defined. -/
theorem abs_exceeds_tol_eq {K : Type} [LinearOrderedField K] (x : K) (h : |x| < 2 ^ 31) :
    abs_exceeds_tol x = .ok (decide (1 ≤ |x|)) := by
  unfold abs_exceeds_tol
  rw [if_neg (not_le.2 h)]

/-- The test `abs(x) > tol` written out: for a `double` `x` below `2^31` in
absolute value the truncated value lies strictly between `INT_MIN` and
`2^31`, so that the conversion to `int` and `int abs(int)` are defined, and
`abs_exceeds_tol` is the comparison of the absolute value of that integer
with `tol = 1e-10`. -/
theorem abs_exceeds_tol_truncate {K : Type} [LinearOrderedField K] [FloorRing K] (x : K)
    (h : |x| < 2 ^ 31) :
    -(2 : Int) ^ 31 < truncate x ∧ truncate x < 2 ^ 31 ∧
      abs_exceeds_tol x = .ok (decide (((|truncate x| : Int) : K) > 1 / 10 ^ 10)) := by
  have htol : (0 : K) < 1 / 10 ^ 10 := by positivity
  have htol1 : (1 : K) / 10 ^ 10 < 1 := by
    rw [div_lt_one (by positivity)]
    norm_num
  have key : ∀ z : Int, (((|z| : Int) : K) > 1 / 10 ^ 10) ↔ 1 ≤ |z| := by
    intro z
    constructor
    · intro hz
      by_contra hc
      have h0 : |z| = 0 := by
        have := abs_nonneg z
        omega
      rw [h0] at hz
      simp only [Int.cast_zero] at hz
      exact absurd hz (not_lt.2 htol.le)
    · intro hz
      have : (1 : K) ≤ ((|z| : Int) : K) := by exact_mod_cast hz
      exact lt_of_lt_of_le htol1 this
  rw [abs_exceeds_tol_eq x h]
  obtain ⟨hlo, hhi⟩ := abs_lt.1 h
  unfold truncate
  by_cases hx : 0 ≤ x
  · rw [if_pos hx]
    have hf0 : 0 ≤ Int.floor x := Int.floor_nonneg.2 hx
    have hfl : Int.floor x < 2 ^ 31 := by
      rw [Int.floor_lt]
      exact_mod_cast hhi
    refine ⟨by omega, hfl, ?_⟩
    congr 1
    rw [decide_eq_decide, key, abs_of_nonneg hf0, abs_of_nonneg hx]
    rw [Int.le_floor]
    norm_num
  · rw [if_neg hx]
    have hx' : x < 0 := not_le.1 hx
    have hc0 : Int.ceil x ≤ 0 := by
      rw [Int.ceil_le]
      exact_mod_cast hx'.le
    have hcl : -(2 : Int) ^ 31 < Int.ceil x := by
      rw [Int.lt_ceil]
      exact_mod_cast hlo
    refine ⟨hcl, by omega, ?_⟩
    congr 1
    rw [decide_eq_decide, key, abs_of_nonpos hc0, abs_of_neg hx']
    constructor
    · intro hz
      have h1 : Int.ceil x ≤ -1 := by
        rw [Int.ceil_le]
        have : x ≤ -1 := by linarith
        simpa using this
      omega
    · intro hz
      have h1 : Int.ceil x ≤ -1 := by omega
      have h2 : x ≤ ((-1 : Int) : K) := le_trans (Int.le_ceil x) (by exact_mod_cast h1)
      have h3 : x ≤ -1 := by simpa using h2
      linarith

/-- Closed form of `operator==` on matrices of the same shape whose entries
differ by less than `2^31`: it is `true` when no real part and no imaginary
part differs by `1` or more. -/
theorem Matrix.equals_eq {K : Type} [LinearOrderedField K] (A B : Matrix (Cplx K))
    (hr : A.rows = B.rows) (hc : A.cols = B.cols)
    (hb : ∀ i j, i < A.rows → j < A.cols →
      |(A.raw i j).re - (B.raw i j).re| < 2 ^ 31 ∧ |(A.raw i j).im - (B.raw i j).im| < 2 ^ 31) :
    A.equals B = .ok (!(List.range A.rows).any (fun i => (List.range A.cols).any (fun j =>
      decide (1 ≤ |(A.raw i j).re - (B.raw i j).re| ∨
        1 ≤ |(A.raw i j).im - (B.raw i j).im|)))) := by
  unfold Matrix.equals
  rw [if_neg (by simp [hr, hc])]
  rw [any_of_eq _ (fun i => (List.range A.cols).any (fun j =>
      decide (1 ≤ |(A.raw i j).re - (B.raw i j).re| ∨
        1 ≤ |(A.raw i j).im - (B.raw i j).im|)))]
  · rfl
  · intro i hi
    apply any_of_eq
    intro j hj
    have hi' := List.mem_range.1 hi
    have hj' := List.mem_range.1 hj
    rw [Matrix.get_eq_raw B i j (hr ▸ hi') (hc ▸ hj')]
    simp only [bind, Except.bind, abs_exceeds_tol_eq _ (hb i j hi' hj').1,
      abs_exceeds_tol_eq _ (hb i j hi' hj').2]
    by_cases h1 : 1 ≤ |(A.raw i j).re - (B.raw i j).re|
    · simp [h1]
      rfl
    · simp [h1]

end Checks

/-! ## Circuits with one derived gate -/

section Scenarios

variable {R : Type} [CommRing R] [StarRing R]

theorem controlled_full_shape (n c t : Nat) (U : Matrix R) (hn : 0 < n) :
    (controlled_full n c t U).wf ∧ (controlled_full n c t U).rows = 2 ^ n ∧
      (controlled_full n c t U).cols = 2 ^ n := by
  unfold controlled_full
  have hne : (slots0 n c : List (Matrix R)) ≠ [] :=
    ne_nil_of_length_pos _ (by rw [slots0_length]; exact hn)
  refine ⟨madd_wf _ _, ?_, ?_⟩
  · rw [madd_rows, tfold_rows_two _ hne (fun m hm => (slots0_shape _ _ m hm).1), slots0_length]
  · rw [madd_cols, tfold_cols_two _ hne (fun m hm => (slots0_shape _ _ m hm).2), slots0_length]

/-- The controlled `X` of the full register on a basis state. -/
theorem controlled_full_ket (b : List Int) (c t : Nat) (hc : c < b.length) (ht : t < b.length)
    (hne : c ≠ t) (hbits : ∀ v ∈ b, v = 0 ∨ v = 1) :
    mmul (controlled_full b.length c t pauli_x) (tfold (b.map ketf))
      = tfold ((cnot_bits c t b).map ketf : List (Matrix R)) :=
  cnot_ket b c t hc ht hne hbits

/-- A freshly constructed register accepts every input of its length. -/
theorem QuantumCircuit.set_input_register_fresh (qc : QuantumCircuit R) (b : List Int)
    (hreg : qc.input_register = List.replicate qc.register_size 0)
    (hb : b.length = qc.register_size) :
    qc.set_input_register b = .ok { qc with input_register := b } := by
  rw [qc.set_input_register_eq b (by rw [hreg]; simp), if_neg (by simpa using hb), if_neg]
  rintro ⟨v, hv, h0, _⟩
  rw [hreg] at hv
  exact h0 (List.eq_of_mem_replicate hv)

/-- The final state of a circuit that holds one `swap(i, j)` gate. -/
theorem swap_final_state (hp : Heap) (n i j : Nat) (b : List Int) (hij : i ≠ j) (hi : i < n)
    (hj : j < n) (hb : b.length = n) (hbits : ∀ v ∈ b, v = 0 ∨ v = 1) :
    (do
      let (hp, qc) ← QuantumCircuit.new hp n
      let (hp, g) ← DerivedGates.swap hp i j
      let (_, qc) ← qc.add_component hp g
      let qc ← qc.set_input_register b
      qc.get_final_state)
      = (.ok (tfold ((swap_bits i j b).map ketf)) : Except Error (Matrix R)) := by
  have hn : 1 ≤ n := by omega
  obtain ⟨qc0, e0, hm0, hn0, hi0⟩ := QuantumCircuit.new_has_matrix (R := R) hp n hn
  obtain ⟨hp1, g, mg, e1, hobj, hidx, hsize, hmat, hfresh, hg⟩ :=
    swap_eq (R := R) ⟨hp.next + n⟩ i j hij
  have hkn : min i j + (max i j - min i j + 1) ≤ n := by omega
  have hK : 0 < max i j - min i j + 1 := Nat.succ_pos _
  have s1 := controlled_full_shape (R := R) (max i j - min i j + 1) (max i j - min i j) 0
    pauli_x hK
  have s2 := controlled_full_shape (R := R) (max i j - min i j + 1) 0 (max i j - min i j)
    pauli_x hK
  obtain ⟨h2, qc2, e2, hm2, _, hn2, hi2⟩ := qc0.add_multi_matrix _ hp1 g mg _ hm0
    (by rw [hobj]; rfl) hfresh hg (by rw [hidx, hsize, hn0]; exact hkn) (by rw [hsize]; omega)
    (by rw [hmat, hsize]; simp [s1.2.1]) (by rw [hmat, hsize]; simp)
  simp only [bind, Except.bind]
  rw [e0]
  simp only []
  rw [e1]
  simp only []
  rw [e2]
  simp only []
  rw [qc2.set_input_register_fresh b (by rw [hi2, hi0, hn2, hn0]) (by rw [hb, hn2, hn0])]
  simp only []
  rw [QuantumCircuit.final_state_eq h2 _ _ (qc2.has_matrix_input h2 _ b hm2)
    (by show b.length = qc2.register_size; rw [hb, hn2, hn0])]
  show Except.ok (mmul _ (tfold (b.map ketf))) = _
  congr 1
  have hbpos : 0 < b.length := by omega
  have ks := kets_fold_shape (R := R) b hbpos
  rw [hn0, hidx, hsize, hmat]
  have hsh := embed_multi_shape (R := R) n (min i j) (max i j - min i j + 1)
  rw [mmul_idm _ s1.1 _ s1.2.2]
  have hm1 : 0 < n - (max i j - min i j + 1) + 1 := Nat.succ_pos _
  rw [embed_block_mmul _ _ _ _ (by rw [s1.2.2]; simp [s2.2.1]) hm1,
    embed_block_mmul _ _ _ _ (by rw [s2.2.2, s1.2.1]) hm1]
  unfold controlled_full
  rw [controlled_block_embed n (min i j) _ (max i j - min i j) 0 pauli_x hkn (by omega)
      (by omega) rfl rfl,
    controlled_block_embed n (min i j) _ 0 (max i j - min i j) pauli_x hkn (by omega)
      (by omega) rfl rfl]
  have e_last : min i j + (max i j - min i j) = max i j := by omega
  rw [e_last, Nat.add_zero]
  have c1 := controlled_full_shape (R := R) n (max i j) (min i j) pauli_x hn
  have c2 := controlled_full_shape (R := R) n (min i j) (max i j) pauli_x hn
  unfold controlled_full at c1 c2
  rw [mmul_embed_norm _ _ (2 ^ n) (by exact c1.2.2) ks.1 (by rw [ks.2.1, hb]),
    mmul_assoc _ _ _ (by exact c1.2.2.trans c2.2.1.symm),
    mmul_assoc _ _ _ (by rw [c2.2.2, c1.2.1])]
  have hmm : max i j ≠ min i j := by omega
  have k1 := controlled_full_ket (R := R) b (max i j) (min i j) (by omega) (by omega) hmm hbits
  unfold controlled_full at k1
  rw [hb] at k1
  rw [k1]
  have hb1 := cnot_bits_bits (max i j) (min i j) b hbits
  have hl1 := cnot_bits_length (max i j) (min i j) b
  have k2 := controlled_full_ket (R := R) (cnot_bits (max i j) (min i j) b) (min i j) (max i j)
    (by omega) (by omega) (fun e => hmm e.symm) hb1
  unfold controlled_full at k2
  rw [hl1, hb] at k2
  rw [k2]
  have hb2 := cnot_bits_bits (min i j) (max i j) _ hb1
  have hl2 := cnot_bits_length (min i j) (max i j) (cnot_bits (max i j) (min i j) b)
  have k3 := controlled_full_ket (R := R) (cnot_bits (min i j) (max i j)
    (cnot_bits (max i j) (min i j) b)) (max i j) (min i j) (by omega) (by omega) hmm hb2
  unfold controlled_full at k3
  rw [hl2, hl1, hb] at k3
  rw [k3, cnot_three _ _ b hmm (by omega) (by omega) hbits]
  congr 1
  rcases Nat.lt_or_gt_of_ne hij with h | h
  · rw [Nat.max_eq_right (Nat.le_of_lt h), Nat.min_eq_left (Nat.le_of_lt h),
      swap_bits_comm _ _ _ (Nat.ne_of_gt h)]
  · rw [Nat.max_eq_left (Nat.le_of_lt h), Nat.min_eq_right (Nat.le_of_lt h)]

end Scenarios

/-! ## Small matrices and product states -/

section Small

variable {R : Type} [CommRing R] [StarRing R]

theorem mat2_wf (a b c d : R) : (mat2 a b c d).wf := by
  constructor
  · rfl
  · intro row hrow
    simp only [mat2, Matrix.of_grid, List.mem_cons, List.mem_singleton, List.not_mem_nil,
      or_false] at hrow
    rcases hrow with rfl | rfl <;> rfl

theorem vec2_wf (a b : R) : (vec2 a b).wf := by
  constructor
  · rfl
  · intro row hrow
    simp only [vec2, Matrix.of_grid, List.mem_cons, List.mem_singleton, List.not_mem_nil,
      or_false] at hrow
    rcases hrow with rfl | rfl <;> rfl

theorem mmul_mat2_vec2 (a b c d x y : R) :
    mmul (mat2 a b c d) (vec2 x y) = vec2 (a * x + b * y) (c * x + d * y) := by
  apply small_mmul_ext _ _ _ ⟨rfl, rfl⟩ ⟨rfl, rfl⟩ ⟨vec2_wf _ _, rfl, rfl⟩
  intro i hi
  interval_cases i <;> rfl

theorem mmul_mat2 (a b c d a' b' c' d' : R) :
    mmul (mat2 a b c d) (mat2 a' b' c' d')
      = mat2 (a * a' + b * c') (a * b' + b * d') (c * a' + d * c') (c * b' + d * d') := by
  refine Matrix.ext_raw _ _ (mmul_wf _ _) (mat2_wf _ _ _ _) rfl rfl ?_
  intro i j hi hj
  have hi2 : i < 2 := hi
  have hj2 : j < 2 := hj
  rw [mmul_raw _ _ i j hi2 hj2]
  show ∑ k in Finset.range 2, _ = _
  rw [Finset.sum_range_succ, Finset.sum_range_succ, Finset.sum_range_zero, zero_add]
  interval_cases i <;> interval_cases j <;> rfl

theorem adj_mat2 (a b c d : R) : adj (mat2 a b c d) = mat2 (star a) (star c) (star b) (star d) :=
  rfl

theorem idm_two : (idm 2 : Matrix R) = mat2 1 0 0 1 := rfl
theorem pauli_x_mat2 : (pauli_x : Matrix R) = mat2 0 1 1 0 := rfl
theorem proj0_mat2 : (proj0 : Matrix R) = mat2 1 0 0 0 := rfl
theorem proj1_mat2 : (proj1 : Matrix R) = mat2 0 0 0 1 := rfl
theorem ket0_vec2 : (ket0 : Matrix R) = vec2 1 0 := rfl
theorem ket1_vec2 : (ket1 : Matrix R) = vec2 0 1 := rfl

theorem kron_vec2 (a b c d : R) :
    kron (vec2 a b) (vec2 c d) = Matrix.of_grid [[a * c], [b * c], [a * d], [b * d]] := by
  simp [kron, vec2, Matrix.of_grid, Matrix.tabulate, Matrix.raw, List.range_succ]

theorem tfold_vec2_three (a0 b0 a1 b1 a2 b2 : R) :
    tfold [vec2 a0 b0, vec2 a1 b1, vec2 a2 b2]
      = Matrix.of_grid [[a0 * a1 * a2], [b0 * a1 * a2], [a0 * b1 * a2], [b0 * b1 * a2],
          [a0 * a1 * b2], [b0 * a1 * b2], [a0 * b1 * b2], [b0 * b1 * b2]] := by
  show kron (kron (vec2 a0 b0) (vec2 a1 b1)) (vec2 a2 b2) = _
  rw [kron_vec2]
  simp [kron, vec2, Matrix.of_grid, Matrix.tabulate, Matrix.raw, List.range_succ]

theorem vec2_slots (ys : List (Matrix R)) (h : ∀ y ∈ ys, ∃ a b, y = vec2 a b) :
    ∀ y ∈ ys, y.wf ∧ y.rows = 2 := by
  intro y hy
  obtain ⟨a, b, rfl⟩ := h y hy
  exact ⟨vec2_wf a b, rfl⟩

theorem madd_vec4 (a b c d a' b' c' d' : R) :
    madd (Matrix.of_grid [[a], [b], [c], [d]]) (Matrix.of_grid [[a'], [b'], [c'], [d']])
      = Matrix.of_grid [[a + a'], [b + b'], [c + c'], [d + d']] := by
  simp [madd, Matrix.of_grid, Matrix.tabulate, Matrix.raw, List.range_succ]

theorem x_eq (hp : Heap) (n : Nat) :
    (DerivedGates.x hp n : Except Error (Heap × single_ptr R))
      = .ok ({ next := hp.next + 1 },
          { addr := hp.next, obj := { qubit_index := n, symbol := "X", matrix := pauli_x } }) := by
  unfold DerivedGates.x
  rw [XGate_eq]
  rfl

theorem adjoint_gate_eq (hp : Heap) (gate : single_ptr R) :
    DerivedGates.adjoint hp gate
      = .ok ({ next := hp.next + 1 },
          { addr := hp.next,
            obj := { qubit_index := gate.obj.qubit_index, symbol := gate.obj.symbol ++ "*",
                     matrix := adj gate.obj.matrix } }) := by
  unfold DerivedGates.adjoint
  rw [Matrix.adjoint_eq]
  rfl

theorem controlled_eq (hp : Heap) (gate : single_ptr R) (c : Nat)
    (hne : c ≠ gate.obj.qubit_index) (hr : gate.obj.matrix.rows = 2)
    (hc : gate.obj.matrix.cols = 2) :
    DerivedGates.controlled hp gate c
      = .ok ({ next := hp.next + 1 },
          { addr := hp.next, obj := .controlled (controlled_gate gate.obj c) }) := by
  unfold DerivedGates.controlled
  rw [ControlledGate.new_controlled_ok _ _ hne hr hc]
  rfl

theorem zipWith_set_left {α β γ : Type} (f : α → β → γ) (l : List α) (l' : List β) (i : Nat)
    (x : α) (d : β) (hi : i < l'.length) :
    List.zipWith f (l.set i x) l' = (List.zipWith f l l').set i (f x (l'.getD i d)) := by
  induction l generalizing l' i with
  | nil => simp
  | cons a l ih =>
    cases l' with
    | nil => simp
    | cons b l' =>
      cases i with
      | zero => simp
      | succ i =>
        simp only [List.set_cons_succ, List.zipWith_cons_cons, List.getD_cons_succ]
        rw [ih l' i (by simpa using hi)]

/-- An embedded single-qubit gate applied to a product state of `n` slots. -/
theorem embed_apply_n (n : Nat) (U : Matrix R) (ys : List (Matrix R)) (a : Nat)
    (hn : ys.length = n) (hU : U.cols = 2) (hpos : 0 < n) (hy : ∀ y ∈ ys, y.wf ∧ y.rows = 2) :
    mmul (tfold ((List.replicate n (idm 2)).set a U)) (tfold ys)
      = tfold (ys.set a (mmul U (ys.getD a (idm 2)))) := by
  subst hn
  exact embed_apply U ys a hU (ne_nil_of_length_pos _ hpos) hy

/-- A controlled gate of the full register applied to a product state: the sum
of the `|0><0|` branch and of the `|1><1|` branch, in which the gate acts on
the target slot. -/
theorem controlled_full_product (n : Nat) (ys : List (Matrix R)) (c t : Nat) (U : Matrix R)
    (hn : ys.length = n) (hc : c < n) (ht : t < n) (hr : U.rows = 2)
    (hcU : U.cols = 2) (hy : ∀ y ∈ ys, y.wf ∧ y.rows = 2) :
    mmul (controlled_full n c t U) (tfold ys)
      = madd (tfold (ys.set c (mmul proj0 (ys.getD c (idm 2)))))
          (tfold ((ys.set c (mmul proj1 (ys.getD c (idm 2)))).set t
            (mmul U (ys.getD t (idm 2))))) := by
  subst hn
  have hpos : 0 < ys.length := by omega
  have hne : ys ≠ [] := ne_nil_of_length_pos _ hpos
  unfold controlled_full
  rw [mmul_madd_left _ _ _ (controlled_shapes ys.length c t U hpos hr hcU)]
  congr 1
  · unfold slots0
    exact embed_apply proj0 ys c rfl hne hy
  · unfold slots1
    rw [tfold_mmul_pairs _ _ (by simp) (ne_nil_of_length_pos _ (by simpa using hpos))]
    · rw [zipWith_set_left _ _ _ _ _ (idm 2) ht, zip_embed proj1 ys c hy]
    · intro p hp
      obtain ⟨i, hi, rfl⟩ := List.getElem_of_mem hp
      have hi2 : i < ys.length := by simpa using hi
      have hyi := (hy _ (List.getElem_mem hi2)).2
      simp only [List.getElem_zip, List.getElem_set]
      split
      · rw [hcU, hyi]
      · split
        · rw [hyi]; rfl
        · rw [hyi]
          simp

theorem QuantumCircuit.add_single_n (n : Nat) (h0 h : Heap) (qc : QuantumCircuit R)
    (g : shared_ptr R) (sg : SingleGate R) (M : Matrix R)
    (r : Except Error (Heap × QuantumCircuit R))
    (hm : qc.has_matrix h0 M) (hn : qc.register_size = n) (hq : qc.add_component h g = r)
    (hobj : g.obj = .single sg) (hfresh : h0.next ≤ g.addr) (hg : g.addr < h.next)
    (hfit : sg.qubit_index < n) (hsym : sg.symbol ≠ "I")
    (hwf : sg.matrix.wf) (hr : sg.matrix.rows = 2) (hc : sg.matrix.cols = 2) :
    ∃ h' qc', r = .ok (h', qc') ∧
      qc'.has_matrix h' (mmul (tfold ((List.replicate n (idm 2)).set sg.qubit_index sg.matrix)) M) ∧
      h.next ≤ h'.next ∧ qc'.register_size = n := by
  subst hn
  obtain ⟨h', qc', e, hm', le, hn', _⟩ := qc.add_single_matrix h0 h g sg M hm hobj hfresh hg hfit
    hsym hwf hr hc
  exact ⟨h', qc', by rw [← hq, e], hm', le, hn'⟩

theorem QuantumCircuit.add_controlled_n (n : Nat) (h0 h : Heap) (qc : QuantumCircuit R)
    (g : shared_ptr R) (gate : SingleGate R) (c : Nat) (M : Matrix R)
    (r : Except Error (Heap × QuantumCircuit R))
    (hm : qc.has_matrix h0 M) (hn : qc.register_size = n) (hq : qc.add_component h g = r)
    (hobj : g.obj = .controlled (controlled_gate gate c))
    (hfresh : h0.next ≤ g.addr) (hg : g.addr < h.next) (hcn : c < n)
    (htn : gate.qubit_index < n) (hr : gate.matrix.rows = 2) (hc : gate.matrix.cols = 2) :
    ∃ h' qc', r = .ok (h', qc') ∧
      qc'.has_matrix h' (mmul (controlled_full n c gate.qubit_index gate.matrix) M) ∧
      h.next ≤ h'.next ∧ qc'.register_size = n := by
  subst hn
  obtain ⟨h', qc', e, hm', le, hn', _⟩ := qc.add_controlled_matrix h0 h g gate c M hm hobj
    hfresh hg hcn htn hr hc
  exact ⟨h', qc', by rw [← hq, e], hm', le, hn'⟩

/-- The controlled `X` built by `controlled(x(t), c)`. -/
theorem cx_eq (hp : Heap) (a t c : Nat) (hne : c ≠ t) :
    DerivedGates.controlled hp
        ({ addr := a, obj := { qubit_index := t, symbol := "X", matrix := pauli_x } } :
          single_ptr R) c
      = .ok ({ next := hp.next + 1 },
          { addr := hp.next, obj := .controlled (controlled_gate ⟨t, "X", pauli_x⟩ c) }) :=
  controlled_eq hp _ c hne rfl rfl

theorem steps_product_fold (n : Nat) (gs : List (Matrix R)) (M0 K : Matrix R)
    (hg : ∀ G ∈ gs, G.rows = 2 ^ n ∧ G.cols = 2 ^ n) (hM : M0.rows = 2 ^ n) :
    mmul (gs.foldl (fun M G => mmul G M) M0) K = gs.foldl (fun s G => mmul G s) (mmul M0 K) := by
  induction gs generalizing M0 with
  | nil => rfl
  | cons G gs ih =>
    simp only [List.foldl_cons]
    rw [ih (mmul G M0) (fun G' hG' => hg G' (List.mem_cons_of_mem _ hG'))
      (hg G (List.mem_cons_self _ _)).1,
      mmul_assoc _ _ _ ((hg G (List.mem_cons_self _ _)).2.trans hM.symm)]

/-- The matrix of a circuit applied to a state: the gates act one after the
other, first gate first. -/
theorem steps_product_apply (n : Nat) (gs : List (Matrix R)) (K : Matrix R)
    (hg : ∀ G ∈ gs, G.rows = 2 ^ n ∧ G.cols = 2 ^ n) (hK : K.wf) (hKr : K.rows = 2 ^ n) :
    mmul (steps_product n gs) K = gs.foldl (fun s G => mmul G s) K := by
  unfold steps_product
  rw [steps_product_fold n gs _ K hg rfl, idm_mmul K hK _ hKr]

theorem vec2_zero_is_zero : is_zero (vec2 (0 : R) 0) := by
  intro i j hi hj
  have hi2 : i < 2 := hi
  have hj1 : j < 1 := hj
  interval_cases i <;> interval_cases j <;> rfl

theorem three_slots (x0 y0 x1 y1 x2 y2 : R) :
    ∀ y ∈ [vec2 x0 y0, vec2 x1 y1, vec2 x2 y2], y.wf ∧ y.rows = 2 :=
  vec2_slots _ (by simp)

theorem three_shape (x0 y0 x1 y1 x2 y2 : R) :
    (tfold [vec2 x0 y0, vec2 x1 y1, vec2 x2 y2]).wf ∧
    (tfold [vec2 x0 y0, vec2 x1 y1, vec2 x2 y2]).rows = 8 ∧
    (tfold [vec2 x0 y0, vec2 x1 y1, vec2 x2 y2]).cols = 1 := by
  rw [tfold_vec2_three]
  refine ⟨?_, rfl, rfl⟩
  constructor
  · rfl
  · intro row hrow
    simp only [Matrix.of_grid, List.mem_cons, List.mem_singleton, List.not_mem_nil,
      or_false] at hrow
    rcases hrow with rfl | rfl | rfl | rfl | rfl | rfl | rfl | rfl <;> rfl

/-- A sum of two product states of three qubits whose second term has a zero slot. -/
theorem madd_three_zero (x0 y0 x1 y1 x2 y2 : R) (ws : List (Matrix R))
    (hw : ∃ a0 b0 a1 b1 a2 b2, ws = [vec2 a0 b0, vec2 a1 b1, vec2 a2 b2])
    (hz : vec2 (0 : R) 0 ∈ ws) :
    madd (tfold [vec2 x0 y0, vec2 x1 y1, vec2 x2 y2]) (tfold ws)
      = tfold [vec2 x0 y0, vec2 x1 y1, vec2 x2 y2] := by
  obtain ⟨a0, b0, a1, b1, a2, b2, rfl⟩ := hw
  have s := three_shape x0 y0 x1 y1 x2 y2
  have s' := three_shape a0 b0 a1 b1 a2 b2
  exact madd_zero_right _ _ s.1 ⟨s.2.1.trans s'.2.1.symm, s.2.2.trans s'.2.2.symm⟩
    (tfold_zero _ ⟨_, hz, vec2_zero_is_zero⟩)

theorem madd_zero_three (x0 y0 x1 y1 x2 y2 : R) (ws : List (Matrix R))
    (hw : ∃ a0 b0 a1 b1 a2 b2, ws = [vec2 a0 b0, vec2 a1 b1, vec2 a2 b2])
    (hz : vec2 (0 : R) 0 ∈ ws) :
    madd (tfold ws) (tfold [vec2 x0 y0, vec2 x1 y1, vec2 x2 y2])
      = tfold [vec2 x0 y0, vec2 x1 y1, vec2 x2 y2] := by
  obtain ⟨a0, b0, a1, b1, a2, b2, rfl⟩ := hw
  have s := three_shape x0 y0 x1 y1 x2 y2
  have s' := three_shape a0 b0 a1 b1 a2 b2
  exact madd_zero_left _ _ s.1 ⟨s'.2.1.trans s.2.1.symm, s'.2.2.trans s.2.2.symm⟩
    (tfold_zero _ ⟨_, hz, vec2_zero_is_zero⟩)

theorem embed_three (a : Nat) (p q r s x0 y0 x1 y1 x2 y2 : R) :
    mmul (tfold ((List.replicate 3 (idm 2)).set a (mat2 p q r s)))
        (tfold [vec2 x0 y0, vec2 x1 y1, vec2 x2 y2])
      = tfold ([vec2 x0 y0, vec2 x1 y1, vec2 x2 y2].set a
          (mmul (mat2 p q r s) ([vec2 x0 y0, vec2 x1 y1, vec2 x2 y2].getD a (idm 2)))) :=
  embed_apply_n 3 _ _ a rfl rfl (by decide) (three_slots _ _ _ _ _ _)

theorem cx_three (c t : Nat) (hc : c < 3) (ht : t < 3) (x0 y0 x1 y1 x2 y2 : R) :
    mmul (controlled_full 3 c t pauli_x) (tfold [vec2 x0 y0, vec2 x1 y1, vec2 x2 y2])
      = madd (tfold ([vec2 x0 y0, vec2 x1 y1, vec2 x2 y2].set c
            (mmul proj0 ([vec2 x0 y0, vec2 x1 y1, vec2 x2 y2].getD c (idm 2)))))
          (tfold (([vec2 x0 y0, vec2 x1 y1, vec2 x2 y2].set c
            (mmul proj1 ([vec2 x0 y0, vec2 x1 y1, vec2 x2 y2].getD c (idm 2)))).set t
            (mmul pauli_x ([vec2 x0 y0, vec2 x1 y1, vec2 x2 y2].getD t (idm 2))))) :=
  controlled_full_product 3 _ c t pauli_x rfl hc ht rfl rfl (three_slots _ _ _ _ _ _)

theorem cx12_zero (x0 y0 x1 x2 y2 : R) :
    mmul (controlled_full 3 1 2 pauli_x) (tfold [vec2 x0 y0, vec2 x1 0, vec2 x2 y2])
      = tfold [vec2 x0 y0, vec2 x1 0, vec2 x2 y2] := by
  rw [cx_three 1 2 (by decide) (by decide)]
  simp only [List.set_cons_zero, List.set_cons_succ, List.getD_cons_zero, List.getD_cons_succ,
    proj0_mat2, proj1_mat2, pauli_x_mat2, mmul_mat2_vec2, mul_one, mul_zero, add_zero,
    zero_mul, one_mul, zero_add]
  exact madd_three_zero _ _ _ _ _ _ _ ⟨_, _, _, _, _, _, rfl⟩ (by simp)

theorem cx12_one (x0 y0 y1 x2 y2 : R) :
    mmul (controlled_full 3 1 2 pauli_x) (tfold [vec2 x0 y0, vec2 0 y1, vec2 x2 y2])
      = tfold [vec2 x0 y0, vec2 0 y1, vec2 y2 x2] := by
  rw [cx_three 1 2 (by decide) (by decide)]
  simp only [List.set_cons_zero, List.set_cons_succ, List.getD_cons_zero, List.getD_cons_succ,
    proj0_mat2, proj1_mat2, pauli_x_mat2, mmul_mat2_vec2, mul_one, mul_zero, add_zero,
    zero_mul, one_mul, zero_add]
  exact madd_zero_three _ _ _ _ _ _ _ ⟨_, _, _, _, _, _, rfl⟩ (by simp)

theorem cx02_zero (x0 x1 y1 x2 y2 : R) :
    mmul (controlled_full 3 0 2 pauli_x) (tfold [vec2 x0 0, vec2 x1 y1, vec2 x2 y2])
      = tfold [vec2 x0 0, vec2 x1 y1, vec2 x2 y2] := by
  rw [cx_three 0 2 (by decide) (by decide)]
  simp only [List.set_cons_zero, List.set_cons_succ, List.getD_cons_zero, List.getD_cons_succ,
    proj0_mat2, proj1_mat2, pauli_x_mat2, mmul_mat2_vec2, mul_one, mul_zero, add_zero,
    zero_mul, one_mul, zero_add]
  exact madd_three_zero _ _ _ _ _ _ _ ⟨_, _, _, _, _, _, rfl⟩ (by simp)

theorem cx02_one (y0 x1 y1 x2 y2 : R) :
    mmul (controlled_full 3 0 2 pauli_x) (tfold [vec2 0 y0, vec2 x1 y1, vec2 x2 y2])
      = tfold [vec2 0 y0, vec2 x1 y1, vec2 y2 x2] := by
  rw [cx_three 0 2 (by decide) (by decide)]
  simp only [List.set_cons_zero, List.set_cons_succ, List.getD_cons_zero, List.getD_cons_succ,
    proj0_mat2, proj1_mat2, pauli_x_mat2, mmul_mat2_vec2, mul_one, mul_zero, add_zero,
    zero_mul, one_mul, zero_add]
  exact madd_zero_three _ _ _ _ _ _ _ ⟨_, _, _, _, _, _, rfl⟩ (by simp)

theorem cx01_zero (x0 x1 y1 x2 y2 : R) :
    mmul (controlled_full 3 0 1 pauli_x) (tfold [vec2 x0 0, vec2 x1 y1, vec2 x2 y2])
      = tfold [vec2 x0 0, vec2 x1 y1, vec2 x2 y2] := by
  rw [cx_three 0 1 (by decide) (by decide)]
  simp only [List.set_cons_zero, List.set_cons_succ, List.getD_cons_zero, List.getD_cons_succ,
    proj0_mat2, proj1_mat2, pauli_x_mat2, mmul_mat2_vec2, mul_one, mul_zero, add_zero,
    zero_mul, one_mul, zero_add]
  exact madd_three_zero _ _ _ _ _ _ _ ⟨_, _, _, _, _, _, rfl⟩ (by simp)

theorem cx01_one (y0 x1 y1 x2 y2 : R) :
    mmul (controlled_full 3 0 1 pauli_x) (tfold [vec2 0 y0, vec2 x1 y1, vec2 x2 y2])
      = tfold [vec2 0 y0, vec2 y1 x1, vec2 x2 y2] := by
  rw [cx_three 0 1 (by decide) (by decide)]
  simp only [List.set_cons_zero, List.set_cons_succ, List.getD_cons_zero, List.getD_cons_succ,
    proj0_mat2, proj1_mat2, pauli_x_mat2, mmul_mat2_vec2, mul_one, mul_zero, add_zero,
    zero_mul, one_mul, zero_add]
  exact madd_zero_three _ _ _ _ _ _ _ ⟨_, _, _, _, _, _, rfl⟩ (by simp)

theorem steps_fold_shape (n : Nat) (gs : List (Matrix R)) (M0 : Matrix R)
    (hg : ∀ G ∈ gs, G.rows = 2 ^ n ∧ G.cols = 2 ^ n) (hM : M0.rows = 2 ^ n ∧ M0.cols = 2 ^ n) :
    (gs.foldl (fun M G => mmul G M) M0).rows = 2 ^ n ∧
      (gs.foldl (fun M G => mmul G M) M0).cols = 2 ^ n := by
  induction gs generalizing M0 with
  | nil => exact hM
  | cons G gs ih =>
    simp only [List.foldl_cons]
    exact ih (mmul G M0) (fun G' hG' => hg G' (List.mem_cons_of_mem _ hG'))
      ⟨(hg G (List.mem_cons_self _ _)).1, hM.2⟩

theorem steps_product_shape (n : Nat) (gs : List (Matrix R))
    (hg : ∀ G ∈ gs, G.rows = 2 ^ n ∧ G.cols = 2 ^ n) :
    (steps_product n gs).rows = 2 ^ n ∧ (steps_product n gs).cols = 2 ^ n :=
  steps_fold_shape n gs _ hg ⟨rfl, rfl⟩

/-- A basis state of three qubits has the amplitude `1` in one row and `0` in
the other rows. -/
theorem basis_amplitudes (a b c : Int) (ha : a = 0 ∨ a = 1) (hb : b = 0 ∨ b = 1)
    (hc : c = 0 ∨ c = 1) :
    ∃ k, k < 8 ∧ (tfold ([a, b, c].map ketf) : Matrix R).get k 0 = .ok 1 ∧
      ∀ i, i < 8 → i ≠ k → (tfold ([a, b, c].map ketf) : Matrix R).get i 0 = .ok 0 := by
  rcases ha with rfl | rfl <;> rcases hb with rfl | rfl <;> rcases hc with rfl | rfl <;>
    simp only [List.map_cons, List.map_nil, ketf_zero, ketf_one, ket0_vec2, ket1_vec2,
      tfold_vec2_three, mul_one, mul_zero, zero_mul]
  · refine ⟨0, by decide, rfl, ?_⟩
    intro i hi hne
    interval_cases i <;> first | rfl | exact absurd rfl hne
  · refine ⟨4, by decide, rfl, ?_⟩
    intro i hi hne
    interval_cases i <;> first | rfl | exact absurd rfl hne
  · refine ⟨2, by decide, rfl, ?_⟩
    intro i hi hne
    interval_cases i <;> first | rfl | exact absurd rfl hne
  · refine ⟨6, by decide, rfl, ?_⟩
    intro i hi hne
    interval_cases i <;> first | rfl | exact absurd rfl hne
  · refine ⟨1, by decide, rfl, ?_⟩
    intro i hi hne
    interval_cases i <;> first | rfl | exact absurd rfl hne
  · refine ⟨5, by decide, rfl, ?_⟩
    intro i hi hne
    interval_cases i <;> first | rfl | exact absurd rfl hne
  · refine ⟨3, by decide, rfl, ?_⟩
    intro i hi hne
    interval_cases i <;> first | rfl | exact absurd rfl hne
  · refine ⟨7, by decide, rfl, ?_⟩
    intro i hi hne
    interval_cases i <;> first | rfl | exact absurd rfl hne

end Small

/-! ## The gates `H` and `T` -/

section ScalarGates

variable {K : Type} [CommRing K] [Div K] [Sqrt2 K]

theorem HGate_eq (n : Nat) :
    (HGate n : Except Error (SingleGate (Cplx K)))
      = .ok { qubit_index := n, symbol := "H",
              matrix := mat2 ⟨1 / Sqrt2.sqrt2, 0⟩ ⟨1 / Sqrt2.sqrt2, 0⟩ ⟨1 / Sqrt2.sqrt2, 0⟩
                ⟨-1 / Sqrt2.sqrt2, 0⟩ } := by
  unfold HGate
  rw [identity_matrix_eq]
  rfl

theorem TGate_eq (n : Nat) :
    (TGate n : Except Error (SingleGate (Cplx K)))
      = .ok { qubit_index := n, symbol := "T",
              matrix := mat2 ⟨1, 0⟩ 0 0 ⟨1 / Sqrt2.sqrt2, 1 / Sqrt2.sqrt2⟩ } := by
  unfold TGate
  rw [identity_matrix_eq]
  rfl

theorem h_eq (hp : Heap) (n : Nat) :
    (DerivedGates.h hp n : Except Error (Heap × single_ptr (Cplx K)))
      = .ok ({ next := hp.next + 1 },
          { addr := hp.next,
            obj := { qubit_index := n, symbol := "H",
                     matrix := mat2 ⟨1 / Sqrt2.sqrt2, 0⟩ ⟨1 / Sqrt2.sqrt2, 0⟩
                       ⟨1 / Sqrt2.sqrt2, 0⟩ ⟨-1 / Sqrt2.sqrt2, 0⟩ } }) := by
  unfold DerivedGates.h
  rw [HGate_eq]
  rfl

theorem t_eq (hp : Heap) (n : Nat) :
    (DerivedGates.t hp n : Except Error (Heap × single_ptr (Cplx K)))
      = .ok ({ next := hp.next + 1 },
          { addr := hp.next,
            obj := { qubit_index := n, symbol := "T",
                     matrix := mat2 ⟨1, 0⟩ 0 0 ⟨1 / Sqrt2.sqrt2, 1 / Sqrt2.sqrt2⟩ } }) := by
  unfold DerivedGates.t
  rw [TGate_eq]
  rfl

end ScalarGates

/-! ## The Hadamard, Bell and Toffoli circuits -/

section ScalarScenarios

variable {K : Type} [LinearOrderedField K] [Sqrt2 K]

theorem Matrix.equals_self (A : Matrix (Cplx K)) : A.equals A = .ok true := by
  rw [Matrix.equals_eq A A rfl rfl (fun i j _ _ => by
    rw [sub_self, sub_self, abs_zero]
    exact ⟨by positivity, by positivity⟩)]
  congr 1
  rw [Bool.not_eq_true', List.any_eq_false]
  intro i _
  rw [Bool.not_eq_true, List.any_eq_false]
  intro j _
  rw [Bool.not_eq_true, decide_eq_false_iff_not, sub_self, sub_self, abs_zero, not_or, not_le]
  exact ⟨zero_lt_one, zero_lt_one⟩

/-- The final state of `check_hadamard`. -/
theorem hadamard_final_state (hp : Heap) :
    (do
      let (hp, qc) ← QuantumCircuit.new hp 1
      let (hp, g) ← DerivedGates.h hp 0
      let (_, qc) ← qc.add_component hp g.up
      qc.get_final_state)
      = (.ok (vec2 ⟨1 / Sqrt2.sqrt2, 0⟩ ⟨1 / Sqrt2.sqrt2, 0⟩) : Except Error (Matrix (Cplx K))) := by
  obtain ⟨qc0, e0, hm0, hn0, hi0⟩ :=
    QuantumCircuit.new_has_matrix (R := Cplx K) hp 1 (le_refl 1)
  obtain ⟨h1, qc1, e1, hm1, _, hn1, hi1⟩ := qc0.add_single_matrix _ ⟨hp.next + 1 + 1⟩
    (single_ptr.up ⟨hp.next + 1, ⟨0, "H", mat2 ⟨1 / Sqrt2.sqrt2, 0⟩ ⟨1 / Sqrt2.sqrt2, 0⟩
      ⟨1 / Sqrt2.sqrt2, 0⟩ ⟨-1 / Sqrt2.sqrt2, 0⟩⟩⟩) _ _ hm0 rfl
    (le_refl _) (Nat.lt_succ_self _) (by rw [hn0]; exact Nat.one_pos)
    (by show "H" ≠ "I"; decide) (mat2_wf _ _ _ _) rfl rfl
  simp only [bind, Except.bind, h_eq]
  rw [e0]
  simp only []
  rw [e1]
  simp only []
  rw [QuantumCircuit.final_state_eq h1 _ _ hm1 (by rw [hi1, hi0, hn1, hn0]; rfl), hi1, hi0, hn0]
  congr 1
  show mmul (mmul (mat2 _ _ _ _) (idm 2)) ket0 = _
  rw [mmul_idm _ (mat2_wf _ _ _ _) 2 rfl, ket0_vec2, mmul_mat2_vec2]
  simp only [mul_one, mul_zero, add_zero]

/-- The circuit of a Hadamard gate on qubit `0` followed by a controlled `X`
with control `0` and target `1`, and its final state on the input `[0, 0]`. -/
theorem bell_final_state (hp : Heap) :
    ∃ qc : QuantumCircuit (Cplx K),
      (do
        let (hp, qc) ← QuantumCircuit.new hp 2
        let (hp, g) ← DerivedGates.h hp 0
        let (hp, qc) ← qc.add_component hp g.up
        let (hp, g) ← DerivedGates.x hp 1
        let (hp, c) ← DerivedGates.controlled hp g 0
        let (_, qc) ← qc.add_component hp c
        pure qc) = (.ok qc : Except Error (QuantumCircuit (Cplx K))) ∧
      qc.input_register = [0, 0] ∧
      qc.get_final_state = .ok (Matrix.of_grid
        [[⟨1 / Sqrt2.sqrt2, 0⟩], [0], [0], [⟨1 / Sqrt2.sqrt2, 0⟩]]) := by
  obtain ⟨qc0, e0, hm0, hn0, hi0⟩ :=
    QuantumCircuit.new_has_matrix (R := Cplx K) hp 2 (by decide)
  obtain ⟨h1, qc1, e1, hm1, le1, hn1, hi1⟩ := qc0.add_single_matrix _ ⟨hp.next + 2 + 1⟩
    (single_ptr.up ⟨hp.next + 2, ⟨0, "H", mat2 ⟨1 / Sqrt2.sqrt2, 0⟩ ⟨1 / Sqrt2.sqrt2, 0⟩
      ⟨1 / Sqrt2.sqrt2, 0⟩ ⟨-1 / Sqrt2.sqrt2, 0⟩⟩⟩) _ _ hm0 rfl
    (le_refl _) (Nat.lt_succ_self _) (by rw [hn0]; exact Nat.zero_lt_two)
    (by show "H" ≠ "I"; decide) (mat2_wf _ _ _ _) rfl rfl
  obtain ⟨h2, qc2, e2, hm2, _, hn2, hi2⟩ := qc1.add_controlled_matrix h1 ⟨h1.next + 1 + 1⟩
    ⟨h1.next + 1, .controlled (controlled_gate ⟨1, "X", pauli_x⟩ 0)⟩
    _ _ _ hm1 rfl (Nat.le_succ _) (Nat.lt_succ_self _) (by rw [hn1, hn0]; decide)
    (by show 1 < qc1.register_size; rw [hn1, hn0]; decide) rfl rfl
  refine ⟨qc2, ?_, by rw [hi2, hi1, hi0]; rfl, ?_⟩
  · simp only [bind, Except.bind, h_eq, x_eq]
    rw [e0]
    simp only []
    rw [e1]
    simp only []
    rw [controlled_eq _ _ 0 (by show 0 ≠ 1; decide) rfl rfl]
    simp only []
    rw [e2]
    rfl
  · rw [QuantumCircuit.final_state_eq h2 _ _ hm2 (by rw [hi2, hi1, hi0, hn2, hn1, hn0]; rfl),
      hi2, hi1, hi0, hn1, hn0]
    congr 1
    show mmul (mmul (controlled_full 2 0 1 pauli_x) (mmul (tfold ((List.replicate 2 (idm 2)).set 0
      (mat2 _ _ _ _))) (idm (2 ^ 2)))) (tfold [ket0, ket0]) = _
    have hsh := embed_multi_shape (R := Cplx K) 2 0 1 (mat2 ⟨1 / Sqrt2.sqrt2, 0⟩
      ⟨1 / Sqrt2.sqrt2, 0⟩ ⟨1 / Sqrt2.sqrt2, 0⟩ ⟨-1 / Sqrt2.sqrt2, 0⟩) (by decide) rfl rfl
    have hcs := controlled_full_shape (R := Cplx K) 2 0 1 pauli_x (by decide)
    have hv : ∀ y ∈ [vec2 (1 : Cplx K) 0, vec2 1 0], y.wf ∧ y.rows = 2 :=
      vec2_slots _ (by simp)
    rw [mmul_idm _ (tfold_ne_nil_wf _ (by
        intro m hm
        simp only [List.replicate, List.set_cons_zero, List.mem_cons, List.mem_singleton,
          List.not_mem_nil, or_false] at hm
        rcases hm with rfl | rfl
        · exact mat2_wf _ _ _ _
        · exact idm_wf 2) (by simp)) (2 ^ 2) hsh.2,
      mmul_assoc _ _ _ (hcs.2.2.trans hsh.1.symm), ket0_vec2,
      embed_apply_n 2 _ [vec2 1 0, vec2 1 0] 0 rfl rfl (by decide) hv]
    simp only [List.set_cons_zero, List.getD_cons_zero, mmul_mat2_vec2, mul_one, mul_zero,
      add_zero]
    rw [controlled_full_product 2
      [vec2 (⟨1 / Sqrt2.sqrt2, 0⟩ : Cplx K) ⟨1 / Sqrt2.sqrt2, 0⟩, vec2 1 0] 0 1 pauli_x rfl
      (by decide) (by decide) rfl rfl (vec2_slots _ (by simp))]
    simp only [List.set_cons_zero, List.set_cons_succ, List.getD_cons_zero, List.getD_cons_succ,
      proj0_mat2, proj1_mat2, pauli_x_mat2, mmul_mat2_vec2, mul_one, mul_zero, add_zero,
      zero_mul, one_mul, zero_add]
    show madd (kron _ _) (kron _ _) = _
    rw [kron_vec2, kron_vec2, madd_vec4]
    simp only [mul_one, mul_zero, add_zero, zero_mul, one_mul, zero_add]

/-- The gate built by `toffoli(2, 0, 1)`: a `MultiGate` of three qubits at
index `0` whose matrix is the product of the fifteen gates of its circuit. -/
theorem toffoli_eq (hp : Heap) :
    ∃ (hp' : Heap) (g : shared_ptr (Cplx K)) (mg : MultiGate (Cplx K)),
      DerivedGates.toffoli hp 2 0 1 = .ok (hp', g) ∧ g.obj = .multi mg ∧
      mg.qubit_index = 0 ∧ mg.gate_size = 3 ∧ mg.matrix = steps_product 3 toffoli_steps ∧
      hp.next ≤ g.addr ∧ g.addr < hp'.next := by
  obtain ⟨qc0, e0, hm0, hn0, _⟩ := QuantumCircuit.new_has_matrix (R := Cplx K) hp 3 (by decide)
  have hmin : min (min 0 1) 2 = 0 := by decide
  have hmax : max (max 0 1) 2 = 2 := by decide
  unfold DerivedGates.toffoli DerivedGates.gate_from_circuit
  simp only [hmin, hmax, Nat.sub_zero, Nat.reduceAdd, bind, Except.bind, h_eq, t_eq, x_eq,
    adjoint_gate_eq]
  rw [e0]
  simp only []
  generalize hq1 : QuantumCircuit.add_component _ qc0 _ = r1
  obtain ⟨h1, qc1, rfl, hm1, le1, hn1⟩ := QuantumCircuit.add_single_n 3 _ _ _ _ _ _ r1
    hm0 hn0 hq1 rfl (by show hp.next + 3 ≤ hp.next + 3; omega)
    (by show hp.next + 3 < hp.next + 3 + 1; omega) (by show 2 < 3; decide)
    (by show "H" ≠ "I"; decide) (mat2_wf _ _ _ _) rfl rfl
  simp only []
  rw [cx_eq _ _ _ _ (by decide)]
  simp only []
  generalize hq2 : QuantumCircuit.add_component _ qc1 _ = r2
  obtain ⟨h2, qc2, rfl, hm2, le2, hn2⟩ := QuantumCircuit.add_controlled_n 3 _ _ _ _
    ⟨2, "X", pauli_x⟩ 1 _ r2 hm1 hn1 hq2 rfl (by show h1.next ≤ h1.next + 1; omega)
    (by show h1.next + 1 < h1.next + 1 + 1; omega) (by show 1 < 3; decide)
    (by show 2 < 3; decide) rfl rfl
  simp only []
  generalize hq3 : QuantumCircuit.add_component _ qc2 _ = r3
  obtain ⟨h3, qc3, rfl, hm3, le3, hn3⟩ := QuantumCircuit.add_single_n 3 _ _ _ _ _ _ r3
    hm2 hn2 hq3 rfl (by show h2.next ≤ h2.next + 1; omega)
    (by show h2.next + 1 < h2.next + 1 + 1; omega) (by show 2 < 3; decide)
    (by show "T" ++ "*" ≠ "I"; decide) (adj_wf _) rfl rfl
  simp only []
  rw [cx_eq _ _ _ _ (by decide)]
  simp only []
  generalize hq4 : QuantumCircuit.add_component _ qc3 _ = r4
  obtain ⟨h4, qc4, rfl, hm4, le4, hn4⟩ := QuantumCircuit.add_controlled_n 3 _ _ _ _
    ⟨2, "X", pauli_x⟩ 0 _ r4 hm3 hn3 hq4 rfl (by show h3.next ≤ h3.next + 1; omega)
    (by show h3.next + 1 < h3.next + 1 + 1; omega) (by show 0 < 3; decide)
    (by show 2 < 3; decide) rfl rfl
  simp only []
  generalize hq5 : QuantumCircuit.add_component _ qc4 _ = r5
  obtain ⟨h5, qc5, rfl, hm5, le5, hn5⟩ := QuantumCircuit.add_single_n 3 _ _ _ _ _ _ r5
    hm4 hn4 hq5 rfl (by show h4.next ≤ h4.next; omega)
    (by show h4.next < h4.next + 1; omega) (by show 2 < 3; decide)
    (by show "T" ≠ "I"; decide) (mat2_wf _ _ _ _) rfl rfl
  simp only []
  rw [cx_eq _ _ _ _ (by decide)]
  simp only []
  generalize hq6 : QuantumCircuit.add_component _ qc5 _ = r6
  obtain ⟨h6, qc6, rfl, hm6, le6, hn6⟩ := QuantumCircuit.add_controlled_n 3 _ _ _ _
    ⟨2, "X", pauli_x⟩ 1 _ r6 hm5 hn5 hq6 rfl (by show h5.next ≤ h5.next + 1; omega)
    (by show h5.next + 1 < h5.next + 1 + 1; omega) (by show 1 < 3; decide)
    (by show 2 < 3; decide) rfl rfl
  simp only []
  generalize hq7 : QuantumCircuit.add_component _ qc6 _ = r7
  obtain ⟨h7, qc7, rfl, hm7, le7, hn7⟩ := QuantumCircuit.add_single_n 3 _ _ _ _ _ _ r7
    hm6 hn6 hq7 rfl (by show h6.next ≤ h6.next + 1; omega)
    (by show h6.next + 1 < h6.next + 1 + 1; omega) (by show 2 < 3; decide)
    (by show "T" ++ "*" ≠ "I"; decide) (adj_wf _) rfl rfl
  simp only []
  rw [cx_eq _ _ _ _ (by decide)]
  simp only []
  generalize hq8 : QuantumCircuit.add_component _ qc7 _ = r8
  obtain ⟨h8, qc8, rfl, hm8, le8, hn8⟩ := QuantumCircuit.add_controlled_n 3 _ _ _ _
    ⟨2, "X", pauli_x⟩ 0 _ r8 hm7 hn7 hq8 rfl (by show h7.next ≤ h7.next + 1; omega)
    (by show h7.next + 1 < h7.next + 1 + 1; omega) (by show 0 < 3; decide)
    (by show 2 < 3; decide) rfl rfl
  simp only []
  generalize hq9 : QuantumCircuit.add_component _ qc8 _ = r9
  obtain ⟨h9, qc9, rfl, hm9, le9, hn9⟩ := QuantumCircuit.add_single_n 3 _ _ _ _ _ _ r9
    hm8 hn8 hq9 rfl (by show h8.next ≤ h8.next; omega)
    (by show h8.next < h8.next + 1; omega) (by show 1 < 3; decide)
    (by show "T" ≠ "I"; decide) (mat2_wf _ _ _ _) rfl rfl
  simp only []
  generalize hq10 : QuantumCircuit.add_component _ qc9 _ = r10
  obtain ⟨h10, qc10, rfl, hm10, le10, hn10⟩ := QuantumCircuit.add_single_n 3 _ _ _ _ _ _ r10
    hm9 hn9 hq10 rfl (by show h9.next ≤ h9.next; omega)
    (by show h9.next < h9.next + 1; omega) (by show 2 < 3; decide)
    (by show "T" ≠ "I"; decide) (mat2_wf _ _ _ _) rfl rfl
  simp only []
  generalize hq11 : QuantumCircuit.add_component _ qc10 _ = r11
  obtain ⟨h11, qc11, rfl, hm11, le11, hn11⟩ := QuantumCircuit.add_single_n 3 _ _ _ _ _ _ r11
    hm10 hn10 hq11 rfl (by show h10.next ≤ h10.next; omega)
    (by show h10.next < h10.next + 1; omega) (by show 2 < 3; decide)
    (by show "H" ≠ "I"; decide) (mat2_wf _ _ _ _) rfl rfl
  simp only []
  rw [cx_eq _ _ _ _ (by decide)]
  simp only []
  generalize hq12 : QuantumCircuit.add_component _ qc11 _ = r12
  obtain ⟨h12, qc12, rfl, hm12, le12, hn12⟩ := QuantumCircuit.add_controlled_n 3 _ _ _ _
    ⟨1, "X", pauli_x⟩ 0 _ r12 hm11 hn11 hq12 rfl (by show h11.next ≤ h11.next + 1; omega)
    (by show h11.next + 1 < h11.next + 1 + 1; omega) (by show 0 < 3; decide)
    (by show 1 < 3; decide) rfl rfl
  simp only []
  generalize hq13 : QuantumCircuit.add_component _ qc12 _ = r13
  obtain ⟨h13, qc13, rfl, hm13, le13, hn13⟩ := QuantumCircuit.add_single_n 3 _ _ _ _ _ _ r13
    hm12 hn12 hq13 rfl (by show h12.next ≤ h12.next; omega)
    (by show h12.next < h12.next + 1; omega) (by show 0 < 3; decide)
    (by show "T" ≠ "I"; decide) (mat2_wf _ _ _ _) rfl rfl
  simp only []
  generalize hq14 : QuantumCircuit.add_component _ qc13 _ = r14
  obtain ⟨h14, qc14, rfl, hm14, le14, hn14⟩ := QuantumCircuit.add_single_n 3 _ _ _ _ _ _ r14
    hm13 hn13 hq14 rfl (by show h13.next ≤ h13.next + 1; omega)
    (by show h13.next + 1 < h13.next + 1 + 1; omega) (by show 1 < 3; decide)
    (by show "T" ++ "*" ≠ "I"; decide) (adj_wf _) rfl rfl
  simp only []
  rw [cx_eq _ _ _ _ (by decide)]
  simp only []
  generalize hq15 : QuantumCircuit.add_component _ qc14 _ = r15
  obtain ⟨h15, qc15, rfl, hm15, le15, hn15⟩ := QuantumCircuit.add_controlled_n 3 _ _ _ _
    ⟨1, "X", pauli_x⟩ 0 _ r15 hm14 hn14 hq15 rfl (by show h14.next ≤ h14.next + 1; omega)
    (by show h14.next + 1 < h14.next + 1 + 1; omega) (by show 0 < 3; decide)
    (by show 1 < 3; decide) rfl rfl
  simp only []
  obtain ⟨hg15, _, hr15, hc15⟩ := qc15.has_matrix_get h15 _ hm15
  rw [hg15]
  simp only []
  rw [hn15] at hr15 hc15
  rw [hn15, MultiGate.new_multi_ok _ _ _ 3 hr15 hc15]
  refine ⟨_, _, _, rfl, rfl, rfl, rfl, rfl, ?_, ?_⟩
  · show hp.next ≤ h15.next
    simp only at le1 le2 le3 le4 le5 le6 le7 le8 le9 le10 le11 le12 le13 le14 le15
    omega
  · show h15.next < h15.next + 1
    omega

theorem embed3_shape (a : Nat) (U : Matrix (Cplx K)) (hr : U.rows = 2) (hc : U.cols = 2) :
    (embed3 a U).rows = 2 ^ 3 ∧ (embed3 a U).cols = 2 ^ 3 := by
  unfold embed3
  have hne : (List.replicate 3 (idm 2 : Matrix (Cplx K))).set a U ≠ [] :=
    ne_nil_of_length_pos _ (by simp)
  rw [tfold_rows_two _ hne (fun m hm => (target_slots_shape 3 a U hr hc m hm).1),
    tfold_cols_two _ hne (fun m hm => (target_slots_shape 3 a U hr hc m hm).2)]
  simp

theorem toffoli_steps_shape :
    ∀ G ∈ (toffoli_steps : List (Matrix (Cplx K))), G.rows = 2 ^ 3 ∧ G.cols = 2 ^ 3 := by
  intro G hG
  simp only [toffoli_steps, List.mem_cons, List.mem_singleton, List.not_mem_nil, or_false] at hG
  rcases hG with rfl | rfl | rfl | rfl | rfl | rfl | rfl | rfl | rfl | rfl | rfl | rfl | rfl |
    rfl | rfl <;>
  first
  | exact (controlled_full_shape 3 _ _ pauli_x (by decide)).2
  | exact embed3_shape _ _ rfl rfl

theorem t_matrix_mat2 : (t_matrix : Matrix (Cplx K))
    = mat2 1 0 0 ⟨1 / Sqrt2.sqrt2, 1 / Sqrt2.sqrt2⟩ := rfl

theorem adj_t_matrix : adj (t_matrix : Matrix (Cplx K))
    = mat2 1 0 0 ⟨1 / Sqrt2.sqrt2, -(1 / Sqrt2.sqrt2)⟩ := by
  rw [t_matrix_mat2, adj_mat2, star_one, star_zero]
  rfl

theorem half_of_sqrt2 (hs : (Sqrt2.sqrt2 : K) * Sqrt2.sqrt2 = 2) :
    (1 / Sqrt2.sqrt2 : K) * (1 / Sqrt2.sqrt2) = 1 / 2 := by
  rw [div_mul_div_comm, hs, one_mul]

theorem half_powers (ρ : K) (hρ : ρ * ρ = 1 / 2) :
    ρ ^ 2 = 1 / 2 ∧ ρ ^ 4 = 1 / 4 ∧ ρ ^ 6 = 1 / 8 ∧ ρ ^ 8 = 1 / 16 := by
  have h2 : ρ ^ 2 = 1 / 2 := by rw [pow_two, hρ]
  refine ⟨h2, ?_, ?_, ?_⟩
  · have : ρ ^ 4 = ρ ^ 2 * ρ ^ 2 := by ring
    rw [this, h2]; norm_num
  · have : ρ ^ 6 = ρ ^ 2 * ρ ^ 2 * ρ ^ 2 := by ring
    rw [this, h2]; norm_num
  · have : ρ ^ 8 = ρ ^ 2 * ρ ^ 2 * ρ ^ 2 * ρ ^ 2 := by ring
    rw [this, h2]; norm_num

theorem grid8_congr {R : Type} (a0 a1 a2 a3 a4 a5 a6 a7 b0 b1 b2 b3 b4 b5 b6 b7 : R)
    (h0 : a0 = b0) (h1 : a1 = b1) (h2 : a2 = b2) (h3 : a3 = b3) (h4 : a4 = b4) (h5 : a5 = b5)
    (h6 : a6 = b6) (h7 : a7 = b7) :
    Matrix.of_grid [[a0], [a1], [a2], [a3], [a4], [a5], [a6], [a7]]
      = Matrix.of_grid [[b0], [b1], [b2], [b3], [b4], [b5], [b6], [b7]] := by
  subst h0 h1 h2 h3 h4 h5 h6 h7
  rfl

theorem toffoli_00 (hs : (Sqrt2.sqrt2 : K) * Sqrt2.sqrt2 = 2) (x y : Cplx K) :
    mmul (steps_product 3 toffoli_steps) (tfold [vec2 1 0, vec2 1 0, vec2 x y])
      = tfold [vec2 1 0, vec2 1 0, vec2 x y] := by
  rw [steps_product_apply 3 _ _ toffoli_steps_shape (three_shape _ _ _ _ _ _).1
    (three_shape _ _ _ _ _ _).2.1]
  simp only [toffoli_steps, List.foldl_cons, List.foldl_nil, embed3, adj_t_matrix]
  simp only [t_matrix_mat2,
    hadamard_matrix, embed_three, cx12_zero, cx12_one, cx02_zero, cx02_one, cx01_zero, cx01_one,
    List.set_cons_zero, List.set_cons_succ, List.getD_cons_zero, List.getD_cons_succ,
    mmul_mat2_vec2, mul_one, mul_zero, add_zero, zero_mul, one_mul, zero_add]
  have hρ := half_of_sqrt2 hs
  rw [neg_div]
  generalize (1 / Sqrt2.sqrt2 : K) = ρ at hρ ⊢
  obtain ⟨h2, h4, h6, h8⟩ := half_powers ρ hρ
  rw [tfold_vec2_three, tfold_vec2_three]
  simp only [mul_one, mul_zero, zero_mul, one_mul]
  apply grid8_congr
  all_goals
    rw [Cplx.parts]
    simp only [Cplx.mul_parts, Cplx.add_parts, Cplx.zero_parts, Cplx.one_parts]
    constructor <;> (try ring_nf) <;> (try simp only [h2, h4, h6, h8]) <;> (try ring)

theorem toffoli_01 (hs : (Sqrt2.sqrt2 : K) * Sqrt2.sqrt2 = 2) (x y : Cplx K) :
    mmul (steps_product 3 toffoli_steps) (tfold [vec2 1 0, vec2 0 1, vec2 x y])
      = tfold [vec2 1 0, vec2 0 1, vec2 x y] := by
  rw [steps_product_apply 3 _ _ toffoli_steps_shape (three_shape _ _ _ _ _ _).1
    (three_shape _ _ _ _ _ _).2.1]
  simp only [toffoli_steps, List.foldl_cons, List.foldl_nil, embed3, adj_t_matrix]
  simp only [t_matrix_mat2,
    hadamard_matrix, embed_three, cx12_zero, cx12_one, cx02_zero, cx02_one, cx01_zero, cx01_one,
    List.set_cons_zero, List.set_cons_succ, List.getD_cons_zero, List.getD_cons_succ,
    mmul_mat2_vec2, mul_one, mul_zero, add_zero, zero_mul, one_mul, zero_add]
  have hρ := half_of_sqrt2 hs
  rw [neg_div]
  generalize (1 / Sqrt2.sqrt2 : K) = ρ at hρ ⊢
  obtain ⟨h2, h4, h6, h8⟩ := half_powers ρ hρ
  rw [tfold_vec2_three, tfold_vec2_three]
  simp only [mul_one, mul_zero, zero_mul, one_mul]
  apply grid8_congr
  all_goals
    rw [Cplx.parts]
    simp only [Cplx.mul_parts, Cplx.add_parts, Cplx.zero_parts, Cplx.one_parts]
    constructor <;> (try ring_nf) <;> (try simp only [h2, h4, h6, h8]) <;> (try ring)

theorem toffoli_10 (hs : (Sqrt2.sqrt2 : K) * Sqrt2.sqrt2 = 2) (x y : Cplx K) :
    mmul (steps_product 3 toffoli_steps) (tfold [vec2 0 1, vec2 1 0, vec2 x y])
      = tfold [vec2 0 1, vec2 1 0, vec2 x y] := by
  rw [steps_product_apply 3 _ _ toffoli_steps_shape (three_shape _ _ _ _ _ _).1
    (three_shape _ _ _ _ _ _).2.1]
  simp only [toffoli_steps, List.foldl_cons, List.foldl_nil, embed3, adj_t_matrix]
  simp only [t_matrix_mat2,
    hadamard_matrix, embed_three, cx12_zero, cx12_one, cx02_zero, cx02_one, cx01_zero, cx01_one,
    List.set_cons_zero, List.set_cons_succ, List.getD_cons_zero, List.getD_cons_succ,
    mmul_mat2_vec2, mul_one, mul_zero, add_zero, zero_mul, one_mul, zero_add]
  have hρ := half_of_sqrt2 hs
  rw [neg_div]
  generalize (1 / Sqrt2.sqrt2 : K) = ρ at hρ ⊢
  obtain ⟨h2, h4, h6, h8⟩ := half_powers ρ hρ
  rw [tfold_vec2_three, tfold_vec2_three]
  simp only [mul_one, mul_zero, zero_mul, one_mul]
  apply grid8_congr
  all_goals
    rw [Cplx.parts]
    simp only [Cplx.mul_parts, Cplx.add_parts, Cplx.zero_parts, Cplx.one_parts]
    constructor <;> (try ring_nf) <;> (try simp only [h2, h4, h6, h8]) <;> (try ring)

theorem toffoli_11 (hs : (Sqrt2.sqrt2 : K) * Sqrt2.sqrt2 = 2) (x y : Cplx K) :
    mmul (steps_product 3 toffoli_steps) (tfold [vec2 0 1, vec2 0 1, vec2 x y])
      = tfold [vec2 0 1, vec2 0 1, vec2 y x] := by
  rw [steps_product_apply 3 _ _ toffoli_steps_shape (three_shape _ _ _ _ _ _).1
    (three_shape _ _ _ _ _ _).2.1]
  simp only [toffoli_steps, List.foldl_cons, List.foldl_nil, embed3, adj_t_matrix]
  simp only [t_matrix_mat2,
    hadamard_matrix, embed_three, cx12_zero, cx12_one, cx02_zero, cx02_one, cx01_zero, cx01_one,
    List.set_cons_zero, List.set_cons_succ, List.getD_cons_zero, List.getD_cons_succ,
    mmul_mat2_vec2, mul_one, mul_zero, add_zero, zero_mul, one_mul, zero_add]
  have hρ := half_of_sqrt2 hs
  rw [neg_div]
  generalize (1 / Sqrt2.sqrt2 : K) = ρ at hρ ⊢
  obtain ⟨h2, h4, h6, h8⟩ := half_powers ρ hρ
  rw [tfold_vec2_three, tfold_vec2_three]
  simp only [mul_one, mul_zero, zero_mul, one_mul]
  apply grid8_congr
  all_goals
    rw [Cplx.parts]
    simp only [Cplx.mul_parts, Cplx.add_parts, Cplx.zero_parts, Cplx.one_parts]
    constructor <;> (try ring_nf) <;> (try simp only [h2, h4, h6, h8]) <;> (try ring)

/-- The matrix of the Toffoli gate applied to a basis state of three qubits. -/
theorem toffoli_basis (hs : (Sqrt2.sqrt2 : K) * Sqrt2.sqrt2 = 2) (a b c : Int)
    (ha : a = 0 ∨ a = 1) (hb : b = 0 ∨ b = 1) (hc : c = 0 ∨ c = 1) :
    mmul (steps_product 3 toffoli_steps) (tfold ([a, b, c].map ketf))
      = (tfold ([a, b, Int.xor c (Int.land a b)].map ketf) : Matrix (Cplx K)) := by
  rcases ha with rfl | rfl <;> rcases hb with rfl | rfl <;> rcases hc with rfl | rfl
  · exact toffoli_00 hs 1 0
  · exact toffoli_00 hs 0 1
  · exact toffoli_01 hs 1 0
  · exact toffoli_01 hs 0 1
  · exact toffoli_10 hs 1 0
  · exact toffoli_10 hs 0 1
  · exact toffoli_11 hs 1 0
  · exact toffoli_11 hs 0 1

/-- The final state of `check_toffoli`. -/
theorem toffoli_final_state (hp : Heap) (hs : (Sqrt2.sqrt2 : K) * Sqrt2.sqrt2 = 2)
    (a b c : Int) (ha : a = 0 ∨ a = 1) (hb : b = 0 ∨ b = 1) (hc : c = 0 ∨ c = 1) :
    (do
      let (hp, qc) ← QuantumCircuit.new hp 3
      let (hp, g) ← DerivedGates.toffoli hp 2 0 1
      let (_, qc) ← qc.add_component hp g
      let qc ← qc.set_input_register [a, b, c]
      qc.get_final_state)
      = (.ok (tfold ([a, b, Int.xor c (Int.land a b)].map ketf)) :
          Except Error (Matrix (Cplx K))) := by
  obtain ⟨qc0, e0, hm0, hn0, hi0⟩ :=
    QuantumCircuit.new_has_matrix (R := Cplx K) hp 3 (by decide)
  obtain ⟨hp1, g, mg, e1, hobj, hidx, hsize, hmat, hfresh, hg⟩ :=
    toffoli_eq (K := K) ⟨hp.next + 3⟩
  have hsh := steps_product_shape (R := Cplx K) 3 toffoli_steps toffoli_steps_shape
  obtain ⟨h2, qc2, e2, hm2, _, hn2, hi2⟩ := qc0.add_multi_matrix _ hp1 g mg _ hm0
    (by rw [hobj]; rfl) hfresh hg (by rw [hidx, hsize, hn0]) (by rw [hsize]; decide)
    (by rw [hmat, hsize]; exact hsh.1) (by rw [hmat, hsize]; exact hsh.2)
  simp only [bind, Except.bind]
  rw [e0]
  simp only []
  rw [e1]
  simp only []
  rw [e2]
  simp only []
  rw [qc2.set_input_register_fresh [a, b, c] (by rw [hi2, hi0, hn2, hn0]) (by rw [hn2, hn0]; rfl)]
  simp only []
  rw [QuantumCircuit.final_state_eq h2 _ _ (qc2.has_matrix_input h2 _ [a, b, c] hm2)
    (by show [a, b, c].length = qc2.register_size; rw [hn2, hn0]; rfl)]
  show Except.ok (mmul _ (tfold ([a, b, c].map ketf))) = _
  congr 1
  rw [hn0, hidx, hsize, hmat]
  have e3 : ∀ M : Matrix (Cplx K), tfold ((List.replicate (3 - 3 + 1) (idm 2)).set 0 M) = M :=
    fun _ => rfl
  rw [e3]
  have ks := kets_fold_shape (R := Cplx K) [a, b, c] (Nat.succ_pos _)
  rw [mmul_embed_norm _ _ (2 ^ 3) hsh.2 ks.1 ks.2.1, toffoli_basis hs a b c ha hb hc]

end ScalarScenarios

/-! ## The constructor, `evolve(num_steps)` and `replace_component` -/

section Construction

variable {R : Type} [CommRing R] [StarRing R]

/-- The entries of the product of the identity with a matrix. -/
theorem idm_mmul_raw (M : Matrix R) (i j : Nat) (hi : i < M.rows) (hj : j < M.cols) :
    (mmul (idm M.rows) M).raw i j = M.raw i j := by
  rw [mmul_raw _ _ i j (by simpa using hi) hj]
  simp only [idm_cols]
  rw [Finset.sum_congr rfl (fun k hk => by
    rw [idm_raw M.rows i k hi (Finset.mem_range.mp hk)])]
  simp [Finset.sum_ite_eq, hi]

/-- The entries of the adjoint of the adjoint. -/
theorem adj_adj_raw (M : Matrix R) (i j : Nat) (hi : i < M.rows) (hj : j < M.cols) :
    (adj (adj M)).raw i j = M.raw i j := by
  rw [adj_raw _ i j (by simpa using hi) (by simpa using hj), adj_raw _ j i hj hi, star_star]

theorem adj_adj (M : Matrix R) (hM : M.wf) : adj (adj M) = M :=
  Matrix.ext_raw _ _ (adj_wf _) hM (by simp) (by simp)
    (fun i j hi hj => adj_adj_raw M i j (by simpa using hi) (by simpa using hj))

/-- The grid of a freshly constructed circuit. -/
theorem QuantumCircuit.new_state_eq (h : Heap) (n : Nat) :
    (QuantumCircuit.new h n : Except Error (Heap × QuantumCircuit R))
      = .ok ({ next := h.next + n },
          { components := evolved h (List.replicate n []), register_size := n,
            total_steps := 0, input_register := List.replicate n 0 }) := by
  unfold QuantumCircuit.new
  rw [QuantumCircuit.evolve_eq _ _ (by simp)]
  rfl

theorem evolved_replicate_getElem (h : Heap) (n i : Nat) (hi : i < n) :
    (evolved h (List.replicate n [] : List (List (shared_ptr R))))[i]?
      = some [{ addr := h.next + i, obj := placeholder i }] := by
  rw [evolved_getElem h _ i (by simpa using hi)]
  simp

theorem for_range_one {σ : Type} (body : Nat → σ → Except Error σ) (init : σ) :
    for_range 0 1 body init = body 0 init := by
  unfold for_range
  show (do let s ← body 0 init; pure s) = body 0 init
  cases body 0 init <;> rfl

/-- The state after `evolve(k)`. -/
theorem QuantumCircuit.evolve_n_eq (h : Heap) (qc : QuantumCircuit R) (k : Nat)
    (hlen : qc.components.length = qc.register_size) :
    ∃ (h' : Heap) (qc' : QuantumCircuit R), qc.evolve_n h k = .ok (h', qc') ∧
      qc'.total_steps = qc.total_steps + (k : Int) ∧ qc'.register_size = qc.register_size ∧
      qc'.input_register = qc.input_register ∧
      qc'.components.length = qc.components.length ∧ h.next ≤ h'.next ∧
      ∀ i lane, qc.components[i]? = some lane →
        ∃ ps : List (shared_ptr R), qc'.components[i]? = some (lane ++ ps) ∧ ps.length = k ∧
          ∀ p ∈ ps, p.obj = placeholder i ∧ h.next ≤ p.addr ∧ p.addr < h'.next := by
  obtain ⟨st, h1, h2⟩ := for_range_inv 0 k
    (fun _ (st : Heap × QuantumCircuit R) => st.2.evolve st.1) (h, qc)
    (fun j st => st.2.total_steps = qc.total_steps + (j : Int) ∧
      st.2.register_size = qc.register_size ∧ st.2.input_register = qc.input_register ∧
      st.2.components.length = qc.components.length ∧ h.next ≤ st.1.next ∧
      ∀ i lane, qc.components[i]? = some lane →
        ∃ ps : List (shared_ptr R), st.2.components[i]? = some (lane ++ ps) ∧ ps.length = j ∧
          ∀ p ∈ ps, p.obj = placeholder i ∧ h.next ≤ p.addr ∧ p.addr < st.1.next)
    (Nat.zero_le _)
    ⟨by simp, rfl, rfl, rfl, le_refl _, fun i lane hl => ⟨[], by simpa using hl, rfl, by simp⟩⟩
    (by
      rintro j ⟨h1, q1⟩ _ _ ⟨a1, a2, a3, a4, a5, a6⟩
      simp only at a1 a2 a3 a4 a5 a6
      have hl1 : q1.components.length = q1.register_size := by rw [a4, a2, hlen]
      refine ⟨_, QuantumCircuit.evolve_eq h1 q1 hl1, ?_, a2, a3, ?_, ?_, ?_⟩
      · show q1.total_steps + 1 = qc.total_steps + ((j + 1 : Nat) : Int)
        rw [a1]
        push_cast
        ring
      · show (evolved h1 q1.components).length = _
        rw [evolved_length, a4]
      · show h.next ≤ h1.next + q1.register_size
        omega
      · intro i lane hl
        obtain ⟨ps, e1, e2, e3⟩ := a6 i lane hl
        have hi : i < q1.components.length := by
          by_contra hc
          rw [List.getElem?_eq_none (not_lt.mp hc)] at e1
          exact Option.noConfusion e1
        refine ⟨ps ++ [{ addr := h1.next + i, obj := placeholder i }], ?_, ?_, ?_⟩
        · show (evolved h1 q1.components)[i]? = _
          rw [evolved_getElem h1 _ i hi]
          rw [List.getElem?_eq_getElem hi] at e1
          rw [List.get_eq_getElem, Option.some.inj e1, List.append_assoc]
        · rw [List.length_append, e2]
          rfl
        · intro p hp
          rcases List.mem_append.mp hp with hp | hp
          · obtain ⟨b1, b2, b3⟩ := e3 p hp
            refine ⟨b1, b2, ?_⟩
            show p.addr < h1.next + q1.register_size
            omega
          · rw [List.mem_singleton.mp hp]
            refine ⟨rfl, ?_, ?_⟩
            · show h.next ≤ h1.next + i
              omega
            · show h1.next + i < h1.next + q1.register_size
              rw [← hl1]
              omega)
  obtain ⟨h', qc'⟩ := st
  exact ⟨h', qc', h1, h2⟩

/-- The conditions under which `replace_component` returns, and what it returns. -/
theorem QuantumCircuit.replace_component_ok (qc qc' : QuantumCircuit R) (g : shared_ptr R)
    (r s : Nat) (hlen : qc.components.length = qc.register_size)
    (hok : qc.replace_component g r s = .ok qc') :
    ¬ qc.occupies g ∧ g.obj.can_gate_fit qc.register_size = true ∧
      (grid_at qc.components r s).isSome ∧
      qc' = { qc with components := grid_put qc.components r s g } := by
  have hocc : ¬ qc.occupies g := by
    intro hocc
    unfold QuantumCircuit.replace_component at hok
    rw [QuantumCircuit.is_gate_in_circuit_eq qc g hlen,
      (QuantumCircuit.any_iff_occupies qc g).mpr hocc] at hok
    exact Except.noConfusion hok
  have hfit : g.obj.can_gate_fit qc.register_size = true := by
    by_contra hfit
    rw [Bool.not_eq_true] at hfit
    unfold QuantumCircuit.replace_component at hok
    rw [QuantumCircuit.is_gate_in_circuit_eq qc g hlen, QuantumCircuit.scan_false qc g hocc] at hok
    simp only [hfit, bind, Except.bind, pure, Except.pure] at hok
    exact Except.noConfusion hok
  have hcell : (grid_at qc.components r s).isSome := by
    by_contra hcell
    unfold QuantumCircuit.replace_component at hok
    rw [QuantumCircuit.is_gate_in_circuit_eq qc g hlen, QuantumCircuit.scan_false qc g hocc] at hok
    simp only [hfit, bind, Except.bind, pure, Except.pure] at hok
    unfold grid_at at hcell
    unfold read_at assign_at at hok
    cases hr : qc.components[r]? with
    | none =>
      rw [hr] at hok
      exact Except.noConfusion hok
    | some lane =>
      rw [hr] at hok hcell
      simp only [Option.bind] at hcell
      by_cases hs : s < lane.length
      · rw [List.getElem?_eq_getElem hs] at hcell
        exact hcell rfl
      · simp only [hs, ↓reduceIte] at hok
        exact Except.noConfusion hok
  refine ⟨hocc, hfit, hcell, ?_⟩
  rw [QuantumCircuit.replace_component_eq qc g r s hlen hocc hfit hcell] at hok
  exact (Except.ok.inj hok).symm

theorem QuantumCircuit.replace_component_dup (qc : QuantumCircuit R) (g : shared_ptr R)
    (r s : Nat) (hlen : qc.components.length = qc.register_size) (hocc : qc.occupies g) :
    qc.replace_component g r s = .error .DuplicateGateInsertion := by
  unfold QuantumCircuit.replace_component
  rw [QuantumCircuit.is_gate_in_circuit_eq qc g hlen,
    (QuantumCircuit.any_iff_occupies qc g).mpr hocc]
  rfl

theorem QuantumCircuit.replace_component_nofit (qc : QuantumCircuit R) (g : shared_ptr R)
    (r s : Nat) (hlen : qc.components.length = qc.register_size) (hnot : ¬ qc.occupies g)
    (hfit : g.obj.can_gate_fit qc.register_size = false) :
    qc.replace_component g r s = .error .GateDoesNotFit := by
  unfold QuantumCircuit.replace_component
  rw [QuantumCircuit.is_gate_in_circuit_eq qc g hlen, QuantumCircuit.scan_false qc g hnot]
  simp only [hfit, bind, Except.bind, pure, Except.pure]
  rfl

theorem grid_put_lane_length (comps : List (List (shared_ptr R))) (r s : Nat)
    (g : shared_ptr R) (i : Nat) :
    ((grid_put comps r s g).getD i []).length = (comps.getD i []).length := by
  unfold grid_put
  rw [List.getD_eq_getElem?_getD, List.getElem?_set]
  by_cases h : r = i
  · subst h
    by_cases hr : r < comps.length
    · simp [hr]
    · simp [hr, List.getElem?_eq_none (not_lt.mp hr)]
  · rw [if_neg h, ← List.getD_eq_getElem?_getD]

end Construction

/-! ## Member calls -/

section Calls

variable {R : Type} [CommRing R] [StarRing R]

theorem Call.bind_def {σ α β : Type} (m : Call σ α) (f : α → Call σ β) (s : σ) :
    (m >>= f) s = match m s with
      | (s', .ok a) => f a s'
      | (s', .error e) => (s', .error e) := rfl

theorem Call.pure_def {σ α : Type} (a : α) (s : σ) : (Pure.pure a : Call σ α) s = (s, .ok a) := rfl

theorem Call.bind_apply {σ α β : Type} (m : Call σ α) (f : α → Call σ β) (s : σ) :
    Call.bind m f s = match m s with
      | (s', .ok a) => f a s'
      | (s', .error e) => (s', .error e) := rfl

theorem Call.pure_apply {σ α : Type} (a : α) (s : σ) : (Call.pure a : Call σ α) s = (s, .ok a) :=
  rfl

theorem Call.read_def {σ α : Type} (f : σ → Except Error α) (s : σ) :
    Call.read f s = (s, f s) := rfl

theorem Call.throw_def {σ α : Type} (e : Error) (s : σ) :
    (Call.throw e : Call σ α) s = (s, .error e) := rfl

theorem Call.update_def {σ : Type} (f : σ → Except Error σ) (s : σ) :
    Call.update f s = match f s with
      | .ok s' => (s', .ok ())
      | .error e => (s, .error e) := rfl

/-- A call that throws without having changed the object. -/
theorem Call.bind_read_error {σ α β : Type} (g : σ → Except Error α) (f : α → Call σ β) (s : σ)
    (e : Error) (h : g s = .error e) : (Call.read g >>= f) s = (s, .error e) := by
  rw [Call.bind_def]
  show (match (s, g s) with
    | (s', .ok a) => f a s'
    | (s', .error e) => (s', .error e)) = _
  rw [h]

theorem Call.bind_read_ok {σ α β : Type} (g : σ → Except Error α) (f : α → Call σ β) (s : σ)
    (a : α) (h : g s = .ok a) : (Call.read g >>= f) s = f a s := by
  rw [Call.bind_def]
  show (match (s, g s) with
    | (s', .ok a) => f a s'
    | (s', .error e) => (s', .error e)) = _
  rw [h]

theorem Call.bind_update_ok {σ β : Type} (g : σ → Except Error σ) (f : Unit → Call σ β)
    (s s' : σ) (h : g s = .ok s') : (Call.update g >>= f) s = f () s' := by
  rw [Call.bind_def]
  unfold Call.update
  rw [h]

theorem Call.bind_update_error {σ β : Type} (g : σ → Except Error σ) (f : Unit → Call σ β)
    (s : σ) (e : Error) (h : g s = .error e) : (Call.update g >>= f) s = (s, .error e) := by
  rw [Call.bind_def]
  unfold Call.update
  rw [h]

theorem Call.update_ok {σ : Type} (g : σ → Except Error σ) (s s' : σ) (h : g s = .ok s') :
    Call.update g s = (s', .ok ()) := by
  unfold Call.update
  rw [h]

theorem Call.update_error {σ : Type} (g : σ → Except Error σ) (s : σ) (e : Error)
    (h : g s = .error e) : Call.update g s = (s, .error e) := by
  unfold Call.update
  rw [h]

theorem Call.bind_throw {σ α β : Type} (f : α → Call σ β) (s : σ) (e : Error) :
    ((Call.throw e : Call σ α) >>= f) s = (s, .error e) := rfl

theorem Call.bind_pure {σ α β : Type} (a : α) (f : α → Call σ β) (s : σ) :
    ((Pure.pure a : Call σ α) >>= f) s = f a s := rfl

/-- `replace_component` as a call: it returns what the function returns, and
when it throws the circuit is as before. -/
theorem QuantumCircuit.replace_component_call_eq (g : shared_ptr R) (r s : Nat) (h : Heap)
    (qc : QuantumCircuit R) :
    QuantumCircuit.replace_component_call g r s (h, qc)
      = match qc.replace_component g r s with
        | .ok qc' => ((h, qc'), .ok ())
        | .error e => ((h, qc), .error e) := by
  unfold QuantumCircuit.replace_component_call QuantumCircuit.replace_component
  simp only [Call.bind_apply, Call.pure_apply, Call.read_def, Call.throw_def, Call.update_def, bind,
    Except.bind, pure, Except.pure, Bool.false_eq_true, if_false, if_true, Bool.not_true, Bool.not_false]
  cases h1 : qc.is_gate_in_circuit g with
  | error e => rfl
  | ok b =>
    cases b with
    | true => rfl
    | false =>
      simp only [Call.bind_apply, Call.pure_apply, Call.read_def, Call.throw_def, Call.update_def, bind,
    Except.bind, pure, Except.pure, Bool.false_eq_true, if_false, if_true, Bool.not_true, Bool.not_false]
      cases hf : g.obj.can_gate_fit qc.register_size with
      | false => rfl
      | true =>
        simp only [Call.bind_apply, Call.pure_apply, Call.read_def, Call.throw_def, Call.update_def, bind,
    Except.bind, pure, Except.pure, Bool.false_eq_true, if_false, if_true, Bool.not_true, Bool.not_false]
        cases read_at qc.components r with
        | error e => rfl
        | ok lane =>
          simp only
          cases assign_at lane s g with
          | error e => rfl
          | ok lane' =>
            simp only
            cases assign_at qc.components r lane' with
            | error e => rfl
            | ok comps => rfl

theorem QuantumCircuit.evolve_call_eq (h : Heap) (qc : QuantumCircuit R)
    (hlen : qc.components.length = qc.register_size) :
    QuantumCircuit.evolve_call (h, qc)
      = (({ next := h.next + qc.register_size },
          { qc with components := evolved h qc.components, total_steps := qc.total_steps + 1 }),
         .ok ()) := by
  unfold QuantumCircuit.evolve_call
  rw [Call.update_def]
  simp only [QuantumCircuit.evolve_eq h qc hlen]

/-- Outside the lanes of the grid `replace_component` leaves the behaviour
defined by the language. -/
theorem QuantumCircuit.replace_component_outside (qc : QuantumCircuit R) (g : shared_ptr R)
    (r s : Nat) (hlen : qc.components.length = qc.register_size) (hnot : ¬ qc.occupies g)
    (hfit : g.obj.can_gate_fit qc.register_size = true) (hr : ¬ r < qc.components.length) :
    qc.replace_component g r s = .error .undefined := by
  unfold QuantumCircuit.replace_component
  rw [QuantumCircuit.is_gate_in_circuit_eq qc g hlen, QuantumCircuit.scan_false qc g hnot]
  simp only [hfit, bind, Except.bind, pure, Except.pure, Bool.false_eq_true, if_false,
    Bool.not_true]
  unfold read_at
  rw [List.getElem?_eq_none (not_lt.mp hr)]

theorem QuantumCircuit.add_component_call_dup (h : Heap) (qc : QuantumCircuit R)
    (g : shared_ptr R) (hlen : qc.components.length = qc.register_size) (hocc : qc.occupies g) :
    QuantumCircuit.add_component_call g (h, qc) = ((h, qc), .error .DuplicateGateInsertion) := by
  unfold QuantumCircuit.add_component_call
  simp only [Call.bind_apply, Call.pure_apply, Call.read_def, Call.throw_def, Call.update_def, bind,
    Except.bind, pure, Except.pure]
  rw [QuantumCircuit.is_gate_in_circuit_eq qc g hlen,
    (QuantumCircuit.any_iff_occupies qc g).mpr hocc]
  rfl

theorem QuantumCircuit.add_component_call_nofit (h : Heap) (qc : QuantumCircuit R)
    (g : shared_ptr R) (hlen : qc.components.length = qc.register_size) (hnot : ¬ qc.occupies g)
    (hfit : g.obj.can_gate_fit qc.register_size = false) :
    QuantumCircuit.add_component_call g (h, qc) = ((h, qc), .error .GateDoesNotFit) := by
  unfold QuantumCircuit.add_component_call
  simp only [Call.bind_apply, Call.pure_apply, Call.read_def, Call.throw_def, Call.update_def, bind,
    Except.bind, pure, Except.pure]
  rw [QuantumCircuit.is_gate_in_circuit_eq qc g hlen, QuantumCircuit.scan_false qc g hnot]
  simp only [Call.bind_apply, Call.pure_apply, Call.read_def, Call.throw_def, Call.update_def, bind,
    Except.bind, pure, Except.pure, Bool.false_eq_true, if_false, hfit, Bool.not_false, if_true]

theorem QuantumCircuit.add_component_call_single (h : Heap) (qc : QuantumCircuit R)
    (g : shared_ptr R) (sg : SingleGate R) (hwf : qc.wf h) (hg : g.addr < h.next)
    (hobj : g.obj = .single sg) (hnot : ¬ qc.occupies g)
    (hfit : g.obj.can_gate_fit qc.register_size = true) :
    ∃ st, QuantumCircuit.add_component_call g (h, qc) = (st, .ok ()) := by
  have hlen := hwf.1
  obtain ⟨T, hT⟩ : ∃ T : Nat, qc.total_steps = (T : Int) :=
    ⟨_, (Int.toNat_of_nonneg hwf.2.1).symm⟩
  have hlanes := qc.wf_steps h T hwf hT
  have hidx : sg.qubit_index < qc.register_size := by
    simpa [hobj, QuantumComponent.can_gate_fit, SingleGate.can_gate_fit] using hfit
  obtain ⟨c0, hc0⟩ := grid_at_isSome qc.components sg.qubit_index T _
    (by rw [hlen]; exact hidx) hlanes (Nat.lt_succ_self _)
  have hti : to_index qc.total_steps = .ok T := by rw [hT, to_index_eq]
  have hcell : qc.cell sg.qubit_index T = .ok c0 :=
    (QuantumCircuit.cell_ok_iff qc _ _ c0).mpr hc0
  unfold QuantumCircuit.add_component_call
  simp only [Call.bind_apply, Call.pure_apply, Call.read_def, Call.throw_def, Call.update_def, bind,
    Except.bind, pure, Except.pure, Bool.false_eq_true, if_false, Bool.not_true, if_true]
  rw [QuantumCircuit.is_gate_in_circuit_eq qc g hlen, QuantumCircuit.scan_false qc g hnot]
  simp only [Call.bind_apply, Call.pure_apply, Call.read_def, Call.throw_def, Call.update_def, bind,
    Except.bind, pure, Except.pure, Bool.false_eq_true, if_false, Bool.not_true, if_true, hfit]
  have ht : g.obj.get_gate_type = "SingleGate" := by rw [hobj]; rfl
  have hi : g.obj.get_index = sg.qubit_index := by rw [hobj]; rfl
  simp only [Call.bind_apply, Call.pure_apply, Call.read_def, Call.throw_def, Call.update_def, bind,
    Except.bind, pure, Except.pure, Bool.false_eq_true, if_false, Bool.not_true, if_true, ht, hi, hti, hcell]
  by_cases hI : c0.obj.get_symbol = "I"
  · simp only [Call.bind_apply, Call.pure_apply, Call.read_def, Call.throw_def, Call.update_def, bind,
    Except.bind, pure, Except.pure, Bool.false_eq_true, if_false, Bool.not_true, if_true, hI, ne_eq, not_true_eq_false, hti]
    rw [QuantumCircuit.replace_component_call_eq,
      QuantumCircuit.replace_component_eq qc g sg.qubit_index _ hlen hnot hfit
        (by rw [hc0]; rfl)]
    exact ⟨_, rfl⟩
  · simp only [Call.bind_apply, Call.pure_apply, Call.read_def, Call.throw_def, Call.update_def, bind,
    Except.bind, pure, Except.pure, Bool.false_eq_true, if_false, Bool.not_true, if_true, hI, ne_eq, not_false_eq_true, QuantumCircuit.evolve_call_eq h qc hlen]
    have e : qc.total_steps + 1 = ((T + 1 : Nat) : Int) := by
      rw [hT]
      push_cast
      rfl
    rw [e, to_index_eq]
    simp only
    have hnew : (grid_at (evolved h qc.components) sg.qubit_index (T + 1)).isSome := by
      rw [grid_at_evolved_new h _ _ _ (by rw [hlen]; exact hidx) hlanes]
      rfl
    rw [QuantumCircuit.replace_component_call_eq,
      QuantumCircuit.replace_component_eq _ g sg.qubit_index _
        (by simpa [evolved_length] using hlen) (occupies_evolved h qc g hg hnot _) hfit hnew]
    exact ⟨_, rfl⟩

theorem QuantumCircuit.replace_component_call_step (g : shared_ptr R) (r s : Nat) (h : Heap)
    (qc : QuantumCircuit R) (hlen : qc.components.length = qc.register_size)
    (hnot : ¬ qc.occupies g) (hfit : g.obj.can_gate_fit qc.register_size = true)
    (hs : ∀ lane ∈ qc.components, s < lane.length) :
    (r < qc.components.length →
      QuantumCircuit.replace_component_call g r s (h, qc)
        = ((h, { qc with components := grid_put qc.components r s g }), .ok ())) ∧
    (¬ r < qc.components.length →
      QuantumCircuit.replace_component_call g r s (h, qc) = ((h, qc), .error .undefined)) := by
  constructor
  · intro hr
    have hcell : (grid_at qc.components r s).isSome := by
      unfold grid_at
      rw [List.getElem?_eq_getElem hr]
      simp only [Option.bind]
      rw [List.getElem?_eq_getElem (hs _ (List.getElem_mem hr))]
      rfl
    rw [QuantumCircuit.replace_component_call_eq,
      QuantumCircuit.replace_component_eq qc g r s hlen hnot hfit hcell]
  · intro hr
    rw [QuantumCircuit.replace_component_call_eq,
      QuantumCircuit.replace_component_outside qc g r s hlen hnot hfit hr]

theorem QuantumCircuit.add_component_call_multi (h : Heap) (qc : QuantumCircuit R)
    (g : shared_ptr R) (hwf : qc.wf h) (hg : g.addr < h.next)
    (ht : g.obj.get_gate_type = "MultiGate") (hnot : ¬ qc.occupies g)
    (hfit : g.obj.can_gate_fit qc.register_size = true) :
    ∃ st r, QuantumCircuit.add_component_call g (h, qc) = (st, r) ∧
      (r = .ok () ∨ r = .error .undefined) := by
  have hlen := hwf.1
  obtain ⟨T, hT⟩ : ∃ T : Nat, qc.total_steps = (T : Int) :=
    ⟨_, (Int.toNat_of_nonneg hwf.2.1).symm⟩
  have hlanes := qc.wf_steps h T hwf hT
  have hti : to_index qc.total_steps = .ok T := by rw [hT, to_index_eq]
  have hne : ¬ ("MultiGate" = "SingleGate") := by decide
  unfold QuantumCircuit.add_component_call
  simp only [Call.bind_apply, Call.pure_apply, Call.read_def, Call.throw_def, Call.update_def, bind,
    Except.bind, pure, Except.pure, Bool.false_eq_true, if_false, Bool.not_true, if_true]
  rw [QuantumCircuit.is_gate_in_circuit_eq qc g hlen, QuantumCircuit.scan_false qc g hnot]
  simp only [Call.bind_apply, Call.pure_apply, Call.read_def, Call.throw_def, Call.update_def, bind,
    Except.bind, pure, Except.pure, Bool.false_eq_true, if_false, Bool.not_true, if_true, hfit]
  simp only [Call.bind_apply, Call.pure_apply, Call.read_def, Call.throw_def, Call.update_def, bind,
    Except.bind, pure, Except.pure, Bool.false_eq_true, if_false, Bool.not_true, if_true, ht, hne, hti,
    QuantumCircuit.is_step_empty_eq qc T hlen (fun lane hl => by rw [hlanes lane hl]; omega)]
  by_cases hE : step_empty qc.components T = true
  · simp only [Call.bind_apply, Call.pure_apply, Call.read_def, Call.throw_def, Call.update_def, bind,
    Except.bind, pure, Except.pure, Bool.false_eq_true, if_false, Bool.not_true, if_true, hE, hti]
    by_cases ha : g.obj.get_index < qc.components.length
    · rw [(QuantumCircuit.replace_component_call_step g _ T h qc hlen hnot hfit
        (fun lane hl => by rw [hlanes lane hl]; omega)).1 ha]
      simp only [Call.bind_apply, Call.pure_apply, Call.read_def, Call.throw_def, Call.update_def, bind,
    Except.bind, pure, Except.pure, Bool.false_eq_true, if_false, Bool.not_true, if_true]
      rw [QuantumCircuit.evolve_call_eq h _ (by simpa [grid_put_length] using hlen)]
      exact ⟨_, _, rfl, Or.inl rfl⟩
    · rw [(QuantumCircuit.replace_component_call_step g _ T h qc hlen hnot hfit
        (fun lane hl => by rw [hlanes lane hl]; omega)).2 ha]
      exact ⟨_, _, rfl, Or.inr rfl⟩
  · simp only [Call.bind_apply, Call.pure_apply, Call.read_def, Call.throw_def, Call.update_def, bind,
    Except.bind, pure, Except.pure, Bool.false_eq_true, if_false, Bool.not_true, if_true, hE, Bool.not_false, QuantumCircuit.evolve_call_eq h qc hlen]
    have e : qc.total_steps + 1 = ((T + 1 : Nat) : Int) := by
      rw [hT]
      push_cast
      rfl
    rw [e, to_index_eq]
    simp only
    have hl' := evolved_lanes h qc.components (T + 1) hlanes
    by_cases ha : g.obj.get_index < qc.components.length
    · rw [(QuantumCircuit.replace_component_call_step g _ (T + 1) _
        { qc with components := evolved h qc.components, total_steps := ((T + 1 : Nat) : Int) }
        (by simpa [evolved_length] using hlen) (occupies_evolved h qc g hg hnot _) hfit
        (fun lane hl => by rw [hl' lane hl]; omega)).1 (by simpa [evolved_length] using ha)]
      simp only [Call.bind_apply, Call.pure_apply, Call.read_def, Call.throw_def, Call.update_def, bind,
    Except.bind, pure, Except.pure, Bool.false_eq_true, if_false, Bool.not_true, if_true]
      rw [QuantumCircuit.evolve_call_eq _ _
        (by simpa [grid_put_length, evolved_length] using hlen)]
      exact ⟨_, _, rfl, Or.inl rfl⟩
    · rw [(QuantumCircuit.replace_component_call_step g _ (T + 1) _
        { qc with components := evolved h qc.components, total_steps := ((T + 1 : Nat) : Int) }
        (by simpa [evolved_length] using hlen) (occupies_evolved h qc g hg hnot _) hfit
        (fun lane hl => by rw [hl' lane hl]; omega)).2 (by simpa [evolved_length] using ha)]
      exact ⟨_, _, rfl, Or.inr rfl⟩

/-- A call of `add_component` on a well-formed circuit, with a gate that has
been allocated: an exception leaves the circuit as it was. -/
theorem QuantumCircuit.add_component_call_throws (h : Heap) (qc : QuantumCircuit R)
    (g : shared_ptr R) (st : Heap × QuantumCircuit R) (e : Error) (hwf : qc.wf h)
    (hg : g.addr < h.next)
    (hrun : QuantumCircuit.add_component_call g (h, qc) = (st, .error e))
    (hne : e ≠ .undefined) : st = (h, qc) := by
  have hlen := hwf.1
  by_cases hocc : qc.occupies g
  · rw [QuantumCircuit.add_component_call_dup h qc g hlen hocc] at hrun
    exact (Prod.mk.inj hrun).1.symm
  by_cases hfit : g.obj.can_gate_fit qc.register_size = true
  swap
  · rw [QuantumCircuit.add_component_call_nofit h qc g hlen hocc (by simpa using hfit)] at hrun
    exact (Prod.mk.inj hrun).1.symm
  exfalso
  cases hobj : g.obj with
  | single sg =>
    obtain ⟨st', e'⟩ := QuantumCircuit.add_component_call_single h qc g sg hwf hg hobj hocc hfit
    rw [e'] at hrun
    exact Except.noConfusion (Prod.mk.inj hrun).2
  | multi mg =>
    obtain ⟨st', r, e', hr⟩ := QuantumCircuit.add_component_call_multi h qc g hwf hg
      (by rw [hobj]; rfl) hocc hfit
    rw [e'] at hrun
    have := (Prod.mk.inj hrun).2
    rcases hr with hr | hr
    · rw [hr] at this
      exact Except.noConfusion this
    · rw [hr] at this
      exact hne (Except.error.inj this).symm
  | controlled cg =>
    obtain ⟨st', r, e', hr⟩ := QuantumCircuit.add_component_call_multi h qc g hwf hg
      (by rw [hobj]; rfl) hocc hfit
    rw [e'] at hrun
    have := (Prod.mk.inj hrun).2
    rcases hr with hr | hr
    · rw [hr] at this
      exact Except.noConfusion this
    · rw [hr] at this
      exact hne (Except.error.inj this).symm

theorem QuantumCircuit.evolve_call_def (h : Heap) (qc : QuantumCircuit R) :
    QuantumCircuit.evolve_call (h, qc)
      = match qc.evolve h with
        | .ok st => (st, .ok ())
        | .error e => ((h, qc), .error e) := by
  unfold QuantumCircuit.evolve_call
  rw [Call.update_def]
  simp only
  cases qc.evolve h <;> rfl

/-- The call of `add_component` returns what the function `add_component`
returns. -/
theorem QuantumCircuit.add_component_call_result (g : shared_ptr R) (h : Heap)
    (qc : QuantumCircuit R) :
    (QuantumCircuit.add_component_call g).result (h, qc)
      = (qc.add_component h g).map (fun st => (st, ())) := by
  unfold QuantumCircuit.add_component_call QuantumCircuit.add_component Call.result
  simp only [Call.bind_apply, Call.pure_apply, Call.read_def, Call.throw_def, bind, Except.bind, pure,
    Except.pure, Except.map, Bool.false_eq_true, if_false, Bool.not_true, if_true]
  cases qc.is_gate_in_circuit g with
  | error e => rfl
  | ok b =>
    cases b with
    | true => rfl
    | false =>
      simp only [Call.bind_apply, Call.pure_apply, Call.read_def, Call.throw_def, bind, Except.bind, pure,
    Except.pure, Except.map, Bool.false_eq_true, if_false, Bool.not_true, if_true]
      cases g.obj.can_gate_fit qc.register_size with
      | false => rfl
      | true =>
        simp only [Call.bind_apply, Call.pure_apply, Call.read_def, Call.throw_def, bind, Except.bind, pure,
    Except.pure, Except.map, Bool.false_eq_true, if_false, Bool.not_true, if_true]
        by_cases ht : g.obj.get_gate_type = "SingleGate"
        · simp only [Call.bind_apply, Call.pure_apply, Call.read_def, Call.throw_def, bind, Except.bind, pure,
    Except.pure, Except.map, Bool.false_eq_true, if_false, Bool.not_true, if_true, ht]
          cases hT : to_index qc.total_steps with
          | error e => rfl
          | ok T =>
            simp only
            cases qc.cell g.obj.get_index T with
            | error e => rfl
            | ok c =>
              simp only
              by_cases hI : c.obj.get_symbol = "I"
              · simp only [Call.bind_apply, Call.pure_apply, Call.read_def, Call.throw_def, bind,
                  Except.bind, pure, Except.pure, hI, ne_eq, not_true_eq_false, if_false, hT]
                rw [QuantumCircuit.replace_component_call_eq]
                cases qc.replace_component g g.obj.get_index T <;> rfl
              · simp only [Call.bind_apply, Call.pure_apply, Call.read_def, Call.throw_def, bind, Except.bind, pure,
    Except.pure, Except.map, Bool.false_eq_true, if_false, Bool.not_true, if_true, hI, ne_eq, not_false_eq_true]
                rw [QuantumCircuit.evolve_call_def]
                cases qc.evolve h with
                | error e => rfl
                | ok st =>
                  obtain ⟨h', qc'⟩ := st
                  simp only
                  cases to_index qc'.total_steps with
                  | error e => rfl
                  | ok T' =>
                    simp only
                    rw [QuantumCircuit.replace_component_call_eq]
                    cases qc'.replace_component g g.obj.get_index T' <;> rfl
        · simp only [Call.bind_apply, Call.pure_apply, Call.read_def, Call.throw_def, bind, Except.bind, pure,
    Except.pure, Except.map, Bool.false_eq_true, if_false, Bool.not_true, if_true, ht]
          by_cases hm : g.obj.get_gate_type = "MultiGate"
          · simp only [Call.bind_apply, Call.pure_apply, Call.read_def, Call.throw_def, bind, Except.bind, pure,
    Except.pure, Except.map, Bool.false_eq_true, if_false, Bool.not_true, if_true, hm]
            cases hT : to_index qc.total_steps with
            | error e => rfl
            | ok T =>
              simp only
              cases qc.is_step_empty T with
              | error e => rfl
              | ok b =>
                cases b with
                | true =>
                  simp only [Call.bind_apply, Call.pure_apply, Call.read_def, Call.throw_def, bind,
                    Except.bind, pure, Except.pure, Bool.false_eq_true, if_false, Bool.not_true, hT]
                  rw [QuantumCircuit.replace_component_call_eq]
                  cases qc.replace_component g g.obj.get_index T with
                  | error e => rfl
                  | ok v =>
                    simp only
                    rw [QuantumCircuit.evolve_call_def]
                    cases v.evolve h <;> rfl
                | false =>
                  simp only [Call.bind_apply, Call.pure_apply, Call.read_def, Call.throw_def, bind, Except.bind, pure,
    Except.pure, Except.map, Bool.false_eq_true, if_false, Bool.not_true, if_true, Bool.not_false]
                  rw [QuantumCircuit.evolve_call_def]
                  cases qc.evolve h with
                  | error e => rfl
                  | ok st =>
                    obtain ⟨h', qc'⟩ := st
                    simp only
                    cases to_index qc'.total_steps with
                    | error e => rfl
                    | ok T' =>
                      simp only
                      rw [QuantumCircuit.replace_component_call_eq]
                      cases qc'.replace_component g g.obj.get_index T' with
                      | error e => rfl
                      | ok v =>
                        simp only
                        rw [QuantumCircuit.evolve_call_def]
                        cases v.evolve h' <;> rfl
          · simp only [Call.bind_apply, Call.pure_apply, Call.read_def, Call.throw_def, bind, Except.bind, pure,
    Except.pure, Except.map, Bool.false_eq_true, if_false, Bool.not_true, if_true, hm]

end Calls

/-! ## Reachable states -/

section Reach

variable {R : Type} [CommRing R] [StarRing R]

theorem grid_at_mem (comps : List (List (shared_ptr R))) (i j : Nat) (p : shared_ptr R)
    (h : grid_at comps i j = some p) : ∃ lane ∈ comps, p ∈ lane := by
  unfold grid_at at h
  cases hl : comps[i]? with
  | none => rw [hl] at h; exact Option.noConfusion h
  | some lane =>
    rw [hl] at h
    simp only [Option.bind] at h
    exact ⟨lane, List.getElem?_mem hl, List.getElem?_mem h⟩

theorem grid_at_lt (comps : List (List (shared_ptr R))) (i j k : Nat) (p : shared_ptr R)
    (hk : ∀ lane ∈ comps, lane.length = k) (h : grid_at comps i j = some p) :
    i < comps.length ∧ j < k := by
  unfold grid_at at h
  cases hl : comps[i]? with
  | none => rw [hl] at h; exact Option.noConfusion h
  | some lane =>
    rw [hl] at h
    simp only [Option.bind] at h
    have hi : i < comps.length := by
      by_contra hc
      rw [List.getElem?_eq_none (not_lt.mp hc)] at hl
      exact Option.noConfusion hl
    refine ⟨hi, ?_⟩
    rw [← hk lane (List.getElem?_mem hl)]
    by_contra hc
    rw [List.getElem?_eq_none (not_lt.mp hc)] at h
    exact Option.noConfusion h

theorem grid_inv_mono (b b' : Nat) (comps : List (List (shared_ptr R))) (n k : Nat)
    (hb : b ≤ b') (h : grid_inv b comps n k) : grid_inv b' comps n k :=
  ⟨h.1, h.2.1, fun lane hl p hp => Nat.lt_of_lt_of_le (h.2.2.1 lane hl p hp) hb, h.2.2.2⟩

/-- `evolve()` keeps the invariant of the grid. -/
theorem grid_inv_evolved (h : Heap) (comps : List (List (shared_ptr R))) (n k : Nat)
    (hi : grid_inv h.next comps n k) : grid_inv (h.next + n) (evolved h comps) n (k + 1) := by
  obtain ⟨h1, h2, h3, h4⟩ := hi
  refine ⟨by rw [evolved_length, h1], evolved_lanes h comps k h2,
    evolved_addr h comps _ (fun lane hl p hp => Nat.lt_of_lt_of_le (h3 lane hl p hp)
      (Nat.le_add_right _ _)) (by rw [h1]), ?_⟩
  intro i j i' j' p q hp hq hpq
  have old : ∀ a c x, c < k → grid_at (evolved h comps) a c = some x → x.addr < h.next := by
    intro a c x hc hx
    rw [grid_at_evolved_old h comps a c k h2 hc] at hx
    obtain ⟨lane, hl, hm⟩ := grid_at_mem comps a c x hx
    exact h3 lane hl x hm
  have new : ∀ a c x, ¬ c < k → grid_at (evolved h comps) a c = some x →
      c = k ∧ x.addr = h.next + a := by
    intro a c x hc hx
    obtain ⟨ha, hck⟩ := grid_at_lt (evolved h comps) a c (k + 1) x (evolved_lanes h comps k h2) hx
    rw [evolved_length] at ha
    have hck' : c = k := by omega
    subst hck'
    rw [grid_at_evolved_new h comps a c ha h2] at hx
    rw [← Option.some.inj hx]
    exact ⟨rfl, rfl⟩
  by_cases hj : j < k
  · by_cases hj' : j' < k
    · rw [grid_at_evolved_old h comps i j k h2 hj] at hp
      rw [grid_at_evolved_old h comps i' j' k h2 hj'] at hq
      exact h4 i j i' j' p q hp hq hpq
    · have a1 := old i j p hj hp
      have a2 := (new i' j' q hj' hq).2
      omega
  · by_cases hj' : j' < k
    · have a1 := old i' j' q hj' hq
      have a2 := (new i j p hj hp).2
      omega
    · obtain ⟨b1, b2⟩ := new i j p hj hp
      obtain ⟨c1, c2⟩ := new i' j' q hj' hq
      constructor <;> omega

/-- The assignment of a cell to a pointer that is not in the grid keeps the
invariant of the grid. -/
theorem grid_inv_put (b : Nat) (comps : List (List (shared_ptr R))) (n k r s : Nat)
    (g : shared_ptr R) (hi : grid_inv b comps n k) (hg : g.addr < b)
    (hnot : ¬ ∃ lane ∈ comps, ∃ p ∈ lane, p.addr = g.addr) :
    grid_inv b (grid_put comps r s g) n k := by
  obtain ⟨h1, h2, h3, h4⟩ := hi
  refine ⟨by rw [grid_put_length, h1], grid_put_occupies_length comps r s g k h2,
    grid_put_addr comps r s g b h3 hg, ?_⟩
  intro i j i' j' p q hp hq hpq
  rw [grid_at_put] at hp hq
  by_cases c1 : i = r ∧ j = s ∧ (grid_at comps r s).isSome
  · by_cases c2 : i' = r ∧ j' = s ∧ (grid_at comps r s).isSome
    · exact ⟨c1.1.trans c2.1.symm, c1.2.1.trans c2.2.1.symm⟩
    · rw [if_pos c1] at hp
      rw [if_neg c2] at hq
      exfalso
      obtain ⟨lane, hl, hm⟩ := grid_at_mem comps i' j' q hq
      exact hnot ⟨lane, hl, q, hm, by rw [← hpq, ← Option.some.inj hp]⟩
  · by_cases c2 : i' = r ∧ j' = s ∧ (grid_at comps r s).isSome
    · rw [if_neg c1] at hp
      rw [if_pos c2] at hq
      exfalso
      obtain ⟨lane, hl, hm⟩ := grid_at_mem comps i j p hp
      exact hnot ⟨lane, hl, p, hm, by rw [hpq, ← Option.some.inj hq]⟩
    · rw [if_neg c1] at hp
      rw [if_neg c2] at hq
      exact h4 i j i' j' p q hp hq hpq

theorem QuantumCircuit.inv_wf (h : Heap) (qc : QuantumCircuit R) (hi : qc.inv h) : qc.wf h := by
  obtain ⟨T, hT, h1, h2, h3, _⟩ := hi
  refine ⟨h1, by rw [hT]; exact Int.natCast_nonneg T, ?_, h3⟩
  intro lane hl
  rw [h2 lane hl, hT]
  push_cast
  rfl

/-- A `MultiGate` anchored outside the register: the call of `add_component`
indexes outside the grid. -/
theorem QuantumCircuit.add_component_multi_outside (h : Heap) (qc : QuantumCircuit R)
    (g : shared_ptr R) (s : Nat)
    (hlen : qc.components.length = qc.register_size) (hs : qc.total_steps = (s : Int))
    (hlanes : ∀ lane ∈ qc.components, lane.length = s + 1)
    (ht : g.obj.get_gate_type = "MultiGate") (hnot : ¬ qc.occupies g) (hg : g.addr < h.next)
    (hfit : g.obj.can_gate_fit qc.register_size = true)
    (ha : ¬ g.obj.get_index < qc.register_size) :
    qc.add_component h g = .error .undefined := by
  have hne : ¬ ("MultiGate" = "SingleGate") := by decide
  unfold QuantumCircuit.add_component
  rw [QuantumCircuit.is_gate_in_circuit_eq qc g hlen, QuantumCircuit.scan_false qc g hnot]
  simp only [hfit, ht, hs, hne, to_index_eq, bind, Except.bind, pure,
    Except.pure, Bool.false_eq_true, if_false, Bool.not_true, if_true,
    QuantumCircuit.is_step_empty_eq qc s hlen (fun lane hl => by rw [hlanes lane hl]; omega)]
  by_cases hE : step_empty qc.components s = true
  · simp only [hE, Bool.not_true, Bool.false_eq_true, if_false, if_true, hs, to_index_eq]
    rw [QuantumCircuit.replace_component_outside qc g _ s hlen hnot hfit (by omega)]
  · simp only [hE, Bool.not_false, if_true, if_false, Bool.false_eq_true,
      QuantumCircuit.evolve_eq h qc hlen, hs]
    have e : ((s : Int) + 1) = ((s + 1 : Nat) : Int) := by push_cast; rfl
    rw [e, to_index_eq]
    have := QuantumCircuit.replace_component_outside
      ({ qc with components := evolved h qc.components, total_steps := ((s + 1 : Nat) : Int) })
      g g.obj.get_index (s + 1) (by simpa [evolved_length] using hlen)
      (occupies_evolved h qc g hg hnot _) hfit
      (by simp only [evolved_length]; omega)
    simp only at this
    simp only [this]

/-- The four ways in which a call of `add_component` returns. -/
theorem QuantumCircuit.add_component_ok (h h' : Heap) (qc qc' : QuantumCircuit R)
    (g : shared_ptr R) (T : Nat) (hwf : qc.wf h) (hT : qc.total_steps = (T : Int))
    (hg : g.addr < h.next) (hok : qc.add_component h g = .ok (h', qc')) :
    ¬ qc.occupies g ∧ g.obj.get_index < qc.register_size ∧
    ((g.obj.get_gate_type = "SingleGate" ∧
        (∃ c0, grid_at qc.components g.obj.get_index T = some c0 ∧ c0.obj.get_symbol = "I") ∧
        h' = h ∧
        qc' = { qc with components := grid_put qc.components g.obj.get_index T g }) ∨
     (g.obj.get_gate_type = "SingleGate" ∧
        h' = { next := h.next + qc.register_size } ∧
        qc' = { qc with
          components := grid_put (evolved h qc.components) g.obj.get_index (T + 1) g,
          total_steps := (T : Int) + 1 }) ∨
     (g.obj.get_gate_type = "MultiGate" ∧ step_empty qc.components T = true ∧
        h' = { next := h.next + qc.register_size } ∧
        qc' = { qc with
          components := evolved h (grid_put qc.components g.obj.get_index T g),
          total_steps := (T : Int) + 1 }) ∨
     (g.obj.get_gate_type = "MultiGate" ∧
        h' = { next := h.next + qc.register_size + qc.register_size } ∧
        qc' = { qc with
          components := evolved { next := h.next + qc.register_size }
            (grid_put (evolved h qc.components) g.obj.get_index (T + 1) g),
          total_steps := (T : Int) + 1 + 1 })) := by
  have hlen := hwf.1
  have hk := QuantumCircuit.wf_steps h qc T hwf hT
  have hnot : ¬ qc.occupies g := by
    intro hocc
    rw [QuantumCircuit.add_component_dup h qc g hlen hocc] at hok
    exact Except.noConfusion hok
  have hfit : g.obj.can_gate_fit qc.register_size = true := by
    cases hf : g.obj.can_gate_fit qc.register_size with
    | true => rfl
    | false =>
      rw [QuantumCircuit.add_component_nofit h qc g hlen hnot hf] at hok
      exact Except.noConfusion hok
  cases hobj : g.obj with
  | single sg =>
    have hidx : g.obj.get_index = sg.qubit_index := by rw [hobj]; rfl
    have hty : g.obj.get_gate_type = "SingleGate" := by rw [hobj]; rfl
    have hin : sg.qubit_index < qc.register_size := by
      simpa [hobj, QuantumComponent.can_gate_fit, SingleGate.can_gate_fit] using hfit
    obtain ⟨c0, hc0⟩ := grid_at_isSome qc.components sg.qubit_index T (T + 1)
      (by omega) hk (by omega)
    have hnew : (grid_at (evolved h qc.components) sg.qubit_index (T + 1)).isSome := by
      rw [grid_at_evolved_new h qc.components sg.qubit_index (T + 1) (by omega) hk]
      rfl
    rw [QuantumCircuit.add_component_single_eq h qc g c0 sg T hlen hT hobj hnot hg hin hc0 hnew]
      at hok
    rw [← hobj]
    refine ⟨hnot, by rw [hidx]; exact hin, ?_⟩
    by_cases hI : c0.obj.get_symbol = "I"
    · rw [if_pos hI] at hok
      have e := Except.ok.inj hok
      refine Or.inl ⟨hty, ⟨c0, by rw [hidx]; exact hc0, hI⟩, ?_, ?_⟩
      · exact (congrArg Prod.fst e).symm
      · rw [hidx]; exact (congrArg Prod.snd e).symm
    · rw [if_neg hI] at hok
      have e := Except.ok.inj hok
      refine Or.inr (Or.inl ⟨hty, ?_, ?_⟩)
      · exact (congrArg Prod.fst e).symm
      · rw [hidx]; exact (congrArg Prod.snd e).symm
  | multi mg =>
    rw [← hobj]
    have hty : g.obj.get_gate_type = "MultiGate" := by rw [hobj]; rfl
    have hin : g.obj.get_index < qc.register_size := by
      by_contra hc
      rw [QuantumCircuit.add_component_multi_outside h qc g T hlen hT hk hty hnot hg hfit hc]
        at hok
      exact Except.noConfusion hok
    rw [QuantumCircuit.add_component_multi_eq h qc g T hlen hT hk hty hnot hg hfit hin] at hok
    refine ⟨hnot, hin, ?_⟩
    by_cases hE : step_empty qc.components T = true
    · rw [if_pos hE] at hok
      have e := Except.ok.inj hok
      exact Or.inr (Or.inr (Or.inl ⟨hty, hE, (congrArg Prod.fst e).symm,
        (congrArg Prod.snd e).symm⟩))
    · rw [if_neg hE] at hok
      have e := Except.ok.inj hok
      exact Or.inr (Or.inr (Or.inr ⟨hty, (congrArg Prod.fst e).symm,
        (congrArg Prod.snd e).symm⟩))
  | controlled cg =>
    rw [← hobj]
    have hty : g.obj.get_gate_type = "MultiGate" := by rw [hobj]; rfl
    have hin : g.obj.get_index < qc.register_size := by
      by_contra hc
      rw [QuantumCircuit.add_component_multi_outside h qc g T hlen hT hk hty hnot hg hfit hc]
        at hok
      exact Except.noConfusion hok
    rw [QuantumCircuit.add_component_multi_eq h qc g T hlen hT hk hty hnot hg hfit hin] at hok
    refine ⟨hnot, hin, ?_⟩
    by_cases hE : step_empty qc.components T = true
    · rw [if_pos hE] at hok
      have e := Except.ok.inj hok
      exact Or.inr (Or.inr (Or.inl ⟨hty, hE, (congrArg Prod.fst e).symm,
        (congrArg Prod.snd e).symm⟩))
    · rw [if_neg hE] at hok
      have e := Except.ok.inj hok
      exact Or.inr (Or.inr (Or.inr ⟨hty, (congrArg Prod.fst e).symm,
        (congrArg Prod.snd e).symm⟩))

/-- A call of `set_input_register` that returns has stored its argument and
nothing else. -/
theorem QuantumCircuit.set_input_register_ok (qc qc' : QuantumCircuit R) (b : List Int)
    (hok : qc.set_input_register b = .ok qc') : qc' = { qc with input_register := b } := by
  unfold QuantumCircuit.set_input_register at hok
  by_cases h1 : b.length ≠ qc.register_size
  · rw [if_pos h1] at hok
    exact Except.noConfusion hok
  · rw [if_neg h1] at hok
    simp only [bind, Except.bind, pure, Except.pure] at hok
    cases hl : for_range 0 b.length (fun i (_ : Unit) =>
        (do let v ← read_at qc.input_register i
            if v ≠ 0 ∧ v ≠ 1 then throw Error.InputRegisterMismatch : Except Error Unit)) () with
    | error e =>
      simp only [bind, Except.bind, pure, Except.pure] at hl
      rw [hl] at hok
      exact Except.noConfusion hok
    | ok u =>
      simp only [bind, Except.bind, pure, Except.pure] at hl
      rw [hl] at hok
      exact (Except.ok.inj hok).symm

/-- Every call that returns keeps the invariant of the circuit state. -/
theorem QuantumCircuit.add_component_inv (h h' : Heap) (qc qc' : QuantumCircuit R)
    (g : shared_ptr R) (hi : qc.inv h) (hg : g.addr < h.next)
    (hok : qc.add_component h g = .ok (h', qc')) : qc'.inv h' := by
  have hwf := QuantumCircuit.inv_wf h qc hi
  obtain ⟨T, hT, hgi⟩ := hi
  obtain ⟨hnot, _, hform⟩ := QuantumCircuit.add_component_ok h h' qc qc' g T hwf hT hg hok
  have hev := grid_inv_evolved h qc.components qc.register_size (T + 1) hgi
  have hnot' : ¬ ∃ lane ∈ evolved h qc.components, ∃ p ∈ lane, p.addr = g.addr :=
    occupies_evolved h qc g hg hnot ((T : Int) + 1)
  rcases hform with ⟨_, _, rfl, rfl⟩ | ⟨_, rfl, rfl⟩ | ⟨_, _, rfl, rfl⟩ | ⟨_, rfl, rfl⟩
  · exact ⟨T, hT, grid_inv_put _ _ _ _ _ _ g hgi hg hnot⟩
  · exact ⟨T + 1, by push_cast; rfl,
      grid_inv_put _ _ _ _ _ _ g hev (Nat.lt_of_lt_of_le hg (Nat.le_add_right _ _)) hnot'⟩
  · exact ⟨T + 1, by push_cast; rfl,
      grid_inv_evolved h _ _ _ (grid_inv_put _ _ _ _ _ _ g hgi hg hnot)⟩
  · exact ⟨T + 1 + 1, by push_cast; rfl,
      grid_inv_evolved { next := h.next + qc.register_size } _ _ _
        (grid_inv_put _ _ _ _ _ _ g hev (Nat.lt_of_lt_of_le hg (Nat.le_add_right _ _)) hnot')⟩

theorem QuantumCircuit.evolve_inv (h h' : Heap) (qc qc' : QuantumCircuit R) (hi : qc.inv h)
    (hok : qc.evolve h = .ok (h', qc')) : qc'.inv h' := by
  obtain ⟨T, hT, hgi⟩ := hi
  rw [QuantumCircuit.evolve_eq h qc hgi.1] at hok
  obtain ⟨e1, e2⟩ := Prod.mk.inj (Except.ok.inj hok)
  subst e1
  subst e2
  exact ⟨T + 1, by simp only [hT]; push_cast; rfl,
    grid_inv_evolved h qc.components qc.register_size (T + 1) hgi⟩

theorem QuantumCircuit.new_inv (h h' : Heap) (n : Nat) (qc : QuantumCircuit R)
    (hok : QuantumCircuit.new h n = .ok (h', qc)) : qc.inv h' := by
  rw [QuantumCircuit.new_state_eq] at hok
  obtain ⟨e1, e2⟩ := Prod.mk.inj (Except.ok.inj hok)
  subst e1
  subst e2
  refine ⟨0, rfl, ?_⟩
  have h0 : grid_inv h.next (List.replicate n ([] : List (shared_ptr R))) n 0 := by
    refine ⟨List.length_replicate _ _, ?_, ?_, ?_⟩
    · intro lane hl
      rw [List.eq_of_mem_replicate hl]
      rfl
    · intro lane hl p hp
      rw [List.eq_of_mem_replicate hl] at hp
      exact absurd hp (List.not_mem_nil p)
    · intro i j i' j' p q hp
      obtain ⟨lane, hl, hm⟩ := grid_at_mem _ i j p hp
      rw [List.eq_of_mem_replicate hl] at hm
      exact absurd hm (List.not_mem_nil p)
  exact grid_inv_evolved h _ n 0 h0

/-- Every reachable state satisfies the invariant of the circuit. -/
theorem Reachable.inv (h : Heap) (qc : QuantumCircuit R) (hr : Reachable h qc) : qc.inv h := by
  induction hr with
  | new h n h' qc hok => exact QuantumCircuit.new_inv h h' n qc hok
  | alloc h h' qc _ hle ih =>
    obtain ⟨T, hT, hgi⟩ := ih
    exact ⟨T, hT, grid_inv_mono _ _ _ _ _ hle hgi⟩
  | evolve h h' qc qc' _ hok ih => exact QuantumCircuit.evolve_inv h h' qc qc' ih hok
  | add_component h h' qc qc' g _ hg hok ih =>
    exact QuantumCircuit.add_component_inv h h' qc qc' g ih hg hok
  | replace_component h qc qc' g r s _ hg hok ih =>
    obtain ⟨T, hT, hgi⟩ := ih
    obtain ⟨hnot, _, _, rfl⟩ := QuantumCircuit.replace_component_ok qc qc' g r s hgi.1 hok
    exact ⟨T, hT, grid_inv_put _ _ _ _ _ _ g hgi hg hnot⟩
  | set_input_register h qc qc' b _ hok ih =>
    rw [QuantumCircuit.set_input_register_ok qc qc' b hok]
    exact ih

/-- Where `add_component` puts the gate that it accepts. -/
theorem QuantumCircuit.add_component_keeps (h h' : Heap) (qc qc' : QuantumCircuit R)
    (g : shared_ptr R) (hi : qc.inv h) (hg : g.addr < h.next)
    (hsym : g.obj.get_gate_type = "SingleGate" → g.obj.get_symbol ≠ "I")
    (hok : qc.add_component h g = .ok (h', qc')) :
    ∃ s, qc'.keeps h' g g.obj.get_index s := by
  have hinv' := QuantumCircuit.add_component_inv h h' qc qc' g hi hg hok
  have hwf := QuantumCircuit.inv_wf h qc hi
  obtain ⟨T, hT, hgi⟩ := hi
  obtain ⟨hlen, hk, _, _⟩ := hgi
  obtain ⟨hnot, hin, hform⟩ := QuantumCircuit.add_component_ok h h' qc qc' g T hwf hT hg hok
  have hin' : g.obj.get_index < qc.components.length := by omega
  have hnew : (grid_at (evolved h qc.components) g.obj.get_index (T + 1)).isSome := by
    rw [grid_at_evolved_new h qc.components g.obj.get_index (T + 1) hin' hk]
    rfl
  obtain ⟨c, hc⟩ := grid_at_isSome qc.components g.obj.get_index T (T + 1) hin' hk (by omega)
  rcases hform with ⟨hty, _, rfl, rfl⟩ | ⟨hty, rfl, rfl⟩ | ⟨_, _, rfl, rfl⟩ | ⟨_, rfl, rfl⟩
  · refine ⟨T, hinv', ?_, Or.inr (hsym hty)⟩
    show grid_at (grid_put qc.components g.obj.get_index T g) g.obj.get_index T = some g
    rw [grid_at_put, if_pos ⟨rfl, rfl, by rw [hc]; rfl⟩]
  · refine ⟨T + 1, hinv', ?_, Or.inr (hsym hty)⟩
    show grid_at (grid_put (evolved h qc.components) g.obj.get_index (T + 1) g)
      g.obj.get_index (T + 1) = some g
    rw [grid_at_put, if_pos ⟨rfl, rfl, hnew⟩]
  · refine ⟨T, hinv', ?_, Or.inl ?_⟩
    · show grid_at (evolved h (grid_put qc.components g.obj.get_index T g))
        g.obj.get_index T = some g
      rw [grid_at_evolved_old h _ _ T (T + 1)
        (grid_put_occupies_length qc.components _ T g (T + 1) hk) (by omega),
        grid_at_put, if_pos ⟨rfl, rfl, by rw [hc]; rfl⟩]
    · show ((T : Nat) : Int) < (T : Int) + 1
      omega
  · refine ⟨T + 1, hinv', ?_, Or.inl ?_⟩
    · show grid_at (evolved { next := h.next + qc.register_size }
        (grid_put (evolved h qc.components) g.obj.get_index (T + 1) g))
        g.obj.get_index (T + 1) = some g
      rw [grid_at_evolved_old _ _ _ (T + 1) (T + 1 + 1)
        (grid_put_occupies_length _ _ (T + 1) g (T + 1 + 1) (evolved_lanes h _ (T + 1) hk))
        (by omega),
        grid_at_put, if_pos ⟨rfl, rfl, hnew⟩]
    · show ((T + 1 : Nat) : Int) < (T : Int) + 1 + 1
      push_cast
      omega

/-- A gate in a cell that `add_component` does not take for an empty one stays
in its cell when another gate is added. -/
theorem QuantumCircuit.keeps_add_component (h h' : Heap) (qc qc' : QuantumCircuit R)
    (g g' : shared_ptr R) (r s : Nat) (hkeep : qc.keeps h g r s) (hg : g'.addr < h.next)
    (hok : qc.add_component h g' = .ok (h', qc')) : qc'.keeps h' g r s := by
  obtain ⟨hi, hcell, hside⟩ := hkeep
  have hinv' := QuantumCircuit.add_component_inv h h' qc qc' g' hi hg hok
  have hwf := QuantumCircuit.inv_wf h qc hi
  obtain ⟨T, hT, hgi⟩ := hi
  obtain ⟨hlen, hk, _, _⟩ := hgi
  obtain ⟨hnot, hin, hform⟩ := QuantumCircuit.add_component_ok h h' qc qc' g' T hwf hT hg hok
  have hs := (grid_at_lt qc.components r s (T + 1) g hk hcell).2
  rw [hT] at hside
  have hlast : s = T → g.obj.get_symbol ≠ "I" := by
    intro e
    rcases hside with hlt | hne
    · omega
    · exact hne
  rcases hform with ⟨_, ⟨c0, hc0, hI⟩, rfl, rfl⟩ | ⟨_, rfl, rfl⟩ | ⟨_, hE, rfl, rfl⟩ | ⟨_, rfl, rfl⟩
  · refine ⟨hinv', ?_, by rw [hT]; exact hside⟩
    show grid_at (grid_put qc.components g'.obj.get_index T g') r s = some g
    rw [grid_at_put, if_neg, hcell]
    rintro ⟨e1, e2, _⟩
    subst e1
    subst e2
    rw [hcell] at hc0
    rw [Option.some.inj hc0] at hlast
    exact hlast rfl hI
  · refine ⟨hinv', ?_, Or.inl ?_⟩
    · show grid_at (grid_put (evolved h qc.components) g'.obj.get_index (T + 1) g') r s = some g
      rw [grid_at_put, if_neg (by omega), grid_at_evolved_old h _ _ s (T + 1) hk hs, hcell]
    · show (s : Int) < (T : Int) + 1
      omega
  · refine ⟨hinv', ?_, Or.inl ?_⟩
    · show grid_at (evolved h (grid_put qc.components g'.obj.get_index T g')) r s = some g
      rw [grid_at_evolved_old h _ _ s (T + 1)
        (grid_put_occupies_length qc.components _ T g' (T + 1) hk) hs,
        grid_at_put, if_neg, hcell]
      rintro ⟨_, e2, _⟩
      subst e2
      exact hlast rfl (step_empty_symbol qc.components s r g hE hcell)
    · show (s : Int) < (T : Int) + 1
      omega
  · refine ⟨hinv', ?_, Or.inl ?_⟩
    · show grid_at (evolved { next := h.next + qc.register_size }
        (grid_put (evolved h qc.components) g'.obj.get_index (T + 1) g')) r s = some g
      rw [grid_at_evolved_old _ _ _ s (T + 1 + 1)
        (grid_put_occupies_length _ _ (T + 1) g' (T + 1 + 1) (evolved_lanes h _ (T + 1) hk))
        (by omega),
        grid_at_put, if_neg (by omega), grid_at_evolved_old h _ _ s (T + 1) hk hs, hcell]
    · show (s : Int) < (T : Int) + 1 + 1
      omega

/-- A gate stays in its cell when the circuit is evolved. -/
theorem QuantumCircuit.keeps_evolve (h h' : Heap) (qc qc' : QuantumCircuit R)
    (g : shared_ptr R) (r s : Nat) (hkeep : qc.keeps h g r s)
    (hok : qc.evolve h = .ok (h', qc')) : qc'.keeps h' g r s := by
  obtain ⟨hi, hcell, hside⟩ := hkeep
  have hinv' := QuantumCircuit.evolve_inv h h' qc qc' hi hok
  obtain ⟨T, hT, hgi⟩ := hi
  obtain ⟨hlen, hk, _, _⟩ := hgi
  have hs := (grid_at_lt qc.components r s (T + 1) g hk hcell).2
  rw [QuantumCircuit.evolve_eq h qc hlen] at hok
  obtain ⟨e1, e2⟩ := Prod.mk.inj (Except.ok.inj hok)
  subst e1
  subst e2
  refine ⟨hinv', ?_, Or.inl ?_⟩
  · show grid_at (evolved h qc.components) r s = some g
    rw [grid_at_evolved_old h _ _ s (T + 1) hk hs, hcell]
  · show (s : Int) < qc.total_steps + 1
    rw [hT]
    omega

/-- The gate stays in its cell along every sequence of `add_component` and
`evolve`. -/
theorem Later.keeps (h h' : Heap) (qc qc' : QuantumCircuit R) (g : shared_ptr R) (r s : Nat)
    (hkeep : qc.keeps h g r s) (hl : Later h qc h' qc') : qc'.keeps h' g r s := by
  induction hl with
  | refl => exact hkeep
  | alloc h1 h2 qc1 _ hle ih =>
    obtain ⟨⟨T, hT, hgi⟩, hc, hside⟩ := ih
    exact ⟨⟨T, hT, grid_inv_mono _ _ _ _ _ hle hgi⟩, hc, hside⟩
  | evolve h1 h2 qc1 qc2 _ hok ih => exact QuantumCircuit.keeps_evolve h1 h2 qc1 qc2 g r s ih hok
  | add_component h1 h2 qc1 qc2 g' _ hg hok ih =>
    exact QuantumCircuit.keeps_add_component h1 h2 qc1 qc2 g g' r s ih hg hok

/-- `set_input_register` as a call: it returns what the function returns, and
when it throws the circuit is as before. -/
theorem QuantumCircuit.set_input_register_call_eq (b : List Int) (h : Heap)
    (qc : QuantumCircuit R) :
    QuantumCircuit.set_input_register_call b (h, qc)
      = match qc.set_input_register b with
        | .ok qc' => ((h, qc'), .ok ())
        | .error e => ((h, qc), .error e) := by
  unfold QuantumCircuit.set_input_register_call QuantumCircuit.set_input_register
  simp only [Call.bind_apply, Call.pure_apply, Call.read_def, Call.throw_def, Call.update_def,
    bind, Except.bind, pure, Except.pure]
  by_cases h1 : b.length ≠ qc.register_size
  · simp only [h1, ne_eq, not_false_eq_true, if_true, Call.bind_apply, Call.pure_apply,
      Call.read_def, Call.throw_def, Call.update_def]
  · simp only [h1, ne_eq, not_true_eq_false, not_false_eq_true, if_false, Call.bind_apply,
      Call.pure_apply, Call.read_def, Call.throw_def, Call.update_def]
    generalize for_range 0 b.length _ () = x
    cases x <;> rfl

end Reach

/-! ## Well-formed matrices and groupings of tensor products -/

section Shapes

variable {R : Type} [CommRing R] [StarRing R]

/-- The loops of `operator-` compute the closed form `msub` when the shapes agree. -/
theorem Matrix.sub_eq (A B : Matrix R) (hr : A.rows = B.rows) (hc : A.cols = B.cols) :
    A.sub B = .ok (msub A B) := by
  unfold Matrix.sub
  rw [if_neg (by simp [hr, hc])]
  simp only [for_range_zero]
  rw [foldlM_product2 (fun i j (result : Matrix R) =>
    (do let b ← B.get i j
        result.set i j (A.raw i j - b)))]
  obtain ⟨s', h1, h2, h3, h4, h5⟩ := foldlM_writes
    (List.range A.rows ×ˢ List.range A.cols)
    (fun x (result : Matrix R) =>
      (do let b ← B.get x.1 x.2
          result.set x.1 x.2 (A.raw x.1 x.2 - b)))
    (fun x => x.1) (fun x => x.2) (fun x => A.raw x.1 x.2 - B.raw x.1 x.2)
    (fun i j => A.raw i j - B.raw i j) A.rows A.cols
    (by
      rintro ⟨i, j⟩ hx s _ _
      simp only [List.mem_product, List.mem_range] at hx
      simp [Matrix.get_eq_raw B i j (by omega) (by omega), bind, Except.bind])
    (by
      rintro ⟨i, j⟩ hx
      simpa only [List.mem_product, List.mem_range] using hx)
    (by intro x _; rfl)
    (Matrix.init A.rows A.cols) (Matrix.wf_init _ _) rfl rfl
  rw [h1]
  congr 1
  apply Matrix.ext_raw _ _ h2 (Matrix.wf_tabulate _ _ _) h3 h4
  intro i j hi hj
  rw [h3] at hi
  rw [h4] at hj
  rw [h5 i j, if_pos ⟨(i, j), by simp [List.mem_product, hi, hj], rfl, rfl⟩,
    Matrix.raw_tabulate _ _ _ i j hi hj]

theorem Matrix.add_ok_wf (A B P : Matrix R) (h : A.add B = .ok P) : P.wf := by
  by_cases hs : A.rows ≠ B.rows ∨ A.cols ≠ B.cols
  · unfold Matrix.add at h
    rw [if_pos hs] at h
    exact Except.noConfusion h
  · rw [Matrix.add_eq A B (by tauto) (by tauto)] at h
    rw [← Except.ok.inj h]
    exact madd_wf A B

theorem Matrix.sub_ok_wf (A B P : Matrix R) (h : A.sub B = .ok P) : P.wf := by
  by_cases hs : A.rows ≠ B.rows ∨ A.cols ≠ B.cols
  · unfold Matrix.sub at h
    rw [if_pos hs] at h
    exact Except.noConfusion h
  · rw [Matrix.sub_eq A B (by tauto) (by tauto)] at h
    rw [← Except.ok.inj h]
    exact Matrix.wf_tabulate _ _ _

theorem Matrix.mul_ok_wf (A B P : Matrix R) (h : A.mul B = .ok P) : P.wf := by
  by_cases hs : A.cols = B.rows
  · rw [Matrix.mul_eq A B hs] at h
    rw [← Except.ok.inj h]
    exact mmul_wf A B
  · rw [Matrix.mul_shape_error A B hs] at h
    exact Except.noConfusion h

theorem Matrix.set_ok_wf (M P : Matrix R) (r c : Nat) (v : R) (hM : M.wf)
    (h : M.set r c v = .ok P) : P.wf := by
  by_cases hs : r ≥ M.rows ∨ c ≥ M.cols
  · unfold Matrix.set at h
    rw [if_pos hs] at h
    exact Except.noConfusion h
  · rw [Matrix.set_eq_put M r c v (by omega) (by omega)] at h
    rw [← Except.ok.inj h]
    exact Matrix.wf_put M hM r c v

theorem perform_tensor_product_ok_wf (ms : List (Matrix R)) (P : Matrix R)
    (hms : ∀ m ∈ ms, m.wf) (h : perform_tensor_product ms = .ok P) : P.wf := by
  by_cases hne : ms = []
  · subst hne
    exact Except.noConfusion h
  · rw [perform_tensor_product_eq ms hne] at h
    rw [← Except.ok.inj h]
    exact tfold_ne_nil_wf ms hms hne

/-- The fold of the folds of the groups of a list is the fold of the list. -/
theorem tfold_join (groups : List (List (Matrix R))) (hne : groups ≠ [])
    (hg : ∀ g ∈ groups, g ≠ []) : tfold (groups.map tfold) = tfold groups.flatten := by
  induction groups using List.reverseRecOn with
  | nil => exact absurd rfl hne
  | append_singleton gs g ih =>
    have hgne : g ≠ [] := hg g (by simp)
    by_cases hgs : gs = []
    · subst hgs
      simp [tfold]
    · have ih' := ih hgs (fun x hx => hg x (by simp [hx]))
      have hj : gs.flatten ≠ [] := by
        obtain ⟨x, xs, rfl⟩ := List.exists_cons_of_ne_nil hgs
        have hx := hg x (by simp)
        obtain ⟨y, ys, rfl⟩ := List.exists_cons_of_ne_nil hx
        simp
      have e : (gs ++ [g]).flatten = gs.flatten ++ g := by simp
      rw [List.map_append, e, List.map_singleton,
        tfold_append _ _ (by simpa using hgs) (by simp), tfold_append _ _ hj hgne, ih']
      rfl

end Shapes

/-! ## Entries of folds of tensor products -/

section Digits

variable {R : Type} [CommRing R] [StarRing R]

/-- A digit of `r mod p^k` in base `p` is the digit of `r`. -/
theorem digit_mod (p k i r : Nat) (hi : i < k) : (r % p ^ k) / p ^ i % p = r / p ^ i % p := by
  have e : p ^ k = p ^ i * p ^ (k - i) := by rw [← pow_add]; congr 1; omega
  rw [e, Nat.mod_mul_right_div_self]
  exact Nat.mod_mod_of_dvd _ (dvd_pow_self p (by omega))

theorem tfold_rows_pow (p : Nat) (ms : List (Matrix R)) (hne : ms ≠ [])
    (h : ∀ m ∈ ms, m.rows = p) : (tfold ms).rows = p ^ ms.length := by
  rw [tfold_rows ms hne]
  have : ms.map Matrix.rows = List.replicate ms.length p := by
    refine List.eq_replicate_iff.2 ⟨by simp, ?_⟩
    intro x hx
    obtain ⟨m, hm, rfl⟩ := List.mem_map.1 hx
    exact h m hm
  rw [this, List.prod_replicate]

theorem tfold_cols_pow (w : Nat) (ms : List (Matrix R)) (hne : ms ≠ [])
    (h : ∀ m ∈ ms, m.cols = w) : (tfold ms).cols = w ^ ms.length := by
  rw [tfold_cols ms hne]
  have : ms.map Matrix.cols = List.replicate ms.length w := by
    refine List.eq_replicate_iff.2 ⟨by simp, ?_⟩
    intro x hx
    obtain ⟨m, hm, rfl⟩ := List.mem_map.1 hx
    exact h m hm
  rw [this, List.prod_replicate]

/-- The entries of a fold of tensor products of `p x w` matrices: the entry
`(r, c)` is the product over the slots `i` of the entry of slot `i` at the
digit `i` of `r` in base `p` and the digit `i` of `c` in base `w`. -/
theorem tfold_raw_prod (p w : Nat) (ms : List (Matrix R)) (hne : ms ≠ [])
    (hs : ∀ m ∈ ms, m.rows = p ∧ m.cols = w) (r c : Nat) (hr : r < p ^ ms.length)
    (hc : c < w ^ ms.length) :
    (tfold ms).raw r c
      = ∏ i in Finset.range ms.length,
          (ms.getD i (Matrix.init 0 0)).raw (r / p ^ i % p) (c / w ^ i % w) := by
  induction ms using List.reverseRecOn generalizing r c with
  | nil => exact absurd rfl hne
  | append_singleton xs M ih =>
    by_cases hx : xs = []
    · subst hx
      simp only [List.nil_append, List.length_singleton, pow_one] at hr hc
      simp only [List.nil_append, List.length_singleton, Finset.range_one, Finset.prod_singleton,
        pow_zero, Nat.div_one, Nat.mod_eq_of_lt hr, Nat.mod_eq_of_lt hc]
      rfl
    · have hxs : ∀ m ∈ xs, m.rows = p ∧ m.cols = w := fun m hm => hs m (by simp [hm])
      have hM : M.rows = p ∧ M.cols = w := hs M (by simp)
      have hrows := tfold_rows_pow p xs hx (fun m hm => (hxs m hm).1)
      have hcols := tfold_cols_pow w xs hx (fun m hm => (hxs m hm).2)
      rw [List.length_append, List.length_singleton, pow_succ] at hr hc
      have hp : 0 < p ^ xs.length := by
        rcases Nat.eq_zero_or_pos (p ^ xs.length) with h | h
        · rw [h] at hr; omega
        · exact h
      have hw : 0 < w ^ xs.length := by
        rcases Nat.eq_zero_or_pos (w ^ xs.length) with h | h
        · rw [h] at hc; omega
        · exact h
      have hrq : r / p ^ xs.length < p := Nat.div_lt_of_lt_mul hr
      have hcq : c / w ^ xs.length < w := Nat.div_lt_of_lt_mul hc
      rw [tfold_append xs [M] hx (by simp),
        kron_raw _ _ r c (by rw [hrows]; show r < p ^ xs.length * M.rows; rw [hM.1]; exact hr)
          (by rw [hcols]; show c < w ^ xs.length * M.cols; rw [hM.2]; exact hc),
        hrows, hcols, ih hx hxs _ _ (Nat.mod_lt _ hp) (Nat.mod_lt _ hw),
        List.length_append, List.length_singleton, Finset.prod_range_succ]
      congr 1
      · apply Finset.prod_congr rfl
        intro i hi
        have hi' : i < xs.length := Finset.mem_range.1 hi
        rw [digit_mod p _ i r hi', digit_mod w _ i c hi', List.getD_eq_getElem?_getD,
          List.getD_eq_getElem?_getD, List.getElem?_append_left hi']
      · rw [List.getD_eq_getElem?_getD, List.getElem?_append_right (Nat.le_refl _), Nat.sub_self,
          Nat.mod_eq_of_lt hrq, Nat.mod_eq_of_lt hcq]
        rfl

/-- The number with the binary digits `d 0, ..., d (n - 1)` is below `2^n`. -/
theorem digits_sum_lt (d : Nat → Nat) (hd : ∀ i, d i < 2) (n : Nat) :
    ∑ i in Finset.range n, d i * 2 ^ i < 2 ^ n := by
  induction n with
  | zero => simp
  | succ n ih =>
    rw [Finset.sum_range_succ, pow_succ]
    have := hd n
    have h2 : d n * 2 ^ n ≤ 1 * 2 ^ n := Nat.mul_le_mul_right _ (by omega)
    omega

/-- A number below `2^n` has the binary digits `d 0, ..., d (n - 1)` exactly
when it is the sum of the `d i * 2^i`. -/
theorem digits_iff_sum (d : Nat → Nat) (hd : ∀ i, d i < 2) (n r : Nat) (hr : r < 2 ^ n) :
    (∀ i, i < n → r / 2 ^ i % 2 = d i) ↔ r = ∑ i in Finset.range n, d i * 2 ^ i := by
  induction n generalizing r with
  | zero =>
    simp only [pow_zero, Nat.lt_one_iff] at hr
    simp [hr]
  | succ n ih =>
    have hpos : 0 < 2 ^ n := pow_pos (by decide) n
    rw [Finset.sum_range_succ]
    constructor
    · intro h
      have h0 : r % 2 ^ n = ∑ i in Finset.range n, d i * 2 ^ i :=
        (ih (r % 2 ^ n) (Nat.mod_lt _ hpos)).1
          (fun i hi => by rw [digit_mod 2 n i r hi]; exact h i (by omega))
      have hq : r / 2 ^ n < 2 := Nat.div_lt_of_lt_mul (by rw [← pow_succ]; exact hr)
      have hn := h n (by omega)
      rw [Nat.mod_eq_of_lt hq] at hn
      rw [← h0, ← hn, Nat.mul_comm]
      exact (Nat.mod_add_div r (2 ^ n)).symm
    · intro h i hi
      have hlt := digits_sum_lt d hd n
      have hmod : r % 2 ^ n = ∑ i in Finset.range n, d i * 2 ^ i := by
        rw [h, Nat.add_mul_mod_self_right, Nat.mod_eq_of_lt hlt]
      have hdiv : r / 2 ^ n = d n := by
        rw [h, Nat.add_mul_div_right _ _ hpos, Nat.div_eq_of_lt hlt, Nat.zero_add]
      by_cases hin : i < n
      · rw [← digit_mod 2 n i r hin, hmod]
        exact (ih _ hlt).2 rfl i hin
      · have : i = n := by omega
        subst this
        rw [hdiv, Nat.mod_eq_of_lt (hd i)]

theorem ketf_raw (v : Int) (hv : v = 0 ∨ v = 1) (k : Nat) :
    (ketf v : Matrix R).raw k 0 = if k = v.toNat then 1 else 0 := by
  rcases hv with rfl | rfl
  · rw [ketf_zero, ket0_raw]
    simp
  · rw [ketf_one, ket1_raw]
    simp

end Digits

/-! ## The lanes of a step in any order -/

section Lanes

variable {R : Type} [CommRing R] [StarRing R]

theorem masked_length (n : Nat) (done : List Nat) (us : List (Matrix R)) :
    (masked n done us).length = n := by
  simp [masked]

theorem masked_getElem? (n : Nat) (done : List Nat) (us : List (Matrix R)) (j : Nat)
    (hj : j < n) :
    (masked n done us)[j]? = some (if j ∈ done then us.getD j (idm 2) else idm 2) := by
  unfold masked
  rw [List.getElem?_map, List.getElem?_range hj]
  rfl

theorem masked_nil (n : Nat) (us : List (Matrix R)) :
    masked n [] us = List.replicate n (idm 2) := by
  apply List.ext_getElem?
  intro j
  by_cases hj : j < n
  · rw [masked_getElem? n [] us j hj, List.getElem?_replicate, if_pos hj]
    simp
  · rw [List.getElem?_eq_none (by rw [masked_length]; omega),
      List.getElem?_eq_none (by simp; omega)]

theorem masked_all (n : Nat) (order : List Nat) (us : List (Matrix R)) (hlen : us.length = n)
    (hall : ∀ j, j < n → j ∈ order) : masked n order us = us := by
  apply List.ext_getElem?
  intro j
  by_cases hj : j < n
  · rw [masked_getElem? n order us j hj, if_pos (hall j hj), List.getD_eq_getElem?_getD,
      List.getElem?_eq_getElem (by omega)]
    rfl
  · rw [List.getElem?_eq_none (by rw [masked_length]; omega),
      List.getElem?_eq_none (by omega)]

theorem masked_snoc (n : Nat) (done : List Nat) (us : List (Matrix R)) (i : Nat) (hi : i < n)
    (U : Matrix R) (hU : us.getD i (idm 2) = U) :
    (masked n done us).set i U = masked n (done ++ [i]) us := by
  apply List.ext_getElem?
  intro j
  by_cases hj : j < n
  · rw [masked_getElem? n _ us j hj]
    by_cases hji : i = j
    · subst hji
      rw [List.getElem?_set_self (by rw [masked_length]; exact hi), if_pos (by simp), hU]
    · rw [List.getElem?_set_ne hji, masked_getElem? n _ us j hj]
      have : j ∈ done ++ [i] ↔ j ∈ done := by
        simp only [List.mem_append, List.mem_singleton]
        constructor
        · rintro (h | h)
          · exact h
          · exact absurd h.symm hji
        · exact Or.inl
      simp only [this]
  · rw [List.getElem?_eq_none (by rw [List.length_set, masked_length]; omega),
      List.getElem?_eq_none (by rw [masked_length]; omega)]

theorem masked_shape (n : Nat) (done : List Nat) (us : List (Matrix R))
    (hus : ∀ u ∈ us, u.wf ∧ u.rows = 2 ∧ u.cols = 2) :
    ∀ y ∈ masked n done us, y.wf ∧ y.rows = 2 := by
  intro y hy
  unfold masked at hy
  obtain ⟨j, _, rfl⟩ := List.mem_map.1 hy
  by_cases hj : j ∈ done
  · rw [if_pos hj, List.getD_eq_getElem?_getD]
    cases hu : us[j]? with
    | none => exact ⟨idm_wf 2, rfl⟩
    | some u => exact ⟨(hus u (List.getElem?_mem hu)).1, (hus u (List.getElem?_mem hu)).2.1⟩
  · rw [if_neg hj]
    exact ⟨idm_wf 2, rfl⟩

theorem QuantumCircuit.single_gates_shape (qc : QuantumCircuit R) (s : Nat)
    (us : List (Matrix R)) (hs : qc.single_gates_at s us) :
    ∀ u ∈ us, u.wf ∧ u.rows = 2 ∧ u.cols = 2 := by
  intro u hu
  obtain ⟨i, hi, rfl⟩ := List.getElem_of_mem hu
  obtain ⟨p, sg, _, _, _, h4, h5, h6, h7⟩ := hs.2 i (hs.1 ▸ hi)
  rw [List.getElem?_eq_getElem hi] at h4
  rw [Option.some.inj h4]
  exact ⟨h5, h6, h7⟩

/-- The loop body of `get_matrix_at_step` over lanes that have not been visited:
the matrix built so far is the fold of the gates of the lanes visited. -/
theorem QuantumCircuit.fold_lanes (qc : QuantumCircuit R) (s : Nat) (us : List (Matrix R))
    (hn : 1 ≤ qc.register_size) (hs : qc.single_gates_at s us) (order done : List Nat)
    (hnd : (done ++ order).Nodup) (hlt : ∀ i ∈ order, i < qc.register_size) :
    order.foldlM (fun resultant_matrix i => do
        let c ← qc.cell i s
        let m ← c.obj.get_matrix_reg qc.register_size
        m.mul resultant_matrix) (tfold (masked qc.register_size done us))
      = .ok (tfold (masked qc.register_size (done ++ order) us)) := by
  induction order generalizing done with
  | nil =>
    simp only [List.append_nil]
    rfl
  | cons i rest ih =>
    have hi : i < qc.register_size := hlt i (by simp)
    have hidone : i ∉ done := by
      intro h
      have := List.nodup_append.1 hnd
      exact this.2.2 h (by simp)
    obtain ⟨p, sg, h1, h2, h3, h4, h5, h6, h7⟩ := hs.2 i hi
    have hcell : qc.cell i s = .ok p := (qc.cell_ok_iff i s p).2 h1
    have hus := qc.single_gates_shape s us hs
    have hysh := masked_shape qc.register_size done us hus
    have hlen := masked_length qc.register_size done us
    have hyne : masked qc.register_size done us ≠ [] :=
      ne_nil_of_length_pos _ (by rw [hlen]; omega)
    have hE : (tfold ((List.replicate qc.register_size (idm 2)).set sg.qubit_index
        sg.matrix)).cols = (tfold (masked qc.register_size done us)).rows := by
      rw [tfold_cols_two _ (ne_nil_of_length_pos _ (by simp; omega))
        (fun m hm => by
          rcases List.mem_or_eq_of_mem_set hm with h | h
          · rw [List.eq_of_mem_replicate h]; rfl
          · rw [h]; exact h7)]
      rw [tfold_rows_two _ hyne (fun y hy => (hysh y hy).2)]
      simp [hlen]
    have hget : (masked qc.register_size done us).getD i (idm 2) = idm 2 := by
      rw [List.getD_eq_getElem?_getD, masked_getElem? _ _ _ i hi, if_neg hidone]
      rfl
    have hui : us.getD i (idm 2) = sg.matrix := by
      rw [List.getD_eq_getElem?_getD, h4]
      rfl
    have hstep : (do
        let c ← qc.cell i s
        let m ← c.obj.get_matrix_reg qc.register_size
        m.mul (tfold (masked qc.register_size done us)))
        = .ok (tfold (masked qc.register_size (done ++ [i]) us)) := by
      rw [hcell]
      simp only [bind, Except.bind, h2, QuantumComponent.get_matrix_reg]
      rw [SingleGate.get_matrix_reg_single_eq sg _ (by rw [h3]; exact hi)]
      simp only []
      rw [Matrix.mul_eq _ _ hE, h3,
        embed_apply_n qc.register_size sg.matrix _ i hlen h7 (by omega) hysh, hget,
        mmul_idm sg.matrix h5 2 h7, masked_snoc _ _ _ i hi _ hui]
    rw [List.foldlM_cons, hstep]
    have := ih (done ++ [i]) (by simpa using hnd) (fun j hj => hlt j (by simp [hj]))
    simp only [List.append_assoc, List.singleton_append] at this
    exact this

/-- The loop of `get_matrix_at_step` is the loop body run over the lanes
`0, ..., register_size - 1`. -/
theorem QuantumCircuit.get_matrix_at_step_order (qc : QuantumCircuit R) (s : Nat) :
    qc.get_matrix_at_step s = qc.step_matrix_in_order s (List.range qc.register_size) := by
  unfold QuantumCircuit.get_matrix_at_step QuantumCircuit.step_matrix_in_order
  simp only [for_range_zero]

/-- In whatever order the lanes of a step of single-qubit gates are visited,
the matrix of the step is the tensor product of the gate matrices. -/
theorem QuantumCircuit.step_matrix_any_order (qc : QuantumCircuit R) (s : Nat)
    (us : List (Matrix R)) (hn : 1 ≤ qc.register_size) (hs : qc.single_gates_at s us)
    (order : List Nat) (hp : order.Perm (List.range qc.register_size)) :
    qc.step_matrix_in_order s order = .ok (tfold us) := by
  unfold QuantumCircuit.step_matrix_in_order
  rw [identity_matrix_eq]
  simp only [bind, Except.bind]
  have h0 : idm (2 ^ qc.register_size) = tfold (masked qc.register_size [] us) := by
    rw [masked_nil, tfold_replicate_idm _ hn]
  rw [h0]
  have := qc.fold_lanes s us hn hs order []
    (by simpa using hp.nodup_iff.2 (List.nodup_range _))
    (fun i hi => List.mem_range.1 (hp.mem_iff.1 hi))
  simp only [bind, Except.bind, List.nil_append] at this
  rw [this, masked_all _ order us hs.1 (fun j hj => hp.mem_iff.2 (List.mem_range.2 hj))]

end Lanes

/-! ## The invariant of the scheduler -/

section Scheduler

variable {R : Type} [CommRing R] [StarRing R]

theorem single_ne_multi (o : QuantumComponent R) (h1 : o.get_gate_type = "SingleGate")
    (h2 : o.get_gate_type = "MultiGate") : False := by
  rw [h1] at h2
  exact absurd h2 (by decide)

/-- A `SingleGate` assigned to a cell of a step without `MultiGate`. -/
theorem multi_alone_put_single (comps : List (List (shared_ptr R))) (r s : Nat)
    (g : shared_ptr R) (hm : multi_alone comps) (hs : step_single comps s)
    (hg : g.obj.get_gate_type = "SingleGate") :
    multi_alone (grid_put comps r s g) ∧ step_single (grid_put comps r s g) s := by
  constructor
  · intro s' i p hp hmulti j q hji hq
    rw [grid_at_put] at hp hq
    by_cases c : i = r ∧ s' = s ∧ (grid_at comps r s).isSome
    · rw [if_pos c] at hp
      rw [← Option.some.inj hp] at hmulti
      exact (single_ne_multi _ hg hmulti).elim
    · rw [if_neg c] at hp
      have hne : s' ≠ s := by
        rintro rfl
        exact single_ne_multi _ (hs i p hp) hmulti
      rw [if_neg (fun hh => hne hh.2.1)] at hq
      exact hm s' i p hp hmulti j q hji hq
  · intro i p hp
    rw [grid_at_put] at hp
    by_cases c : i = r ∧ s = s ∧ (grid_at comps r s).isSome
    · rw [if_pos c] at hp
      rw [← Option.some.inj hp]
      exact hg
    · rw [if_neg c] at hp
      exact hs i p hp

/-- A gate assigned to a cell of a step without `MultiGate` in which every
lane shows the symbol `"I"`. -/
theorem multi_alone_put_multi (comps : List (List (shared_ptr R))) (r s : Nat)
    (g : shared_ptr R) (hm : multi_alone comps) (hs : step_single comps s)
    (hI : ∀ i p, grid_at comps i s = some p → p.obj.get_symbol = "I") :
    multi_alone (grid_put comps r s g) := by
  intro s' i p hp hmulti j q hji hq
  rw [grid_at_put] at hp hq
  by_cases c : i = r ∧ s' = s ∧ (grid_at comps r s).isSome
  · obtain ⟨rfl, rfl, _⟩ := c
    rw [if_neg (fun hh => hji hh.1)] at hq
    exact hI j q hq
  · rw [if_neg c] at hp
    have hne : s' ≠ s := by
      rintro rfl
      exact single_ne_multi _ (hs i p hp) hmulti
    rw [if_neg (fun hh => hne hh.2.1)] at hq
    exact hm s' i p hp hmulti j q hji hq

/-- A cell of the step that `evolve()` appends holds a placeholder. -/
theorem grid_at_evolved_last (h : Heap) (comps : List (List (shared_ptr R))) (k i s : Nat)
    (p : shared_ptr R) (hk : ∀ lane ∈ comps, lane.length = k) (hs : ¬ s < k)
    (hp : grid_at (evolved h comps) i s = some p) : p.obj = placeholder i := by
  obtain ⟨hi, hsk⟩ := grid_at_lt (evolved h comps) i s (k + 1) p (evolved_lanes h comps k hk) hp
  rw [evolved_length] at hi
  have : s = k := by omega
  subst this
  rw [grid_at_evolved_new h comps i s hi hk] at hp
  rw [← Option.some.inj hp]

/-- The step that `evolve()` appends holds no `MultiGate`. -/
theorem multi_alone_evolved (h : Heap) (comps : List (List (shared_ptr R))) (k : Nat)
    (hk : ∀ lane ∈ comps, lane.length = k) (hm : multi_alone comps) :
    multi_alone (evolved h comps) ∧ step_single (evolved h comps) k ∧
      ∀ i p, grid_at (evolved h comps) i k = some p → p.obj.get_symbol = "I" := by
  refine ⟨?_, ?_, ?_⟩
  · intro s i p hp hmulti j q hji hq
    by_cases hs : s < k
    · rw [grid_at_evolved_old h comps _ s k hk hs] at hp hq
      exact hm s i p hp hmulti j q hji hq
    · have := grid_at_evolved_last h comps k i s p hk hs hp
      rw [this] at hmulti
      exact (single_ne_multi (placeholder i) rfl hmulti).elim
  · intro i p hp
    rw [grid_at_evolved_last h comps k i k p hk (Nat.lt_irrefl k) hp]
    rfl
  · intro i p hp
    rw [grid_at_evolved_last h comps k i k p hk (Nat.lt_irrefl k) hp]
    rfl

theorem QuantumCircuit.scheduled_inv (h : Heap) (qc : QuantumCircuit R)
    (hs : qc.scheduled h) : qc.inv h := by
  obtain ⟨T, hT, hgi, _, _⟩ := hs
  exact ⟨T, hT, hgi⟩

theorem QuantumCircuit.new_scheduled (h h' : Heap) (n : Nat) (qc : QuantumCircuit R)
    (hok : QuantumCircuit.new h n = .ok (h', qc)) : qc.scheduled h' := by
  obtain ⟨T, hT, hgi⟩ := QuantumCircuit.new_inv h h' n qc hok
  rw [QuantumCircuit.new_state_eq] at hok
  obtain ⟨e1, e2⟩ := Prod.mk.inj (Except.ok.inj hok)
  subst e1
  subst e2
  have hT0 : T = 0 := by
    have : (0 : Int) = (T : Int) := hT
    omega
  subst hT0
  have h0 : ∀ lane ∈ List.replicate n ([] : List (shared_ptr R)), lane.length = 0 := by
    intro lane hl
    rw [List.eq_of_mem_replicate hl]
    rfl
  have hm0 : multi_alone (List.replicate n ([] : List (shared_ptr R))) := by
    intro s i p hp
    obtain ⟨lane, hl, hmem⟩ := grid_at_mem _ i s p hp
    rw [List.eq_of_mem_replicate hl] at hmem
    exact absurd hmem (List.not_mem_nil p)
  obtain ⟨a, b, _⟩ := multi_alone_evolved h _ 0 h0 hm0
  exact ⟨0, hT, hgi, a, b⟩

theorem QuantumCircuit.evolve_scheduled (h h' : Heap) (qc qc' : QuantumCircuit R)
    (hs : qc.scheduled h) (hok : qc.evolve h = .ok (h', qc')) : qc'.scheduled h' := by
  obtain ⟨T', hT', hgi'⟩ := QuantumCircuit.evolve_inv h h' qc qc' (qc.scheduled_inv h hs) hok
  obtain ⟨T, hT, hgi, hm, _⟩ := hs
  rw [QuantumCircuit.evolve_eq h qc hgi.1] at hok
  obtain ⟨e1, e2⟩ := Prod.mk.inj (Except.ok.inj hok)
  subst e1
  subst e2
  have hTT : T' = T + 1 := by
    have : qc.total_steps + 1 = (T' : Int) := hT'
    omega
  subst hTT
  obtain ⟨a, b, _⟩ := multi_alone_evolved h qc.components (T + 1) hgi.2.1 hm
  exact ⟨T + 1, hT', hgi', a, b⟩

theorem QuantumCircuit.add_component_scheduled (h h' : Heap) (qc qc' : QuantumCircuit R)
    (g : shared_ptr R) (hs : qc.scheduled h) (hg : g.addr < h.next)
    (hok : qc.add_component h g = .ok (h', qc')) : qc'.scheduled h' := by
  have hinv := qc.scheduled_inv h hs
  obtain ⟨T', hT', hgi'⟩ := QuantumCircuit.add_component_inv h h' qc qc' g hinv hg hok
  obtain ⟨T, hT, hgi, hm, hlast⟩ := hs
  have hk := hgi.2.1
  obtain ⟨_, _, hform⟩ := QuantumCircuit.add_component_ok h h' qc qc' g T
    (qc.inv_wf h hinv) hT hg hok
  obtain ⟨e1, e2, e3⟩ := multi_alone_evolved h qc.components (T + 1) hk hm
  rcases hform with ⟨hty, _, rfl, rfl⟩ | ⟨hty, rfl, rfl⟩ | ⟨_, hE, rfl, rfl⟩ | ⟨_, rfl, rfl⟩
  · have hTT : T' = T := by
      have : qc.total_steps = (T' : Int) := hT'
      omega
    subst hTT
    obtain ⟨a, b⟩ := multi_alone_put_single qc.components g.obj.get_index T' g hm hlast hty
    exact ⟨T', hT', hgi', a, b⟩
  · have hTT : T' = T + 1 := by
      have : (T : Int) + 1 = (T' : Int) := hT'
      omega
    subst hTT
    obtain ⟨a, b⟩ := multi_alone_put_single (evolved h qc.components) g.obj.get_index (T + 1) g
      e1 e2 hty
    exact ⟨T + 1, hT', hgi', a, b⟩
  · have hTT : T' = T + 1 := by
      have : (T : Int) + 1 = (T' : Int) := hT'
      omega
    subst hTT
    have a := multi_alone_put_multi qc.components g.obj.get_index T g hm hlast
      (fun i p hp => step_empty_symbol qc.components T i p hE hp)
    obtain ⟨b, c, _⟩ := multi_alone_evolved h _ (T + 1)
      (grid_put_occupies_length qc.components g.obj.get_index T g (T + 1) hk) a
    exact ⟨T + 1, hT', hgi', b, c⟩
  · have hTT : T' = T + 1 + 1 := by
      have : (T : Int) + 1 + 1 = (T' : Int) := hT'
      omega
    subst hTT
    have a := multi_alone_put_multi (evolved h qc.components) g.obj.get_index (T + 1) g e1 e2 e3
    obtain ⟨b, c, _⟩ := multi_alone_evolved { next := h.next + qc.register_size } _ (T + 1 + 1)
      (grid_put_occupies_length _ g.obj.get_index (T + 1) g (T + 1 + 1)
        (evolved_lanes h _ (T + 1) hk)) a
    exact ⟨T + 1 + 1, hT', hgi', b, c⟩

/-- The invariant of the scheduler holds along every sequence of
`add_component` and `evolve`. -/
theorem Later.scheduled (h h' : Heap) (qc qc' : QuantumCircuit R) (hs : qc.scheduled h)
    (hl : Later h qc h' qc') : qc'.scheduled h' := by
  induction hl with
  | refl => exact hs
  | alloc h1 h2 qc1 _ hle ih =>
    obtain ⟨T, hT, hgi, a, b⟩ := ih
    exact ⟨T, hT, grid_inv_mono _ _ _ _ _ hle hgi, a, b⟩
  | evolve h1 h2 qc1 qc2 _ hok ih => exact QuantumCircuit.evolve_scheduled h1 h2 qc1 qc2 ih hok
  | add_component h1 h2 qc1 qc2 g _ hg hok ih =>
    exact QuantumCircuit.add_component_scheduled h1 h2 qc1 qc2 g ih hg hok

end Scheduler

/-! ## The scheduler when no gate is taken for a placeholder -/

section Isolation

variable {R : Type} [CommRing R] [StarRing R]

/-- A `SingleGate` with a symbol other than `"I"` assigned to a cell of a step
without `MultiGate`. -/
theorem isolated_put_single (comps : List (List (shared_ptr R))) (r s : Nat)
    (g : shared_ptr R) (hc : identity_cells comps) (hm : multi_isolated comps)
    (hs : step_single comps s) (hg : g.obj.get_gate_type = "SingleGate")
    (hsym : g.obj.get_symbol ≠ "I") :
    identity_cells (grid_put comps r s g) ∧ multi_isolated (grid_put comps r s g) := by
  constructor
  · intro i s' p hp hty hI
    rw [grid_at_put] at hp
    by_cases c : i = r ∧ s' = s ∧ (grid_at comps r s).isSome
    · rw [if_pos c] at hp
      rw [← Option.some.inj hp] at hI
      exact absurd hI hsym
    · rw [if_neg c] at hp
      exact hc i s' p hp hty hI
  · intro s' i p hp hmulti j q hji hq
    rw [grid_at_put] at hp hq
    by_cases c : i = r ∧ s' = s ∧ (grid_at comps r s).isSome
    · rw [if_pos c] at hp
      rw [← Option.some.inj hp] at hmulti
      exact (single_ne_multi _ hg hmulti).elim
    · rw [if_neg c] at hp
      have hne : s' ≠ s := by
        rintro rfl
        exact single_ne_multi _ (hs i p hp) hmulti
      rw [if_neg (fun hh => hne hh.2.1)] at hq
      exact hm s' i p hp hmulti j q hji hq

/-- A `MultiGate` assigned to a cell of a step without `MultiGate` in which
every lane shows the symbol `"I"`. -/
theorem isolated_put_multi (comps : List (List (shared_ptr R))) (r s : Nat)
    (g : shared_ptr R) (hc : identity_cells comps) (hm : multi_isolated comps)
    (hs : step_single comps s) (hg : g.obj.get_gate_type = "MultiGate")
    (hI : ∀ i p, grid_at comps i s = some p → p.obj.get_symbol = "I") :
    identity_cells (grid_put comps r s g) ∧ multi_isolated (grid_put comps r s g) := by
  constructor
  · intro i s' p hp hty hsym
    rw [grid_at_put] at hp
    by_cases c : i = r ∧ s' = s ∧ (grid_at comps r s).isSome
    · rw [if_pos c] at hp
      rw [← Option.some.inj hp] at hty
      exact (single_ne_multi _ hty hg).elim
    · rw [if_neg c] at hp
      exact hc i s' p hp hty hsym
  · intro s' i p hp hmulti j q hji hq
    rw [grid_at_put] at hp hq
    by_cases c : i = r ∧ s' = s ∧ (grid_at comps r s).isSome
    · obtain ⟨rfl, rfl, _⟩ := c
      rw [if_neg (fun hh => hji hh.1)] at hq
      exact hc j s' q hq (hs j q hq) (hI j q hq)
    · rw [if_neg c] at hp
      have hne : s' ≠ s := by
        rintro rfl
        exact single_ne_multi _ (hs i p hp) hmulti
      rw [if_neg (fun hh => hne hh.2.1)] at hq
      exact hm s' i p hp hmulti j q hji hq

/-- The step that `evolve()` appends holds placeholders only. -/
theorem isolated_evolved (h : Heap) (comps : List (List (shared_ptr R))) (k : Nat)
    (hk : ∀ lane ∈ comps, lane.length = k) (hc : identity_cells comps)
    (hm : multi_isolated comps) :
    identity_cells (evolved h comps) ∧ multi_isolated (evolved h comps) := by
  constructor
  · intro i s p hp hty hsym
    by_cases hs : s < k
    · rw [grid_at_evolved_old h comps _ s k hk hs] at hp
      exact hc i s p hp hty hsym
    · exact grid_at_evolved_last h comps k i s p hk hs hp
  · intro s i p hp hmulti j q hji hq
    by_cases hs : s < k
    · rw [grid_at_evolved_old h comps _ s k hk hs] at hp hq
      exact hm s i p hp hmulti j q hji hq
    · have := grid_at_evolved_last h comps k i s p hk hs hp
      rw [this] at hmulti
      exact (single_ne_multi (placeholder i) rfl hmulti).elim

theorem QuantumCircuit.new_isolating (h h' : Heap) (n : Nat) (qc : QuantumCircuit R)
    (hok : QuantumCircuit.new h n = .ok (h', qc)) : qc.isolating h' := by
  refine ⟨QuantumCircuit.new_scheduled h h' n qc hok, ?_⟩
  rw [QuantumCircuit.new_state_eq] at hok
  obtain ⟨e1, e2⟩ := Prod.mk.inj (Except.ok.inj hok)
  subst e1
  subst e2
  have h0 : ∀ lane ∈ List.replicate n ([] : List (shared_ptr R)), lane.length = 0 := by
    intro lane hl
    rw [List.eq_of_mem_replicate hl]
    rfl
  have hnone : ∀ i s (p : shared_ptr R),
      grid_at (List.replicate n ([] : List (shared_ptr R))) i s = some p → False := by
    intro i s p hp
    obtain ⟨lane, hl, hmem⟩ := grid_at_mem _ i s p hp
    rw [List.eq_of_mem_replicate hl] at hmem
    exact absurd hmem (List.not_mem_nil p)
  exact isolated_evolved h _ 0 h0 (fun i s p hp _ _ => (hnone i s p hp).elim)
    (fun s i p hp _ _ _ _ _ => (hnone i s p hp).elim)

theorem QuantumCircuit.evolve_isolating (h h' : Heap) (qc qc' : QuantumCircuit R)
    (hs : qc.isolating h) (hok : qc.evolve h = .ok (h', qc')) : qc'.isolating h' := by
  obtain ⟨hsch, hc, hm⟩ := hs
  refine ⟨QuantumCircuit.evolve_scheduled h h' qc qc' hsch hok, ?_⟩
  obtain ⟨T, hT, hgi, _, _⟩ := hsch
  rw [QuantumCircuit.evolve_eq h qc hgi.1] at hok
  obtain ⟨e1, e2⟩ := Prod.mk.inj (Except.ok.inj hok)
  subst e1
  subst e2
  exact isolated_evolved h qc.components (T + 1) hgi.2.1 hc hm

theorem QuantumCircuit.add_component_isolating (h h' : Heap) (qc qc' : QuantumCircuit R)
    (g : shared_ptr R) (hs : qc.isolating h) (hg : g.addr < h.next)
    (hsym : g.obj.get_gate_type = "SingleGate" → g.obj.get_symbol ≠ "I")
    (hok : qc.add_component h g = .ok (h', qc')) : qc'.isolating h' := by
  obtain ⟨hsch, hc, hm⟩ := hs
  refine ⟨QuantumCircuit.add_component_scheduled h h' qc qc' g hsch hg hok, ?_⟩
  have hinv := qc.scheduled_inv h hsch
  obtain ⟨T, hT, hgi, hma, hlast⟩ := hsch
  have hk := hgi.2.1
  obtain ⟨_, _, hform⟩ := QuantumCircuit.add_component_ok h h' qc qc' g T
    (qc.inv_wf h hinv) hT hg hok
  obtain ⟨e1, e2, e3⟩ := multi_alone_evolved h qc.components (T + 1) hk hma
  obtain ⟨f1, f2⟩ := isolated_evolved h qc.components (T + 1) hk hc hm
  rcases hform with ⟨hty, _, rfl, rfl⟩ | ⟨hty, rfl, rfl⟩ | ⟨hty, hE, rfl, rfl⟩ | ⟨hty, rfl, rfl⟩
  · exact isolated_put_single qc.components g.obj.get_index T g hc hm hlast hty (hsym hty)
  · exact isolated_put_single (evolved h qc.components) g.obj.get_index (T + 1) g f1 f2 e2 hty
      (hsym hty)
  · obtain ⟨a, b⟩ := isolated_put_multi qc.components g.obj.get_index T g hc hm hlast hty
      (fun i p hp => step_empty_symbol qc.components T i p hE hp)
    exact isolated_evolved h _ (T + 1)
      (grid_put_occupies_length qc.components g.obj.get_index T g (T + 1) hk) a b
  · obtain ⟨a, b⟩ := isolated_put_multi (evolved h qc.components) g.obj.get_index (T + 1) g
      f1 f2 e2 hty e3
    exact isolated_evolved { next := h.next + qc.register_size } _ (T + 1 + 1)
      (grid_put_occupies_length _ g.obj.get_index (T + 1) g (T + 1 + 1)
        (evolved_lanes h _ (T + 1) hk)) a b

/-- The invariant holds along every sequence of `add_component` and `evolve`
in which no `SingleGate` with the symbol `"I"` is added. -/
theorem LaterLabelled.isolating (h h' : Heap) (qc qc' : QuantumCircuit R)
    (hs : qc.isolating h) (hl : LaterLabelled h qc h' qc') : qc'.isolating h' := by
  induction hl with
  | refl => exact hs
  | alloc h1 h2 qc1 _ hle ih =>
    obtain ⟨⟨T, hT, hgi, a, b⟩, c, d⟩ := ih
    exact ⟨⟨T, hT, grid_inv_mono _ _ _ _ _ hle hgi, a, b⟩, c, d⟩
  | evolve h1 h2 qc1 qc2 _ hok ih => exact QuantumCircuit.evolve_isolating h1 h2 qc1 qc2 ih hok
  | add_component h1 h2 qc1 qc2 g _ hg hsym hok ih =>
    exact QuantumCircuit.add_component_isolating h1 h2 qc1 qc2 g ih hg hsym hok

end Isolation

/-! ## Sequences of gates -/

section Sequences

variable {R : Type} [CommRing R] [StarRing R]

theorem mem_grid_put (comps : List (List (shared_ptr R))) (r s : Nat) (g p : shared_ptr R)
    (lane : List (shared_ptr R)) (hl : lane ∈ grid_put comps r s g) (hp : p ∈ lane) :
    p = g ∨ ∃ lane0 ∈ comps, p ∈ lane0 := by
  unfold grid_put at hl
  rcases List.mem_or_eq_of_mem_set hl with h | h
  · exact Or.inr ⟨lane, h, hp⟩
  · rw [h] at hp
    rcases List.mem_or_eq_of_mem_set hp with h' | h'
    · right
      rw [List.getD_eq_getElem?_getD] at h'
      cases hr : comps[r]? with
      | none =>
        rw [hr] at h'
        exact absurd h' (List.not_mem_nil p)
      | some l =>
        rw [hr] at h'
        exact ⟨l, List.getElem?_mem hr, h'⟩
    · exact Or.inl h'

theorem mem_evolved (h : Heap) (comps : List (List (shared_ptr R))) (p : shared_ptr R)
    (lane : List (shared_ptr R)) (hl : lane ∈ evolved h comps) (hp : p ∈ lane) :
    h.next ≤ p.addr ∨ ∃ lane0 ∈ comps, p ∈ lane0 := by
  obtain ⟨i, hi, rfl⟩ := List.getElem_of_mem hl
  rw [evolved_length] at hi
  have := evolved_getElem h comps i hi
  rw [List.getElem?_eq_getElem (by rw [evolved_length]; exact hi)] at this
  rw [Option.some.inj this] at hp
  rcases List.mem_append.mp hp with hp | hp
  · exact Or.inr ⟨_, List.getElem_mem hi, hp⟩
  · rw [List.mem_singleton] at hp
    left
    rw [hp]
    exact Nat.le_add_right _ _

/-- The cells of the grid after `add_component(g)`: the gate, placeholders
allocated by the call, and cells of the grid before the call. -/
theorem QuantumCircuit.add_component_cells (h h' : Heap) (qc qc' : QuantumCircuit R)
    (g : shared_ptr R) (hwf : qc.wf h) (hg : g.addr < h.next)
    (hok : qc.add_component h g = .ok (h', qc')) :
    ∀ lane ∈ qc'.components, ∀ p ∈ lane,
      p = g ∨ h.next ≤ p.addr ∨ ∃ lane0 ∈ qc.components, p ∈ lane0 := by
  obtain ⟨T, hT⟩ : ∃ T : Nat, qc.total_steps = (T : Int) :=
    ⟨_, (Int.toNat_of_nonneg hwf.2.1).symm⟩
  obtain ⟨_, _, hform⟩ := QuantumCircuit.add_component_ok h h' qc qc' g T hwf hT hg hok
  intro lane hl p hp
  rcases hform with ⟨_, _, rfl, rfl⟩ | ⟨_, rfl, rfl⟩ | ⟨_, _, rfl, rfl⟩ | ⟨_, rfl, rfl⟩
  · rcases mem_grid_put _ _ _ _ p lane hl hp with h1 | h1
    · exact Or.inl h1
    · exact Or.inr (Or.inr h1)
  · rcases mem_grid_put _ _ _ _ p lane hl hp with h1 | ⟨l1, hl1, hp1⟩
    · exact Or.inl h1
    · rcases mem_evolved h _ p l1 hl1 hp1 with h2 | h2
      · exact Or.inr (Or.inl h2)
      · exact Or.inr (Or.inr h2)
  · rcases mem_evolved h _ p lane hl hp with h1 | ⟨l1, hl1, hp1⟩
    · exact Or.inr (Or.inl h1)
    · rcases mem_grid_put _ _ _ _ p l1 hl1 hp1 with h2 | h2
      · exact Or.inl h2
      · exact Or.inr (Or.inr h2)
  · rcases mem_evolved _ _ p lane hl hp with h1 | ⟨l1, hl1, hp1⟩
    · right; left
      have : h.next + qc.register_size ≤ p.addr := h1
      omega
    · rcases mem_grid_put _ _ _ _ p l1 hl1 hp1 with h2 | ⟨l2, hl2, hp2⟩
      · exact Or.inl h2
      · rcases mem_evolved h _ p l2 hl2 hp2 with h3 | h3
        · exact Or.inr (Or.inl h3)
        · exact Or.inr (Or.inr h3)

theorem QuantumComponent.as_multi_fields (o : QuantumComponent R) (mg : MultiGate R)
    (h : o.as_multi = some mg) :
    o.footprint = mg.gate_size ∧ o.get_matrix = mg.matrix ∧ o.get_index = mg.qubit_index := by
  cases o with
  | single g => exact Option.noConfusion h
  | multi g =>
    have : g = mg := Option.some.inj h
    subst this
    exact ⟨rfl, rfl, rfl⟩
  | controlled g =>
    have : g.toMultiGate = mg := Option.some.inj h
    subst this
    exact ⟨rfl, rfl, rfl⟩

theorem QuantumComponent.single_or_multi (o : QuantumComponent R) :
    (∃ sg, o = .single sg) ∨ ∃ mg, o.as_multi = some mg := by
  cases o with
  | single g => exact Or.inl ⟨g, rfl⟩
  | multi g => exact Or.inr ⟨g, rfl⟩
  | controlled g => exact Or.inr ⟨g.toMultiGate, rfl⟩

/-- A component whose footprint ends inside the register returns its closed
form from `get_matrix(n)`, a `2^n x 2^n` matrix when the local matrix is
`2^footprint` square. -/
theorem QuantumComponent.get_matrix_reg_embedded (o : QuantumComponent R) (n : Nat)
    (hfit : o.get_index + o.footprint ≤ n) (hwf : o.get_matrix.wf)
    (hr : o.get_matrix.rows = 2 ^ o.footprint) (hc : o.get_matrix.cols = 2 ^ o.footprint) :
    o.get_matrix_reg n = .ok (o.embedded n) ∧ (o.embedded n).wf ∧
      (o.embedded n).rows = 2 ^ n ∧ (o.embedded n).cols = 2 ^ n := by
  have hshape : ∀ (mg : MultiGate R), mg.matrix.wf → mg.matrix.rows = 2 ^ mg.gate_size →
      mg.matrix.cols = 2 ^ mg.gate_size → mg.qubit_index + mg.gate_size ≤ n →
      (tfold ((List.replicate (n - mg.gate_size + 1) (idm 2)).set mg.qubit_index mg.matrix)).wf ∧
      (tfold ((List.replicate (n - mg.gate_size + 1) (idm 2)).set mg.qubit_index
        mg.matrix)).rows = 2 ^ n ∧
      (tfold ((List.replicate (n - mg.gate_size + 1) (idm 2)).set mg.qubit_index
        mg.matrix)).cols = 2 ^ n := by
    intro mg h1 h2 h3 h4
    refine ⟨tfold_ne_nil_wf _ ?_ (ne_nil_of_length_pos _ (by simp)),
      (embed_multi_shape n mg.qubit_index mg.gate_size mg.matrix h4 h2 h3).1,
      (embed_multi_shape n mg.qubit_index mg.gate_size mg.matrix h4 h2 h3).2⟩
    intro m hm
    rcases List.mem_or_eq_of_mem_set hm with h | h
    · rw [List.eq_of_mem_replicate h]; exact idm_wf 2
    · rw [h]; exact h1
  cases o with
  | single g =>
    have ha : g.qubit_index < n := by
      have : g.qubit_index + 1 ≤ n := hfit
      omega
    have e : n - 1 + 1 = n := by omega
    have hs := hshape (MultiGate.mk g.qubit_index g.symbol g.matrix 1) hwf hr hc
      (by show g.qubit_index + 1 ≤ n; omega)
    simp only [e] at hs
    refine ⟨?_, ?_⟩
    · show g.get_matrix_reg n = _
      rw [SingleGate.get_matrix_reg_single_eq g n ha]
      unfold QuantumComponent.embedded
      show _ = Except.ok (tfold ((List.replicate (n - 1 + 1) (idm 2)).set g.qubit_index g.matrix))
      rw [e]
    · unfold QuantumComponent.embedded
      show (tfold ((List.replicate (n - 1 + 1) (idm 2)).set g.qubit_index g.matrix)).wf ∧
        (tfold ((List.replicate (n - 1 + 1) (idm 2)).set g.qubit_index g.matrix)).rows = 2 ^ n ∧
        (tfold ((List.replicate (n - 1 + 1) (idm 2)).set g.qubit_index g.matrix)).cols = 2 ^ n
      rw [e]
      exact hs
  | multi g =>
    have ha : g.qubit_index + g.gate_size ≤ n := hfit
    exact ⟨MultiGate.get_matrix_reg_multi_eq g n ha, hshape g hwf hr hc ha⟩
  | controlled g =>
    have ha : g.qubit_index + g.gate_size ≤ n := hfit
    exact ⟨MultiGate.get_matrix_reg_multi_eq g.toMultiGate n ha,
      hshape g.toMultiGate hwf hr hc ha⟩

/-- Adding a gate that is not in the grid multiplies the circuit matrix on the
left by the embedding of the gate. -/
theorem QuantumCircuit.add_component_product (h : Heap) (qc : QuantumCircuit R)
    (g : shared_ptr R) (M : Matrix R) (hm : qc.has_matrix h M) (hnot : ¬ qc.occupies g)
    (hg : g.addr < h.next) (hfit : g.obj.get_index + g.obj.footprint ≤ qc.register_size)
    (ha : g.obj.get_index < qc.register_size) (hsym : g.obj.get_symbol ≠ "I")
    (hwf : g.obj.get_matrix.wf) (hr : g.obj.get_matrix.rows = 2 ^ g.obj.footprint)
    (hc : g.obj.get_matrix.cols = 2 ^ g.obj.footprint) :
    ∃ h' qc', qc.add_component h g = .ok (h', qc') ∧
      qc'.has_matrix h' (mmul (g.obj.embedded qc.register_size) M) ∧
      h.next ≤ h'.next ∧ qc'.register_size = qc.register_size := by
  rcases g.obj.single_or_multi with ⟨sg, hobj⟩ | ⟨mg, hobj⟩
  · rw [hobj] at ha hsym hwf hr hc
    obtain ⟨h', qc', h1, h2, h3, h4, _⟩ := qc.add_single_product h h g sg M hm hobj
      (Nat.le_refl _) hnot hg ha hsym hwf hr hc
    refine ⟨h', qc', h1, ?_, h3, h4⟩
    have e : qc.register_size - 1 + 1 = qc.register_size := by
      have : sg.qubit_index < qc.register_size := ha
      omega
    have : g.obj.embedded qc.register_size
        = tfold ((List.replicate qc.register_size (idm 2)).set sg.qubit_index sg.matrix) := by
      rw [hobj]
      show tfold ((List.replicate (qc.register_size - 1 + 1) (idm 2)).set sg.qubit_index
        sg.matrix) = _
      rw [e]
    rw [this]
    exact h2
  · obtain ⟨f1, f2, f3⟩ := g.obj.as_multi_fields mg hobj
    rw [f1, f2] at hr hc
    rw [f3] at ha
    have hfit' : mg.qubit_index + mg.gate_size ≤ qc.register_size := by
      rw [f1, f3] at hfit
      exact hfit
    obtain ⟨h', qc', h1, h2, h3, h4, _⟩ := qc.add_multi_product h h g mg M hm hobj
      (Nat.le_refl _) hnot hg hfit' ha hr hc
    refine ⟨h', qc', h1, ?_, h3, h4⟩
    have : g.obj.embedded qc.register_size
        = tfold ((List.replicate (qc.register_size - mg.gate_size + 1) (idm 2)).set
            mg.qubit_index mg.matrix) := by
      unfold QuantumComponent.embedded
      rw [f1, f2, f3]
    rw [this]
    exact h2

/-- The gates of a list, distinct and none of them in the grid, added in order:
each multiplies the circuit matrix on the left by its embedding. -/
theorem QuantumCircuit.add_components_product (n base : Nat) (gs : List (shared_ptr R))
    (hfit : ∀ g ∈ gs, g.obj.get_index + g.obj.footprint ≤ n) (hanchor : ∀ g ∈ gs, g.obj.get_index < n)
    (hsym : ∀ g ∈ gs, g.obj.get_symbol ≠ "I")
    (hshape : ∀ g ∈ gs, g.obj.get_matrix.wf ∧ g.obj.get_matrix.rows = 2 ^ g.obj.footprint ∧
      g.obj.get_matrix.cols = 2 ^ g.obj.footprint) :
    ∀ (h : Heap) (qc : QuantumCircuit R) (M : Matrix R) (added : List Nat),
      qc.has_matrix h M → qc.register_size = n → base ≤ h.next →
      (∀ lane ∈ qc.components, ∀ p ∈ lane, base ≤ p.addr ∨ p.addr ∈ added) →
      (gs.map (fun g => g.addr)).Nodup → (∀ g ∈ gs, g.addr < base ∧ g.addr ∉ added) →
      ∃ h' qc', qc.add_components h gs = .ok (h', qc') ∧
        qc'.has_matrix h' (gs.foldl (fun M g => mmul (g.obj.embedded n) M) M) ∧
        qc'.register_size = n := by
  induction gs with
  | nil =>
    intro h qc M added hm hn _ _ _ _
    exact ⟨h, qc, rfl, hm, hn⟩
  | cons g rest ih =>
    intro h qc M added hm hn hbase hcells hnd hnew
    have hg := hnew g (by simp)
    have hnot : ¬ qc.occupies g := by
      rintro ⟨lane, hl, p, hp, hpa⟩
      rcases hcells lane hl p hp with h1 | h1
      · omega
      · rw [hpa] at h1
        exact hg.2 h1
    have hs := hshape g (by simp)
    obtain ⟨h', qc', h1, h2, h3, h4⟩ := qc.add_component_product h g M hm hnot
      (by omega) (by rw [hn]; exact hfit g (by simp)) (by rw [hn]; exact hanchor g (by simp))
      (hsym g (by simp)) hs.1 hs.2.1 hs.2.2
    have hcells' : ∀ lane ∈ qc'.components, ∀ p ∈ lane,
        base ≤ p.addr ∨ p.addr ∈ g.addr :: added := by
      intro lane hl p hp
      rcases QuantumCircuit.add_component_cells h h' qc qc' g hm.1 (by omega) h1 lane hl p hp
        with e | e | ⟨l0, hl0, hp0⟩
      · right; rw [e]; simp
      · left; omega
      · rcases hcells l0 hl0 p hp0 with e | e
        · exact Or.inl e
        · right; simp [e]
    rw [List.map_cons, List.nodup_cons] at hnd
    obtain ⟨h'', qc'', k1, k2, k3⟩ := ih (fun x hx => hfit x (by simp [hx]))
      (fun x hx => hanchor x (by simp [hx])) (fun x hx => hsym x (by simp [hx]))
      (fun x hx => hshape x (by simp [hx])) h' qc' _ (g.addr :: added) h2 (by rw [h4, hn])
      (by omega) hcells' hnd.2
      (fun x hx => ⟨(hnew x (by simp [hx])).1, by
        intro hmem
        rcases List.mem_cons.1 hmem with e | e
        · exact hnd.1 (List.mem_map.2 ⟨x, hx, e⟩)
        · exact (hnew x (by simp [hx])).2 e⟩)
    refine ⟨h'', qc'', ?_, ?_, k3⟩
    · unfold QuantumCircuit.add_components
      rw [List.foldlM_cons, h1]
      exact k1
    · rw [List.foldl_cons, ← hn]
      rw [← hn] at k2
      exact k2

theorem gates_fold_eq (n : Nat) (gs : List (shared_ptr R)) (acc : Matrix R)
    (hacc : acc.rows = 2 ^ n)
    (hg : ∀ g ∈ gs, g.obj.get_matrix_reg n = .ok (g.obj.embedded n) ∧
      (g.obj.embedded n).rows = 2 ^ n ∧ (g.obj.embedded n).cols = 2 ^ n) :
    gs.foldlM (fun acc g' => do
        let m ← g'.obj.get_matrix_reg n
        m.mul acc) acc
      = .ok (gs.foldl (fun M g => mmul (g.obj.embedded n) M) acc) := by
  induction gs generalizing acc with
  | nil => rfl
  | cons g rest ih =>
    obtain ⟨h1, h2, h3⟩ := hg g (by simp)
    rw [List.foldlM_cons, h1]
    simp only [bind, Except.bind]
    rw [Matrix.mul_eq _ _ (by rw [h3, hacc])]
    simp only []
    exact ih _ (by simp [h2]) (fun x hx => hg x (by simp [hx]))

/-- The product of the claim is the fold of the embeddings over the identity. -/
theorem gates_product_eq (n : Nat) (gs : List (shared_ptr R))
    (hg : ∀ g ∈ gs, g.obj.get_matrix_reg n = .ok (g.obj.embedded n) ∧ (g.obj.embedded n).wf ∧
      (g.obj.embedded n).rows = 2 ^ n ∧ (g.obj.embedded n).cols = 2 ^ n) :
    gates_product n gs
      = .ok (gs.foldl (fun M g => mmul (g.obj.embedded n) M) (idm (2 ^ n))) := by
  cases gs with
  | nil => exact identity_matrix_eq _
  | cons g rest =>
    obtain ⟨h1, h2, h3, h4⟩ := hg g (by simp)
    have key := gates_fold_eq n rest _ h3 (fun x hx => ⟨(hg x (by simp [hx])).1,
      (hg x (by simp [hx])).2.2⟩)
    simp only [bind, Except.bind] at key
    simp only [gates_product, h1, bind, Except.bind]
    rw [key, List.foldl_cons, mmul_idm _ h2 _ h4]

end Sequences

/-! ## Claims -/

section Claims

variable {R : Type} [CommRing R] [StarRing R]

/-- C1: for all matrices `A` and `B`, `A.tensor_product(B)` returns a matrix
with `rows_A * rows_B` rows and `cols_A * cols_B` columns whose entry at row
`u * rows_A + i`, column `v * cols_A + j` is `A(i,j) * B(u,v)` for all
`i < rows_A`, `j < cols_A`, `u < rows_B`, `v < cols_B`: the index of the second
operand is the major component. -/
theorem tensor_product_entries (A B : Matrix R) :
    ∃ T, A.tensor_product B = .ok T ∧ T.rows = A.rows * B.rows ∧ T.cols = A.cols * B.cols ∧
      ∀ i j u v, i < A.rows → j < A.cols → u < B.rows → v < B.cols →
        ∃ a b, A.get i j = .ok a ∧ B.get u v = .ok b ∧
          T.get (u * A.rows + i) (v * A.cols + j) = .ok (a * b) := by
  refine ⟨kron A B, Matrix.tensor_product_eq A B, rfl, rfl, ?_⟩
  intro i j u v hi hj hu hv
  refine ⟨A.raw i j, B.raw u v, Matrix.get_eq_raw A i j hi hj, Matrix.get_eq_raw B u v hu hv, ?_⟩
  have h1 := idx_lt i u _ _ hi hu
  have h2 := idx_lt j v _ _ hj hv
  rw [Matrix.get_eq_raw _ _ _ h1 h2]
  unfold kron
  rw [Matrix.raw_tabulate _ _ _ _ _ h1 h2, idx_mod i u _ hi, idx_mod j v _ hj, idx_div i u _ hi,
    idx_div j v _ hj]

/-- Witness of C1 on a `2 x 2` and a `1 x 2` integer matrix, at `i = 1`,
`j = 0`, `u = 0`, `v = 1`: the entry at row `1`, column `2` is `3 * 6`. -/
theorem tensor_product_entries_witness :
    ∃ T, (Matrix.of_grid [[1, 2], [3, 4]] : Matrix Int).tensor_product
        (Matrix.of_grid [[5, 6]]) = .ok T ∧ T.rows = 2 ∧ T.cols = 4 ∧
      T.get 1 2 = .ok 18 := by
  obtain ⟨T, h1, h2, h3, h4⟩ := tensor_product_entries
    (Matrix.of_grid [[1, 2], [3, 4]] : Matrix Int) (Matrix.of_grid [[5, 6]])
  obtain ⟨a, b, ha, hb, hab⟩ := h4 1 0 0 1 (by decide) (by decide) (by decide) (by decide)
  refine ⟨T, h1, h2, h3, ?_⟩
  have ea : a = 3 := by
    have : (Matrix.of_grid [[1, 2], [3, 4]] : Matrix Int).get 1 0 = .ok 3 := rfl
    rw [this] at ha
    exact (Except.ok.inj ha).symm
  have eb : b = 6 := by
    have : (Matrix.of_grid [[5, 6]] : Matrix Int).get 0 1 = .ok 6 := rfl
    rw [this] at hb
    exact (Except.ok.inj hb).symm
  rw [ea, eb] at hab
  exact hab

/-- C2: in a circuit state with last step `s`, adding a `SingleGate` `g` that
is not in the circuit and whose anchor `a` is below `register_size` succeeds.
If the cell `(a, s)` held a component with symbol `"I"`, then `total_steps` is
still `s`, the cell `(a, s)` holds `g` and every other cell is unchanged.
Otherwise `total_steps` is `s + 1`, the cell `(a, s + 1)` holds `g`, every other
lane `i` holds at step `s + 1` a newly allocated `IGate(i)`, and every cell of
the steps `0 .. s` is unchanged. -/
theorem add_component_single (h : Heap) (qc : QuantumCircuit R) (g : shared_ptr R)
    (sg : SingleGate R) (s : Nat)
    (hwf : qc.wf h) (hs : qc.total_steps = (s : Int)) (hobj : g.obj = .single sg)
    (hg : g.addr < h.next) (hnot : ¬ qc.occupies g) (hfit : sg.qubit_index < qc.register_size) :
    ∃ c0 h' qc', qc.cell sg.qubit_index s = .ok c0 ∧ qc.add_component h g = .ok (h', qc') ∧
      (c0.obj.get_symbol = "I" →
        qc'.total_steps = (s : Int) ∧ qc'.cell sg.qubit_index s = .ok g ∧
        ∀ i j, ¬ (i = sg.qubit_index ∧ j = s) → qc'.cell i j = qc.cell i j) ∧
      (c0.obj.get_symbol ≠ "I" →
        qc'.total_steps = (s : Int) + 1 ∧ qc'.cell sg.qubit_index (s + 1) = .ok g ∧
        (∀ i, i < qc.register_size → i ≠ sg.qubit_index →
          ∃ p ig, qc'.cell i (s + 1) = .ok p ∧ IGate i = .ok ig ∧ p.obj = .single ig ∧
            ¬ qc.occupies p ∧ p.addr ≠ g.addr) ∧
        ∀ i j, j ≤ s → qc'.cell i j = qc.cell i j) := by
  obtain ⟨hlen, _, _, haddr⟩ := hwf
  have hk := QuantumCircuit.wf_steps h qc s ⟨hlen, ‹_›, ‹_›, haddr⟩ hs
  have ha : sg.qubit_index < qc.components.length := by omega
  obtain ⟨c0, hc0⟩ := grid_at_isSome qc.components sg.qubit_index s (s + 1) ha hk (by omega)
  have hnew := grid_at_evolved_new h qc.components sg.qubit_index (s + 1) ha hk
  have hadd := QuantumCircuit.add_component_single_eq h qc g c0 sg s hlen hs hobj hnot hg hfit
    hc0 (by rw [hnew]; rfl)
  by_cases hI : c0.obj.get_symbol = "I"
  · rw [if_pos hI] at hadd
    refine ⟨c0, _, _, (QuantumCircuit.cell_ok_iff qc _ _ c0).mpr hc0, hadd,
      fun _ => ⟨hs, ?_, ?_⟩, fun hne => absurd hI hne⟩
    · rw [QuantumCircuit.cell_ok_iff]
      simp only
      rw [grid_at_put, if_pos ⟨rfl, rfl, by rw [hc0]; rfl⟩]
    · intro i j hij
      apply QuantumCircuit.cell_congr
      simp only
      rw [grid_at_put, if_neg (fun hh => hij ⟨hh.1, hh.2.1⟩)]
  · rw [if_neg hI] at hadd
    refine ⟨c0, _, _, (QuantumCircuit.cell_ok_iff qc _ _ c0).mpr hc0, hadd,
      fun hh => absurd hh hI, fun _ => ⟨rfl, ?_, ?_, ?_⟩⟩
    · rw [QuantumCircuit.cell_ok_iff]
      simp only
      rw [grid_at_put, if_pos ⟨rfl, rfl, by rw [hnew]; rfl⟩]
    · intro i hi hia
      have hi' : i < qc.components.length := by omega
      refine ⟨{ addr := h.next + i, obj := placeholder i }, _, ?_, IGate_eq i, rfl, ?_, ?_⟩
      · rw [QuantumCircuit.cell_ok_iff]
        simp only
        rw [grid_at_put, if_neg (fun hh => hia hh.1),
          grid_at_evolved_new h qc.components i (s + 1) hi' hk]
      · rintro ⟨lane, hl, q, hq, hqa⟩
        have := haddr lane hl q hq
        simp only at hqa
        omega
      · simp only
        omega
    · intro i j hj
      apply QuantumCircuit.cell_congr
      simp only
      rw [grid_at_put, if_neg (fun hh => by omega),
        grid_at_evolved_old h qc.components i j (s + 1) hk (by omega)]

/-- Witness of C2: adding an `X` gate on register `0` to a fresh one-qubit
circuit replaces the placeholder of the cell `(0, 0)`. -/
theorem add_component_single_witness :
    ∃ c0 h' qc', demo_circuit.cell 0 0 = .ok c0 ∧
      demo_circuit.add_component demo_heap demo_gate = .ok (h', qc') ∧
      c0.obj.get_symbol = "I" ∧ qc'.total_steps = 0 ∧ qc'.cell 0 0 = .ok demo_gate := by
  obtain ⟨c0, h', qc', h1, h2, h3, _⟩ := add_component_single demo_heap demo_circuit demo_gate
    demo_x 0 (by unfold QuantumCircuit.wf; decide) rfl rfl (by decide)
    (by unfold QuantumCircuit.occupies; decide) (by decide)
  have h1' : demo_circuit.cell 0 0 = .ok c0 := h1
  have e : demo_circuit.cell 0 0 = .ok { addr := 1, obj := placeholder 0 } := rfl
  have hc : c0.obj.get_symbol = "I" := by
    rw [← Except.ok.inj (e.symm.trans h1')]
    rfl
  exact ⟨c0, h', qc', h1', h2, hc, (h3 hc).1, (h3 hc).2.1⟩

/-- In a circuit state with last step `s`, adding a `MultiGate` or
`ControlledGate` `g` that is not in the circuit, fits, and whose anchor index
is below `register_size` succeeds; the new `total_steps` `T` is `s + 1` if
`is_step_empty(s)` held before the call and `s + 2` otherwise, `g` occupies the
cell `(anchor, T - 1)`, and `is_step_empty(T)` holds. -/
theorem add_component_multi (h : Heap) (qc : QuantumCircuit R) (g : shared_ptr R) (s : Nat)
    (hwf : qc.wf h) (hs : qc.total_steps = (s : Int))
    (ht : g.obj.get_gate_type = "MultiGate") (hg : g.addr < h.next) (hnot : ¬ qc.occupies g)
    (hfit : g.obj.can_gate_fit qc.register_size = true)
    (ha : g.obj.get_index < qc.register_size) :
    ∃ (e : Bool) (h' : Heap) (qc' : QuantumCircuit R) (T : Nat),
      qc.is_step_empty s = .ok e ∧ qc.add_component h g = .ok (h', qc') ∧
      qc'.total_steps = (T : Int) ∧ T = (if e then s + 1 else s + 2) ∧
      qc'.cell g.obj.get_index (T - 1) = .ok g ∧ qc'.is_step_empty T = .ok true := by
  obtain ⟨hlen, _, _, haddr⟩ := hwf
  have hk := QuantumCircuit.wf_steps h qc s ⟨hlen, ‹_›, ‹_›, haddr⟩ hs
  have ha' : g.obj.get_index < qc.components.length := by omega
  have hE := QuantumCircuit.is_step_empty_eq qc s hlen (fun lane hl => by rw [hk lane hl]; omega)
  have hadd := QuantumCircuit.add_component_multi_eq h qc g s hlen hs hk ht hnot hg hfit ha
  obtain ⟨c0, hc0⟩ := grid_at_isSome qc.components g.obj.get_index s (s + 1) ha' hk (by omega)
  by_cases he : step_empty qc.components s = true
  · rw [if_pos he] at hadd
    have hk1 := grid_put_occupies_length qc.components g.obj.get_index s g (s + 1) hk
    refine ⟨_, _, _, s + 1, hE, hadd, by push_cast; rfl, by rw [he]; rfl, ?_, ?_⟩
    · rw [QuantumCircuit.cell_ok_iff]
      simp only [Nat.add_sub_cancel]
      rw [grid_at_evolved_old h _ _ s (s + 1) hk1 (by omega), grid_at_put,
        if_pos ⟨rfl, rfl, by rw [hc0]; rfl⟩]
    · rw [QuantumCircuit.is_step_empty_eq _ (s + 1)
        (by simpa [evolved_length, grid_put_length] using hlen)
        (fun lane hl => by
          rw [evolved_lanes h _ (s + 1) hk1 lane hl]; omega)]
      simp only
      rw [step_empty_evolved h _ (s + 1) hk1]
  · rw [if_neg he] at hadd
    have he' : step_empty qc.components s = false := by simpa using he
    have hk1 := evolved_lanes h qc.components (s + 1) hk
    have hk2 := grid_put_occupies_length (evolved h qc.components) g.obj.get_index (s + 1) g
      (s + 1 + 1) hk1
    have hnew := grid_at_evolved_new h qc.components g.obj.get_index (s + 1) ha' hk
    refine ⟨_, _, _, s + 1 + 1, hE, hadd, by push_cast; ring, by rw [he']; rfl, ?_, ?_⟩
    · rw [QuantumCircuit.cell_ok_iff]
      simp only [Nat.add_sub_cancel]
      rw [grid_at_evolved_old _ _ _ (s + 1) (s + 1 + 1) hk2 (by omega), grid_at_put,
        if_pos ⟨rfl, rfl, by rw [hnew]; rfl⟩]
    · rw [QuantumCircuit.is_step_empty_eq _ (s + 1 + 1)
        (by simpa [evolved_length, grid_put_length] using hlen)
        (fun lane hl => by
          rw [evolved_lanes _ _ (s + 1 + 1) hk2 lane hl]; omega)]
      simp only
      rw [step_empty_evolved _ _ (s + 1 + 1) hk2]

/-- A `MultiGate` of size 1 added to a fresh one-qubit circuit lands in step
`0` and is followed by the empty step `1`. -/
theorem add_component_multi_witness :
    ∃ h' qc', demo_circuit.is_step_empty 0 = .ok true ∧
      demo_circuit.add_component demo_heap demo_multi_gate = .ok (h', qc') ∧
      qc'.total_steps = 1 ∧ qc'.cell 0 0 = .ok demo_multi_gate ∧
      qc'.is_step_empty 1 = .ok true := by
  obtain ⟨e, h', qc', T, h1, h2, h3, h4, h5, h6⟩ := add_component_multi demo_heap demo_circuit
    demo_multi_gate 0 (by unfold QuantumCircuit.wf; decide) rfl rfl (by decide)
    (by unfold QuantumCircuit.occupies; decide) rfl (by decide)
  have e1 : demo_circuit.is_step_empty 0 = .ok true := rfl
  have e2 : e = true := Except.ok.inj (h1.symm.trans e1)
  rw [e2] at h4
  simp only [if_true] at h4
  subst h4
  exact ⟨h', qc', e1, h2, h3, h5, h6⟩

/-- C3 at a failing input: `MultiGate(1, "G", M, 0)` with a `1 x 1` matrix is
accepted by the constructor, is not in the fresh one-qubit circuit and passes
the test of `add_component` that the gate is within the register
(`can_gate_fit(1)`, since `1 + 0 <= 1`). The claim has the call succeed and put
the gate in the cell `(1, 0)`; the code indexes the lane `components[1]`,
which the grid of one lane does not have. -/
theorem add_component_multi_outside_grid :
    QuantumCircuit.new { next := 1 } 1 = .ok (demo_heap, demo_circuit) ∧
    MultiGate.new 1 "G" (Matrix.of_grid [[1]]) 0 = .ok empty_multi ∧
    empty_multi_gate.obj.get_gate_type = "MultiGate" ∧
    ¬ demo_circuit.occupies empty_multi_gate ∧
    empty_multi_gate.obj.can_gate_fit demo_circuit.register_size = true ∧
    demo_circuit.add_component demo_heap empty_multi_gate = .error .undefined := by
  refine ⟨rfl, rfl, rfl, ?_, rfl, rfl⟩
  unfold QuantumCircuit.occupies
  decide

/-- What `add_component` checks: `add_component(g)` fails with the
duplicate-insertion error whenever the reference `g` occupies a cell of the
grid; it fails whenever `g.can_gate_fit(register_size)` is false (with the
does-not-fit error when `g` is not in the grid), which for a `SingleGate` means
`index >= register_size` and for a `MultiGate` or `ControlledGate` means that
the sum `index + gate_size`, taken modulo `2^64`, exceeds `register_size`; it
succeeds for a `SingleGate` that is not in the grid and fits, and for a
`MultiGate` or `ControlledGate` that is not in the grid, fits and has its index
below `register_size`. -/
theorem add_component_guards (h : Heap) (qc : QuantumCircuit R) (g : shared_ptr R)
    (hwf : qc.wf h) (hg : g.addr < h.next) :
    (qc.occupies g → qc.add_component h g = .error .DuplicateGateInsertion) ∧
    (g.obj.can_gate_fit qc.register_size = false → ∃ e, qc.add_component h g = .error e) ∧
    (¬ qc.occupies g → g.obj.can_gate_fit qc.register_size = false →
      qc.add_component h g = .error .GateDoesNotFit) ∧
    (∀ sg, g.obj = .single sg →
      (g.obj.can_gate_fit qc.register_size = false ↔ sg.qubit_index ≥ qc.register_size)) ∧
    (∀ mg, g.obj = .multi mg →
      (g.obj.can_gate_fit qc.register_size = false
        ↔ (mg.qubit_index + mg.gate_size) % size_modulus > qc.register_size)) ∧
    (∀ cg, g.obj = .controlled cg →
      (g.obj.can_gate_fit qc.register_size = false
        ↔ (cg.qubit_index + cg.gate_size) % size_modulus > qc.register_size)) ∧
    (∀ sg, g.obj = .single sg → ¬ qc.occupies g → g.obj.can_gate_fit qc.register_size = true →
      ∃ h' qc', qc.add_component h g = .ok (h', qc')) ∧
    (g.obj.get_gate_type = "MultiGate" → ¬ qc.occupies g →
      g.obj.can_gate_fit qc.register_size = true → g.obj.get_index < qc.register_size →
      ∃ h' qc', qc.add_component h g = .ok (h', qc')) := by
  have hlen := hwf.1
  have hs : qc.total_steps = ((qc.total_steps.toNat : Nat) : Int) :=
    (Int.toNat_of_nonneg hwf.2.1).symm
  refine ⟨QuantumCircuit.add_component_dup h qc g hlen, ?_,
    QuantumCircuit.add_component_nofit h qc g hlen, ?_, ?_, ?_, ?_, ?_⟩
  · intro hfit
    by_cases hocc : qc.occupies g
    · exact ⟨_, QuantumCircuit.add_component_dup h qc g hlen hocc⟩
    · exact ⟨_, QuantumCircuit.add_component_nofit h qc g hlen hocc hfit⟩
  · intro sg hobj
    simp [hobj, QuantumComponent.can_gate_fit, SingleGate.can_gate_fit]
  · intro mg hobj
    simp [hobj, QuantumComponent.can_gate_fit, MultiGate.can_gate_fit]
  · intro cg hobj
    simp [hobj, QuantumComponent.can_gate_fit, MultiGate.can_gate_fit]
  · intro sg hobj hnot hfit
    have hfit' : sg.qubit_index < qc.register_size := by
      simpa [hobj, QuantumComponent.can_gate_fit, SingleGate.can_gate_fit] using hfit
    have hk := QuantumCircuit.wf_steps h qc _ hwf hs
    have ha : sg.qubit_index < qc.components.length := by omega
    obtain ⟨c0, hc0⟩ := grid_at_isSome qc.components sg.qubit_index _ _ ha hk
      (Nat.lt_succ_self _)
    have hnew := grid_at_evolved_new h qc.components sg.qubit_index _ ha hk
    have hadd := QuantumCircuit.add_component_single_eq h qc g c0 sg _ hlen hs hobj hnot hg
      hfit' hc0 (by rw [hnew]; rfl)
    by_cases hI : c0.obj.get_symbol = "I"
    · rw [if_pos hI] at hadd
      exact ⟨_, _, hadd⟩
    · rw [if_neg hI] at hadd
      exact ⟨_, _, hadd⟩
  · intro ht hnot hfit ha
    have hk := QuantumCircuit.wf_steps h qc _ hwf hs
    have hadd := QuantumCircuit.add_component_multi_eq h qc g _ hlen hs hk ht hnot hg hfit ha
    by_cases he : step_empty qc.components qc.total_steps.toNat = true
    · rw [if_pos he] at hadd
      exact ⟨_, _, hadd⟩
    · rw [if_neg he] at hadd
      exact ⟨_, _, hadd⟩

/-- On the fresh one-qubit circuit, its own placeholder is rejected as a
duplicate, and an `X` gate on register `0` is accepted. -/
theorem add_component_guards_witness :
    demo_circuit.add_component demo_heap { addr := 1, obj := placeholder 0 }
        = .error .DuplicateGateInsertion ∧
      ∃ h' qc', demo_circuit.add_component demo_heap demo_gate = .ok (h', qc') := by
  have hwf : demo_circuit.wf demo_heap := by unfold QuantumCircuit.wf; decide
  refine ⟨(add_component_guards demo_heap demo_circuit { addr := 1, obj := placeholder 0 }
      hwf (by decide)).1 (by unfold QuantumCircuit.occupies; decide), ?_⟩
  exact (add_component_guards demo_heap demo_circuit demo_gate hwf (by decide)).2.2.2.2.2.2.1
    demo_x rfl (by unfold QuantumCircuit.occupies; decide) rfl

/-- The gate `MultiGate(1, "G", M, 0)` is not in the grid of the fresh one-qubit
circuit and `can_gate_fit(1)` is true, yet `add_component` does not succeed. -/
theorem add_component_guards_outside_grid :
    ¬ demo_circuit.occupies empty_multi_gate ∧
    empty_multi_gate.obj.can_gate_fit demo_circuit.register_size = true ∧
    ¬ ∃ h' qc', demo_circuit.add_component demo_heap empty_multi_gate = .ok (h', qc') := by
  refine ⟨by unfold QuantumCircuit.occupies; decide, rfl, ?_⟩
  rintro ⟨h', qc', hh⟩
  have e : demo_circuit.add_component demo_heap empty_multi_gate = .error .undefined := rfl
  rw [e] at hh
  exact Except.noConfusion hh

/-- C4 at a failing input: the gate `MultiGate(SIZE_MAX, "G", identity_matrix(2), 1)`
is not in the grid of the fresh one-qubit circuit, and its index plus its gate
size, `2^64`, exceeds the register size `1`: the claim has `add_component` fail
with the does-not-fit error. In the code the sum of `can_gate_fit` wraps around
to `0`, the test that the gate is within the register passes, and
`add_component` goes on to index the lane `components[SIZE_MAX]`, outside the
grid. -/
theorem add_component_fit_wraps :
    MultiGate.new (size_modulus - 1) "G" (idm 2) 1 = .ok far_multi ∧
    far_multi.qubit_index + far_multi.gate_size > demo_circuit.register_size ∧
    ¬ demo_circuit.occupies far_multi_gate ∧
    far_multi_gate.obj.can_gate_fit demo_circuit.register_size = true ∧
    demo_circuit.add_component demo_heap far_multi_gate = .error .undefined := by
  refine ⟨rfl, by decide, ?_, by decide, rfl⟩
  unfold QuantumCircuit.occupies
  decide

/-- C5: for a circuit with `total_steps = T >= 0`, `get_matrix()` is the ordered
product `get_matrix_at_step(T) * ... * get_matrix_at_step(1) * get_matrix_at_step(0)`,
the earlier steps standing on the right (and it fails exactly when that
product fails). -/
theorem get_matrix_ordered (qc : QuantumCircuit R) (T : Nat) (hT : qc.total_steps = (T : Int)) :
    qc.get_matrix = ordered_product qc T := by
  unfold QuantumCircuit.get_matrix for_range
  have e : (qc.total_steps + 1).toNat - 1 = T := by rw [hT]; omega
  rw [e]
  clear e hT
  induction T with
  | zero =>
    simp only [List.range'_zero, List.foldlM_nil, ordered_product]
    cases qc.get_matrix_at_step 0 <;> rfl
  | succ T ih =>
    rw [List.range'_concat, ordered_product, ← ih]
    simp only [List.foldlM_append, List.foldlM_cons, List.foldlM_nil, bind_pure, bind_assoc,
      Nat.one_mul, Nat.add_comm 1 T]

/-- Witness of C5 on a one-qubit circuit with two steps (`T = 1`) holding an
`X` gate each: the circuit matrix is `X * X`, the identity. -/
theorem get_matrix_ordered_witness :
    demo_circuit_xx.get_matrix = ordered_product demo_circuit_xx 1 ∧
      ordered_product demo_circuit_xx 1 = .ok (Matrix.of_grid [[1, 0], [0, 1]]) :=
  ⟨get_matrix_ordered demo_circuit_xx 1 rfl, rfl⟩

/-- C10: for every `2 x 2` matrix `U` with `U * U.adjoint()` the `2 x 2`
identity, every register size `n` and every anchor `a < n`, the matrix
`M = SingleGate(a, symbol, U).get_matrix(n)` exists and `M * M.adjoint()` is
`identity_matrix(2 ^ n)`. -/
theorem single_gate_unitary (U : Matrix R) (n a : Nat) (symbol : String)
    (_hr : U.rows = 2) (hc : U.cols = 2) (ha : a < n)
    (hU : (do let Ua ← U.adjoint; U.mul Ua) = identity_matrix 2) :
    ∃ M, ({ qubit_index := a, symbol := symbol, matrix := U } : SingleGate R).get_matrix_reg n
        = .ok M ∧
      (do let Ma ← M.adjoint; M.mul Ma) = identity_matrix (2 ^ n) := by
  have hUU : mmul U (adj U) = idm 2 := by
    rw [Matrix.adjoint_eq, identity_matrix_eq] at hU
    simp only [bind, Except.bind] at hU
    rw [Matrix.mul_eq U (adj U) rfl] at hU
    exact Except.ok.inj hU
  refine ⟨_, SingleGate.get_matrix_reg_single_eq _ n ha, ?_⟩
  rw [Matrix.adjoint_eq, identity_matrix_eq]
  simp only [bind, Except.bind]
  rw [Matrix.mul_eq _ _ rfl, embed_adj n a U (by omega),
    embed_mmul n a U (adj U) hc (by simpa using hc) (by omega), hUU,
    List.set_replicate_self, tfold_replicate_idm n (by omega)]

/-- Witness of C10: the Pauli-X matrix on register `1` of a two-qubit register. -/
theorem single_gate_unitary_witness :
    ∃ M, ({ qubit_index := 1, symbol := "X", matrix := demo_x_matrix } : SingleGate Int).get_matrix_reg 2
        = .ok M ∧
      (do let Ma ← M.adjoint; M.mul Ma) = identity_matrix (2 ^ 2) :=
  single_gate_unitary demo_x_matrix 2 1 "X" rfl rfl (by decide) rfl

/-- C6: in a register of `n >= 1` qubits, for a step in which the lane of its
anchor holds a `MultiGate` or `ControlledGate` `g` that fits, its footprint
ending inside the register (`index + gate_size <= n`, for which
`can_gate_fit(n)` holds; its matrix being `2 ^ gate_size` square, as the
constructors ensure), and every other lane `i` holds an identity placeholder
`IGate(i)`, `get_matrix_at_step(step)` succeeds and has the shape and the
entries of `g.get_matrix(n)`, and is that very value when the local matrix of
`g` satisfies the data-model invariant. A step that holds placeholders only has
`identity_matrix(2 ^ n)` as its matrix. -/
theorem step_matrix_multigate (qc : QuantumCircuit R) (step : Nat)
    (_hn : 1 ≤ qc.register_size) :
    (∀ (g : shared_ptr R) (mg : MultiGate R),
      g.obj.as_multi = some mg →
      mg.qubit_index + mg.gate_size ≤ qc.register_size →
      mg.matrix.rows = 2 ^ mg.gate_size → mg.matrix.cols = 2 ^ mg.gate_size →
      mg.qubit_index < qc.register_size →
      qc.cell mg.qubit_index step = .ok g →
      (∀ i, i < qc.register_size → i ≠ mg.qubit_index →
        ∃ p ig, qc.cell i step = .ok p ∧ IGate i = .ok ig ∧ p.obj = .single ig) →
      mg.can_gate_fit qc.register_size = true ∧
      ∃ S M, qc.get_matrix_at_step step = .ok S ∧
        g.obj.get_matrix_reg qc.register_size = .ok M ∧
        S.rows = M.rows ∧ S.cols = M.cols ∧ (∀ i j, S.get i j = M.get i j) ∧
        (mg.matrix.wf → S = M)) ∧
    ((∀ i, i < qc.register_size →
        ∃ p ig, qc.cell i step = .ok p ∧ IGate i = .ok ig ∧ p.obj = .single ig) →
      qc.get_matrix_at_step step = identity_matrix (2 ^ qc.register_size)) := by
  have hplace : ∀ i, i < qc.register_size → ∀ (p : shared_ptr R) (ig : SingleGate R),
      IGate i = .ok ig → p.obj = .single ig →
      p.obj.get_matrix_reg qc.register_size = .ok (idm (2 ^ qc.register_size)) := by
    intro i hi p ig hig hp
    rw [IGate_eq] at hig
    rw [hp, ← Except.ok.inj hig]
    exact IGate_embed i _ hi
  constructor
  · intro g mg hmg hfit' hr hc ha hcell hothers
    refine ⟨mg.can_gate_fit_of_le _ hfit', ?_⟩
    have hG : g.obj.get_matrix_reg qc.register_size = mg.get_matrix_reg qc.register_size := by
      cases hobj : g.obj with
      | single sg => rw [hobj] at hmg; exact absurd hmg (by simp [QuantumComponent.as_multi])
      | multi m =>
        rw [hobj] at hmg
        simp only [QuantumComponent.as_multi, Option.some.injEq] at hmg
        rw [← hmg]; rfl
      | controlled cg =>
        rw [hobj] at hmg
        simp only [QuantumComponent.as_multi, Option.some.injEq] at hmg
        rw [← hmg]; rfl
    rw [MultiGate.get_matrix_reg_multi_eq mg _ hfit'] at hG
    obtain ⟨sr, sc⟩ := embed_multi_shape qc.register_size mg.qubit_index mg.gate_size mg.matrix
      hfit' hr hc
    have hstep := QuantumCircuit.get_matrix_at_step_eq qc step mg.qubit_index _ sr sc (by
      intro i hi
      by_cases hia : i = mg.qubit_index
      · rw [if_pos hia, hia, hcell]
        exact hG
      · obtain ⟨p, ig, hp, hig, hobj⟩ := hothers i hi hia
        rw [if_neg hia, hp]
        exact hplace i hi p ig hig hobj)
    rw [if_pos ha] at hstep
    refine ⟨_, _, hstep, hG, rfl, by rw [mmul_cols, idm_cols, sc], ?_, ?_⟩
    · intro i j
      unfold Matrix.get
      simp only [mmul_rows, mmul_cols, idm_cols, sc]
      by_cases hij : i ≥ (tfold ((List.replicate (qc.register_size - mg.gate_size + 1)
          (idm 2)).set mg.qubit_index mg.matrix)).rows ∨ j ≥ 2 ^ qc.register_size
      · rw [if_pos hij, if_pos hij]
      · rw [if_neg hij, if_neg hij]
        simp only [not_or, not_le] at hij
        rw [mmul_idm_raw _ _ sc i j hij.1 hij.2]
    · intro hwf
      apply mmul_idm _ _ _ sc
      apply tfold_ne_nil_wf _ _ (ne_nil_of_length_pos _ (by simp))
      intro m hm
      rcases List.mem_or_eq_of_mem_set hm with h | h
      · rw [List.eq_of_mem_replicate h]; exact idm_wf 2
      · rw [h]; exact hwf
  · intro hall
    have hstep := QuantumCircuit.get_matrix_at_step_eq qc step qc.register_size
      (idm (2 ^ qc.register_size)) rfl rfl (by
      intro i hi
      obtain ⟨p, ig, hp, hig, hobj⟩ := hall i hi
      rw [if_neg (by omega), hp]
      exact hplace i hi p ig hig hobj)
    rw [if_neg (Nat.lt_irrefl _)] at hstep
    rw [hstep, identity_matrix_eq]

/-- Witness of C6: a step of a two-qubit circuit with a `MultiGate` of size 1 on
lane `0` and a placeholder on lane `1`. -/
theorem step_matrix_multigate_witness :
    ∃ S, demo_circuit_m.get_matrix_at_step 0 = .ok S ∧
      demo_multi_gate.obj.get_matrix_reg 2 = .ok S := by
  obtain ⟨_, S, M, h1, h2, _, _, _, h6⟩ :=
    (step_matrix_multigate demo_circuit_m 0 (by decide)).1 demo_multi_gate demo_multi rfl
      (by decide) rfl rfl (by decide) rfl (by
        intro i hi hne
        have hi' : i < 2 := hi
        have hne' : i ≠ 0 := hne
        have e : i = 1 := by omega
        subst e
        exact ⟨_, _, rfl, rfl, rfl⟩)
  have hwf : demo_multi.matrix.wf := by unfold Matrix.wf; decide
  rw [← h6 hwf] at h2
  exact ⟨S, h1, h2⟩

/-- C9: for every register size `n`, every `2 x 2` matrix `U` and every control
`c` and target `t` with `c != t`, `c < n` and `t < n`, the `get_matrix(n)` of the
`ControlledGate` (its footprint matrix placed among `n - footprint + 1` slots
and folded) exists and is the value of the full-register expansion
`perform_tensor_product(P0) + perform_tensor_product(P1)`. -/
theorem controlled_embedding_refines (n c t : Nat) (U : Matrix R) (symbol : String)
    (hr : U.rows = 2) (hc : U.cols = 2) (hne : c ≠ t) (hcn : c < n) (htn : t < n) :
    ∃ (g : ControlledGate R) (M : Matrix R),
      ControlledGate.new { qubit_index := t, symbol := symbol, matrix := U } c = .ok g ∧
      (QuantumComponent.controlled g).get_matrix_reg n = .ok M ∧
      full_register_expansion n c t U = .ok M := by
  have hk : min c t + (Int.natAbs ((c : Int) - (t : Int)) + 1) ≤ n := by omega
  have hrc : c - min c t < Int.natAbs ((c : Int) - (t : Int)) + 1 := by omega
  have hrt : t - min c t < Int.natAbs ((c : Int) - (t : Int)) + 1 := by omega
  have ec : c = min c t + (c - min c t) := by omega
  have et : t = min c t + (t - min c t) := by omega
  have hnew := ControlledGate.new_eq
    ({ qubit_index := t, symbol := symbol, matrix := U } : SingleGate R) c hne
  simp only at hnew
  rw [get_controlled_matrix_ok c t U hr hc] at hnew
  refine ⟨_, _, hnew, MultiGate.get_matrix_reg_multi_eq _ n hk, ?_⟩
  · rw [full_register_expansion_eq n c t U hr hc hcn htn]
    simp only
    rw [set_replicate_eq _ (min c t) _ _ (by omega),
      controlled_embed _ _ _ _ _ U (Nat.succ_pos _) hr hc]
    have e0 := full_slots0 (R := R) n (min c t) (Int.natAbs ((c : Int) - (t : Int)) + 1)
      (c - min c t) hk hrc
    have e1 := full_slots1 n (min c t) (Int.natAbs ((c : Int) - (t : Int)) + 1)
      (c - min c t) (t - min c t) U hk hrc hrt
    rw [← ec] at e0 e1
    rw [← et] at e1
    have el : n - (Int.natAbs ((c : Int) - (t : Int)) + 1) + 1 - min c t - 1
        = n - min c t - (Int.natAbs ((c : Int) - (t : Int)) + 1) := by omega
    rw [e0, e1, el]

/-- Witness of C9: the controlled `X` with control `0` and target `1` in a
register of two qubits. -/
theorem controlled_embedding_refines_witness :
    ∃ (g : ControlledGate Int) (M : Matrix Int),
      ControlledGate.new { qubit_index := 1, symbol := "X", matrix := demo_x_matrix } 0 = .ok g ∧
      (QuantumComponent.controlled g).get_matrix_reg 2 = .ok M ∧
      full_register_expansion 2 0 1 demo_x_matrix = .ok M :=
  controlled_embedding_refines 2 0 1 demo_x_matrix "X" rfl rfl (by decide) (by decide)
    (by decide)

/-- C7: for every `2 x 2` matrix `U`, control `c` and target `t` with `c != t`,
footprint `k = |c - t| + 1`, relative positions `rc = c - min(c, t)` and
`rt = t - min(c, t)`, and every register of `k` values `b`, the local matrix
`L` of the `ControlledGate` satisfies `L * ket(b) = ket(b)` when `b[rc] = 0` and
`L * ket(b) = E * ket(b)` when `b[rc] = 1`, where `ket` is
`calculate_matrix_for_register` and `E` is `perform_tensor_product` of `k` slots
holding `U` at `rt` and the `2 x 2` identity elsewhere. -/
theorem controlled_gate_semantics (U : Matrix R) (c t : Nat) (symbol : String) (b : List Int)
    (hr : U.rows = 2) (hc : U.cols = 2) (hne : c ≠ t)
    (hb : (b.length : Int) = |(c : Int) - (t : Int)| + 1) :
    ∃ (g : ControlledGate R) (K : Matrix R),
      ControlledGate.new { qubit_index := t, symbol := symbol, matrix := U } c = .ok g ∧
      calculate_matrix_for_register b = .ok K ∧
      (b[c - min c t]? = some 0 → g.matrix.mul K = .ok K) ∧
      (b[c - min c t]? = some 1 →
        ∃ I2 E EK, identity_matrix 2 = .ok I2 ∧
          perform_tensor_product ((List.replicate b.length I2).set (t - min c t) U) = .ok E ∧
          E.mul K = .ok EK ∧ g.matrix.mul K = .ok EK) := by
  have hk : Int.natAbs ((c : Int) - (t : Int)) + 1 = b.length := by
    have := Int.natCast_natAbs ((c : Int) - (t : Int))
    omega
  have hpos : 0 < b.length := by omega
  have hrc : c - min c t < b.length := by omega
  have hrt : c - min c t ≠ t - min c t := by omega
  have hnew := ControlledGate.new_eq
    ({ qubit_index := t, symbol := symbol, matrix := U } : SingleGate R) c hne
  simp only at hnew
  rw [get_controlled_matrix_ok c t U hr hc, hk] at hnew
  have ks := kets_fold_shape (R := R) b hpos
  have hL : (madd (tfold (slots0 b.length (c - min c t)))
      (tfold (slots1 b.length (c - min c t) (t - min c t) U))).cols
      = (tfold (b.map ketf : List (Matrix R))).rows := by
    rw [madd_cols, tfold_cols_two _ (ne_nil_of_length_pos _ (by rw [slots0_length]; exact hpos))
      (fun m hm => (slots0_shape _ _ m hm).2), slots0_length, ks.2.1]
  obtain ⟨a0, a1⟩ := controlled_apply b (c - min c t) (t - min c t) U hpos hrc hrt hr hc
  refine ⟨_, _, hnew, calculate_matrix_for_register_eq b (ne_nil_of_length_pos _ hpos), ?_, ?_⟩
  · intro hbit
    simp only [bind, Except.bind, pure, Except.pure]
    rw [Matrix.mul_eq _ _ hL, a0 hbit]
  · intro hbit
    have hne' : (List.replicate b.length (idm 2 : Matrix R)).set (t - min c t) U ≠ [] :=
      ne_nil_of_length_pos _ (by simp; exact hpos)
    have hE : (tfold ((List.replicate b.length (idm 2)).set (t - min c t) U)).cols
        = (tfold (b.map ketf : List (Matrix R))).rows := by
      rw [tfold_cols_two _ hne' (fun m hm => (target_slots_shape _ _ U hr hc m hm).2), ks.2.1]
      simp
    refine ⟨idm 2, _, _, identity_matrix_eq 2, perform_tensor_product_eq _ hne',
      Matrix.mul_eq _ _ hE, ?_⟩
    simp only [bind, Except.bind, pure, Except.pure]
    rw [Matrix.mul_eq _ _ hL, a1 hbit]

/-- Witness of C7: the controlled `X` with control `0` and target `1` on the
register `[1, 0]`, whose control bit is `1`: the target bit is flipped. -/
theorem controlled_gate_semantics_witness :
    ∃ (g : ControlledGate Int) (K E EK : Matrix Int),
      ControlledGate.new { qubit_index := 1, symbol := "X", matrix := demo_x_matrix } 0 = .ok g ∧
      calculate_matrix_for_register [1, 0] = .ok K ∧
      perform_tensor_product ((List.replicate 2 (Matrix.of_grid [[1, 0], [0, 1]])).set 1
        demo_x_matrix) = .ok E ∧
      E.mul K = .ok EK ∧ g.matrix.mul K = .ok EK := by
  obtain ⟨g, K, h1, h2, _, h4⟩ := controlled_gate_semantics demo_x_matrix 0 1 "X" [1, 0] rfl rfl
    (by decide) (by decide)
  obtain ⟨I2, E, EK, h5, h6, h7, h8⟩ := h4 rfl
  have e : I2 = Matrix.of_grid [[1, 0], [0, 1]] := by
    have : (identity_matrix 2 : Except Error (Matrix Int))
        = .ok (Matrix.of_grid [[1, 0], [0, 1]]) := rfl
    rw [this] at h5
    exact (Except.ok.inj h5).symm
  rw [e] at h6
  exact ⟨g, K, E, EK, h1, h2, h6, h7, h8⟩

/-- C16 at a failing input: for `g = MultiGate(SIZE_MAX, "G", identity_matrix(2), 1)`
the anchor index plus the footprint, `2^64`, exceeds the register size `1`, and
the claim has `g.get_matrix(1)` fail as a gate that does not fit. In the code
the sum of `can_gate_fit` wraps around to `0` and the test passes;
`get_matrix(1)` builds one slot and assigns to `matrices[SIZE_MAX]`, outside
the vector: it does not throw the does-not-fit error. -/
theorem get_matrix_fit_wraps :
    far_multi.qubit_index + far_multi.gate_size > 1 ∧
    (QuantumComponent.multi far_multi).can_gate_fit 1 = true ∧
    (QuantumComponent.multi far_multi).get_matrix_reg 1 = .error .undefined ∧
    (QuantumComponent.multi far_multi).get_matrix_reg 1 ≠ .error .GateDoesNotFit := by
  refine ⟨by decide, by decide, rfl, ?_⟩
  have e : (QuantumComponent.multi far_multi).get_matrix_reg 1 = .error .undefined := rfl
  rw [e]
  intro hh
  exact Error.noConfusion (Except.error.inj hh)

/-- Where the sum `index + gate_size` does not wrap around,
`get_matrix(register_size)` fails exactly when the anchor index plus the
footprint exceeds the register size, the footprint being `1` for a
`SingleGate` and `gate_size` for a `MultiGate` or a `ControlledGate`;
otherwise it returns a matrix. The failure is the one reported for a gate
that does not fit. -/
theorem get_matrix_fits_exact (n : Nat) :
    (∀ g : SingleGate R,
      ((∃ e, (QuantumComponent.single g).get_matrix_reg n = .error e) ↔ g.qubit_index + 1 > n) ∧
      (g.qubit_index + 1 > n →
        (QuantumComponent.single g).get_matrix_reg n = .error .GateDoesNotFit) ∧
      (¬ g.qubit_index + 1 > n → ∃ M, (QuantumComponent.single g).get_matrix_reg n = .ok M)) ∧
    (∀ g : MultiGate R, g.qubit_index + g.gate_size < size_modulus →
      ((∃ e, (QuantumComponent.multi g).get_matrix_reg n = .error e)
        ↔ g.qubit_index + g.gate_size > n) ∧
      (g.qubit_index + g.gate_size > n →
        (QuantumComponent.multi g).get_matrix_reg n = .error .GateDoesNotFit) ∧
      (¬ g.qubit_index + g.gate_size > n →
        ∃ M, (QuantumComponent.multi g).get_matrix_reg n = .ok M)) ∧
    (∀ g : ControlledGate R, g.qubit_index + g.gate_size < size_modulus →
      ((∃ e, (QuantumComponent.controlled g).get_matrix_reg n = .error e)
        ↔ g.qubit_index + g.gate_size > n) ∧
      (g.qubit_index + g.gate_size > n →
        (QuantumComponent.controlled g).get_matrix_reg n = .error .GateDoesNotFit) ∧
      (¬ g.qubit_index + g.gate_size > n →
        ∃ M, (QuantumComponent.controlled g).get_matrix_reg n = .ok M)) := by
  have hs : ∀ g : SingleGate R, g.qubit_index + 1 > n → g.get_matrix_reg n = .error .GateDoesNotFit :=
    fun g h => SingleGate.get_matrix_reg_single_nofit g n (by omega)
  have hs' : ∀ g : SingleGate R, ¬ g.qubit_index + 1 > n → ∃ M, g.get_matrix_reg n = .ok M :=
    fun g h => ⟨_, SingleGate.get_matrix_reg_single_eq g n (by omega)⟩
  have hm : ∀ g : MultiGate R, g.qubit_index + g.gate_size < size_modulus →
      g.qubit_index + g.gate_size > n → g.get_matrix_reg n = .error .GateDoesNotFit :=
    fun g hw h => MultiGate.get_matrix_reg_multi_nofit g n hw (by omega)
  have hm' : ∀ g : MultiGate R, ¬ g.qubit_index + g.gate_size > n →
      ∃ M, g.get_matrix_reg n = .ok M :=
    fun g h => ⟨_, MultiGate.get_matrix_reg_multi_eq g n (by omega)⟩
  refine ⟨fun g => ⟨⟨?_, fun h => ⟨_, hs g h⟩⟩, hs g, hs' g⟩,
    fun g hw => ⟨⟨?_, fun h => ⟨_, hm g hw h⟩⟩, hm g hw, hm' g⟩,
    fun g hw => ⟨⟨?_, fun h => ⟨_, hm g.toMultiGate hw h⟩⟩, hm g.toMultiGate hw,
      hm' g.toMultiGate⟩⟩
  · rintro ⟨e, he⟩
    by_contra hcon
    obtain ⟨M, hM⟩ := hs' g hcon
    simp only [QuantumComponent.get_matrix_reg] at he
    rw [hM] at he
    cases he
  · rintro ⟨e, he⟩
    by_contra hcon
    obtain ⟨M, hM⟩ := hm' g hcon
    simp only [QuantumComponent.get_matrix_reg] at he
    rw [hM] at he
    cases he
  · rintro ⟨e, he⟩
    by_contra hcon
    obtain ⟨M, hM⟩ := hm' g.toMultiGate hcon
    simp only [QuantumComponent.get_matrix_reg] at he
    rw [hM] at he
    cases he

/-- C17 at a failing input: `MultiGate(0, "M", Matrix(1, 1), 32)`. The matrix has
one row and `2^32` is not `1`, so the claim has the constructor fail. In the
code `1<<32` shifts a 32-bit `int` by its width: the value that is compared
with `get_rows()` is not `2^32`, it is not defined at all, and the constructor
does not throw the invalid-configuration error. For the gate size `31` the
shift gives `INT_MIN`, and the constructor rejects the matrix whatever its
size below `2^31`. -/
theorem multigate_constructor_shift :
    (Matrix.init 1 1 : Matrix Int).rows ≠ 2 ^ 32 ∧
    shift_one 32 = .error .undefined ∧
    MultiGate.new 0 "M" (Matrix.init 1 1 : Matrix Int) 32 = .error .undefined ∧
    MultiGate.new 0 "M" (Matrix.init 1 1 : Matrix Int) 32 ≠ .error .InvalidGateConfiguration ∧
    shift_one 31 = .ok (2 ^ 64 - 2 ^ 31) := by
  refine ⟨by decide, rfl, rfl, ?_, rfl⟩
  have e : MultiGate.new 0 "M" (Matrix.init 1 1 : Matrix Int) 32 = .error .undefined := rfl
  rw [e]
  intro hh
  exact Error.noConfusion (Except.error.inj hh)

/-- The constructor of `MultiGate` for a gate size `k <= 30`, where the shift
`1<<k` is `2^k`: `MultiGate(index, symbol, M, k)` fails exactly when
`M.rows != 2^k` or `M.cols != 2^k`; when it succeeds the gate has gate size `k`
and local matrix `M` (and the index and symbol given). -/
theorem multigate_constructor_small (index : Nat) (symbol : String) (M : Matrix R) (k : Nat)
    (hk : k ≤ 30) :
    ((∃ e, MultiGate.new index symbol M k = .error e) ↔ (M.rows ≠ 2 ^ k ∨ M.cols ≠ 2 ^ k)) ∧
    (∀ g, MultiGate.new index symbol M k = .ok g →
      g.gate_size = k ∧ (QuantumComponent.multi g).get_matrix = M ∧
      g.qubit_index = index ∧ g.symbol = symbol) ∧
    (¬ (M.rows ≠ 2 ^ k ∨ M.cols ≠ 2 ^ k) → ∃ g, MultiGate.new index symbol M k = .ok g) := by
  have hs : shift_one k = .ok (2 ^ k) := by
    unfold shift_one
    rw [if_pos hk]
  unfold MultiGate.new
  rw [if_neg (fun hh => by have := hh.1; omega)]
  simp only [hs, bind, Except.bind]
  by_cases h : 2 ^ k ≠ M.rows ∨ 2 ^ k ≠ M.cols
  · have h' : M.rows ≠ 2 ^ k ∨ M.cols ≠ 2 ^ k := h.imp Ne.symm Ne.symm
    rw [if_pos h]
    refine ⟨⟨fun _ => h', fun _ => ⟨_, rfl⟩⟩, ?_, fun hn => absurd h' hn⟩
    intro g hg
    cases hg
  · have h' : ¬ (M.rows ≠ 2 ^ k ∨ M.cols ≠ 2 ^ k) := fun hh => h (hh.imp Ne.symm Ne.symm)
    rw [if_neg h]
    refine ⟨⟨?_, fun hh => absurd hh h'⟩, ?_, fun _ => ⟨_, rfl⟩⟩
    · rintro ⟨e, he⟩
      cases he
    · intro g hg
      cases hg
      exact ⟨rfl, rfl, rfl, rfl⟩

/-- The constructor of `MultiGate` accepts the `2 x 2` identity with gate size `1`. -/
theorem multigate_constructor_small_witness :
    ∃ g, MultiGate.new 0 "M" (idm 2 : Matrix Int) 1 = .ok g ∧ g.gate_size = 1 := by
  obtain ⟨g, hg⟩ := (multigate_constructor_small 0 "M" (idm 2 : Matrix Int) 1 (by decide)).2.2
    (by decide)
  exact ⟨g, hg, ((multigate_constructor_small 0 "M" (idm 2 : Matrix Int) 1 (by decide)).2.1
    g hg).1⟩

/-- C19. `A * B` fails exactly when `A.cols != B.rows`; otherwise the result
has `A.rows` rows and `B.cols` columns and its entry `(i, j)` is the sum over
`k < A.cols` of `A(i, k) * B(k, j)`, every factor read by the checked
`operator()`. -/
theorem mul_entries (A B : Matrix R) :
    ((∃ e, A.mul B = .error e) ↔ A.cols ≠ B.rows) ∧
    (A.cols = B.rows → ∃ T, A.mul B = .ok T ∧ T.rows = A.rows ∧ T.cols = B.cols ∧
      ∀ i j, i < A.rows → j < B.cols →
        (∀ k, k < A.cols → A.get i k = .ok (A.raw i k) ∧ B.get k j = .ok (B.raw k j)) ∧
        T.get i j = .ok (∑ k in Finset.range A.cols, A.raw i k * B.raw k j)) := by
  constructor
  · constructor
    · rintro ⟨e, he⟩ h
      rw [Matrix.mul_eq A B h] at he
      cases he
    · intro h
      exact ⟨_, Matrix.mul_shape_error A B h⟩
  · intro h
    refine ⟨mmul A B, Matrix.mul_eq A B h, rfl, rfl, ?_⟩
    intro i j hi hj
    refine ⟨fun k hk => ⟨Matrix.get_eq_raw A i k hi hk, Matrix.get_eq_raw B k j (h ▸ hk) hj⟩, ?_⟩
    rw [Matrix.get_eq_raw _ _ _ (by simpa using hi) (by simpa using hj), mmul_raw A B i j hi hj]

/-- C18 at a failing input: on a fresh circuit of one register the call
`set_input_register({2})` succeeds and stores `[2]`, an entry that is neither
`0` nor `1`; after it the valid call `set_input_register({0})` fails, because
the loop validates the stored register and not the argument. -/
theorem set_input_register_validates_member :
    ∃ (hp : Heap) (qc qc' : QuantumCircuit Int),
      QuantumCircuit.new { next := 0 } 1 = .ok (hp, qc) ∧
      qc.set_input_register [2] = .ok qc' ∧ qc'.input_register = [2] ∧
      qc'.set_input_register [0] = .error .InputRegisterMismatch :=
  ⟨_, _, _, rfl, rfl, rfl, rfl⟩

/-- What `operator==` decides: `A == B` is `false` when the shapes differ; for
equal shapes and entries whose real and imaginary parts differ by less than
`2^31`, it is `true` exactly when, for every entry, the real parts differ by
less than `1` and the imaginary parts differ by less than `1`. -/
theorem equals_below_one {K : Type} [LinearOrderedField K] (A B : Matrix (Cplx K)) :
    ((A.rows ≠ B.rows ∨ A.cols ≠ B.cols) → A.equals B = .ok false) ∧
    (A.rows = B.rows → A.cols = B.cols →
      (∀ i j, i < A.rows → j < A.cols →
        |(A.raw i j).re - (B.raw i j).re| < 2 ^ 31 ∧
          |(A.raw i j).im - (B.raw i j).im| < 2 ^ 31) →
      ∃ r, A.equals B = .ok r ∧
        (r = true ↔ ∀ i j, i < A.rows → j < A.cols →
          ∃ a b, A.get i j = .ok a ∧ B.get i j = .ok b ∧
            |a.re - b.re| < 1 ∧ |a.im - b.im| < 1)) := by
  constructor
  · intro h
    unfold Matrix.equals
    rw [if_pos h]
    rfl
  · intro hr hc hb
    refine ⟨_, Matrix.equals_eq A B hr hc hb, ?_⟩
    rw [Bool.not_eq_true', List.any_eq_false]
    constructor
    · intro h i j hi hj
      have h1 := h i (List.mem_range.2 hi)
      rw [Bool.not_eq_true, List.any_eq_false] at h1
      have h2 := h1 j (List.mem_range.2 hj)
      rw [decide_eq_true_eq, not_or, not_le, not_le] at h2
      exact ⟨_, _, Matrix.get_eq_raw A i j hi hj, Matrix.get_eq_raw B i j (hr ▸ hi) (hc ▸ hj),
        h2⟩
    · intro h i hi
      rw [Bool.not_eq_true, List.any_eq_false]
      intro j hj
      obtain ⟨a, b, ha, hb, hab⟩ := h i j (List.mem_range.1 hi) (List.mem_range.1 hj)
      rw [Matrix.get_eq_raw A i j (List.mem_range.1 hi) (List.mem_range.1 hj)] at ha
      rw [Matrix.get_eq_raw B i j (hr ▸ List.mem_range.1 hi) (hc ▸ List.mem_range.1 hj)] at hb
      cases ha
      cases hb
      rw [decide_eq_true_eq, not_or, not_le, not_le]
      exact hab

/-- C20 at a failing input: the `1 x 1` matrices `A = (0.5)` and `B = (0)` have
the same shape and their real parts differ by `0.5`, more than `1e-10`, so the
claim has `A == B` false. In the code `abs` is `int abs(int)`: the difference
`0.5` is truncated to `0`, which does not exceed `tol`, and `A == B` is
`true`. -/
theorem equals_truncates_difference :
    half_matrix.rows = null_matrix.rows ∧ half_matrix.cols = null_matrix.cols ∧
    |(half_matrix.raw 0 0).re - (null_matrix.raw 0 0).re| > 1 / 10 ^ 10 ∧
    half_matrix.equals null_matrix = .ok true := by
  have hraw : (half_matrix.raw 0 0).re - (null_matrix.raw 0 0).re = 1 / 2 := by
    show (1 / 2 : ℚ) - 0 = 1 / 2
    norm_num
  refine ⟨rfl, rfl, ?_, ?_⟩
  · rw [hraw]
    norm_num [abs_of_pos]
  · obtain ⟨r, hr, hiff⟩ := (equals_below_one half_matrix null_matrix).2 rfl rfl (by
      intro i j hi hj
      have hi0 : i = 0 := by
        have : i < 1 := hi
        omega
      have hj0 : j = 0 := by
        have : j < 1 := hj
        omega
      subst hi0
      subst hj0
      rw [hraw]
      refine ⟨by norm_num [abs_of_pos], ?_⟩
      show |(0 : ℚ) - 0| < 2 ^ 31
      norm_num)
    rw [hr]
    congr 1
    rw [hiff]
    intro i j hi hj
    have hi0 : i = 0 := by
      have : i < 1 := hi
      omega
    have hj0 : j = 0 := by
      have : j < 1 := hj
      omega
    subst hi0
    subst hj0
    refine ⟨⟨1 / 2, 0⟩, ⟨0, 0⟩, rfl, rfl, ?_, ?_⟩
    · show |(1 / 2 : ℚ) - 0| < 1
      norm_num [abs_of_pos]
    · show |(0 : ℚ) - 0| < 1
      norm_num

/-- C12. For every 2-bit input register `[a, b]`, the circuit built as in
`check_swap` (a `QuantumCircuit(2)`, then `add_component(swap(0, 1))`, then
`set_input_register([a, b])`) has `get_final_state()` equal to
`calculate_matrix_for_register([b, a])`. -/
theorem swap_two_qubits (hp : Heap) (a b : Int) (ha : a = 0 ∨ a = 1) (hb : b = 0 ∨ b = 1) :
    ∃ S : Matrix R, calculate_matrix_for_register [b, a] = .ok S ∧
      (do
        let (hp, qc) ← QuantumCircuit.new hp 2
        let (hp, g) ← DerivedGates.swap hp 0 1
        let (_, qc) ← qc.add_component hp g
        let qc ← qc.set_input_register [a, b]
        qc.get_final_state) = (.ok S : Except Error (Matrix R)) := by
  refine ⟨_, calculate_matrix_for_register_eq [b, a] (by simp), ?_⟩
  have hbits : ∀ v ∈ [a, b], v = 0 ∨ v = 1 := by
    intro v hv
    simp only [List.mem_cons, List.mem_singleton, List.not_mem_nil, or_false] at hv
    rcases hv with rfl | rfl
    · exact ha
    · exact hb
  exact swap_final_state hp 2 0 1 [a, b] (by decide) (by decide) (by decide) rfl hbits

/-- Witness of C12: the register `[1, 0]` leaves `swap(0, 1)` as `[0, 1]`. -/
theorem swap_two_qubits_witness :
    ((1 : Int) = 0 ∨ (1 : Int) = 1) ∧ ((0 : Int) = 0 ∨ (0 : Int) = 1) ∧
    ∃ S : Matrix Int, calculate_matrix_for_register [0, 1] = .ok S ∧
      (do
        let (hp, qc) ← QuantumCircuit.new { next := 0 } 2
        let (hp, g) ← DerivedGates.swap hp 0 1
        let (_, qc) ← qc.add_component hp g
        let qc ← qc.set_input_register [1, 0]
        qc.get_final_state) = (.ok S : Except Error (Matrix Int)) :=
  ⟨by decide, by decide, swap_two_qubits { next := 0 } 1 0 (by decide) (by decide)⟩

/-- C13. For every register size `n`, every pair of distinct indices
`i, j < n` and every `n`-bit input register `b`, a `QuantumCircuit(n)` to which
only `swap(i, j)` was added and whose input register is `b` has
`get_final_state()` equal to `calculate_matrix_for_register(b')`, where `b'` is
`b` with the entries at positions `i` and `j` exchanged. -/
theorem swap_exchanges_entries (hp : Heap) (n i j : Nat) (b : List Int) (hij : i ≠ j)
    (hi : i < n) (hj : j < n) (hb : b.length = n) (hbits : ∀ v ∈ b, v = 0 ∨ v = 1) :
    ∃ S : Matrix R,
      calculate_matrix_for_register ((b.set i (b.getD j 0)).set j (b.getD i 0)) = .ok S ∧
      (do
        let (hp, qc) ← QuantumCircuit.new hp n
        let (hp, g) ← DerivedGates.swap hp i j
        let (_, qc) ← qc.add_component hp g
        let qc ← qc.set_input_register b
        qc.get_final_state) = (.ok S : Except Error (Matrix R)) := by
  refine ⟨_, calculate_matrix_for_register_eq _ ?_, swap_final_state hp n i j b hij hi hj hb hbits⟩
  apply ne_nil_of_length_pos
  rw [List.length_set, List.length_set]
  omega

/-- Witness of C13: `swap(2, 0)` in a register of three qubits takes `[1, 0, 0]`
to `[0, 0, 1]`. -/
theorem swap_exchanges_entries_witness :
    ∃ S : Matrix Int,
      calculate_matrix_for_register [0, 0, 1] = .ok S ∧
      (do
        let (hp, qc) ← QuantumCircuit.new { next := 0 } 3
        let (hp, g) ← DerivedGates.swap hp 2 0
        let (_, qc) ← qc.add_component hp g
        let qc ← qc.set_input_register [1, 0, 0]
        qc.get_final_state) = (.ok S : Except Error (Matrix Int)) :=
  swap_exchanges_entries { next := 0 } 3 2 0 [1, 0, 0] (by decide) (by decide) (by decide) rfl
    (by decide)

/-- The Toffoli circuit over exact scalars, an ordered field in which the
value of `sqrt(2)` squares to `2`: for every 3-bit input register `[a, b, c]`,
the circuit built as in `check_toffoli` (a `QuantumCircuit(3)`, then
`add_component(toffoli(2, 0, 1))`, then `set_input_register([a, b, c])`) has
`get_final_state()` equal to
`calculate_matrix_for_register([a, b, c XOR (a AND b)])`: the target bit
changes, to `1 - c`, only when both control bits are `1`, and the state has the
amplitude `1` in one row and `0` in all the others. The `double`s of a run are
no such field: the rounded `sqrt(2)` does not square to `2`, and this theorem
does not give the amplitudes that a run computes. -/
theorem toffoli_truth_table {K : Type} [LinearOrderedField K] [Sqrt2 K] (hp : Heap)
    (hs : (Sqrt2.sqrt2 : K) * Sqrt2.sqrt2 = 2) (a b c : Int)
    (ha : a = 0 ∨ a = 1) (hb : b = 0 ∨ b = 1) (hc : c = 0 ∨ c = 1) :
    ∃ S : Matrix (Cplx K),
      calculate_matrix_for_register [a, b, Int.xor c (Int.land a b)] = .ok S ∧
      (do
        let (hp, qc) ← QuantumCircuit.new hp 3
        let (hp, g) ← DerivedGates.toffoli hp 2 0 1
        let (_, qc) ← qc.add_component hp g
        let qc ← qc.set_input_register [a, b, c]
        qc.get_final_state) = (.ok S : Except Error (Matrix (Cplx K))) ∧
      Int.xor c (Int.land a b) = (if a = 1 ∧ b = 1 then 1 - c else c) ∧
      ∃ k, k < 8 ∧ S.get k 0 = .ok 1 ∧ ∀ i, i < 8 → i ≠ k → S.get i 0 = .ok 0 := by
  have hx : Int.xor c (Int.land a b) = 0 ∨ Int.xor c (Int.land a b) = 1 := by
    rcases ha with rfl | rfl <;> rcases hb with rfl | rfl <;> rcases hc with rfl | rfl <;> decide
  refine ⟨_, calculate_matrix_for_register_eq _ (by simp),
    toffoli_final_state hp hs a b c ha hb hc, ?_, basis_amplitudes a b _ ha hb hx⟩
  rcases ha with rfl | rfl <;> rcases hb with rfl | rfl <;> rcases hc with rfl | rfl <;> decide

/-- Over the real numbers, with `sqrt(2)` the real square root of `2`, the
input `[1, 1, 0]` leaves the Toffoli gate as `[1, 1, 1]`. -/
theorem toffoli_truth_table_witness :
    letI : Sqrt2 ℝ := ⟨Real.sqrt 2⟩
    (Sqrt2.sqrt2 : ℝ) * Sqrt2.sqrt2 = 2 ∧
    ∃ S : Matrix (Cplx ℝ),
      calculate_matrix_for_register [1, 1, 1] = .ok S ∧
      (do
        let (hp, qc) ← QuantumCircuit.new { next := 0 } 3
        let (hp, g) ← DerivedGates.toffoli hp 2 0 1
        let (_, qc) ← qc.add_component hp g
        let qc ← qc.set_input_register [1, 1, 0]
        qc.get_final_state) = (.ok S : Except Error (Matrix (Cplx ℝ))) := by
  letI : Sqrt2 ℝ := ⟨Real.sqrt 2⟩
  have hs : (Sqrt2.sqrt2 : ℝ) * Sqrt2.sqrt2 = 2 := Real.mul_self_sqrt (by norm_num)
  obtain ⟨S, h1, h2, _⟩ := toffoli_truth_table { next := 0 } hs 1 1 0 (by decide) (by decide)
    (by decide)
  exact ⟨hs, S, h1, h2⟩

/-- C15. The circuit of `check_hadamard` (a `QuantumCircuit(1)` to which only
`h(0)` was added, with the default input register `[0]`) has a final state that
`operator==` finds equal to the `2 x 1` column `(1/sqrt(2), 1/sqrt(2))` built as
in `check_hadamard`. The scalars are an ordered field, and `sqrt(2)` is any
fixed value of it. -/
theorem hadamard_check {K : Type} [LinearOrderedField K] [Sqrt2 K] (hp : Heap) :
    ∃ expected result : Matrix (Cplx K),
      (do
        let expected : Matrix (Cplx K) := Matrix.init 2 1
        let expected ← expected.set 0 0 ⟨1 / Sqrt2.sqrt2, 0⟩
        expected.set 1 0 ⟨1 / Sqrt2.sqrt2, 0⟩) = .ok expected ∧
      (do
        let (hp, qc) ← QuantumCircuit.new hp 1
        let (hp, g) ← DerivedGates.h hp 0
        let (_, qc) ← qc.add_component hp g.up
        qc.get_final_state) = (.ok result : Except Error (Matrix (Cplx K))) ∧
      expected.equals result = .ok true :=
  ⟨vec2 ⟨1 / Sqrt2.sqrt2, 0⟩ ⟨1 / Sqrt2.sqrt2, 0⟩, _, rfl, hadamard_final_state hp,
    Matrix.equals_self _⟩

/-- The Bell circuit over exact scalars, an ordered field in which the value
of `sqrt(2)` squares to `2`: a `QuantumCircuit(2)` built by
`add_component(h(0))` followed by `add_component(controlled(x(1), 0))`, with the
input register `[0, 0]`, has a final state whose squared amplitude magnitudes,
computed as in `draw_probability_distribution`, are `1/2` at row `0`, `0` at
rows `1` and `2`, and `1/2` at row `3`. The `double`s of a run are no such
field: the rounded `1/sqrt(2)` does not square to `1/2`, and this theorem does
not give the probabilities that a run computes. -/
theorem bell_state_probabilities {K : Type} [LinearOrderedField K] [Sqrt2 K] (hp : Heap)
    (hs : (Sqrt2.sqrt2 : K) * Sqrt2.sqrt2 = 2) :
    ∃ qc : QuantumCircuit (Cplx K),
      (do
        let (hp, qc) ← QuantumCircuit.new hp 2
        let (hp, g) ← DerivedGates.h hp 0
        let (hp, qc) ← qc.add_component hp g.up
        let (hp, g) ← DerivedGates.x hp 1
        let (hp, c) ← DerivedGates.controlled hp g 0
        let (_, qc) ← qc.add_component hp c
        pure qc) = (.ok qc : Except Error (QuantumCircuit (Cplx K))) ∧
      qc.input_register = [0, 0] ∧
      qc.probability 0 = .ok (1 / 2) ∧ qc.probability 1 = .ok 0 ∧
      qc.probability 2 = .ok 0 ∧ qc.probability 3 = .ok (1 / 2) := by
  obtain ⟨qc, e, hi, hf⟩ := bell_final_state (K := K) hp
  have hh : ((⟨1 / Sqrt2.sqrt2, 0⟩ : Cplx K) * star (⟨1 / Sqrt2.sqrt2, 0⟩ : Cplx K)).re
      = 1 / 2 := by
    rw [Cplx.star_parts, Cplx.mul_parts]
    show (1 / Sqrt2.sqrt2 : K) * (1 / Sqrt2.sqrt2) - 0 * -0 = 1 / 2
    rw [div_mul_div_comm, hs]
    norm_num
  have hz : ((0 : Cplx K) * star (0 : Cplx K)).re = 0 := by
    rw [zero_mul]
    rfl
  refine ⟨qc, e, hi, ?_, ?_, ?_, ?_⟩
  · unfold QuantumCircuit.probability
    rw [hf]
    exact congrArg Except.ok hh
  · unfold QuantumCircuit.probability
    rw [hf]
    exact congrArg Except.ok hz
  · unfold QuantumCircuit.probability
    rw [hf]
    exact congrArg Except.ok hz
  · unfold QuantumCircuit.probability
    rw [hf]
    exact congrArg Except.ok hh

/-- The Bell circuit over the real numbers, with `sqrt(2)` the real square
root of `2`. -/
theorem bell_state_probabilities_witness :
    letI : Sqrt2 ℝ := ⟨Real.sqrt 2⟩
    (Sqrt2.sqrt2 : ℝ) * Sqrt2.sqrt2 = 2 ∧
    ∃ qc : QuantumCircuit (Cplx ℝ),
      (do
        let (hp, qc) ← QuantumCircuit.new { next := 0 } 2
        let (hp, g) ← DerivedGates.h hp 0
        let (hp, qc) ← qc.add_component hp g.up
        let (hp, g) ← DerivedGates.x hp 1
        let (hp, c) ← DerivedGates.controlled hp g 0
        let (_, qc) ← qc.add_component hp c
        pure qc) = (.ok qc : Except Error (QuantumCircuit (Cplx ℝ))) ∧
      qc.input_register = [0, 0] ∧
      qc.probability 0 = .ok (1 / 2) ∧ qc.probability 1 = .ok 0 ∧
      qc.probability 2 = .ok 0 ∧ qc.probability 3 = .ok (1 / 2) :=
  letI : Sqrt2 ℝ := ⟨Real.sqrt 2⟩
  ⟨Real.mul_self_sqrt (by norm_num),
    bell_state_probabilities { next := 0 } (Real.mul_self_sqrt (by norm_num))⟩

/-- C21: For every matrix `M`, `identity_matrix(M.rows) * M` succeeds; the
product has the shape of `M` and, at every position of that shape, the entry of
`M`; it is `M` itself when the grid of `M` has `rows` rows of `cols` entries. -/
theorem identity_mul (M : Matrix R) :
    ∃ I P : Matrix R, identity_matrix M.rows = .ok I ∧ I.mul M = .ok P ∧
      P.rows = M.rows ∧ P.cols = M.cols ∧
      (∀ i j, i < M.rows → j < M.cols → P.get i j = M.get i j) ∧
      (M.wf → P = M) := by
  refine ⟨idm M.rows, mmul (idm M.rows) M, identity_matrix_eq _, Matrix.mul_eq _ _ (by simp),
    by simp, by simp, ?_, fun hM => idm_mmul M hM _ rfl⟩
  intro i j hi hj
  rw [Matrix.get_eq_raw _ i j (by simpa using hi) (by simpa using hj),
    Matrix.get_eq_raw _ i j hi hj, idm_mmul_raw M i j hi hj]

/-- C22: For every matrix `M` of shape `r x c`, `M.adjoint()` is the `c x r`
matrix whose entry `(j, i)` is the complex conjugate of `M(i, j)`, and
`M.adjoint().adjoint()` has the shape and the entries of `M`; it is `M` itself
when the grid of `M` has `rows` rows of `cols` entries. -/
theorem adjoint_involution (M : Matrix R) :
    ∃ A B : Matrix R, M.adjoint = .ok A ∧ A.adjoint = .ok B ∧
      A.rows = M.cols ∧ A.cols = M.rows ∧
      (∀ i j, i < M.rows → j < M.cols → A.get j i = .ok (star (M.raw i j))) ∧
      B.rows = M.rows ∧ B.cols = M.cols ∧
      (∀ i j, i < M.rows → j < M.cols → B.get i j = M.get i j) ∧
      (M.wf → B = M) := by
  refine ⟨adj M, adj (adj M), Matrix.adjoint_eq M, Matrix.adjoint_eq _, by simp, by simp, ?_,
    by simp, by simp, ?_, adj_adj M⟩
  · intro i j hi hj
    rw [Matrix.get_eq_raw _ j i (by simpa using hj) (by simpa using hi), adj_raw _ j i hj hi]
  · intro i j hi hj
    rw [Matrix.get_eq_raw _ i j (by simpa using hi) (by simpa using hj),
      Matrix.get_eq_raw _ i j hi hj, adj_adj_raw M i j hi hj]

/-- C23: For every register size `n`, the constructor `QuantumCircuit(n)`
succeeds and gives a circuit with `get_total_steps() = 0` (the counter
initialised to `-1`, incremented once), `n` lanes of exactly one cell, lane `i`
holding a freshly allocated `IGate(i)` (index `i`, symbol `"I"`), and an input
register of `n` zeros. -/
theorem constructor_state (h : Heap) (n : Nat) :
    ∃ (h' : Heap) (qc : QuantumCircuit R), QuantumCircuit.new h n = .ok (h', qc) ∧
      qc.total_steps = 0 ∧ qc.register_size = n ∧ qc.components.length = n ∧
      (∀ i, i < n → ∃ (p : shared_ptr R) (sg : SingleGate R),
        qc.components[i]? = some [p] ∧ IGate i = .ok sg ∧ p.obj = .single sg ∧
        p.obj.get_index = i ∧ p.obj.get_symbol = "I" ∧ h.next ≤ p.addr ∧ p.addr < h'.next) ∧
      qc.input_register = List.replicate n 0 := by
  refine ⟨_, _, QuantumCircuit.new_state_eq h n, rfl, rfl, by simp [evolved_length], ?_, rfl⟩
  intro i hi
  refine ⟨_, _, evolved_replicate_getElem h n i hi, IGate_eq i, rfl, rfl, rfl, ?_, ?_⟩
  · show h.next ≤ h.next + i
    omega
  · show h.next + i < h.next + n
    omega

/-- C24: In every circuit state with one lane per register and for every
`k >= 0`, `evolve(k)` succeeds, increases `total_steps` by exactly `k`, appends
to every lane `i` exactly `k` freshly allocated identity placeholders `IGate(i)`
(symbol `"I"`, index `i`), and leaves every cell that existed before, the
register size and the input register unchanged; `evolve()` is the case
`k = 1`. -/
theorem evolve_appends (h : Heap) (qc : QuantumCircuit R) (k : Nat)
    (hlen : qc.components.length = qc.register_size) :
    (∃ (h' : Heap) (qc' : QuantumCircuit R), qc.evolve_n h k = .ok (h', qc') ∧
      qc'.total_steps = qc.total_steps + (k : Int) ∧ qc'.register_size = qc.register_size ∧
      qc'.input_register = qc.input_register ∧
      qc'.components.length = qc.components.length ∧
      ∀ i lane, qc.components[i]? = some lane →
        ∃ (ps : List (shared_ptr R)) (sg : SingleGate R),
          qc'.components[i]? = some (lane ++ ps) ∧ ps.length = k ∧ IGate i = .ok sg ∧
          ∀ p ∈ ps, p.obj = .single sg ∧ p.obj.get_symbol = "I" ∧ p.obj.get_index = i ∧
            h.next ≤ p.addr ∧ p.addr < h'.next) ∧
    qc.evolve_n h 1 = qc.evolve h := by
  refine ⟨?_, for_range_one _ _⟩
  obtain ⟨h', qc', e, a1, a2, a3, a4, _, a6⟩ := qc.evolve_n_eq h k hlen
  refine ⟨h', qc', e, a1, a2, a3, a4, ?_⟩
  intro i lane hl
  obtain ⟨ps, b1, b2, b3⟩ := a6 i lane hl
  refine ⟨ps, _, b1, b2, IGate_eq i, ?_⟩
  intro p hp
  obtain ⟨c1, c2, c3⟩ := b3 p hp
  rw [c1]
  exact ⟨rfl, rfl, rfl, c2, c3⟩

/-- Witness of C24: `evolve(2)` on the one-qubit circuit after construction. -/
theorem evolve_appends_witness :
    ∃ (h' : Heap) (qc' : QuantumCircuit Int), demo_circuit.evolve_n demo_heap 2 = .ok (h', qc') ∧
      qc'.total_steps = 2 ∧
      ∃ ps : List (shared_ptr Int),
        qc'.components[0]? = some ([{ addr := 1, obj := placeholder 0 }] ++ ps) ∧ ps.length = 2 := by
  obtain ⟨⟨h', qc', e, a1, _, _, _, a6⟩, _⟩ := evolve_appends demo_heap demo_circuit 2 rfl
  obtain ⟨ps, _, b1, b2, _⟩ := a6 0 _ rfl
  exact ⟨h', qc', e, a1, ps, b1, b2⟩

/-- C25: `get_state_after_step(i)` is the product of `get_matrix_at_step(i)`
and `get_initial_state()`: it returns that product when both operands are
returned, and returns only then. In the same way `get_final_state()` is the
product of `get_matrix()` and `get_initial_state()`. The matrix of the step
alone is applied, not the product of the steps `0..i`: in the circuit
`demo_circuit_xx` of two `X` gates on one qubit the state after step `1` is
`X|0> = |1>`, while the final state, where both steps are applied, is `|0>`. -/
theorem step_state_product (qc : QuantumCircuit R) (i : Nat) :
    (∀ M s, qc.get_matrix_at_step i = .ok M → qc.get_initial_state = .ok s →
      qc.get_state_after_step i = M.mul s) ∧
    (∀ r, qc.get_state_after_step i = .ok r →
      ∃ M s, qc.get_matrix_at_step i = .ok M ∧ qc.get_initial_state = .ok s ∧
        M.mul s = .ok r) ∧
    (∀ M s, qc.get_matrix = .ok M → qc.get_initial_state = .ok s →
      qc.get_final_state = M.mul s) ∧
    (∀ r, qc.get_final_state = .ok r →
      ∃ M s, qc.get_matrix = .ok M ∧ qc.get_initial_state = .ok s ∧ M.mul s = .ok r) ∧
    demo_circuit_xx.get_matrix_at_step 1 = .ok (Matrix.of_grid [[0, 1], [1, 0]]) ∧
    demo_circuit_xx.get_initial_state = .ok (Matrix.of_grid [[1], [0]]) ∧
    demo_circuit_xx.get_state_after_step 1 = .ok (Matrix.of_grid [[0], [1]]) ∧
    demo_circuit_xx.get_final_state = .ok (Matrix.of_grid [[1], [0]]) := by
  refine ⟨?_, ?_, ?_, ?_, rfl, rfl, rfl, rfl⟩
  · intro M s hM hs
    unfold QuantumCircuit.get_state_after_step
    rw [hM, hs]
    rfl
  · intro r hr
    unfold QuantumCircuit.get_state_after_step at hr
    cases hM : qc.get_matrix_at_step i with
    | error e => rw [hM] at hr; exact Except.noConfusion hr
    | ok M =>
      cases hs : qc.get_initial_state with
      | error e => rw [hM, hs] at hr; exact Except.noConfusion hr
      | ok s =>
        rw [hM, hs] at hr
        exact ⟨M, s, rfl, rfl, hr⟩
  · intro M s hM hs
    unfold QuantumCircuit.get_final_state
    rw [hM, hs]
    rfl
  · intro r hr
    unfold QuantumCircuit.get_final_state at hr
    cases hM : qc.get_matrix with
    | error e => rw [hM] at hr; exact Except.noConfusion hr
    | ok M =>
      cases hs : qc.get_initial_state with
      | error e => rw [hM, hs] at hr; exact Except.noConfusion hr
      | ok s =>
        rw [hM, hs] at hr
        exact ⟨M, s, rfl, rfl, hr⟩

/-- C26: `replace_component(g, r, s)` on an existing cell `(r, s)` of a circuit
with one lane per register fails if `g` already occupies a cell of the grid or
if `g` does not fit `register_size`; otherwise it succeeds, afterwards the cell
`(r, s)` holds `g`, and every other cell, the shape of the grid, `total_steps`,
the register size and the input register are unchanged. -/
theorem replace_component_effect (qc : QuantumCircuit R) (g : shared_ptr R) (r s : Nat)
    (hlen : qc.components.length = qc.register_size)
    (hcell : (grid_at qc.components r s).isSome) :
    (qc.occupies g → qc.replace_component g r s = .error .DuplicateGateInsertion) ∧
    (g.obj.can_gate_fit qc.register_size = false →
      ∃ e, qc.replace_component g r s = .error e) ∧
    (¬ qc.occupies g → g.obj.can_gate_fit qc.register_size = false →
      qc.replace_component g r s = .error .GateDoesNotFit) ∧
    (¬ qc.occupies g → g.obj.can_gate_fit qc.register_size = true →
      ∃ qc', qc.replace_component g r s = .ok qc' ∧
        grid_at qc'.components r s = some g ∧
        (∀ i j, ¬ (i = r ∧ j = s) → grid_at qc'.components i j = grid_at qc.components i j) ∧
        qc'.components.length = qc.components.length ∧
        (∀ i, (qc'.components.getD i []).length = (qc.components.getD i []).length) ∧
        qc'.total_steps = qc.total_steps ∧ qc'.register_size = qc.register_size ∧
        qc'.input_register = qc.input_register) := by
  refine ⟨qc.replace_component_dup g r s hlen, ?_, qc.replace_component_nofit g r s hlen, ?_⟩
  · intro hfit
    by_cases hocc : qc.occupies g
    · exact ⟨_, qc.replace_component_dup g r s hlen hocc⟩
    · exact ⟨_, qc.replace_component_nofit g r s hlen hocc hfit⟩
  · intro hocc hfit
    refine ⟨_, qc.replace_component_eq g r s hlen hocc hfit hcell, ?_, ?_, grid_put_length _ _ _ _,
      grid_put_lane_length _ _ _ _, rfl, rfl, rfl⟩
    · show grid_at (grid_put qc.components r s g) r s = some g
      rw [grid_at_put, if_pos ⟨rfl, rfl, hcell⟩]
    · intro i j hne
      show grid_at (grid_put qc.components r s g) i j = _
      rw [grid_at_put, if_neg (fun hh => hne ⟨hh.1, hh.2.1⟩)]

/-- Witness of C26: the `X` gate replaces the placeholder of the one-qubit
circuit after construction. -/
theorem replace_component_effect_witness :
    ∃ qc', demo_circuit.replace_component demo_gate 0 0 = .ok qc' ∧
      grid_at qc'.components 0 0 = some demo_gate ∧ qc'.total_steps = 0 := by
  obtain ⟨_, _, _, h4⟩ := replace_component_effect demo_circuit demo_gate 0 0 rfl rfl
  obtain ⟨qc', e, hg, _, _, _, ht, _⟩ := h4 (by unfold QuantumCircuit.occupies; decide) rfl
  exact ⟨qc', e, hg, ht⟩

/-- C27: A call of `replace_component` or of `set_input_register` that throws
leaves the allocator and the circuit (grid, `total_steps`, input register) as
they were before the call. So does a call of `add_component` that throws, for a
circuit that satisfies the class invariant and a gate that has been allocated;
an access outside the grid, which is not an exception, is left aside. The
three calls return what the functions `replace_component`,
`set_input_register` and `add_component` return. -/
theorem failure_leaves_state (h : Heap) (qc : QuantumCircuit R) (g : shared_ptr R)
    (st : Heap × QuantumCircuit R) (e : Error) :
    (∀ r s, QuantumCircuit.replace_component_call g r s (h, qc) = (st, .error e) →
      st = (h, qc)) ∧
    (∀ b, QuantumCircuit.set_input_register_call b (h, qc) = (st, .error e) →
      st = (h, qc)) ∧
    (qc.wf h → g.addr < h.next → e ≠ .undefined →
      QuantumCircuit.add_component_call g (h, qc) = (st, .error e) → st = (h, qc)) ∧
    (∀ r s, (QuantumCircuit.replace_component_call g r s).result (h, qc)
      = (qc.replace_component g r s).map (fun qc' => ((h, qc'), ()))) ∧
    (∀ b, (QuantumCircuit.set_input_register_call b).result (h, qc)
      = (qc.set_input_register b).map (fun qc' => ((h, qc'), ()))) ∧
    (QuantumCircuit.add_component_call g).result (h, qc)
      = (qc.add_component h g).map (fun s => (s, ())) := by
  refine ⟨?_, ?_, ?_, ?_, ?_, QuantumCircuit.add_component_call_result g h qc⟩
  · intro r s hrun
    rw [QuantumCircuit.replace_component_call_eq] at hrun
    cases hq : qc.replace_component g r s with
    | ok qc' =>
      rw [hq] at hrun
      exact Except.noConfusion (Prod.mk.inj hrun).2
    | error e' =>
      rw [hq] at hrun
      exact (Prod.mk.inj hrun).1.symm
  · intro b hrun
    rw [QuantumCircuit.set_input_register_call_eq] at hrun
    cases hq : qc.set_input_register b with
    | ok qc' =>
      rw [hq] at hrun
      exact Except.noConfusion (Prod.mk.inj hrun).2
    | error e' =>
      rw [hq] at hrun
      exact (Prod.mk.inj hrun).1.symm
  · intro hwf hg hne hrun
    exact QuantumCircuit.add_component_call_throws h qc g st e hwf hg hrun hne
  · intro r s
    unfold Call.result
    rw [QuantumCircuit.replace_component_call_eq]
    cases qc.replace_component g r s <;> rfl
  · intro b
    unfold Call.result
    rw [QuantumCircuit.set_input_register_call_eq]
    cases qc.set_input_register b <;> rfl

/-- Witness of C27: adding a gate that is in the grid throws the
duplicate-insertion error and leaves the circuit as it was. -/
theorem failure_leaves_state_witness :
    ∃ st, QuantumCircuit.add_component_call demo_gate (demo_heap_xx, demo_circuit_xx)
        = (st, .error .DuplicateGateInsertion) ∧ st = (demo_heap_xx, demo_circuit_xx) :=
  ⟨(demo_heap_xx, demo_circuit_xx), rfl,
    (failure_leaves_state demo_heap_xx demo_circuit_xx demo_gate (demo_heap_xx, demo_circuit_xx)
      .DuplicateGateInsertion).2.2.1
      (by unfold QuantumCircuit.wf; decide) (by decide) (by decide) rfl⟩

/-- C28: In every state that is reached from the constructor by calls of
`evolve`, `add_component`, `replace_component` and `set_input_register` that
return, no gate reference is in two cells of the grid: two cells that hold
pointers to the same object are the same cell. -/
theorem no_shared_gate (h : Heap) (qc : QuantumCircuit R) (hr : Reachable h qc) :
    ∀ i j i' j' p q, grid_at qc.components i j = some p →
      grid_at qc.components i' j' = some q → p.addr = q.addr → i = i' ∧ j = j' := by
  obtain ⟨_, _, hgi⟩ := Reachable.inv h qc hr
  exact hgi.2.2.2

/-- Witness of C28: the state after `QuantumCircuit(2)`, `add_component(x(1))`
and `add_component(controlled(x(1), 0))`, a grid of two lanes and three
steps. -/
theorem no_shared_gate_witness :
    ∃ (h1 h2 : Heap) (q1 q2 : QuantumCircuit Int),
      pair_circuit.add_component pair_heap x_on_one_gate = .ok (h1, q1) ∧
      q1.add_component h1 cnot_gate = .ok (h2, q2) ∧
      q2.components.length = 2 ∧ (∀ lane ∈ q2.components, lane.length = 3) ∧
      ∀ i j i' j' p q, grid_at q2.components i j = some p →
        grid_at q2.components i' j' = some q → p.addr = q.addr → i = i' ∧ j = j' := by
  have hadd1 : pair_circuit.add_component pair_heap x_on_one_gate
      = .ok (pair_heap, { pair_circuit with
          components := [[{ addr := 2, obj := placeholder 0 }], [x_on_one_gate]] }) := rfl
  have hadd2 : ({ pair_circuit with
        components := [[{ addr := 2, obj := placeholder 0 }], [x_on_one_gate]] } :
        QuantumCircuit Int).add_component pair_heap cnot_gate
      = .ok ({ next := 8 }, { pair_circuit with
          components := [[{ addr := 2, obj := placeholder 0 }, cnot_gate,
              { addr := 6, obj := placeholder 0 }],
            [x_on_one_gate, { addr := 5, obj := placeholder 1 },
              { addr := 7, obj := placeholder 1 }]],
          total_steps := 2 }) := rfl
  exact ⟨_, _, _, _, hadd1, hadd2, rfl, by decide,
    no_shared_gate _ _ (Reachable.add_component pair_heap _ _ _ cnot_gate
      (Reachable.add_component pair_heap _ pair_circuit _ x_on_one_gate
        (Reachable.new demo_heap 2 _ _ rfl) (by decide) hadd1) (by decide) hadd2)⟩

/-- C29: In every state that is reached from the constructor by calls of
`evolve`, `add_component`, `replace_component` and `set_input_register` that
return, the grid is a rectangle: it has `register_size` lanes, and every lane
holds `total_steps + 1` components. -/
theorem grid_rectangular (h : Heap) (qc : QuantumCircuit R) (hr : Reachable h qc) :
    qc.components.length = qc.register_size ∧ 0 ≤ qc.total_steps ∧
      ∀ lane ∈ qc.components, (lane.length : Int) = qc.total_steps + 1 := by
  have hwf := QuantumCircuit.inv_wf h qc (Reachable.inv h qc hr)
  exact ⟨hwf.1, hwf.2.1, hwf.2.2.1⟩

/-- Witness of C29: the state after `QuantumCircuit(1)` and `evolve()`. -/
theorem grid_rectangular_witness :
    ∃ (h' : Heap) (qc' : QuantumCircuit Int),
      fresh_circuit.evolve fresh_heap = .ok (h', qc') ∧
      qc'.components.length = 1 ∧ qc'.total_steps = 1 ∧
      ∀ lane ∈ qc'.components, (lane.length : Int) = 2 :=
  ⟨{ next := 4 },
    { fresh_circuit with
      components := [[{ addr := 2, obj := placeholder 0 }, { addr := 3, obj := placeholder 0 }]],
      total_steps := 1 }, rfl,
    (grid_rectangular _ _ (Reachable.evolve fresh_heap _ fresh_circuit _
      (Reachable.new demo_heap 1 _ _ rfl) rfl)).1, rfl,
    (grid_rectangular _ _ (Reachable.evolve fresh_heap _ fresh_circuit _
      (Reachable.new demo_heap 1 _ _ rfl) rfl)).2.2⟩

/-- Counterexample to C30 as stated: a gate that `add_component` has accepted can be
evicted: the client adds its own `IGate(0)` to a fresh circuit of one qubit,
which puts it in the cell `(0, 0)`; the next `add_component` of an `X` gate on
qubit `0` takes that cell for an empty one, because its symbol is `"I"`, and
assigns the `X` gate to it. Afterwards the first gate is in no cell. -/
theorem accepted_gate_evicted :
    ∃ (h1 h2 : Heap) (q1 q2 : QuantumCircuit Int),
      QuantumCircuit.new demo_heap 1 = .ok (fresh_heap, fresh_circuit) ∧
      fresh_circuit.add_component fresh_heap client_identity = .ok (h1, q1) ∧
      grid_at q1.components 0 0 = some client_identity ∧
      q1.add_component h1 demo_gate = .ok (h2, q2) ∧
      q2.components = [[demo_gate]] ∧ ¬ q2.occupies client_identity :=
  ⟨fresh_heap, fresh_heap, { fresh_circuit with components := [[client_identity]] },
    { fresh_circuit with components := [[demo_gate]] }, rfl, rfl, rfl, rfl, rfl,
    by unfold QuantumCircuit.occupies; decide⟩

/-- C30 (amended): let `add_component(g)` return in a reachable state, for an
allocated gate `g` that is not a `SingleGate` with the symbol `"I"`. Then there
is a step `s` such that in the state after the call, and in every state that
follows it by calls of `add_component` and `evolve` that return, the cell
`(anchor index of g, s)` holds `g`, and every cell that holds `g` is that cell. -/
theorem accepted_gate_stays (h h1 : Heap) (qc qc1 : QuantumCircuit R) (g : shared_ptr R)
    (hr : Reachable h qc) (hg : g.addr < h.next)
    (hsym : g.obj.get_gate_type = "SingleGate" → g.obj.get_symbol ≠ "I")
    (hok : qc.add_component h g = .ok (h1, qc1)) :
    ∃ s, ∀ h2 qc2, Later h1 qc1 h2 qc2 →
      grid_at qc2.components g.obj.get_index s = some g ∧
      ∀ i j p, grid_at qc2.components i j = some p → p.addr = g.addr →
        i = g.obj.get_index ∧ j = s := by
  obtain ⟨s, hkeep⟩ := QuantumCircuit.add_component_keeps h h1 qc qc1 g
    (Reachable.inv h qc hr) hg hsym hok
  refine ⟨s, fun h2 qc2 hl => ?_⟩
  obtain ⟨⟨_, _, hgi⟩, hcell, _⟩ := Later.keeps h1 h2 qc1 qc2 g g.obj.get_index s hkeep hl
  exact ⟨hcell, fun i j p hp hpa => hgi.2.2.2 i j g.obj.get_index s p g hp hcell hpa⟩

/-- Witness of C30 (amended): an `X` gate added to the fresh one-qubit
circuit. -/
theorem accepted_gate_stays_witness :
    ∃ (h1 : Heap) (q1 : QuantumCircuit Int),
      fresh_circuit.add_component fresh_heap demo_gate = .ok (h1, q1) ∧
      ∃ s, ∀ h2 q2, Later h1 q1 h2 q2 → grid_at q2.components 0 s = some demo_gate := by
  obtain ⟨s, hs⟩ := accepted_gate_stays fresh_heap fresh_heap fresh_circuit
    { fresh_circuit with components := [[demo_gate]] } demo_gate
    (Reachable.new demo_heap 1 _ _ rfl) (by decide) (fun _ => by decide) rfl
  exact ⟨_, _, rfl, s, fun h2 q2 hl => (hs h2 q2 hl).1⟩

/-- Counterexample to C31 as stated: the literal grid `{{1, 2}, {3}}` is not
empty; `Matrix(data_in)` gives it `rows = 2` and `cols = 2`, the size of its
first row, while its second row has one entry. -/
theorem matrix_well_formed_counterexample :
    (Matrix.of_grid [[1, 2], [3]] : Matrix Int).rows = 2 ∧
    (Matrix.of_grid [[1, 2], [3]] : Matrix Int).cols = 2 ∧
    (Matrix.of_grid [[1, 2], [3]] : Matrix Int).data = [[1, 2], [3]] ∧
    ¬ (Matrix.of_grid [[1, 2], [3]] : Matrix Int).wf := by
  refine ⟨rfl, rfl, rfl, ?_⟩
  unfold Matrix.wf
  decide

/-- C31 (amended): a matrix created from explicit dimensions has `rows` rows of
`cols` entries; a matrix created from a literal grid has them exactly when
every row of the grid has the length of the first row; every matrix returned
by `operator+`, `operator-`, `operator*`, `tensor_product`, `transpose`,
`conjugate`, `adjoint` and `identity_matrix` has them, whatever the operands;
a write through `operator()(r, c)` keeps them; and so does
`perform_tensor_product` on matrices that have them. -/
theorem matrix_well_formed (A B : Matrix R) (grid : List (List R)) (ms : List (Matrix R))
    (r c n : Nat) (v : R) :
    (Matrix.init r c : Matrix R).wf ∧
    ((Matrix.of_grid grid).wf ↔ ∀ row ∈ grid, row.length = (grid.headD []).length) ∧
    (∀ P, A.add B = .ok P → P.wf) ∧
    (∀ P, A.sub B = .ok P → P.wf) ∧
    (∀ P, A.mul B = .ok P → P.wf) ∧
    (∀ P, A.tensor_product B = .ok P → P.wf) ∧
    (∀ P, A.transpose = .ok P → P.wf) ∧
    (∀ P, A.conjugate = .ok P → P.wf) ∧
    (∀ P, A.adjoint = .ok P → P.wf) ∧
    (∀ P, (identity_matrix n : Except Error (Matrix R)) = .ok P → P.wf) ∧
    (A.wf → ∀ P, A.set r c v = .ok P → P.wf) ∧
    ((∀ m ∈ ms, m.wf) → ∀ P, perform_tensor_product ms = .ok P → P.wf) := by
  refine ⟨Matrix.wf_init r c, ?_, Matrix.add_ok_wf A B, Matrix.sub_ok_wf A B,
    Matrix.mul_ok_wf A B, ?_, ?_, ?_, ?_, ?_, fun hA P h => Matrix.set_ok_wf A P r c v hA h,
    fun hms P h => perform_tensor_product_ok_wf ms P hms h⟩
  · unfold Matrix.wf Matrix.of_grid
    simp
  · intro P h
    rw [Matrix.tensor_product_eq] at h
    rw [← Except.ok.inj h]
    exact kron_wf A B
  · intro P h
    rw [Matrix.transpose_eq] at h
    rw [← Except.ok.inj h]
    exact Matrix.wf_tabulate _ _ _
  · intro P h
    rw [Matrix.conjugate_eq] at h
    rw [← Except.ok.inj h]
    exact Matrix.wf_tabulate _ _ _
  · intro P h
    rw [Matrix.adjoint_eq] at h
    rw [← Except.ok.inj h]
    exact adj_wf A
  · intro P h
    rw [identity_matrix_eq] at h
    rw [← Except.ok.inj h]
    exact idm_wf n

/-- Witness of C31 (amended): the rectangular grid `{{1, 2}, {3, 4}}` and the
sum of the matrix with itself. -/
theorem matrix_well_formed_witness :
    (Matrix.of_grid [[1, 2], [3, 4]] : Matrix Int).wf ∧
    ∃ P, (Matrix.of_grid [[1, 2], [3, 4]] : Matrix Int).add (Matrix.of_grid [[1, 2], [3, 4]])
      = .ok P ∧ P.wf := by
  have h := matrix_well_formed (Matrix.of_grid [[1, 2], [3, 4]] : Matrix Int)
    (Matrix.of_grid [[1, 2], [3, 4]]) [[1, 2], [3, 4]] [] 0 0 0 0
  have e : (Matrix.of_grid [[1, 2], [3, 4]] : Matrix Int).add (Matrix.of_grid [[1, 2], [3, 4]])
      = .ok (Matrix.of_grid [[2, 4], [6, 8]]) := rfl
  exact ⟨h.2.1.2 (by decide), _, e, h.2.2.1 _ e⟩

/-- Counterexample to C32 as stated: for the `1 x 2` matrices `A = (1 2)` and
`B = (1 3)` the claim puts `A(0,0) * B(0,1) = 3` at row `0 * 1 + 0`, column
`0 * 2 + 1` of `A.tensor_product(B)`; the code returns `(1 2 3 6)`, with `2`
at that position. -/
theorem tensor_product_blocks_counterexample :
    (Matrix.of_grid [[1, 2]] : Matrix Int).tensor_product (Matrix.of_grid [[1, 3]])
      = .ok (Matrix.of_grid [[1, 2, 3, 6]]) ∧
    (Matrix.of_grid [[1, 2]] : Matrix Int).get 0 0 = .ok 1 ∧
    (Matrix.of_grid [[1, 3]] : Matrix Int).get 0 1 = .ok 3 ∧
    (Matrix.of_grid [[1, 2, 3, 6]] : Matrix Int).get (0 * 1 + 0) (0 * 2 + 1) = .ok 2 ∧
    (2 : Int) ≠ 1 * 3 :=
  ⟨rfl, rfl, rfl, rfl, by decide⟩

/-- C32 (amended): for all matrices `A` and `B`, `A.tensor_product(B)` is laid
out in blocks of the shape of `A`: the block at block position `(u, v)` is
`B(u,v)` times the matrix `A`, that is, the entry at row `r`, column `c` is
`A(r mod rows_A, c mod cols_A) * B(r div rows_A, c div cols_A)`. The layout of
the claim, `A(i,j) * B(u,v)` at row `i * rows_B + u`, column `j * cols_B + v`,
is that of `B.tensor_product(A)`. -/
theorem tensor_product_blocks (A B : Matrix R) :
    ∃ T S, A.tensor_product B = .ok T ∧ B.tensor_product A = .ok S ∧
      T.rows = A.rows * B.rows ∧ T.cols = A.cols * B.cols ∧
      (∀ r c, r < A.rows * B.rows → c < A.cols * B.cols →
        T.get r c = .ok (A.raw (r % A.rows) (c % A.cols) * B.raw (r / A.rows) (c / A.cols))) ∧
      (∀ i j u v, i < A.rows → j < A.cols → u < B.rows → v < B.cols →
        T.get (u * A.rows + i) (v * A.cols + j) = .ok (A.raw i j * B.raw u v) ∧
        S.get (i * B.rows + u) (j * B.cols + v) = .ok (A.raw i j * B.raw u v)) := by
  refine ⟨kron A B, kron B A, Matrix.tensor_product_eq A B, Matrix.tensor_product_eq B A,
    rfl, rfl, ?_, ?_⟩
  · intro r c hr hc
    rw [Matrix.get_eq_raw _ r c hr hc, kron_raw A B r c hr hc]
  · intro i j u v hi hj hu hv
    have h1 := idx_lt i u _ _ hi hu
    have h2 := idx_lt j v _ _ hj hv
    have h3 := idx_lt u i _ _ hu hi
    have h4 := idx_lt v j _ _ hv hj
    constructor
    · rw [Matrix.get_eq_raw _ _ _ h1 h2, kron_raw A B _ _ h1 h2, idx_mod i u _ hi,
        idx_mod j v _ hj, idx_div i u _ hi, idx_div j v _ hj]
    · rw [Matrix.get_eq_raw _ _ _ h3 h4, kron_raw B A _ _ h3 h4, idx_mod u i _ hu,
        idx_mod v j _ hv, idx_div u i _ hu, idx_div v j _ hv, mul_comm]

/-- Witness of C32 (amended): `(1 2).tensor_product((1 3))` is `(1 2 3 6)`, the
block `1 * (1 2)` followed by the block `3 * (1 2)`. -/
theorem tensor_product_blocks_witness :
    ∃ T : Matrix Int, (Matrix.of_grid [[1, 2]] : Matrix Int).tensor_product
        (Matrix.of_grid [[1, 3]]) = .ok T ∧
      T.get 0 2 = .ok (1 * 3) ∧ T.get 0 3 = .ok (2 * 3) := by
  obtain ⟨T, _, hT, _, _, _, h, _⟩ :=
    tensor_product_blocks (Matrix.of_grid [[1, 2]] : Matrix Int) (Matrix.of_grid [[1, 3]])
  exact ⟨T, hT, h 0 2 (by decide) (by decide), h 0 3 (by decide) (by decide)⟩

/-- In every circuit state that is reached from the constructor by calls of
`add_component` and `evolve` that return, whatever the gates, every step that
holds a `MultiGate` (or a `ControlledGate`) has a component with the symbol
`"I"` in every other lane, and the last step, `total_steps`, holds no
`MultiGate`. -/
theorem multigate_beside_symbols (h0 h1 h : Heap) (n : Nat) (qc1 qc : QuantumCircuit R)
    (hnew : QuantumCircuit.new h0 n = .ok (h1, qc1)) (hl : Later h1 qc1 h qc) :
    (∀ s i p, grid_at qc.components i s = some p → p.obj.get_gate_type = "MultiGate" →
      ∀ j, j < qc.register_size → j ≠ i →
        ∃ q, grid_at qc.components j s = some q ∧ q.obj.get_symbol = "I") ∧
    (∀ T : Nat, qc.total_steps = (T : Int) →
      ∀ i p, grid_at qc.components i T = some p → p.obj.get_gate_type ≠ "MultiGate") := by
  obtain ⟨T, hT, hgi, hm, hlast⟩ := Later.scheduled h1 h qc1 qc
    (QuantumCircuit.new_scheduled h0 h1 n qc1 hnew) hl
  constructor
  · intro s i p hp hmulti j hj hji
    have hs := (grid_at_lt qc.components i s (T + 1) p hgi.2.1 hp).2
    obtain ⟨q, hq⟩ := grid_at_isSome qc.components j s (T + 1) (by rw [hgi.1]; exact hj)
      hgi.2.1 hs
    exact ⟨q, hq, hm s i p hp hmulti j q hji hq⟩
  · intro T0 hT0 i p hp hmulti
    have : T0 = T := by
      rw [hT] at hT0
      omega
    subst this
    exact single_ne_multi _ (hlast i p hp) hmulti

/-- A `MultiGate` of size 1 added to the fresh one-qubit circuit sits in step
`0`, and the last step `1` holds no `MultiGate`. -/
theorem multigate_beside_symbols_witness :
    ∃ (h : Heap) (qc : QuantumCircuit Int),
      fresh_circuit.add_component fresh_heap demo_multi_gate = .ok (h, qc) ∧
      grid_at qc.components 0 0 = some demo_multi_gate ∧ qc.total_steps = 1 ∧
      ∀ i p, grid_at qc.components i 1 = some p → p.obj.get_gate_type ≠ "MultiGate" := by
  have hadd : fresh_circuit.add_component fresh_heap demo_multi_gate
      = .ok ({ next := 4 }, { fresh_circuit with
          components := [[demo_multi_gate, { addr := 3, obj := placeholder 0 }]],
          total_steps := 1 }) := rfl
  have h := multigate_beside_symbols demo_heap fresh_heap _ 1 fresh_circuit _ rfl
    (Later.add_component fresh_heap _ fresh_circuit _ demo_multi_gate Later.refl (by decide) hadd)
  exact ⟨_, _, hadd, rfl, rfl, h.2 1 rfl⟩

/-- Counterexample to C33 as stated: on a fresh `QuantumCircuit(2)` the client
adds `SingleGate(1, "I", X)`, a gate on qubit `1` with the Pauli-X matrix and
the symbol `"I"`, which goes to the cell `(1, 0)`; `add_component` of
`controlled(x(1), 0)` then takes step `0` for an empty one, because every
symbol in it is `"I"`, and puts the `ControlledGate`, which covers the lanes
`0` and `1`, in the cell `(0, 0)`. Step `0` now holds a `MultiGate` together
with a gate inside its footprint that is no placeholder, and the matrix of the
step is not the matrix of the `ControlledGate`. -/
theorem multigate_overlapped :
    ∃ (h1 h2 : Heap) (q1 q2 : QuantumCircuit Int) (S : Matrix Int),
      QuantumCircuit.new demo_heap 2 = .ok (pair_heap, pair_circuit) ∧
      ControlledGate.new x_on_one 0 = .ok cnot ∧
      pair_circuit.add_component pair_heap masked_x = .ok (h1, q1) ∧
      q1.add_component h1 cnot_gate = .ok (h2, q2) ∧
      grid_at q2.components 0 0 = some cnot_gate ∧
      cnot_gate.obj.get_gate_type = "MultiGate" ∧
      cnot.qubit_index = 0 ∧ cnot.gate_size = 2 ∧
      grid_at q2.components 1 0 = some masked_x ∧
      masked_x.obj.get_matrix = demo_x_matrix ∧ masked_x.obj ≠ placeholder 1 ∧
      q2.get_matrix_at_step 0 = .ok S ∧ cnot_gate.obj.get_matrix_reg 2 ≠ .ok S :=
  ⟨pair_heap, { next := 6 },
    { pair_circuit with components := [[{ addr := 2, obj := placeholder 0 }], [masked_x]] },
    { pair_circuit with
      components := [[cnot_gate, { addr := 4, obj := placeholder 0 }],
        [masked_x, { addr := 5, obj := placeholder 1 }]],
      total_steps := 1 },
    Matrix.of_grid [[0, 0, 1, 0], [0, 1, 0, 0], [1, 0, 0, 0], [0, 0, 0, 1]],
    rfl, rfl, rfl, rfl, rfl, rfl, rfl, rfl, rfl, rfl, by decide, rfl, by
      have e : cnot_gate.obj.get_matrix_reg 2 = .ok cnot.matrix := rfl
      rw [e]
      intro hh
      exact absurd (Except.ok.inj hh) (by decide)⟩

/-- C33 (amended): in every circuit state that is reached from the constructor
by calls of `add_component` and `evolve` that return, where no `SingleGate`
with the symbol `"I"` is handed to `add_component`, every step that holds a
`MultiGate` (or a `ControlledGate`) holds the identity placeholder `IGate(j)`
in every other lane `j`, so that no other gate overlaps it, and the last step,
`total_steps`, holds no `MultiGate`. -/
theorem multigate_alone (h0 h1 h : Heap) (n : Nat) (qc1 qc : QuantumCircuit R)
    (hnew : QuantumCircuit.new h0 n = .ok (h1, qc1)) (hl : LaterLabelled h1 qc1 h qc) :
    (∀ s i p, grid_at qc.components i s = some p → p.obj.get_gate_type = "MultiGate" →
      ∀ j, j < qc.register_size → j ≠ i →
        ∃ q, grid_at qc.components j s = some q ∧ q.obj = placeholder j) ∧
    (∀ T : Nat, qc.total_steps = (T : Int) →
      ∀ i p, grid_at qc.components i T = some p → p.obj.get_gate_type ≠ "MultiGate") := by
  obtain ⟨⟨T, hT, hgi, _, hlast⟩, _, hiso⟩ := LaterLabelled.isolating h1 h qc1 qc
    (QuantumCircuit.new_isolating h0 h1 n qc1 hnew) hl
  constructor
  · intro s i p hp hmulti j hj hji
    have hs := (grid_at_lt qc.components i s (T + 1) p hgi.2.1 hp).2
    obtain ⟨q, hq⟩ := grid_at_isSome qc.components j s (T + 1) (by rw [hgi.1]; exact hj)
      hgi.2.1 hs
    exact ⟨q, hq, hiso s i p hp hmulti j q hji hq⟩
  · intro T0 hT0 i p hp hmulti
    have : T0 = T := by
      rw [hT] at hT0
      omega
    subst this
    exact single_ne_multi _ (hlast i p hp) hmulti

/-- Witness of C33 (amended): on a fresh `QuantumCircuit(2)`, `add_component`
of `x(1)` and then of `controlled(x(1), 0)`: the `X` gate is in step `0`, the
`ControlledGate` is alone in step `1`, the lane `1` of that step holding the
placeholder `IGate(1)`, and the last step `2` holds no `MultiGate`. -/
theorem multigate_alone_witness :
    ∃ (h1 h2 : Heap) (q1 q2 : QuantumCircuit Int),
      pair_circuit.add_component pair_heap x_on_one_gate = .ok (h1, q1) ∧
      q1.add_component h1 cnot_gate = .ok (h2, q2) ∧
      grid_at q1.components 1 0 = some x_on_one_gate ∧
      grid_at q2.components 0 1 = some cnot_gate ∧
      (∃ q, grid_at q2.components 1 1 = some q ∧ q.obj = placeholder 1) ∧
      q2.total_steps = 2 ∧
      ∀ i p, grid_at q2.components i 2 = some p → p.obj.get_gate_type ≠ "MultiGate" := by
  have hadd1 : pair_circuit.add_component pair_heap x_on_one_gate
      = .ok (pair_heap, { pair_circuit with
          components := [[{ addr := 2, obj := placeholder 0 }], [x_on_one_gate]] }) := rfl
  have hadd2 : ({ pair_circuit with
        components := [[{ addr := 2, obj := placeholder 0 }], [x_on_one_gate]] } :
        QuantumCircuit Int).add_component pair_heap cnot_gate
      = .ok ({ next := 8 }, { pair_circuit with
          components := [[{ addr := 2, obj := placeholder 0 }, cnot_gate,
              { addr := 6, obj := placeholder 0 }],
            [x_on_one_gate, { addr := 5, obj := placeholder 1 },
              { addr := 7, obj := placeholder 1 }]],
          total_steps := 2 }) := rfl
  have h := multigate_alone demo_heap pair_heap _ 2 pair_circuit _ rfl
    (LaterLabelled.add_component pair_heap _ _ _ cnot_gate
      (LaterLabelled.add_component pair_heap _ pair_circuit _ x_on_one_gate LaterLabelled.refl
        (by decide) (fun _ => by decide) hadd1)
      (by decide) (fun hh => absurd hh (by decide)) hadd2)
  exact ⟨_, _, _, _, hadd1, hadd2, rfl, rfl, h.1 1 0 cnot_gate rfl rfl 1 (by decide) (by decide),
    rfl, h.2 2 rfl⟩

/-- C34 at a failing input: on a register of one qubit the sequence of the
single gate `MultiGate(1, "G", (1), 0)` fits (`can_gate_fit(1)`, since
`1 + 0 <= 1`), has no `SingleGate` and no symbol `"I"`, and `g.get_matrix(1)`
is the `2 x 2` identity, which the claim has `get_matrix()` return after the
gate is added. In the code `add_component` passes its test that the gate is
within the register and indexes the lane `components[1]` outside the grid: no
circuit matrix results. -/
theorem insertion_order_outside_grid :
    QuantumCircuit.new demo_heap 1 = .ok (fresh_heap, fresh_circuit) ∧
    MultiGate.new 1 "G" (Matrix.of_grid [[1]]) 0 = .ok empty_multi ∧
    empty_multi_gate.obj.can_gate_fit 1 = true ∧
    empty_multi_gate.obj.get_symbol ≠ "I" ∧
    empty_multi_gate.obj.get_matrix_reg 1 = .ok (Matrix.of_grid [[1, 0], [0, 1]]) ∧
    gates_product 1 [empty_multi_gate] = .ok (Matrix.of_grid [[1, 0], [0, 1]]) ∧
    fresh_circuit.add_components fresh_heap [empty_multi_gate] = .error .undefined :=
  ⟨rfl, rfl, rfl, by decide, rfl, rfl, rfl⟩

/-- For every register size `n >= 1` and every sequence of distinct allocated
gates `g_1, ..., g_m` whose footprint ends inside the register
(`index + footprint <= n`), whose anchor index is below `n`, whose local matrix
is `2^footprint` square (`2 x 2` for a `SingleGate`) and whose symbol is not
`"I"`: the calls of `add_component` on a
fresh `QuantumCircuit(n)`, in this order, all return, and afterwards
`get_matrix()` returns the product
`g_m.get_matrix(n) * ... * g_2.get_matrix(n) * g_1.get_matrix(n)`. -/
theorem insertion_order_product (h : Heap) (n : Nat) (gs : List (shared_ptr R))
    (hn : 1 ≤ n) (hdistinct : (gs.map (fun g => g.addr)).Nodup)
    (halloc : ∀ g ∈ gs, g.addr < h.next)
    (hfit : ∀ g ∈ gs, g.obj.get_index + g.obj.footprint ≤ n)
    (hanchor : ∀ g ∈ gs, g.obj.get_index < n)
    (hsym : ∀ g ∈ gs, g.obj.get_symbol ≠ "I")
    (hshape : ∀ g ∈ gs, g.obj.get_matrix.wf ∧ g.obj.get_matrix.rows = 2 ^ g.obj.footprint ∧
      g.obj.get_matrix.cols = 2 ^ g.obj.footprint) :
    ∃ h0 qc0 h' qc' M, QuantumCircuit.new h n = .ok (h0, qc0) ∧
      qc0.add_components h0 gs = .ok (h', qc') ∧ qc'.get_matrix = .ok M ∧
      gates_product n gs = .ok M := by
  obtain ⟨qc0, h1, h2, h3, _⟩ := QuantumCircuit.new_has_matrix (R := R) h n hn
  have hcells : ∀ lane ∈ qc0.components, ∀ p ∈ lane, h.next ≤ p.addr ∨ p.addr ∈ ([] : List Nat) := by
    intro lane hl p hp
    have e := h1
    rw [QuantumCircuit.new_state_eq] at e
    obtain ⟨_, e2⟩ := Prod.mk.inj (Except.ok.inj e)
    rw [← e2] at hl
    rcases mem_evolved h _ p lane hl hp with a | ⟨l0, hl0, hp0⟩
    · exact Or.inl a
    · rw [List.eq_of_mem_replicate hl0] at hp0
      exact absurd hp0 (List.not_mem_nil p)
  obtain ⟨h', qc', k1, k2, _⟩ := QuantumCircuit.add_components_product n h.next gs hfit hanchor
    hsym hshape _ qc0 _ [] h2 h3 (Nat.le_add_right _ _) hcells hdistinct
    (fun g hg => ⟨halloc g hg, List.not_mem_nil _⟩)
  refine ⟨_, qc0, h', qc', _, h1, k1, (qc'.has_matrix_get h' _ k2).1, ?_⟩
  exact gates_product_eq n gs (fun g hg =>
    g.obj.get_matrix_reg_embedded n (hfit g hg) (hshape g hg).1 (hshape g hg).2.1
      (hshape g hg).2.2)

/-- Two `X` gates added to a fresh circuit of one qubit give the circuit
matrix `X * X`. -/
theorem insertion_order_product_witness :
    ∃ (h0 h' : Heap) (qc0 qc' : QuantumCircuit Int) (M : Matrix Int),
      QuantumCircuit.new demo_heap 1 = .ok (h0, qc0) ∧
      qc0.add_components h0 [demo_gate, { addr := 1, obj := .single demo_x }] = .ok (h', qc') ∧
      qc'.get_matrix = .ok M ∧
      gates_product 1 [demo_gate, { addr := 1, obj := .single demo_x }] = .ok M := by
  obtain ⟨h0, qc0, h', qc', M, a, b, c, d⟩ := insertion_order_product demo_heap 1
    [demo_gate, ({ addr := 1, obj := .single demo_x } : shared_ptr Int)] (by decide)
    (by decide) (by decide) (by decide) (by decide) (by decide)
    (by
      intro g hg
      simp only [List.mem_cons, List.mem_singleton, List.not_mem_nil, or_false] at hg
      rcases hg with rfl | rfl <;> exact ⟨by unfold Matrix.wf; decide, rfl, rfl⟩)
  exact ⟨h0, h', qc0, qc', M, a, b, c, d⟩

/-- C35: for every register size `n >= 1` and every step in which each lane
`i` holds a `SingleGate` with index `i` and a `2 x 2` local matrix `U_i`,
`get_matrix_at_step(step)` returns `perform_tensor_product([U_0, ..., U_{n-1}])`;
and the loop body of `get_matrix_at_step`, run over the lanes in any order,
returns that same matrix. -/
theorem step_matrix_tensor (qc : QuantumCircuit R) (step : Nat) (us : List (Matrix R))
    (hn : 1 ≤ qc.register_size) (hs : qc.single_gates_at step us) :
    ∃ M, qc.get_matrix_at_step step = .ok M ∧ perform_tensor_product us = .ok M ∧
      qc.get_matrix_at_step step
        = qc.step_matrix_in_order step (List.range qc.register_size) ∧
      ∀ order : List Nat, order.Perm (List.range qc.register_size) →
        qc.step_matrix_in_order step order = .ok M := by
  have hne : us ≠ [] := ne_nil_of_length_pos _ (by rw [hs.1]; omega)
  refine ⟨tfold us, ?_, perform_tensor_product_eq us hne, qc.get_matrix_at_step_order step,
    fun order hp => qc.step_matrix_any_order step us hn hs order hp⟩
  rw [qc.get_matrix_at_step_order step]
  exact qc.step_matrix_any_order step us hn hs _ (List.Perm.refl _)

/-- Witness of C35: a step of a two-qubit circuit with an `X` gate on lane `0`
and a `Z` gate on lane `1`: the step matrix is
`perform_tensor_product([X, Z])`, and so is the result of the loop run over
the lanes in the order `1, 0`. -/
theorem step_matrix_tensor_witness :
    ∃ M : Matrix Int, demo_circuit_xz.get_matrix_at_step 0 = .ok M ∧
      perform_tensor_product [demo_x_matrix, demo_z_matrix] = .ok M ∧
      demo_circuit_xz.step_matrix_in_order 0 [1, 0] = .ok M := by
  obtain ⟨M, h1, h2, _, h4⟩ := step_matrix_tensor demo_circuit_xz 0 [demo_x_matrix, demo_z_matrix]
    (by decide)
    ⟨rfl, fun i hi => by
      have hi2 : i < 2 := hi
      rcases (by omega : i = 0 ∨ i = 1) with rfl | rfl
      · exact ⟨_, _, rfl, rfl, rfl, rfl, by unfold Matrix.wf; decide, rfl, rfl⟩
      · exact ⟨_, _, rfl, rfl, rfl, rfl, by unfold Matrix.wf; decide, rfl, rfl⟩⟩
  exact ⟨M, h1, h2, h4 [1, 0] (List.Perm.swap 0 1 [])⟩

/-- C36: for every `2 x 2` matrix `U`, symbol, register size `n` and anchor
`a < n`, `SingleGate(a, symbol, U).get_matrix(n)` returns a `2^n x 2^n` matrix
whose entry `(r, c)` is `U(bit_a(r), bit_a(c))` when `r` and `c` have the same
binary digit at every position below `n` other than `a`, and `0` otherwise,
where `bit_a(x) = (x div 2^a) mod 2`. -/
theorem single_gate_entries (U : Matrix R) (symbol : String) (n a : Nat) (ha : a < n)
    (hr : U.rows = 2) (hc : U.cols = 2) :
    ∃ M, ({ qubit_index := a, symbol := symbol, matrix := U } : SingleGate R).get_matrix_reg n
        = .ok M ∧ M.rows = 2 ^ n ∧ M.cols = 2 ^ n ∧
      ∀ r c, r < 2 ^ n → c < 2 ^ n →
        M.get r c = if ∀ i, i < n → i ≠ a → r / 2 ^ i % 2 = c / 2 ^ i % 2
          then U.get (r / 2 ^ a % 2) (c / 2 ^ a % 2) else .ok 0 := by
  have hlen : ((List.replicate n (idm 2 : Matrix R)).set a U).length = n := by simp
  have hne : (List.replicate n (idm 2 : Matrix R)).set a U ≠ [] :=
    ne_nil_of_length_pos _ (by rw [hlen]; omega)
  have hmem : ∀ m ∈ (List.replicate n (idm 2 : Matrix R)).set a U, m.rows = 2 ∧ m.cols = 2 := by
    intro m hm
    rcases List.mem_or_eq_of_mem_set hm with h | h
    · rw [List.eq_of_mem_replicate h]; exact ⟨rfl, rfl⟩
    · rw [h]; exact ⟨hr, hc⟩
  have hrows := tfold_rows_two _ hne (fun m hm => (hmem m hm).1)
  have hcols := tfold_cols_two _ hne (fun m hm => (hmem m hm).2)
  rw [hlen] at hrows hcols
  refine ⟨_, SingleGate.get_matrix_reg_single_eq _ n ha, hrows, hcols, ?_⟩
  intro r c hrn hcn
  have hb : ∀ x, x / 2 ^ a % 2 < 2 := fun x => Nat.mod_lt _ (by decide)
  rw [Matrix.get_eq_raw _ r c (by rw [hrows]; exact hrn) (by rw [hcols]; exact hcn),
    Matrix.get_eq_raw U _ _ (by rw [hr]; exact hb r) (by rw [hc]; exact hb c),
    tfold_raw_prod 2 2 _ hne hmem r c (by rw [hlen]; exact hrn) (by rw [hlen]; exact hcn), hlen,
    ← Finset.mul_prod_erase (Finset.range n) _ (Finset.mem_range.2 ha)]
  have hslot : ((List.replicate n (idm 2 : Matrix R)).set a U).getD a (Matrix.init 0 0) = U := by
    rw [List.getD_eq_getElem?_getD, List.getElem?_set_self (by simpa using ha)]
    rfl
  have hrest : ∏ i in (Finset.range n).erase a,
      (((List.replicate n (idm 2 : Matrix R)).set a U).getD i (Matrix.init 0 0)).raw
        (r / 2 ^ i % 2) (c / 2 ^ i % 2)
      = ∏ i in (Finset.range n).erase a, if r / 2 ^ i % 2 = c / 2 ^ i % 2 then (1 : R) else 0 := by
    apply Finset.prod_congr rfl
    intro i hi
    obtain ⟨hia, hin⟩ := Finset.mem_erase.1 hi
    have hin' : i < n := Finset.mem_range.1 hin
    rw [List.getD_eq_getElem?_getD, List.getElem?_set_ne (fun h => hia h.symm),
      List.getElem?_replicate, if_pos hin']
    exact idm_raw 2 _ _ (Nat.mod_lt _ (by decide)) (Nat.mod_lt _ (by decide))
  rw [hslot, hrest, Finset.prod_boole]
  by_cases hall : ∀ i, i < n → i ≠ a → r / 2 ^ i % 2 = c / 2 ^ i % 2
  · rw [if_pos hall, if_pos (fun i hi => hall i (Finset.mem_range.1 (Finset.mem_erase.1 hi).2)
      (Finset.mem_erase.1 hi).1), mul_one]
  · rw [if_neg hall, if_neg (fun h => hall (fun i hi hia =>
      h i (Finset.mem_erase.2 ⟨hia, Finset.mem_range.2 hi⟩))), mul_zero]

/-- Witness of C36: the `X` gate on qubit `1` of a register of two qubits
exchanges the states `0` and `2` (binary `00` and `10`). -/
theorem single_gate_entries_witness :
    ∃ M : Matrix Int, ({ qubit_index := 1, symbol := "X", matrix := demo_x_matrix } :
        SingleGate Int).get_matrix_reg 2 = .ok M ∧
      M.get 2 0 = .ok 1 ∧ M.get 0 0 = .ok 0 ∧ M.get 1 0 = .ok 0 := by
  obtain ⟨M, hM, _, _, h⟩ := single_gate_entries demo_x_matrix "X" 2 1 (by decide) rfl rfl
  refine ⟨M, hM, ?_, ?_, ?_⟩
  · rw [h 2 0 (by decide) (by decide), if_pos (by decide)]
    rfl
  · rw [h 0 0 (by decide) (by decide), if_pos (by decide)]
    rfl
  · rw [h 1 0 (by decide) (by decide), if_neg (by decide)]

/-- C37: for every non-empty list `b` of `n` entries, each `0` or `1`,
`calculate_matrix_for_register(b)`, and with it `get_initial_state()` of a
circuit whose input register is `b`, returns the `2^n x 1` column whose entry
is `1` at the row `sum over i of b[i] * 2^i` and `0` at every other row. -/
theorem initial_state_basis (b : List Int) (hne : b ≠ []) (hb : ∀ v ∈ b, v = 0 ∨ v = 1) :
    ∃ M : Matrix R, calculate_matrix_for_register b = .ok M ∧
      (∀ qc : QuantumCircuit R, qc.input_register = b → qc.get_initial_state = .ok M) ∧
      M.rows = 2 ^ b.length ∧ M.cols = 1 ∧
      ∑ i in Finset.range b.length, (b.getD i 0).toNat * 2 ^ i < 2 ^ b.length ∧
      ∀ r, r < 2 ^ b.length →
        M.get r 0 = .ok (if r = ∑ i in Finset.range b.length, (b.getD i 0).toNat * 2 ^ i
          then 1 else 0) := by
  have hpos : 0 < b.length := List.length_pos.2 hne
  obtain ⟨_, hrows, hcols⟩ := kets_fold_shape (R := R) b hpos
  have hd : ∀ i, (b.getD i 0).toNat < 2 := by
    intro i
    rw [List.getD_eq_getElem?_getD]
    cases hi : b[i]? with
    | none => simp
    | some v =>
      rcases hb v (List.getElem?_mem hi) with rfl | rfl <;> simp
  have hk : (b.map (ketf : Int → Matrix R)) ≠ [] := by simpa using hne
  refine ⟨tfold (b.map ketf), calculate_matrix_for_register_eq b hne, ?_, hrows, hcols,
    digits_sum_lt _ hd _, ?_⟩
  · intro qc hq
    unfold QuantumCircuit.get_initial_state
    rw [hq]
    exact calculate_matrix_for_register_eq b hne
  intro r hr
  rw [Matrix.get_eq_raw _ r 0 (by rw [hrows]; exact hr) (by rw [hcols]; decide),
    tfold_raw_prod 2 1 _ hk (fun m hm => by
        obtain ⟨v, _, rfl⟩ := List.mem_map.1 hm
        exact ⟨ketf_rows v, ketf_cols v⟩) r 0 (by simpa using hr) (by simp)]
  have hcongr : ∏ i in Finset.range (b.map (ketf : Int → Matrix R)).length,
      ((b.map (ketf : Int → Matrix R)).getD i (Matrix.init 0 0)).raw (r / 2 ^ i % 2)
        (0 / 1 ^ i % 1)
      = ∏ i in Finset.range b.length,
          if r / 2 ^ i % 2 = (b.getD i 0).toNat then (1 : R) else 0 := by
    rw [List.length_map]
    apply Finset.prod_congr rfl
    intro i hi
    have hi' : i < b.length := Finset.mem_range.1 hi
    have e0 : 0 / 1 ^ i % 1 = 0 := by simp
    rw [e0, List.getD_eq_getElem?_getD, List.getD_eq_getElem?_getD, List.getElem?_map,
      List.getElem?_eq_getElem hi']
    exact ketf_raw _ (hb _ (List.getElem_mem hi')) _
  rw [hcongr, Finset.prod_boole]
  congr 1
  have key := digits_iff_sum (fun i => (b.getD i 0).toNat) hd b.length r hr
  by_cases h : r = ∑ i in Finset.range b.length, (b.getD i 0).toNat * 2 ^ i
  · rw [if_pos h, if_pos (fun i hi => key.2 h i (Finset.mem_range.1 hi))]
  · rw [if_neg h, if_neg (fun hh => h (key.1 (fun i hi => hh i (Finset.mem_range.2 hi))))]

/-- Witness of C37: the register `(0, 1)` gives the column with `1` at row
`0 * 1 + 1 * 2 = 2`. -/
theorem initial_state_basis_witness :
    ∃ M : Matrix Int, calculate_matrix_for_register [0, 1] = .ok M ∧ M.rows = 4 ∧
      M.get 2 0 = .ok 1 ∧ M.get 1 0 = .ok 0 := by
  obtain ⟨M, hM, _, hr, _, _, h⟩ := initial_state_basis (R := Int) [0, 1] (by decide)
    (by decide)
  refine ⟨M, hM, hr, ?_, ?_⟩
  · rw [h 2 (by decide), if_pos (by decide)]
  · rw [h 1 (by decide), if_neg (by decide)]

/-- Over exact scalars (a commutative ring) `tensor_product` is associative:
for all matrices `A`, `B`, `C` the four products return and
`(A.tensor_product(B)).tensor_product(C)` is
`A.tensor_product(B.tensor_product(C))`. Hence `perform_tensor_product` of a
list that is split in two non-empty parts is the tensor product of the folds
of the parts, and for every grouping of a non-empty list into non-empty groups
the fold of the folds of the groups is the fold of the list. The product of
`double`s is not associative, and this theorem does not carry over to the
rounded entries of a run. -/
theorem tensor_product_assoc (A B C : Matrix R) :
    (∃ AB BC L, A.tensor_product B = .ok AB ∧ B.tensor_product C = .ok BC ∧
      AB.tensor_product C = .ok L ∧ A.tensor_product BC = .ok L) ∧
    (∀ xs ys : List (Matrix R), xs ≠ [] → ys ≠ [] →
      ∃ X Y P, perform_tensor_product xs = .ok X ∧ perform_tensor_product ys = .ok Y ∧
        X.tensor_product Y = .ok P ∧ perform_tensor_product (xs ++ ys) = .ok P) ∧
    (∀ groups : List (List (Matrix R)), groups ≠ [] → (∀ g ∈ groups, g ≠ []) →
      ∃ (folds : List (Matrix R)) (P : Matrix R), folds.length = groups.length ∧
        (∀ (i : Nat) (g : List (Matrix R)), groups[i]? = some g →
          ∃ F : Matrix R, perform_tensor_product g = .ok F ∧ folds[i]? = some F) ∧
        perform_tensor_product folds = .ok P ∧
        perform_tensor_product groups.flatten = .ok P) := by
  refine ⟨⟨kron A B, kron B C, kron (kron A B) C, Matrix.tensor_product_eq A B,
    Matrix.tensor_product_eq B C, Matrix.tensor_product_eq _ C, ?_⟩, ?_, ?_⟩
  · rw [Matrix.tensor_product_eq, kron_assoc]
  · intro xs ys hx hy
    refine ⟨tfold xs, tfold ys, kron (tfold xs) (tfold ys), perform_tensor_product_eq xs hx,
      perform_tensor_product_eq ys hy, Matrix.tensor_product_eq _ _, ?_⟩
    rw [perform_tensor_product_eq _ (by simp [hx]), tfold_append xs ys hx hy]
  · intro groups hne hg
    refine ⟨groups.map tfold, tfold groups.flatten, by simp, ?_, ?_, ?_⟩
    · intro i g hi
      refine ⟨tfold g, perform_tensor_product_eq g (hg g (List.getElem?_mem hi)), ?_⟩
      rw [List.getElem?_map, hi]
      rfl
    · rw [perform_tensor_product_eq _ (by simpa using hne), tfold_join groups hne hg]
    · refine perform_tensor_product_eq _ ?_
      obtain ⟨x, xs, rfl⟩ := List.exists_cons_of_ne_nil hne
      have hx := hg x (by simp)
      obtain ⟨y, ys, rfl⟩ := List.exists_cons_of_ne_nil hx
      simp

/-- C39 at a failing input: `can_gate_fit(1)` holds for
`g = MultiGate(SIZE_MAX, "G", identity_matrix(2), 1)`, because the sum
`SIZE_MAX + 1` wraps around to `0`. The slot list that `g.get_matrix(1)` builds
has `1 - 1 + 1 = 1` slot, the index `SIZE_MAX` of the gate is no position of
it, and the assignment `matrices[get_index()] = matrix` is outside the list,
which the claim excludes. -/
theorem get_matrix_slot_outside :
    far_multi.can_gate_fit 1 = true ∧
    (List.replicate (1 - far_multi.gate_size + 1) (idm 2 : Matrix Int)).length = 1 ∧
    ¬ far_multi.qubit_index
        < (List.replicate (1 - far_multi.gate_size + 1) (idm 2 : Matrix Int)).length ∧
    assign_at (List.replicate (1 - far_multi.gate_size + 1) (idm 2 : Matrix Int))
        far_multi.qubit_index far_multi.matrix = .error .undefined ∧
    far_multi.get_matrix_reg 1 = .error .undefined := by
  refine ⟨by decide, rfl, by decide, rfl, rfl⟩

/-- When `can_gate_fit(n)` holds for a `SingleGate`, the list of `n` slots that
`get_matrix(n)` builds is not empty and the index of the gate is a position
of it, so that the assignment `matrices[get_index()] = matrix` and the read
`matrices[0]` of `perform_tensor_product` stay inside the list;
`get_matrix(n)` returns, and its result is `2^n x 2^n` when the local matrix
is `2 x 2`. The same holds for a `MultiGate` with its `n - gate_size + 1`
slots and a local matrix that is `2^gate_size` square, when the sum
`index + gate_size` of `can_gate_fit` has not wrapped around. -/
theorem get_matrix_in_range_exact (n : Nat) :
    (∀ g : SingleGate R, g.can_gate_fit n = true →
      ∃ (id2 : Matrix R) (slots : List (Matrix R)) (M : Matrix R),
        identity_matrix 2 = .ok id2 ∧
        List.replicate n id2 ≠ [] ∧ g.qubit_index < (List.replicate n id2).length ∧
        assign_at (List.replicate n id2) g.qubit_index g.matrix = .ok slots ∧
        slots.length = n ∧ slots[g.qubit_index]? = some g.matrix ∧
        perform_tensor_product slots = .ok M ∧ g.get_matrix_reg n = .ok M ∧
        (g.matrix.rows = 2 → g.matrix.cols = 2 → M.rows = 2 ^ n ∧ M.cols = 2 ^ n)) ∧
    (∀ g : MultiGate R, g.can_gate_fit n = true →
      g.qubit_index + g.gate_size < size_modulus →
      ∃ (id2 : Matrix R) (slots : List (Matrix R)) (M : Matrix R),
        identity_matrix 2 = .ok id2 ∧
        List.replicate (n - g.gate_size + 1) id2 ≠ [] ∧
        g.qubit_index < (List.replicate (n - g.gate_size + 1) id2).length ∧
        assign_at (List.replicate (n - g.gate_size + 1) id2) g.qubit_index g.matrix
          = .ok slots ∧
        slots.length = n - g.gate_size + 1 ∧ slots[g.qubit_index]? = some g.matrix ∧
        perform_tensor_product slots = .ok M ∧ g.get_matrix_reg n = .ok M ∧
        (g.matrix.rows = 2 ^ g.gate_size → g.matrix.cols = 2 ^ g.gate_size →
          M.rows = 2 ^ n ∧ M.cols = 2 ^ n)) := by
  constructor
  · intro g hfit
    have ha : g.qubit_index < n := by simpa [SingleGate.can_gate_fit] using hfit
    have hne : (List.replicate n (idm 2 : Matrix R)).set g.qubit_index g.matrix ≠ [] :=
      ne_nil_of_length_pos _ (by simp; omega)
    refine ⟨idm 2, (List.replicate n (idm 2)).set g.qubit_index g.matrix, _,
      identity_matrix_eq 2, ne_nil_of_length_pos _ (by simp; omega), by simpa using ha,
      assign_at_eq _ _ _ (by simpa using ha), by simp,
      List.getElem?_set_self (by simpa using ha),
      perform_tensor_product_eq _ hne, SingleGate.get_matrix_reg_single_eq g n ha, ?_⟩
    intro hr hc
    have hmem : ∀ m ∈ (List.replicate n (idm 2 : Matrix R)).set g.qubit_index g.matrix,
        m.rows = 2 ∧ m.cols = 2 := by
      intro m hm
      rcases List.mem_or_eq_of_mem_set hm with h | h
      · rw [List.eq_of_mem_replicate h]; exact ⟨rfl, rfl⟩
      · rw [h]; exact ⟨hr, hc⟩
    rw [tfold_rows_two _ hne (fun m hm => (hmem m hm).1),
      tfold_cols_two _ hne (fun m hm => (hmem m hm).2)]
    simp
  · intro g hfit hw
    have ha : g.qubit_index + g.gate_size ≤ n := (g.can_gate_fit_iff n hw).1 hfit
    have hlt : g.qubit_index < n - g.gate_size + 1 := by omega
    have hne : (List.replicate (n - g.gate_size + 1) (idm 2 : Matrix R)).set g.qubit_index
        g.matrix ≠ [] := ne_nil_of_length_pos _ (by simp)
    refine ⟨idm 2, (List.replicate (n - g.gate_size + 1) (idm 2)).set g.qubit_index g.matrix, _,
      identity_matrix_eq 2, ne_nil_of_length_pos _ (by simp), by simpa using hlt,
      assign_at_eq _ _ _ (by simpa using hlt), by simp,
      List.getElem?_set_self (by simpa using hlt),
      perform_tensor_product_eq _ hne, MultiGate.get_matrix_reg_multi_eq g n ha, ?_⟩
    intro hr hc
    exact embed_multi_shape n g.qubit_index g.gate_size g.matrix ha hr hc

end Claims

end QC
